import Mathlib

/-!
The class `SpdbSortedList` of plugin/speedb/memtable/spdb_sort_list.h, followed by
the class `WriteController` of db/write_controller.h and db/write_controller.cc and
by the reference count and the flush state of the class `MemTable` of db/memtable.h.

A shallow embedding of the sorted list of the Speedb memtable, executed by one
thread, and the properties of its interface.

Conventions of the embedding.

* A `Node*` is a natural number: `head_` is node `0`, the nodes handed out by
  the arena are `1, 2, ...` in allocation order; a nullable pointer is an
  `Option Nat` with `none` for `nullptr`.
* The comparator is a linear order on the key type `K`: `compare_(a, b) < 0`
  is `a < b` and `compare_(a, b) == 0` is `a = b`.
* Every function that dereferences a pointer, runs an `assert` or loops
  returns an `Option`; `none` stands for an execution that has no result:
  an `assert` that fails, a read outside the allocation of a node, or a loop
  that is still running when the iteration budget `fuel` is used up.
  Each `while` loop of the source is a recursive function on `fuel`.
* `PREFETCH` has no effect on the result and is left out.
-/

namespace Speedb

set_option linter.unusedSectionVars false

/-- The constant `kMaxPossibleHeight` of the class. -/
def kMaxPossibleHeight : Nat := 32

/-- An `assert(c)` of the source: no result when `c` is false. -/
def assert (c : Bool) : Option Unit := if c then some () else none

/-- Store `v` at index `i` of an array that is held as a function. -/
def setAt {α : Type} (f : Nat → α) (i : Nat) (v : α) : Nat → α :=
  fun j => if j = i then v else f j

/-- The struct `Splice`: `height_` and the arrays `prev_` and `next_`. -/
structure Splice where
  height_ : Nat
  prev_ : Nat → Nat
  next_ : Nat → Option Nat

/-- The assignment `prev_[i] = p; next_[i] = n` on a splice. -/
def Splice.set (s : Splice) (i : Nat) (p : Nat) (n : Option Nat) : Splice :=
  { s with prev_ := setAt s.prev_ i p, next_ := setAt s.next_ i n }

/-- The class `SpdbSortedList` with the memory of its nodes: `count` nodes have
been allocated, node `a` holds the key `key a` (none for `head_` and for
memory that holds no key), has `height a` forward pointers and `next a n` is
its pointer `next_[-n]`. -/
structure SpdbSortedList (K : Type) where
  kMaxHeight_ : Nat
  kBranching_ : Nat
  kScaledInverseBranching_ : Nat
  count : Nat
  key : Nat → Option K
  height : Nat → Nat
  next : Nat → Nat → Option Nat
  max_height_ : Nat
  seq_splice_ : Splice

namespace SpdbSortedList

variable {K : Type} [LinearOrder K]

/-- The splice returned by `AllocateSplice`: `height_ = 0`; the arrays are
not initialised by the source and are never read while `height_` is `0`. -/
def AllocateSplice : Splice :=
  { height_ := 0, prev_ := fun _ => 0, next_ := fun _ => none }

/-- The constructor `SpdbSortedList(cmp, allocator, max_height, branching_factor)`
with its three asserts. `kMaxNext` is `Random::kMaxNext` of util/random.h. The
casts to `uint16_t` and the `uint32_t` quotient are explicit. -/
def new (kMaxNext : Nat) (max_height branching_factor : Int) : Option (SpdbSortedList K) :=
  let kMaxHeight := (max_height % 65536).toNat
  let kBranching := (branching_factor % 65536).toNat
  let kScaled := ((kMaxNext + 1) % 4294967296) / kBranching
  (assert (decide (0 < max_height) && decide ((kMaxHeight : Int) = max_height))).bind fun _ =>
  (assert (decide (1 < branching_factor) && decide ((kBranching : Int) = branching_factor))).bind fun _ =>
  (assert (decide (0 < kScaled))).bind fun _ =>
  some { kMaxHeight_ := kMaxHeight
         kBranching_ := kBranching
         kScaledInverseBranching_ := kScaled
         count := 0
         key := fun _ => none
         height := fun a => if a = 0 then kMaxHeight else 0
         next := fun _ _ => none
         max_height_ := 1
         seq_splice_ := AllocateSplice }

/-- The method `Node::Next(n)` (and `NoBarrier_Next`) of node `x`: a read of
one of the `height x` forward pointers of the node. -/
def Next (σ : SpdbSortedList K) (x n : Nat) : Option (Option Nat) :=
  if n < σ.height x then some (σ.next x n) else none

/-- The memory after the store of `v` into the pointer of level `n` of node `x`. -/
def storeNext (σ : SpdbSortedList K) (x n : Nat) (v : Option Nat) : SpdbSortedList K :=
  { σ with next := fun a l => if a = x ∧ l = n then v else σ.next a l }

/-- The method `Node::SetNext(n, v)` (and `NoBarrier_SetNext`) of node `x`. -/
def SetNext (σ : SpdbSortedList K) (x n : Nat) (v : Option Nat) : Option (SpdbSortedList K) :=
  if n < σ.height x then some (storeNext σ x n v) else none

/-- The method `Node::CASNext(n, expected, v)` of node `x`, run by one thread. -/
def CASNext (σ : SpdbSortedList K) (x n : Nat) (expected v : Option Nat) :
    Option (Bool × SpdbSortedList K) :=
  (Next σ x n).bind fun cur =>
  if cur = expected then (SetNext σ x n v).bind fun σ1 => some (true, σ1)
  else some (false, σ)

/-- The arena allocation of `AllocateSpdbItem` for a node of `height` pointers,
followed by the caller writing `k` into the key bytes: the new node is
`σ.count + 1`. -/
def AllocateNode (σ : SpdbSortedList K) (k : K) (height : Nat) : SpdbSortedList K × Nat :=
  let x := σ.count + 1
  ({ σ with count := x
            key := fun a => if a = x then some k else σ.key a
            height := fun a => if a = x then height else σ.height a
            next := fun a l => if a = x then none else σ.next a l }, x)

/-- The loop of `RandomHeight`: `rnd` is the stream of results of
`rnd->Next()` and `pos` the number of samples drawn so far. -/
def RandomHeight.loop (σ : SpdbSortedList K) (rnd : Nat → Nat) : Nat → Nat → Nat → Option (Nat × Nat)
  | 0, _, _ => none
  | fuel + 1, height, pos =>
    if height < σ.kMaxHeight_ ∧ height < kMaxPossibleHeight then
      if rnd pos < σ.kScaledInverseBranching_ then
        RandomHeight.loop σ rnd fuel (height + 1) (pos + 1)
      else some (height, pos + 1)
    else some (height, pos)

/-- The method `RandomHeight()` with its three trailing asserts; the result is
the height and the number of samples drawn from `rnd`. -/
def RandomHeight (fuel : Nat) (σ : SpdbSortedList K) (rnd : Nat → Nat) : Option (Nat × Nat) :=
  (RandomHeight.loop σ rnd fuel 1 0).bind fun r =>
  (assert (decide (0 < r.1))).bind fun _ =>
  (assert (decide (r.1 ≤ σ.kMaxHeight_))).bind fun _ =>
  (assert (decide (r.1 ≤ kMaxPossibleHeight))).bind fun _ =>
  some r

/-- The method `AllocateSpdbItem`, followed by the caller writing the key `k`:
the height of the new node is the result of `RandomHeight()`. -/
def AllocateSpdbItem (fuel : Nat) (σ : SpdbSortedList K) (k : K) (rnd : Nat → Nat) :
    Option (SpdbSortedList K × Nat) :=
  (RandomHeight fuel σ rnd).bind fun r => some (AllocateNode σ k r.1)

/-- The comparator `compare_(a, b)`: negative, zero or positive. -/
def compare_ (a b : K) : Int := if a < b then -1 else if a = b then 0 else 1

/-- The method `KeyIsAfterNode(key, n)`: a null `n` is infinite; the assert
`n != head_` is the read of a key, which `head_` does not have. -/
def KeyIsAfterNode (σ : SpdbSortedList K) (key : K) (n : Option Nat) : Option Bool :=
  match n with
  | none => some false
  | some a => (σ.key a).bind fun ka => some (decide (compare_ ka key < 0))

/-- The assert `x == head_ || next == nullptr || KeyIsAfterNode(next->Key(), x)`
of the searches. -/
def assertSorted (σ : SpdbSortedList K) (x : Nat) (next : Option Nat) : Option Unit :=
  if x = 0 then some () else
  match next with
  | none => some ()
  | some nx => (σ.key nx).bind fun kn => (KeyIsAfterNode σ kn (some x)).bind assert

/-- The assert `x == head_ || KeyIsAfterNode(key, x)` of the searches. -/
def assertAfter (σ : SpdbSortedList K) (key : K) (x : Nat) : Option Unit :=
  if x = 0 then some () else (KeyIsAfterNode σ key (some x)).bind assert

/-- The method `FindSpliceForLevel(key, before, after, level, &out_prev, &out_next)`;
the result is the pair `(*out_prev, *out_next)`. -/
def FindSpliceForLevel (σ : SpdbSortedList K) (key : K) :
    Nat → Nat → Option Nat → Nat → Option (Nat × Option Nat)
  | 0, _, _, _ => none
  | fuel + 1, before, after, level =>
    (Next σ before level).bind fun next =>
    (assertSorted σ before next).bind fun _ =>
    (assertAfter σ key before).bind fun _ =>
    if next = after then some (before, next)
    else
      (KeyIsAfterNode σ key next).bind fun b =>
      if b then
        match next with
        | some nx => FindSpliceForLevel σ key fuel nx after level
        | none => none
      else some (before, next)

/-- The loop of `RecomputeSpliceLevels`: the levels `i - 1, ..., 0` in this order. -/
def RecomputeSpliceLevels.loop (σ : SpdbSortedList K) (key : K) (fuel : Nat) :
    Nat → Splice → Option Splice
  | 0, splice => some splice
  | i + 1, splice =>
    (FindSpliceForLevel σ key fuel (splice.prev_ (i + 1)) (splice.next_ (i + 1)) i).bind fun r =>
    RecomputeSpliceLevels.loop σ key fuel i (splice.set i r.1 r.2)

/-- The method `RecomputeSpliceLevels(key, splice, recompute_level)`. -/
def RecomputeSpliceLevels (σ : SpdbSortedList K) (key : K) (fuel : Nat) (splice : Splice)
    (recompute_level : Nat) : Option Splice :=
  (assert (decide (0 < recompute_level))).bind fun _ =>
  (assert (decide (recompute_level ≤ splice.height_))).bind fun _ =>
  RecomputeSpliceLevels.loop σ key fuel recompute_level splice

/-- The loop of `FindGreaterOrEqual` on the variables `x`, `level`, `last_bigger`. -/
def FindGreaterOrEqual.loop (σ : SpdbSortedList K) (key : K) :
    Nat → Nat → Nat → Option Nat → Option (Option Nat)
  | 0, _, _, _ => none
  | fuel + 1, x, level, last_bigger =>
    (Next σ x level).bind fun next =>
    (assertSorted σ x next).bind fun _ =>
    (assertAfter σ key x).bind fun _ =>
    (if next = none ∨ next = last_bigger then some (1 : Int)
     else (next.bind σ.key).bind fun kn => some (compare_ kn key)).bind fun cmp =>
    if cmp = 0 ∨ (0 < cmp ∧ level = 0) then some next
    else if cmp < 0 then
      match next with
      | some nx => FindGreaterOrEqual.loop σ key fuel nx level last_bigger
      | none => none
    else FindGreaterOrEqual.loop σ key fuel x (level - 1) next

/-- The method `FindGreaterOrEqual(key)`: `level` starts at `GetMaxHeight() - 1`,
which is a level of a node only when `max_height_` is positive. -/
def FindGreaterOrEqual (fuel : Nat) (σ : SpdbSortedList K) (key : K) : Option (Option Nat) :=
  if σ.max_height_ = 0 then none
  else FindGreaterOrEqual.loop σ key fuel 0 (σ.max_height_ - 1) none

/-- The loop of the five-argument `FindLessThan` on `x`, `level`,
`last_not_after` and the array `prev` (none when the caller passes `nullptr`). -/
def FindLessThan.loop (σ : SpdbSortedList K) (key : K) (bottom_level : Nat) :
    Nat → Nat → Nat → Option Nat → Option (Nat → Nat) → Option (Nat × Option (Nat → Nat))
  | 0, _, _, _, _ => none
  | fuel + 1, x, level, last_not_after, prev =>
    (Next σ x level).bind fun next =>
    (assertSorted σ x next).bind fun _ =>
    (assertAfter σ key x).bind fun _ =>
    (if next ≠ last_not_after then KeyIsAfterNode σ key next else some false).bind fun b =>
    if b then
      match next with
      | some nx => FindLessThan.loop σ key bottom_level fuel nx level last_not_after prev
      | none => none
    else
      let prev1 := prev.map fun p => setAt p level x
      if level = bottom_level then some (x, prev1)
      else FindLessThan.loop σ key bottom_level fuel x (level - 1) next prev1

/-- The method `FindLessThan(key, prev, root, top_level, bottom_level)`. -/
def FindLessThanFrom (fuel : Nat) (σ : SpdbSortedList K) (key : K) (prev : Option (Nat → Nat))
    (root top_level bottom_level : Nat) : Option (Nat × Option (Nat → Nat)) :=
  (assert (decide (bottom_level < top_level))).bind fun _ =>
  FindLessThan.loop σ key bottom_level fuel root (top_level - 1) none prev

/-- The method `FindLessThan(key, prev)`: the result is the returned node and
the array `prev` as the call leaves it. -/
def FindLessThan (fuel : Nat) (σ : SpdbSortedList K) (key : K) (prev : Option (Nat → Nat)) :
    Option (Nat × Option (Nat → Nat)) :=
  FindLessThanFrom fuel σ key prev 0 σ.max_height_ 0

/-- The loop of `FindLast` on `x` and `level`. -/
def FindLast.loop (σ : SpdbSortedList K) : Nat → Nat → Nat → Option Nat
  | 0, _, _ => none
  | fuel + 1, x, level =>
    (Next σ x level).bind fun next =>
    match next with
    | none => if level = 0 then some x else FindLast.loop σ fuel x (level - 1)
    | some nx => FindLast.loop σ fuel nx level

/-- The method `FindLast()`. -/
def FindLast (fuel : Nat) (σ : SpdbSortedList K) : Option Nat :=
  if σ.max_height_ = 0 then none else FindLast.loop σ fuel 0 (σ.max_height_ - 1)

/-- The class `Iterator`: the field `node_`; the list `list_` is passed to each method. -/
structure Iterator where
  node_ : Option Nat
deriving DecidableEq

/-- The method `Iterator::Valid()`. -/
def Iterator.Valid (it : Iterator) : Bool := it.node_ != none

/-- The method `Iterator::key()` with its assert `Valid()`. -/
def Iterator.key (σ : SpdbSortedList K) (it : Iterator) : Option K :=
  it.node_.bind σ.key

/-- The method `Iterator::Next()` with its assert `Valid()`. -/
def Iterator.Next (σ : SpdbSortedList K) (it : Iterator) : Option Iterator :=
  it.node_.bind fun n => (SpdbSortedList.Next σ n 0).bind fun nx => some { node_ := nx }

/-- The method `Iterator::Seek(target)`. -/
def Iterator.Seek (fuel : Nat) (σ : SpdbSortedList K) (target : K) : Option Iterator :=
  (FindGreaterOrEqual fuel σ target).bind fun n => some { node_ := n }

/-- The method `Iterator::SeekToFirst()`. -/
def Iterator.SeekToFirst (σ : SpdbSortedList K) : Option Iterator :=
  (SpdbSortedList.Next σ 0 0).bind fun n => some { node_ := n }

/-- The method `Iterator::SeekToLast()`. -/
def Iterator.SeekToLast (fuel : Nat) (σ : SpdbSortedList K) : Option Iterator :=
  (FindLast fuel σ).bind fun n => some { node_ := if n = 0 then none else some n }

/-- The keys read by `while (it.Valid()) { it.key(); it.Next(); }`. -/
def Iterator.collect (σ : SpdbSortedList K) : Nat → Iterator → Option (List K)
  | 0, _ => none
  | fuel + 1, it =>
    if it.Valid then
      (it.key σ).bind fun k => (it.Next σ).bind fun it1 =>
      (Iterator.collect σ fuel it1).bind fun ks => some (k :: ks)
    else some []

/-- The keys yielded by `SeekToFirst()` followed by `Next()` until the
iterator is not valid. -/
def scan (fuel : Nat) (σ : SpdbSortedList K) : Option (List K) :=
  (Iterator.SeekToFirst σ).bind fun it => Iterator.collect σ fuel it

/-- The inner loop `while (splice->prev_[recompute_height] == bad) ++recompute_height`. -/
def Insert.skipPrev (splice : Splice) (bad : Nat) : Nat → Nat → Option Nat
  | 0, _ => none
  | fuel + 1, rh => if splice.prev_ rh = bad then Insert.skipPrev splice bad fuel (rh + 1) else some rh

/-- The inner loop `while (splice->next_[recompute_height] == bad) ++recompute_height`. -/
def Insert.skipNext (splice : Splice) (bad : Option Nat) : Nat → Nat → Option Nat
  | 0, _ => none
  | fuel + 1, rh => if splice.next_ rh = bad then Insert.skipNext splice bad fuel (rh + 1) else some rh

/-- The loop `while (recompute_height < max_height)` of `Insert` that validates
the splice; the result is the final `recompute_height`. -/
def Insert.validate (σ : SpdbSortedList K) (key : K) (splice : Splice)
    (allow_partial_splice_fix : Bool) (max_height : Nat) : Nat → Nat → Option Nat
  | 0, _ => none
  | fuel + 1, rh =>
    if rh < max_height then
      (Next σ (splice.prev_ rh) rh).bind fun nx =>
      if nx ≠ splice.next_ rh then
        Insert.validate σ key splice allow_partial_splice_fix max_height fuel (rh + 1)
      else
        (if splice.prev_ rh ≠ 0 then
          (KeyIsAfterNode σ key (some (splice.prev_ rh))).bind fun b => some (!b)
         else some false).bind fun isBefore =>
        if isBefore then
          if allow_partial_splice_fix then
            (Insert.skipPrev splice (splice.prev_ rh) fuel rh).bind fun rh1 =>
            Insert.validate σ key splice allow_partial_splice_fix max_height fuel rh1
          else Insert.validate σ key splice allow_partial_splice_fix max_height fuel max_height
        else
          (KeyIsAfterNode σ key (splice.next_ rh)).bind fun isAfter =>
          if isAfter then
            if allow_partial_splice_fix then
              (Insert.skipNext splice (splice.next_ rh) fuel rh).bind fun rh1 =>
              Insert.validate σ key splice allow_partial_splice_fix max_height fuel rh1
            else Insert.validate σ key splice allow_partial_splice_fix max_height fuel max_height
          else some rh
    else some rh

/-- The test `i == 0 && splice->next_[i] != nullptr &&
compare_(x->Key(), splice->next_[i]->Key()) >= 0` of `Insert`. -/
def Insert.dupNext (σ : SpdbSortedList K) (key : K) (splice : Splice) (i : Nat) : Option Bool :=
  if i = 0 then
    match splice.next_ i with
    | none => some false
    | some n => (σ.key n).bind fun kn => some (decide (0 ≤ compare_ key kn))
  else some false

/-- The test `i == 0 && splice->prev_[i] != head_ &&
compare_(splice->prev_[i]->Key(), x->Key()) >= 0` of `Insert`. -/
def Insert.dupPrev (σ : SpdbSortedList K) (key : K) (splice : Splice) (i : Nat) : Option Bool :=
  if i = 0 then
    if splice.prev_ i ≠ 0 then
      (σ.key (splice.prev_ i)).bind fun kp => some (decide (0 ≤ compare_ kp key))
    else some false
  else some false

/-- The assert `n == nullptr || compare_(key, n->Key()) < 0` of `Insert`. -/
def Insert.assertBefore (σ : SpdbSortedList K) (key : K) (n : Option Nat) : Option Unit :=
  match n with
  | none => some ()
  | some c => (σ.key c).bind fun kn => assert (decide (compare_ key kn < 0))

/-- The two asserts of `Insert` before a node is linked at level `i`:
`next_[i] == nullptr || compare_(x->Key(), next_[i]->Key()) < 0` and
`prev_[i] == head_ || compare_(prev_[i]->Key(), x->Key()) < 0`. -/
def Insert.assertBracket (σ : SpdbSortedList K) (key : K) (splice : Splice) (i : Nat) :
    Option Unit :=
  (Insert.assertBefore σ key (splice.next_ i)).bind fun _ =>
  if splice.prev_ i = 0 then some ()
  else (σ.key (splice.prev_ i)).bind fun kp => assert (decide (compare_ kp key < 0))

/-- The statement `if (i >= recompute_height && splice->prev_[i]->Next(i) !=
splice->next_[i]) FindSpliceForLevel<false>(key, splice->prev_[i], nullptr, i,
&splice->prev_[i], &splice->next_[i])` of `Insert<false>`. -/
def Insert.fixLevel (σ : SpdbSortedList K) (key : K) (recompute_height fuel i : Nat)
    (splice : Splice) : Option Splice :=
  if recompute_height ≤ i then
    (Next σ (splice.prev_ i) i).bind fun cur =>
      if cur ≠ splice.next_ i then
        (FindSpliceForLevel σ key fuel (splice.prev_ i) none i).bind fun r =>
        some (splice.set i r.1 r.2)
      else some splice
  else some splice

/-- The linking loop `for (int i = 0; i < height; ++i)` of `Insert<false>`: the
first argument counts the levels still to do. The result is `false` with the
state at the `return false`, or `true` with the state after the loop. -/
def Insert.link (key : K) (x recompute_height fuel : Nat) :
    Nat → Nat → SpdbSortedList K → Splice → Option (Bool × SpdbSortedList K × Splice)
  | 0, _, σ, splice => some (true, σ, splice)
  | n + 1, i, σ, splice =>
    (Insert.fixLevel σ key recompute_height fuel i splice).bind fun splice =>
    (Insert.dupNext σ key splice i).bind fun d1 =>
    if d1 then some (false, σ, splice) else
    (Insert.dupPrev σ key splice i).bind fun d2 =>
    if d2 then some (false, σ, splice) else
    (Insert.assertBracket σ key splice i).bind fun _ =>
    (Next σ (splice.prev_ i) i).bind fun cur =>
    (assert (decide (cur = splice.next_ i))).bind fun _ =>
    (SetNext σ x i (splice.next_ i)).bind fun σ1 =>
    (SetNext σ1 (splice.prev_ i) i (some x)).bind fun σ2 =>
    Insert.link key x recompute_height fuel n (i + 1) σ2 splice

/-- The loop `while (true)` of `Insert<true>` at level `i`, on the budget
`tries`; the last component of the state is `splice_is_valid`. The result is `false` with the state at the
`return false`, or `true` with the state at the `break`. -/
def Insert.casLevel (key : K) (x i fuel : Nat) :
    Nat → SpdbSortedList K → Splice → Bool → Option (Bool × SpdbSortedList K × Splice × Bool)
  | 0, _, _, _ => none
  | tries + 1, σ, splice, valid =>
    (Insert.dupNext σ key splice i).bind fun d1 =>
    if d1 then some (false, σ, splice, valid) else
    (Insert.dupPrev σ key splice i).bind fun d2 =>
    if d2 then some (false, σ, splice, valid) else
    (Insert.assertBracket σ key splice i).bind fun _ =>
    (SetNext σ x i (splice.next_ i)).bind fun σ1 =>
    (CASNext σ1 (splice.prev_ i) i (splice.next_ i) (some x)).bind fun r =>
    if r.1 then some (true, r.2, splice, valid)
    else
      (FindSpliceForLevel r.2 key fuel (splice.prev_ i) none i).bind fun b =>
      Insert.casLevel key x i fuel tries r.2 (splice.set i b.1 b.2) (if 0 < i then false else valid)

/-- The linking loop `for (int i = 0; i < height; ++i)` of `Insert<true>`. -/
def Insert.linkCAS (key : K) (x fuel : Nat) :
    Nat → Nat → SpdbSortedList K → Splice → Bool → Option (Bool × SpdbSortedList K × Splice × Bool)
  | 0, _, σ, splice, valid => some (true, σ, splice, valid)
  | n + 1, i, σ, splice, valid =>
    (Insert.casLevel key x i fuel fuel σ splice valid).bind fun r =>
    if r.1 then Insert.linkCAS key x fuel n (i + 1) r.2.1 r.2.2.1 r.2.2.2
    else some r

/-- The key of a nullable node pointer: no result for `nullptr` and for `head_`. -/
def keyOf (σ : SpdbSortedList K) (n : Option Nat) : Option K := n.bind σ.key

/-- The four asserts of the closing loop of `Insert` at level `i`. -/
def Insert.assertLevel (σ : SpdbSortedList K) (key : K) (splice : Splice) (i : Nat) :
    Option Unit :=
  (Insert.assertBefore σ key (splice.next_ i)).bind fun _ =>
  (if splice.prev_ i = 0 then some ()
   else (σ.key (splice.prev_ i)).bind fun kp => assert (decide (compare_ kp key ≤ 0))).bind fun _ =>
  (if splice.prev_ (i + 1) = splice.prev_ i ∨ splice.prev_ (i + 1) = 0 then some ()
   else (σ.key (splice.prev_ (i + 1))).bind fun k1 => (σ.key (splice.prev_ i)).bind fun k0 =>
     assert (decide (compare_ k1 k0 < 0))).bind fun _ =>
  if splice.next_ (i + 1) = splice.next_ i ∨ splice.next_ (i + 1) = none then some ()
  else (keyOf σ (splice.next_ i)).bind fun k0 => (keyOf σ (splice.next_ (i + 1))).bind fun k1 =>
    assert (decide (compare_ k0 k1 < 0))

/-- The closing loop `for (int i = 0; i < splice->height_; ++i)` of asserts:
the first argument counts the levels still to do. -/
def Insert.assertLevels (σ : SpdbSortedList K) (key : K) (splice : Splice) : Nat → Nat → Option Unit
  | 0, _ => some ()
  | n + 1, i =>
    (Insert.assertLevel σ key splice i).bind fun _ => Insert.assertLevels σ key splice n (i + 1)

/-- The splice that `Insert` leaves after linking `x` at the levels below
`height`: the loop `for (int i = 0; i < height; ++i) splice->prev_[i] = x`. -/
def finalSplice (sp : Splice) (x height : Nat) : Splice :=
  { sp with prev_ := fun i => if i < height then x else sp.prev_ i }

/-- The block `if (splice_is_valid) ... else ...` that ends `Insert`. -/
def Insert.finish (σ : SpdbSortedList K) (key : K) (x height : Nat) (splice : Splice)
    (splice_is_valid : Bool) : Option Splice :=
  if splice_is_valid then
    let splice1 : Splice := finalSplice splice x height
    (assert (decide (splice1.prev_ splice1.height_ = 0))).bind fun _ =>
    (assert (decide (splice1.next_ splice1.height_ = none))).bind fun _ =>
    (Insert.assertLevels σ key splice1 splice1.height_ 0).bind fun _ =>
    some splice1
  else some { splice with height_ := 0 }

/-- The list after the loop `while (height > max_height)` of `Insert` run by one
thread: `max_height_` is raised to `height` when it is lower. -/
def raiseMaxHeight (σ : SpdbSortedList K) (height : Nat) : SpdbSortedList K :=
  { σ with max_height_ := if σ.max_height_ < height then height else σ.max_height_ }

/-- The part of `Insert` that validates the splice and recomputes its levels
below `recompute_height`; the result is the splice and `recompute_height`. -/
def Insert.prepare (σ : SpdbSortedList K) (key : K) (fuel : Nat) (splice : Splice)
    (allow_partial_splice_fix : Bool) (max_height : Nat) : Option (Splice × Nat) :=
  (if splice.height_ < max_height then
    some ({ (splice.set max_height 0 none) with height_ := max_height }, max_height)
   else
    (Insert.validate σ key splice allow_partial_splice_fix max_height fuel 0).bind fun rh =>
    some (splice, rh)).bind fun v =>
  (assert (decide (v.2 ≤ max_height))).bind fun _ =>
  (if 0 < v.2 then RecomputeSpliceLevels σ key fuel v.1 v.2 else some v.1).bind fun splice1 =>
  some (splice1, v.2)

/-- The method `Insert<UseCAS>(key, splice, allow_partial_splice_fix)` run by one
thread: `x` is the node of `key`, allocated before the call. The result is the
returned boolean, the list and the splice as the call leaves them. -/
def Insert (UseCAS : Bool) (fuel : Nat) (σ : SpdbSortedList K) (x : Nat) (splice : Splice)
    (allow_partial_splice_fix : Bool) : Option (Bool × SpdbSortedList K × Splice) :=
  (σ.key x).bind fun key =>
  let height := σ.height x
  (assert (decide (1 ≤ height) && decide (height ≤ σ.kMaxHeight_))).bind fun _ =>
  let σ0 := raiseMaxHeight σ height
  let max_height := σ0.max_height_
  (assert (decide (max_height ≤ kMaxPossibleHeight))).bind fun _ =>
  (Insert.prepare σ0 key fuel splice allow_partial_splice_fix max_height).bind fun v =>
  let recompute_height := v.2
  (if UseCAS then Insert.linkCAS key x fuel height 0 σ0 v.1 true
   else (Insert.link key x recompute_height fuel height 0 σ0 v.1).bind fun r =>
     some (r.1, r.2.1, r.2.2, true)).bind fun r =>
  if r.1 then
    (Insert.finish r.2.1 key x height r.2.2.1 r.2.2.2).bind fun splice2 =>
    some (true, r.2.1, splice2)
  else some (false, r.2.1, r.2.2.1)

/-- The method `Insert(key, concurrently)`: the call
`Insert<concurrently>(key, seq_splice_, false)` on the splice of the list. -/
def Insert2 (fuel : Nat) (σ : SpdbSortedList K) (x : Nat) (concurrently : Bool) :
    Option (Bool × SpdbSortedList K) :=
  (Insert concurrently fuel σ x σ.seq_splice_ false).bind fun r =>
  some (r.1, { r.2.1 with seq_splice_ := r.2.2 })

/-! ## The abstract state: the nodes of each level and the order of their keys -/

/-- The key of node `a` with `head_` (and memory without a key) below every key. -/
def keyB (σ : SpdbSortedList K) (a : Nat) : WithBot K :=
  match σ.key a with
  | none => ⊥
  | some k => (k : WithBot K)

/-- The pointer `r` is the node of least key among the nodes of `mem` that
satisfy `P`, and null when there is none. -/
def IsFirst (kb : Nat → WithBot K) (mem P : Nat → Prop) (r : Option Nat) : Prop :=
  (∀ b, r = some b → mem b ∧ P b) ∧ ∀ d, mem d → P d → ∃ b, r = some b ∧ kb b ≤ kb d

/-- Node `p` is `head_` or a node of `mem`, and its key is below `k`. -/
def Start (kb : Nat → WithBot K) (mem : Nat → Prop) (k : K) (p : Nat) : Prop :=
  (p = 0 ∨ mem p) ∧ kb p < (k : WithBot K)

/-- Node `p` is the last node of `mem` with a key below `k`, or `head_`. -/
def IsPred (kb : Nat → WithBot K) (mem : Nat → Prop) (k : K) (p : Nat) : Prop :=
  Start kb mem k p ∧ ∀ c, mem c → kb c < (k : WithBot K) → kb c ≤ kb p

/-- The pointer `n` is the first node of `mem` with a key at least `k`, or null. -/
def IsSucc (kb : Nat → WithBot K) (mem : Nat → Prop) (k : K) (n : Option Nat) : Prop :=
  IsFirst kb mem (fun b => (k : WithBot K) ≤ kb b) n

/-- The nodes of the list `ns` that have a pointer of level `L`. -/
def Lvl (σ : SpdbSortedList K) (ns : List Nat) (L : Nat) (a : Nat) : Prop :=
  a ∈ ns ∧ L < σ.height a

/-- The level-`L` pointers of `head_` and of the nodes of `mem` link exactly the
nodes of `mem` in the order of their keys. -/
structure LevelInv (σ : SpdbSortedList K) (mem : Nat → Prop) (L : Nat) : Prop where
  head_height : L < σ.height 0
  head_key : σ.key 0 = none
  height : ∀ a, mem a → L < σ.height a
  key : ∀ a, mem a → ∃ k, σ.key a = some k
  inj : ∀ a b, mem a → mem b → keyB σ a = keyB σ b → a = b
  next : ∀ a, a = 0 ∨ mem a →
    IsFirst (keyB σ) mem (fun b => keyB σ a < keyB σ b) (σ.next a L)

/-- The invariant of the list: `ns` is the list of linked nodes in the order
of their keys, and at each level the pointers link the nodes of that level. -/
structure Inv (σ : SpdbSortedList K) (ns : List Nat) : Prop where
  sorted : ns.Pairwise (fun a b => keyB σ a < keyB σ b)
  node : ∀ a ∈ ns, a ≠ 0 ∧ a ≤ σ.count ∧ 1 ≤ σ.height a ∧ σ.height a ≤ σ.max_height_
  height_pos : 1 ≤ σ.max_height_
  height_le : σ.max_height_ ≤ σ.kMaxHeight_
  cap : σ.kMaxHeight_ ≤ kMaxPossibleHeight
  head : σ.height 0 = σ.kMaxHeight_
  level : ∀ L, L < σ.kMaxHeight_ → LevelInv σ (Lvl σ ns L) L

/-- The nodes visited by following the level-`L` pointers from `n` to null. -/
def chainFrom (σ : SpdbSortedList K) (L : Nat) : Nat → Option Nat → Option (List Nat)
  | 0, _ => none
  | fuel + 1, n =>
    match n with
    | none => some []
    | some a => (Next σ a L).bind fun nx => (chainFrom σ L fuel nx).bind fun l => some (a :: l)

/-- The nodes reachable from `head_` at level `L`, in the order of the pointers. -/
def levelChain (fuel : Nat) (σ : SpdbSortedList K) (L : Nat) : Option (List Nat) :=
  (Next σ 0 L).bind fun n => chainFrom σ L fuel n

/-- The nodes reachable from `head_` at level 0, in the order of the pointers. -/
def chain (fuel : Nat) (σ : SpdbSortedList K) : Option (List Nat) :=
  levelChain fuel σ 0

/-- One insertion as a writer performs it: a node of `height` pointers is
allocated for the key `k`, then `Insert<UseCAS>` runs on it, with the splice
`seq_splice_` of the list when `own` is none and with the splice `own` of the
caller otherwise. The result is the returned boolean and the list, whose
`seq_splice_` is the splice that the call leaves in the first case. -/
def insertKey (UseCAS : Bool) (own : Option Splice) (allow_partial_splice_fix : Bool)
    (fuel : Nat) (σ : SpdbSortedList K) (k : K) (height : Nat) :
    Option (Bool × SpdbSortedList K) :=
  match own with
  | none =>
    (Insert UseCAS fuel (AllocateNode σ k height).1 (AllocateNode σ k height).2
      σ.seq_splice_ allow_partial_splice_fix).bind fun r =>
    some (r.1, { r.2.1 with seq_splice_ := r.2.2 })
  | some sp =>
    (Insert UseCAS fuel (AllocateNode σ k height).1 (AllocateNode σ k height).2
      sp allow_partial_splice_fix).bind fun r =>
    some (r.1, r.2.1)

/-- The lists that are reachable from a constructed list by insertions run to
their end by one thread at a time. The constructed list has a height limit
within `kMaxPossibleHeight`, as `Insert` asserts; the nodes have heights in
`[1, kMaxHeight_]`; a splice of the caller is fresh (`height_ = 0`). -/
inductive Reachable : SpdbSortedList K → Prop
  | init (kMaxNext : Nat) (max_height branching_factor : Int) (σ : SpdbSortedList K) :
      SpdbSortedList.new kMaxNext max_height branching_factor = some σ →
      σ.kMaxHeight_ ≤ kMaxPossibleHeight → Reachable σ
  | insert (σ : SpdbSortedList K) (UseCAS : Bool) (own : Option Splice) (allow : Bool)
      (fuel : Nat) (k : K) (height : Nat) (b : Bool) (σ1 : SpdbSortedList K) :
      Reachable σ → (∀ sp, own = some sp → sp.height_ = 0) →
      1 ≤ height → height ≤ σ.kMaxHeight_ →
      σ.count + σ.kMaxHeight_ + 3 ≤ fuel →
      insertKey UseCAS own allow fuel σ k height = some (b, σ1) → Reachable σ1

/-- The calls `Insert<false>(key, seq_splice_, false)` for the keys of `kh` in
their order, each on a newly allocated node of the given height; the result is
the list of returned booleans and the final list. -/
def insertAll (fuel : Nat) : List (K × Nat) → SpdbSortedList K →
    Option (List Bool × SpdbSortedList K)
  | [], σ => some ([], σ)
  | p :: rest, σ =>
    (Insert2 fuel (AllocateNode σ p.1 p.2).1 (AllocateNode σ p.1 p.2).2 false).bind fun r =>
    (insertAll fuel rest r.2).bind fun q => some (r.1 :: q.1, q.2)

/-- The keys of the nodes of `ns`, in their order. -/
def keysOf (σ : SpdbSortedList K) (ns : List Nat) : List K := ns.filterMap σ.key

/-- The last node of the list `ns` that has a pointer of level `L` and a key
below `k`, or `head_` when there is none. -/
def lastBelow (σ : SpdbSortedList K) (ns : List Nat) (k : K) (L : Nat) : Nat :=
  ((ns.filter fun a => decide (L < σ.height a ∧ keyB σ a < (k : WithBot K))).getLast?).getD 0


/-! ## The abstract state of a splice -/

/-- Level `j` of the splice holds the last node below `k` and the first node
not below `k` among the nodes of level `j`. -/
def Prec (σ : SpdbSortedList K) (ns : List Nat) (k : K) (sp : Splice) (j : Nat) : Prop :=
  IsPred (keyB σ) (Lvl σ ns j) k (sp.prev_ j) ∧ IsSucc (keyB σ) (Lvl σ ns j) k (sp.next_ j)

/-- Level `j` of the splice holds nodes of level `j` that bracket `k`: the key
of `prev_[j]` is below `k` and the key of `next_[j]` is not. -/
def Loose (σ : SpdbSortedList K) (ns : List Nat) (k : K) (sp : Splice) (j : Nat) : Prop :=
  Start (keyB σ) (Lvl σ ns j) k (sp.prev_ j) ∧
  ∀ c, sp.next_ j = some c → Lvl σ ns j c ∧ (k : WithBot K) ≤ keyB σ c

/-- The entries of level `j` of the splice are `head_`, null or nodes of level `j`. -/
def LinkedAt (σ : SpdbSortedList K) (ns : List Nat) (sp : Splice) (j : Nat) : Prop :=
  (sp.prev_ j = 0 ∨ Lvl σ ns j (sp.prev_ j)) ∧ ∀ c, sp.next_ j = some c → Lvl σ ns j c

/-- The bracket of level `j + 1` contains the bracket of level `j`:
`prev_[j+1].key <= prev_[j].key` and `next_[j].key <= next_[j+1].key`. -/
def Nested (σ : SpdbSortedList K) (sp : Splice) (j : Nat) : Prop :=
  keyB σ (sp.prev_ (j + 1)) ≤ keyB σ (sp.prev_ j) ∧
  ∀ c', sp.next_ (j + 1) = some c' → ∃ c, sp.next_ j = some c ∧ keyB σ c ≤ keyB σ c'

/-- The invariant of a splice on its levels `t, ..., height_ - 1`. -/
structure SpliceFrom (σ : SpdbSortedList K) (ns : List Nat) (sp : Splice) (t : Nat) : Prop where
  top_prev : sp.prev_ sp.height_ = 0
  top_next : sp.next_ sp.height_ = none
  linked : ∀ j, t ≤ j → j < sp.height_ → LinkedAt σ ns sp j
  nested : ∀ j, t ≤ j → j < sp.height_ → Nested σ sp j

/-- A splice that `Insert` accepts: it is lower than the list, or it has the
height of the list and satisfies the invariant of a splice. -/
def SpliceOK (σ : SpdbSortedList K) (ns : List Nat) (sp : Splice) : Prop :=
  sp.height_ < σ.max_height_ ∨ (sp.height_ = σ.max_height_ ∧ SpliceFrom σ ns sp 0)

/-- The splice during `Insert` of the key `k`: the levels `lo, ..., t - 1` are
recomputed, level `t` brackets `k`, and the levels from `t` on are as before. -/
structure Prepared (σ : SpdbSortedList K) (ns : List Nat) (k : K) (sp : Splice)
    (lo t : Nat) : Prop where
  height : sp.height_ = σ.max_height_
  le : t ≤ σ.max_height_
  rest : SpliceFrom σ ns sp t
  brk : keyB σ (sp.prev_ t) < (k : WithBot K) ∧
    ∀ c, sp.next_ t = some c → (k : WithBot K) ≤ keyB σ c
  prec : ∀ j, lo ≤ j → j < t → Prec σ ns k sp j

/-- The state of the linking loop of `Insert` before level `i`: the list `σ`
differs from the list `σ0` at the entry of the loop in the pointers of the
levels below `i`, where the node `x` is linked between the entries of the
splice (the pointers of `x` that are not linked yet are not constrained); the
levels of the splice below `i` and below `rh` are exact. -/
structure Linked (σ0 : SpdbSortedList K) (ns : List Nat) (k : K) (x rh i : Nat)
    (σ : SpdbSortedList K) (sp : Splice) : Prop where
  key : σ.key = σ0.key
  height : σ.height = σ0.height
  max_height : σ.max_height_ = σ0.max_height_
  kMaxHeight : σ.kMaxHeight_ = σ0.kMaxHeight_
  kBranching : σ.kBranching_ = σ0.kBranching_
  kScaled : σ.kScaledInverseBranching_ = σ0.kScaledInverseBranching_
  count : σ.count = σ0.count
  seq_splice : σ.seq_splice_ = σ0.seq_splice_
  next : ∀ a L, ¬ (a = x ∧ i ≤ L ∧ L < σ0.height x) → σ.next a L =
    if L < i then
      (if a = sp.prev_ L then some x else if a = x then sp.next_ L else σ0.next a L)
    else σ0.next a L
  prep : Prepared σ0 ns k sp 0 (max rh i)
  prec0 : Prec σ0 ns k sp 0

/-- The list of linked nodes after the node `x` of key `k` is linked: `x` stands
after the nodes of smaller key and before the nodes of greater key. -/
def insertNode (σ : SpdbSortedList K) (k : K) (x : Nat) (ns : List Nat) : List Nat :=
  ns.filter (fun a => decide (keyB σ a < (k : WithBot K))) ++
    x :: ns.filter (fun a => decide ((k : WithBot K) < keyB σ a))

/-- The nodes that are allocated and not linked hold no pointer. -/
def Quiet (σ : SpdbSortedList K) (ns : List Nat) : Prop :=
  ∀ a, a ≠ 0 → a ∉ ns → ∀ L, σ.next a L = none

/-- What one insertion of the key `k` with a node of `h` pointers changes
outside the pointers: the node `σ.count + 1` is allocated with the key and
the height, and `max_height_` is raised to `h` when it is lower. -/
structure Stepped (σ σ1 : SpdbSortedList K) (k : K) (h : Nat) : Prop where
  kMaxHeight : σ1.kMaxHeight_ = σ.kMaxHeight_
  kBranching : σ1.kBranching_ = σ.kBranching_
  kScaled : σ1.kScaledInverseBranching_ = σ.kScaledInverseBranching_
  count : σ1.count = σ.count + 1
  key_new : σ1.key (σ.count + 1) = some k
  height_new : σ1.height (σ.count + 1) = h
  key_old : ∀ a, a ≠ σ.count + 1 → σ1.key a = σ.key a
  height_old : ∀ a, a ≠ σ.count + 1 → σ1.height a = σ.height a
  max_height : σ1.max_height_ = if σ.max_height_ < h then h else σ.max_height_

/-- The invariant of a reachable list: the linked nodes form a list `ns` that
satisfies the invariant of the list, the splice of the list is one that
`Insert` accepts, and the nodes that are not linked hold no pointer. -/
structure Good (σ : SpdbSortedList K) (ns : List Nat) : Prop where
  inv : Inv σ ns
  splice : SpliceOK σ ns σ.seq_splice_
  quiet : Quiet σ ns

/-! ## Concrete lists -/

/-- The list constructed by `SpdbSortedList(cmp, allocator, 12, 4)` over natural
numbers, with `Random::kMaxNext = 2147483647`. -/
def exampleList : SpdbSortedList Nat :=
  { kMaxHeight_ := 12, kBranching_ := 4, kScaledInverseBranching_ := 536870912, count := 0,
    key := fun _ => none, height := fun a => if a = 0 then 12 else 0, next := fun _ _ => none,
    max_height_ := 1, seq_splice_ := AllocateSplice }

/-- The list `exampleList` after `Insert<false>` of the key 5 with a node of height 2. -/
def exampleList1 : SpdbSortedList Nat :=
  ((insertKey false none false 20 exampleList 5 2).getD (false, exampleList)).2

/-- The list `exampleList1` after `Insert<true>` of the key 3 with a node of height 3. -/
def exampleList2 : SpdbSortedList Nat :=
  ((insertKey true none true 20 exampleList1 3 3).getD (false, exampleList)).2

/-- The assert `x == head_ || compare_(x->Key(), key_decoded) < 0` of
`EstimateCount`. -/
def EstimateCount.assertBelow (σ : SpdbSortedList K) (key : K) (x : Nat) : Option Unit :=
  if x = 0 then some () else (σ.key x).bind fun kx => assert (decide (compare_ kx key < 0))

/-- The test `next == nullptr || compare_(next->Key(), key_decoded) >= 0` of
`EstimateCount`. -/
def EstimateCount.atEnd (σ : SpdbSortedList K) (key : K) (next : Option Nat) : Option Bool :=
  match next with
  | none => some true
  | some nx => (σ.key nx).bind fun kn => some (decide (0 ≤ compare_ kn key))

/-- The loop of `EstimateCount` on the variables `x`, `level` and `count`; `count`
is a `uint64_t`, so `count *= kBranching_` and `count++` are taken modulo `2 ^ 64`. -/
def EstimateCount.loop (σ : SpdbSortedList K) (key : K) : Nat → Nat → Nat → Nat → Option Nat
  | 0, _, _, _ => none
  | fuel + 1, x, level, count =>
    (EstimateCount.assertBelow σ key x).bind fun _ =>
    (Next σ x level).bind fun next =>
    (EstimateCount.atEnd σ key next).bind fun b =>
    if b then
      if level = 0 then some count
      else EstimateCount.loop σ key fuel x (level - 1) (count * σ.kBranching_ % 2 ^ 64)
    else
      match next with
      | some nx => EstimateCount.loop σ key fuel nx level ((count + 1) % 2 ^ 64)
      | none => none

/-- The method `EstimateCount(key)`: `level` starts at `GetMaxHeight() - 1`. -/
def EstimateCount (fuel : Nat) (σ : SpdbSortedList K) (key : K) : Option Nat :=
  if σ.max_height_ = 0 then none else EstimateCount.loop σ key fuel 0 (σ.max_height_ - 1) 0

/-- The method `LessThan(a, b)`. -/
def LessThan (a b : K) : Bool := decide (compare_ a b < 0)

/-- The method `Iterator::Prev()` with its assert `Valid()`: `FindLessThan` is
called without the array `prev`, and `head_` becomes null. -/
def Iterator.Prev (fuel : Nat) (σ : SpdbSortedList K) (it : Iterator) : Option Iterator :=
  it.node_.bind fun n =>
  (σ.key n).bind fun k =>
  (FindLessThan fuel σ k none).bind fun r =>
  some { node_ := if r.1 = 0 then none else some r.1 }

/-- The loop `while (Valid() && list_->LessThan(target, key())) Prev();` of
`Iterator::SeekForPrev`. -/
def Iterator.SeekForPrev.loop (σ : SpdbSortedList K) (target : K) (fuel : Nat) :
    Nat → Iterator → Option Iterator
  | 0, _ => none
  | n + 1, it =>
    if it.Valid then
      (it.key σ).bind fun k =>
      if LessThan target k then
        (Iterator.Prev fuel σ it).bind fun it1 => Iterator.SeekForPrev.loop σ target fuel n it1
      else some it
    else some it

/-- The method `Iterator::SeekForPrev(target)`. -/
def Iterator.SeekForPrev (fuel : Nat) (σ : SpdbSortedList K) (target : K) : Option Iterator :=
  (Iterator.Seek fuel σ target).bind fun it =>
  (if it.Valid then some it else Iterator.SeekToLast fuel σ).bind fun it1 =>
  Iterator.SeekForPrev.loop σ target fuel fuel it1

/-- The list `exampleList2` after `Insert<false>` of the key 5, which it holds,
with a node of height 4. -/
def exampleList3 : SpdbSortedList Nat :=
  ((insertKey false none false 20 exampleList2 5 4).getD (false, exampleList)).2

/-- The loop of `EstimateCount` with a record of its forward steps: the
statements are those of `EstimateCount.loop`, and in place of `count` the
function `steps` counts the executions of `x = next` at each level. -/
def EstimateCount.stepsLoop (σ : SpdbSortedList K) (key : K) :
    Nat → Nat → Nat → (Nat → Nat) → Option (Nat → Nat)
  | 0, _, _, _ => none
  | fuel + 1, x, level, steps =>
    (EstimateCount.assertBelow σ key x).bind fun _ =>
    (Next σ x level).bind fun next =>
    (EstimateCount.atEnd σ key next).bind fun b =>
    if b then
      if level = 0 then some steps
      else EstimateCount.stepsLoop σ key fuel x (level - 1) steps
    else
      match next with
      | some nx =>
        EstimateCount.stepsLoop σ key fuel nx level (fun L => if L = level then steps L + 1 else steps L)
      | none => none

/-- The number of forward steps that the descent of `EstimateCount(key)` takes
at each level. -/
def EstimateCount.steps (fuel : Nat) (σ : SpdbSortedList K) (key : K) : Option (Nat → Nat) :=
  if σ.max_height_ = 0 then none
  else EstimateCount.stepsLoop σ key fuel 0 (σ.max_height_ - 1) (fun _ => 0)

/-- The number of nodes of level `L` between the node at which a descent
towards `k` enters the level and the key `k`; the descent starts at the node `x`
of the level `level` and enters each lower level `L` at the last node of level
`L + 1` whose key is below `k`. -/
def descentSteps (σ : SpdbSortedList K) (ns : List Nat) (k : K) (x level L : Nat) : Nat :=
  if level < L then 0
  else ns.countP fun a => decide (L < σ.height a ∧
    keyB σ (if L = level then x else lastBelow σ ns k (L + 1)) < keyB σ a ∧
    keyB σ a < (k : WithBot K))

/-- The Splice invariant as the specification states it, for the splice `sp`
with respect to the list `σ` whose linked nodes are `ns`: at every level
`i < height_` the entries are `head_`, null or nodes of the list that have a
pointer of level `i`, and `prev_[i+1].key <= prev_[i].key < next_[i].key <=
next_[i+1].key`, where `head_` is below and null is above every key;
`prev_[height_]` is `head_` and `next_[height_]` is null. -/
structure SpliceInvariant (σ : SpdbSortedList K) (ns : List Nat) (sp : Splice) : Prop where
  entries : ∀ i, i < sp.height_ → LinkedAt σ ns sp i
  prev_le : ∀ i, i < sp.height_ → keyB σ (sp.prev_ (i + 1)) ≤ keyB σ (sp.prev_ i)
  bracket : ∀ i, i < sp.height_ → ∀ c, sp.next_ i = some c → keyB σ (sp.prev_ i) < keyB σ c
  next_le : ∀ i, i < sp.height_ → ∀ c', sp.next_ (i + 1) = some c' →
    ∃ c, sp.next_ i = some c ∧ keyB σ c ≤ keyB σ c'
  top_prev : sp.prev_ sp.height_ = 0
  top_next : sp.next_ sp.height_ = none

/-- The conditions that the closing block of `Insert` asserts on the splice
`sp` and the inserted key: `prev_[height_] == head_`, `next_[height_] ==
nullptr`, and at every level `i < height_` the key is below the key of
`next_[i]`, not below the key of `prev_[i]`, the key of `prev_[i+1]` is not
above the key of `prev_[i]` and the key of `next_[i]` is not above the key of
`next_[i+1]`; `head_` is below and null is above every key. -/
def ClosingAsserts (σ : SpdbSortedList K) (key : K) (sp : Splice) : Prop :=
  sp.prev_ sp.height_ = 0 ∧ sp.next_ sp.height_ = none ∧
  ∀ i, i < sp.height_ →
    (∀ c, sp.next_ i = some c → (key : WithBot K) < keyB σ c) ∧
    keyB σ (sp.prev_ i) ≤ (key : WithBot K) ∧
    keyB σ (sp.prev_ (i + 1)) ≤ keyB σ (sp.prev_ i) ∧
    ∀ c', sp.next_ (i + 1) = some c' → ∃ c, sp.next_ i = some c ∧ keyB σ c ≤ keyB σ c'

/-- The inner loop `while (scan_node != limit_node)` of `FindRandomEntry` at
`level`: the result is the vector `lvl_nodes`. A null `scan_node` that is not
`limit_node` has no pointer to read. -/
def FindRandomEntry.scan (σ : SpdbSortedList K) (level : Nat) (limit_node : Option Nat) :
    Nat → Option Nat → List Nat → Option (List Nat)
  | 0, _, _ => none
  | fuel + 1, scan_node, lvl_nodes =>
    if scan_node = limit_node then some lvl_nodes
    else
      match scan_node with
      | none => none
      | some a =>
        (Next σ a level).bind fun nx =>
        FindRandomEntry.scan σ level limit_node fuel nx (lvl_nodes ++ [a])

/-- The loop `while (level >= 0)` of `FindRandomEntry`: the first argument is
`level + 1`, `rnd` is the stream of results of `rnd->Next()` and `pos` the
number of samples drawn so far. The remainder by the size of an empty vector
and a read past the end of the vector have no result; `rnd_idx` and
`rnd_idx + 1` are `uint32_t`. The result is the node `x` and the sizes that
`lvl_nodes` had at the levels, from the highest level on. -/
def FindRandomEntry.loop (σ : SpdbSortedList K) (rnd : Nat → Nat) (fuel : Nat) :
    Nat → Nat → Nat → Option Nat → Option (Nat × List Nat)
  | 0, _, x, _ => some (x, [])
  | level + 1, pos, x, limit_node =>
    (FindRandomEntry.scan σ level limit_node fuel (some x) []).bind fun lvl_nodes =>
    if lvl_nodes.length = 0 then none
    else
      (lvl_nodes.get? ((rnd pos % lvl_nodes.length) % 4294967296)).bind fun x1 =>
      (if ((rnd pos % lvl_nodes.length) % 4294967296 + 1) % 4294967296 < lvl_nodes.length then
        (lvl_nodes.get? (((rnd pos % lvl_nodes.length) % 4294967296 + 1) % 4294967296)).bind
          fun l => some (some l)
       else some limit_node).bind fun limit1 =>
      (FindRandomEntry.loop σ rnd fuel level (pos + 1) x1 limit1).bind fun r =>
      some (r.1, lvl_nodes.length :: r.2)

/-- The method `FindRandomEntry()`: the result is the returned pointer and the
sizes that `lvl_nodes` had at the levels `max_height_ - 1, ..., 0`. -/
def FindRandomEntry (fuel : Nat) (σ : SpdbSortedList K) (rnd : Nat → Nat) :
    Option (Option Nat × List Nat) :=
  (FindRandomEntry.loop σ rnd fuel σ.max_height_ 0 0 none).bind fun r =>
  if r.1 = 0 then (Next σ 0 0).bind fun n => some (n, r.2) else some (some r.1, r.2)

/-- A list that insertions run by one thread reach, together with a splice:
the splice `seq_splice_` of a reachable list, a fresh splice (`height_ = 0`),
the splice that an `Insert` call with such a splice left, or such a splice
after an insertion with the splice of the list or with a fresh splice changed
the list. The nodes have heights in `[1, kMaxHeight_]`. -/
inductive ReachableWith : SpdbSortedList K → Splice → Prop
  | own (σ : SpdbSortedList K) : Reachable σ → ReachableWith σ σ.seq_splice_
  | fresh (σ : SpdbSortedList K) (sp : Splice) : Reachable σ → sp.height_ = 0 →
      ReachableWith σ sp
  | used (σ : SpdbSortedList K) (sp : Splice) (UseCAS allow : Bool) (fuel : Nat) (k : K)
      (height : Nat) (b : Bool) (σ1 : SpdbSortedList K) (sp1 : Splice) :
      ReachableWith σ sp → 1 ≤ height → height ≤ σ.kMaxHeight_ →
      σ.count + σ.kMaxHeight_ + 3 ≤ fuel →
      Insert UseCAS fuel (AllocateNode σ k height).1 (AllocateNode σ k height).2 sp allow =
        some (b, σ1, sp1) → ReachableWith σ1 sp1
  | kept (σ : SpdbSortedList K) (sp : Splice) (UseCAS : Bool) (own : Option Splice)
      (allow : Bool) (fuel : Nat) (k : K) (height : Nat) (b : Bool) (σ1 : SpdbSortedList K) :
      ReachableWith σ sp → (∀ s, own = some s → s.height_ = 0) →
      1 ≤ height → height ≤ σ.kMaxHeight_ →
      σ.count + σ.kMaxHeight_ + 3 ≤ fuel →
      insertKey UseCAS own allow fuel σ k height = some (b, σ1) → ReachableWith σ1 sp

/-- The list `exampleList` after `Insert<false>` of the key 9 with a node of
height 2 (node 1), with the splice of the list. -/
def exampleList4 : SpdbSortedList Nat :=
  ((insertKey false none false 20 exampleList 9 2).getD (false, exampleList)).2

/-- The list `exampleList4` after `Insert<false>` of the key 5 with a node of
height 1 (node 2), with a fresh splice of the caller. -/
def exampleList5 : SpdbSortedList Nat :=
  ((insertKey false (some AllocateSplice) false 20 exampleList4 5 1).getD (false, exampleList)).2

/-- The splice of the caller as that insertion of the key 5 left it: `height_`
is 2, level 0 holds node 2 (key 5) and node 1 (key 9), level 1 holds `head_` and
node 1, level 2 holds `head_` and null. -/
def exampleCallerSplice : Splice :=
  ((Insert false 20 (AllocateNode exampleList4 5 1).1 (AllocateNode exampleList4 5 1).2
    AllocateSplice false).getD (false, exampleList, AllocateSplice)).2.2

/-- The list `exampleList5` after `Insert<false>` of the key 3 with a node of
height 2 (node 3), with the splice of the list: the pointer of `head_` at level 1
is node 3, so level 1 of `exampleCallerSplice` is not adjacent any more. -/
def exampleList6 : SpdbSortedList Nat :=
  ((insertKey false none false 20 exampleList5 3 2).getD (false, exampleList)).2

/-- The lists that the constructor call `SpdbSortedList(cmp, allocator,
max_height, branching_factor)` and the calls of `AllocateSpdbItem` and the
insertions after it produce, with every `max_height` that the asserts of the
constructor accept (up to 65535) and every height of an inserted node. -/
inductive Constructed (kMaxNext : Nat) (max_height branching_factor : Int) :
    SpdbSortedList K → Prop
  | init (σ : SpdbSortedList K) :
      SpdbSortedList.new kMaxNext max_height branching_factor = some σ →
      Constructed kMaxNext max_height branching_factor σ
  | alloc (σ : SpdbSortedList K) (fuel : Nat) (k : K) (rnd : Nat → Nat)
      (σ1 : SpdbSortedList K) (x : Nat) :
      Constructed kMaxNext max_height branching_factor σ →
      AllocateSpdbItem fuel σ k rnd = some (σ1, x) →
      Constructed kMaxNext max_height branching_factor σ1
  | insert (σ : SpdbSortedList K) (UseCAS : Bool) (own : Option Splice) (allow : Bool)
      (fuel : Nat) (k : K) (height : Nat) (b : Bool) (σ1 : SpdbSortedList K) :
      Constructed kMaxNext max_height branching_factor σ →
      insertKey UseCAS own allow fuel σ k height = some (b, σ1) →
      Constructed kMaxNext max_height branching_factor σ1

/-- The list constructed with `max_height = 40` and `branching_factor = 4`. -/
def exampleListTall : SpdbSortedList Nat :=
  { kMaxHeight_ := 40, kBranching_ := 4, kScaledInverseBranching_ := 536870912, count := 0,
    key := fun _ => none, height := fun a => if a = 0 then 40 else 0,
    next := fun _ _ => none, max_height_ := 1, seq_splice_ := AllocateSplice }

end SpdbSortedList -- definitions

/-! ## WriteController (db/write_controller.h, db/write_controller.cc)

The controller is run by one thread. The fields of type `uint64_t` are natural
numbers and every addition and subtraction on them is taken modulo `2 ^ 64`; the
counters of type `std::atomic<int>` are integers and `++`, `--` and `fetch_sub`
wrap to 32 bits. The `double` expressions of `GetDelay` are evaluated in
binary64, each operation rounded to 53 significant bits. As before, a failed
`assert` has no result, and neither has a conversion of a `double` that is not
a value of `uint64_t`.
-/

/-- The value of a `uint64_t` expression: the number modulo `2 ^ 64`. -/
def u64 (n : Nat) : Nat := n % 2 ^ 64

/-- The difference `a - b` of two `uint64_t` values, which wraps. -/
def sub64 (a b : Nat) : Nat := (a + 2 ^ 64 - b) % 2 ^ 64

/-- The value of an `int` expression on a `std::atomic<int>`, which wraps. -/
def i32 (z : Int) : Int := (z + 2 ^ 31) % 2 ^ 32 - 2 ^ 31

/-! ## The type `double` -/

/-- A finite value of the type `double` (IEEE 754 binary64) that is not
negative: the number `m * 2 ^ e`. The results of the operations have 53
significant bits, `2 ^ 52 <= m <= 2 ^ 53` (the mantissa `2 ^ 53` stands for
`2 ^ 52` with the next exponent), or are zero. Each operation is rounded on its
own, to the nearest value and to the even mantissa in a tie; a product and a
sum are not fused. The exponent is not bounded: `GetDelay` computes with values
of `uint64_t` and the constants `1.0`, `1000000` and `0.999999`, so that every
result is zero or a normal number of binary64 (`isNormal`, theorems
`refill_bytes_normal` and `needed_delay_normal`), where binary64 has every
number of 53 significant bits. -/
structure Double where
  m : Nat
  e : Int
deriving DecidableEq

namespace Double

/-- The rational number that a `double` is. -/
def toRat (a : Double) : ℚ := (a.m : ℚ) * (2 : ℚ) ^ a.e

/-- The number of binary digits of `n`, when `n < 2 ^ fuel`. -/
def bitLength : Nat → Nat → Nat
  | 0, _ => 0
  | fuel + 1, n => if n = 0 then 0 else bitLength fuel (n / 2) + 1

/-- The `double` nearest to `n / d * 2 ^ e`, the one with an even mantissa when
two are equally near (the rounding of binary64 arithmetic): the quotient is
scaled by `2 ^ s` so that its integer part `q` has 53 bits, and `q` is rounded
by the remainder. -/
def round (n d : Nat) (e : Int) : Double :=
  if n = 0 ∨ d = 0 then ⟨0, 0⟩
  else
    let s0 : Int := 52 + (bitLength d d : Int) - (bitLength n n : Int)
    let s : Int := if n * 2 ^ s0.toNat < 2 ^ 52 * (d * 2 ^ (-s0).toNat) then s0 + 1 else s0
    let N := n * 2 ^ s.toNat
    let D := d * 2 ^ (-s).toNat
    let q := N / D
    let r := N % D
    ⟨if D < 2 * r ∨ (2 * r = D ∧ q % 2 = 1) then q + 1 else q, e - s⟩

/-- The conversion of a value of `uint64_t` to `double`. -/
def ofUInt64 (n : Nat) : Double := round n 1 0

/-- The literal `n / d` of type `double`, as `1.0` and `0.999999`. -/
def literal (n d : Nat) : Double := round n d 0

/-- The product `a * b` of type `double`. -/
def mul (a b : Double) : Double := round (a.m * b.m) 1 (a.e + b.e)

/-- The quotient `a / b` of type `double`, for `b` other than zero. -/
def div (a b : Double) : Double := round a.m b.m (a.e - b.e)

/-- The sum `a + b` of type `double`. -/
def add (a b : Double) : Double :=
  round (a.m * 2 ^ (a.e - min a.e b.e).toNat + b.m * 2 ^ (b.e - min a.e b.e).toNat) 1
    (min a.e b.e)

/-- The conversion `static_cast<uint64_t>(a)`: the fraction is dropped; there
is no result when the integer part is not a value of `uint64_t`. -/
def toUInt64 (a : Double) : Option Nat :=
  if a.m * 2 ^ a.e.toNat / 2 ^ (-a.e).toNat < 2 ^ 64
  then some (a.m * 2 ^ a.e.toNat / 2 ^ (-a.e).toNat) else none

/-- The `double` is zero or a normal number of binary64: a mantissa of 53 bits
and an exponent in the range of the format, `2 ^ -1022 <= m * 2 ^ e < 2 ^ 1024`.
On such numbers binary64 arithmetic is rounding to 53 significant bits. -/
def isNormal (a : Double) : Prop :=
  a.m = 0 ∨ (2 ^ 52 ≤ a.m ∧ a.m ≤ 2 ^ 53 ∧ -1022 ≤ a.e + 52 ∧ a.e + 53 ≤ 1023)

/-- The `double` is zero, or has a mantissa of 53 bits and a value from
`2 ^ L` to `2 ^ U`. -/
def inRange (L U : Int) (a : Double) : Prop :=
  a.m = 0 ∨ (2 ^ 52 ≤ a.m ∧ a.m ≤ 2 ^ 53 ∧ (2 : ℚ) ^ L ≤ a.toRat ∧ a.toRat ≤ (2 : ℚ) ^ U)

end Double

/-- The type `CfIdToRateMap`, a `std::unordered_map<uint32_t, uint64_t>`: its
entries, one for each key, in the order of an iteration. -/
structure CfIdToRateMap where
  entries : List (Nat × Nat)
deriving DecidableEq

namespace CfIdToRateMap

/-- The method `count(id)`. -/
def count (m : CfIdToRateMap) (id : Nat) : Nat := if (m.entries.lookup id).isSome then 1 else 0

/-- The value `(*cf_map)[id]` for a key that is in the map. -/
def get (m : CfIdToRateMap) (id : Nat) : Nat := (m.entries.lookup id).getD 0

/-- The map after `erase(id)`; the call returns `count(id)`. -/
def erase (m : CfIdToRateMap) (id : Nat) : CfIdToRateMap :=
  { entries := m.entries.filter fun key_val => key_val.1 ≠ id }

/-- The method `insert_or_assign(id, v)`: the map after the call and the member
`second` of the result, which tells whether the key was inserted. -/
def insert_or_assign (m : CfIdToRateMap) (id v : Nat) : CfIdToRateMap × Bool :=
  if (m.entries.lookup id).isSome then
    ({ entries := m.entries.map fun key_val => if key_val.1 = id then (id, v) else key_val },
      false)
  else ({ entries := (id, v) :: m.entries }, true)

/-- The method `empty()`. -/
def empty (m : CfIdToRateMap) : Bool := m.entries.isEmpty

/-- The method `size()`. -/
def size (m : CfIdToRateMap) : Nat := m.entries.length

end CfIdToRateMap

/-- The memory that holds the `CfIdToRateMap` objects of the databases: the map
at each address. A `CfIdToRateMap*` is an address. -/
abbrev RateMaps := Nat → CfIdToRateMap

/-- The class `WriteController`: its counters, the four fields of the credit
bucket, `dynamic_delay_` and the set `db_id_to_write_rate_map_` of addresses. The
mutexes, the condition variable and `low_pri_rate_limiter_` do not take part in
what one thread computes. -/
structure WriteController where
  total_stopped_ : Int
  total_delayed_ : Int
  total_compaction_pressure_ : Int
  credit_in_bytes_ : Nat
  next_refill_time_ : Nat
  max_delayed_write_rate_ : Nat
  delayed_write_rate_ : Nat
  dynamic_delay_ : Bool
  db_id_to_write_rate_map_ : List Nat
deriving DecidableEq

namespace WriteController

/-- The method `set_delayed_write_rate(write_rate)`. -/
def set_delayed_write_rate (σ : WriteController) (write_rate : Nat) : WriteController :=
  { σ with delayed_write_rate_ :=
      if write_rate = 0 then 1
      else if σ.max_delayed_write_rate_ < write_rate then σ.max_delayed_write_rate_
      else write_rate }

/-- The method `set_max_delayed_write_rate(write_rate)`. -/
def set_max_delayed_write_rate (σ : WriteController) (write_rate : Nat) : WriteController :=
  { σ with max_delayed_write_rate_ := if write_rate = 0 then 1 else write_rate
           delayed_write_rate_ := if write_rate = 0 then 1 else write_rate }

/-- The constructor `WriteController(dynamic_delay, _delayed_write_rate)`. -/
def new (dynamic_delay : Bool) (_delayed_write_rate : Nat) : WriteController :=
  set_max_delayed_write_rate
    { total_stopped_ := 0, total_delayed_ := 0, total_compaction_pressure_ := 0,
      credit_in_bytes_ := 0, next_refill_time_ := 0, max_delayed_write_rate_ := 0,
      delayed_write_rate_ := 0, dynamic_delay_ := dynamic_delay,
      db_id_to_write_rate_map_ := [] }
    _delayed_write_rate

/-- The accessor `delayed_write_rate()`. -/
def delayed_write_rate (σ : WriteController) : Nat := σ.delayed_write_rate_

/-- The accessor `max_delayed_write_rate()`. -/
def max_delayed_write_rate (σ : WriteController) : Nat := σ.max_delayed_write_rate_

/-- The method `GetStopToken()`: the controller after the call; the token is
the right to call `StopWriteToken.destructor` once. -/
def GetStopToken (σ : WriteController) : WriteController :=
  { σ with total_stopped_ := i32 (σ.total_stopped_ + 1) }

/-- The statement `if (0 == total_delayed_++) { next_refill_time_ = 0;
credit_in_bytes_ = 0; }` of `GetDelayToken` and `UpdateRate`. -/
def startDelay (σ : WriteController) : WriteController :=
  if σ.total_delayed_ = 0 then
    { σ with total_delayed_ := i32 (σ.total_delayed_ + 1), next_refill_time_ := 0,
             credit_in_bytes_ := 0 }
  else { σ with total_delayed_ := i32 (σ.total_delayed_ + 1) }

/-- The method `GetDelayToken(write_rate)`: the controller after the call. -/
def GetDelayToken (σ : WriteController) (write_rate : Nat) : WriteController :=
  set_delayed_write_rate (startDelay σ) write_rate

/-- The method `GetCompactionPressureToken()`: the controller after the call. -/
def GetCompactionPressureToken (σ : WriteController) : WriteController :=
  { σ with total_compaction_pressure_ := i32 (σ.total_compaction_pressure_ + 1) }

/-- The method `NotifyCV()`, with its assert `total_stopped_ >= 1`. -/
def NotifyCV (σ : WriteController) : Option WriteController :=
  (assert (decide (1 ≤ σ.total_stopped_))).bind fun _ =>
  some { σ with total_stopped_ := i32 (σ.total_stopped_ - 1) }

/-- The destructor of `StopWriteToken`. -/
def StopWriteToken.destructor (σ : WriteController) : Option WriteController := NotifyCV σ

/-- The destructor of `DelayWriteToken`, with its assert `total_delayed_ >= 0`. -/
def DelayWriteToken.destructor (σ : WriteController) : Option WriteController :=
  (assert (decide (0 ≤ i32 (σ.total_delayed_ - 1)))).bind fun _ =>
  some { σ with total_delayed_ := i32 (σ.total_delayed_ - 1) }

/-- The destructor of `CompactionPressureToken`, with its assert. -/
def CompactionPressureToken.destructor (σ : WriteController) : Option WriteController :=
  (assert (decide (0 ≤ i32 (σ.total_compaction_pressure_ - 1)))).bind fun _ =>
  some { σ with total_compaction_pressure_ := i32 (σ.total_compaction_pressure_ - 1) }

/-- The method `IsStopped()`. -/
def IsStopped (σ : WriteController) : Bool := decide (0 < σ.total_stopped_)

/-- The method `NeedsDelay()`. -/
def NeedsDelay (σ : WriteController) : Bool := decide (0 < σ.total_delayed_)

/-- The method `NeedSpeedupCompaction()`. -/
def NeedSpeedupCompaction (σ : WriteController) : Bool :=
  σ.IsStopped || σ.NeedsDelay || decide (0 < σ.total_compaction_pressure_)

/-- The method `AddToDbRateMap(cf_map)`: the address joins the set. -/
def AddToDbRateMap (σ : WriteController) (cf_map : Nat) : WriteController :=
  if cf_map ∈ σ.db_id_to_write_rate_map_ then σ
  else { σ with db_id_to_write_rate_map_ := cf_map :: σ.db_id_to_write_rate_map_ }

/-- The method `GetMapMinRate()`: the two nested loops over the registered maps
and their entries. -/
def GetMapMinRate (σ : WriteController) (maps : RateMaps) : Nat :=
  σ.db_id_to_write_rate_map_.foldl
    (fun min_rate cf_id_to_write_rate_ =>
      (maps cf_id_to_write_rate_).entries.foldl
        (fun min_rate key_val => if key_val.2 < min_rate then key_val.2 else min_rate)
        min_rate)
    σ.max_delayed_write_rate

/-- The method `RemoveFromDbRateMap(cf_map)`; `fetch_sub` converts the size to `int`. -/
def RemoveFromDbRateMap (σ : WriteController) (maps : RateMaps) (cf_map : Nat) :
    WriteController :=
  let σ1 := { σ with db_id_to_write_rate_map_ := σ.db_id_to_write_rate_map_.filter (· ≠ cf_map) }
  if (maps cf_map).empty then σ1
  else
    let σ2 := { σ1 with total_delayed_ := i32 (σ1.total_delayed_ - i32 (maps cf_map).size) }
    set_delayed_write_rate σ2 (GetMapMinRate σ2 maps)

/-- The method `IsMinRate(id, cf_map)`. -/
def IsMinRate (σ : WriteController) (maps : RateMaps) (id cf_map : Nat) : Bool :=
  if (maps cf_map).count id = 0 then false
  else decide ((maps cf_map).get id ≤ σ.delayed_write_rate)

/-- The method `DeleteCfFromMapAndMaybeUpdateDelayRate(id, cf_map)`, with its
assert `erased`; the result is the controller and the memory of the maps. -/
def DeleteCfFromMapAndMaybeUpdateDelayRate (σ : WriteController) (maps : RateMaps)
    (id cf_map : Nat) : Option (WriteController × RateMaps) :=
  let was_min := IsMinRate σ maps id cf_map
  let erased := (maps cf_map).count id
  let maps1 := Function.update maps cf_map ((maps cf_map).erase id)
  (assert (decide (erased ≠ 0))).bind fun _ =>
  let σ1 := { σ with total_delayed_ := i32 (σ.total_delayed_ - 1) }
  some (if was_min then set_delayed_write_rate σ1 (GetMapMinRate σ1 maps1) else σ1, maps1)

/-- The method `UpdateRate(id, cf_map, cf_write_rate)`; the result is the
controller and the memory of the maps. -/
def UpdateRate (σ : WriteController) (maps : RateMaps) (id cf_map cf_write_rate : Nat) :
    WriteController × RateMaps :=
  let was_min := IsMinRate σ maps id cf_map
  let r := (maps cf_map).insert_or_assign id cf_write_rate
  let maps1 := Function.update maps cf_map r.1
  let σ1 := if r.2 then startDelay σ else σ
  let min_rate :=
    if cf_write_rate ≤ σ1.delayed_write_rate then cf_write_rate
    else if was_min then GetMapMinRate σ1 maps1
    else σ1.delayed_write_rate
  (set_delayed_write_rate σ1 min_rate, maps1)

/-- The method `NowMicrosMonotonic(clock)`: `clock` is the value that
`clock->NowNanos()` returns. -/
def NowMicrosMonotonic (clock : Nat) : Nat := clock / 1000

/-- The value `static_cast<uint64_t>(1.0 * elapsed / kMicrosPerSecond *
delayed_write_rate_ + 0.999999)` that the refill of `GetDelay` adds to
`credit_in_bytes_`, with each operation of `double` rounded. -/
def GetDelay.refill_bytes (elapsed delayed_write_rate : Nat) : Option Nat :=
  Double.toUInt64
    (Double.add
      (Double.mul
        (Double.div (Double.mul (Double.literal 1 1) (Double.ofUInt64 elapsed))
          (Double.ofUInt64 1000000))
        (Double.ofUInt64 delayed_write_rate))
      (Double.literal 999999 1000000))

/-- The refill of `GetDelay`, run when `next_refill_time_ <= time_now`: the
`elapsed` time, the credit that it earns and the next refill time. -/
def GetDelay.refill (σ : WriteController) (time_now : Nat) : Option WriteController :=
  let elapsed := u64 (sub64 time_now σ.next_refill_time_ + 1000)
  (GetDelay.refill_bytes elapsed σ.delayed_write_rate_).bind fun bytes =>
  some { σ with credit_in_bytes_ := u64 (σ.credit_in_bytes_ + bytes),
                next_refill_time_ := u64 (time_now + 1000) }

/-- The value `needed_delay` of `GetDelay`, `static_cast<uint64_t>(1.0 *
bytes_over_budget / delayed_write_rate_ * kMicrosPerSecond)` with each
operation of `double` rounded; the division of a `double` by zero gives no
value of `uint64_t`. -/
def GetDelay.needed_delay (bytes_over_budget delayed_write_rate : Nat) : Option Nat :=
  if delayed_write_rate = 0 then none
  else
    Double.toUInt64
      (Double.mul
        (Double.div (Double.mul (Double.literal 1 1) (Double.ofUInt64 bytes_over_budget))
          (Double.ofUInt64 delayed_write_rate))
        (Double.ofUInt64 1000000))

/-- The end of `GetDelay`, from the assert `num_bytes > credit_in_bytes_` on. -/
def GetDelay.delay (σ : WriteController) (time_now num_bytes : Nat) :
    Option (Nat × WriteController) :=
  (assert (decide (σ.credit_in_bytes_ < num_bytes))).bind fun _ =>
  (GetDelay.needed_delay (sub64 num_bytes σ.credit_in_bytes_) σ.delayed_write_rate_).bind
    fun needed_delay =>
  some (max (sub64 (u64 (σ.next_refill_time_ + needed_delay)) time_now) 1000,
    { σ with credit_in_bytes_ := 0,
             next_refill_time_ := u64 (σ.next_refill_time_ + needed_delay) })

/-- The statement `if (next_refill_time_ == 0) next_refill_time_ = time_now;`. -/
def GetDelay.start (σ : WriteController) (time_now : Nat) : WriteController :=
  if σ.next_refill_time_ = 0 then { σ with next_refill_time_ := time_now } else σ

/-- The method `GetDelay(clock, num_bytes)`: the returned delay and the
controller after the call. One thread runs alone, so the first
`compare_exchange_weak` of the loop on `credit_in_bytes_` finds the value that
was loaded. The clock is read only after that loop. -/
def GetDelay (σ : WriteController) (clock num_bytes : Nat) : Option (Nat × WriteController) :=
  if 0 < σ.total_stopped_ then some (0, σ)
  else if σ.total_delayed_ = 0 then some (0, σ)
  else if num_bytes ≤ σ.credit_in_bytes_ then
    some (0, { σ with credit_in_bytes_ := sub64 σ.credit_in_bytes_ num_bytes })
  else
    let time_now := NowMicrosMonotonic clock
    let σ1 := GetDelay.start σ time_now
    if σ1.next_refill_time_ ≤ time_now then
      (GetDelay.refill σ1 time_now).bind fun σ2 =>
      if num_bytes ≤ σ2.credit_in_bytes_ then
        some (0, { σ2 with credit_in_bytes_ := sub64 σ2.credit_in_bytes_ num_bytes })
      else GetDelay.delay σ2 time_now num_bytes
    else GetDelay.delay σ1 time_now num_bytes

/-- A writer that calls `GetDelay(clock, num_bytes)` a number of times and
sleeps for the returned microseconds after each call, so that the clock, which
counts nanoseconds, advances by exactly that time: the sum of the delays, the
controller and the clock at the end. -/
def writerLoop (num_bytes : Nat) : Nat → WriteController → Nat →
    Option (Nat × WriteController × Nat)
  | 0, σ, clock => some (0, σ, clock)
  | n + 1, σ, clock =>
    (GetDelay σ clock num_bytes).bind fun r =>
    (writerLoop num_bytes n r.2 (clock + r.1 * 1000)).bind fun q =>
    some (r.1 + q.1, q.2)

/-! ## Concrete controllers -/

/-- The controller constructed with the rate 1048576 bytes per second, after one
`GetDelayToken(1048576)`. -/
def exampleController : WriteController :=
  GetDelayToken (WriteController.new false 1048576) 1048576

/-- The controller `exampleController` after `GetDelay(clock, 100)` at the clock
value 5000000 ns: the refill earns 1049 bytes, of which 949 are left. -/
def exampleController1 : WriteController :=
  { total_stopped_ := 0, total_delayed_ := 1, total_compaction_pressure_ := 0,
    credit_in_bytes_ := 949, next_refill_time_ := 6000, max_delayed_write_rate_ := 1048576,
    delayed_write_rate_ := 1048576, dynamic_delay_ := false, db_id_to_write_rate_map_ := [] }

/-- The controller `exampleController` after `GetDelay(clock, 16384)` at the clock
value 5000000 ns: the writer is delayed until the time 20624 us. -/
def exampleController2 : WriteController :=
  { total_stopped_ := 0, total_delayed_ := 1, total_compaction_pressure_ := 0,
    credit_in_bytes_ := 0, next_refill_time_ := 20624, max_delayed_write_rate_ := 1048576,
    delayed_write_rate_ := 1048576, dynamic_delay_ := false, db_id_to_write_rate_map_ := [] }

/-- A memory in which every `CfIdToRateMap` is empty. -/
def emptyMaps : RateMaps := fun _ => { entries := [] }

/-! ## The rates of the registered maps -/

/-- The rate `r` is stored for some id in a map that is registered in
`db_id_to_write_rate_map_`. -/
def HasRate (σ : WriteController) (maps : RateMaps) (r : Nat) : Prop :=
  ∃ cf_map, cf_map ∈ σ.db_id_to_write_rate_map_ ∧ ∃ id, (id, r) ∈ (maps cf_map).entries

/-- The states of the controller and of the memory of the maps that are
reachable from a newly constructed controller by `AddToDbRateMap` of an empty
map and by `UpdateRate`, `DeleteCfFromMapAndMaybeUpdateDelayRate` and
`RemoveFromDbRateMap` on registered maps. -/
inductive RateReachable : WriteController → RateMaps → Prop
  | init (dynamic_delay : Bool) (_delayed_write_rate : Nat) (maps : RateMaps) :
      RateReachable (WriteController.new dynamic_delay _delayed_write_rate) maps
  | add (σ : WriteController) (maps : RateMaps) (cf_map : Nat) :
      RateReachable σ maps → (maps cf_map).entries = [] →
      RateReachable (AddToDbRateMap σ cf_map) maps
  | remove (σ : WriteController) (maps : RateMaps) (cf_map : Nat) :
      RateReachable σ maps → cf_map ∈ σ.db_id_to_write_rate_map_ →
      RateReachable (RemoveFromDbRateMap σ maps cf_map) maps
  | update (σ : WriteController) (maps : RateMaps) (id cf_map cf_write_rate : Nat) :
      RateReachable σ maps → cf_map ∈ σ.db_id_to_write_rate_map_ →
      RateReachable (UpdateRate σ maps id cf_map cf_write_rate).1
        (UpdateRate σ maps id cf_map cf_write_rate).2
  | delete (σ : WriteController) (maps : RateMaps) (id cf_map : Nat)
      (r : WriteController × RateMaps) :
      RateReachable σ maps → cf_map ∈ σ.db_id_to_write_rate_map_ →
      DeleteCfFromMapAndMaybeUpdateDelayRate σ maps id cf_map = some r →
      RateReachable r.1 r.2

/-- The scenario of two sources in the map at address `cf_map`, which is empty
and registered first: source `a` gets the rate `ra`, source `b` the rate `rb`,
then the rate of `a` is updated to `ra1`, then `b` is deleted. The result is
the list of the values of `delayed_write_rate()` after the second, the third
and the last of these calls. -/
def twoSources (dynamic_delay : Bool) (max_rate a b cf_map ra rb ra1 : Nat) : Option (List Nat) :=
  let σ0 := AddToDbRateMap (WriteController.new dynamic_delay max_rate) cf_map
  let s1 := UpdateRate σ0 emptyMaps a cf_map ra
  let s2 := UpdateRate s1.1 s1.2 b cf_map rb
  let s3 := UpdateRate s2.1 s2.2 a cf_map ra1
  (DeleteCfFromMapAndMaybeUpdateDelayRate s3.1 s3.2 b cf_map).bind fun s4 =>
  some [s2.1.delayed_write_rate, s3.1.delayed_write_rate, s4.1.delayed_write_rate]

/-- The invariant of the states of `RateReachable`: every registered map has one
entry for each key; the rates are at least 1; `delayed_write_rate_` is the least
of `max_delayed_write_rate_` and the stored rates, each raised to 1 when it is 0. -/
structure RateInv (σ : WriteController) (maps : RateMaps) : Prop where
  keys : ∀ cf_map, cf_map ∈ σ.db_id_to_write_rate_map_ →
    ((maps cf_map).entries.map Prod.fst).Nodup
  max_pos : 1 ≤ σ.max_delayed_write_rate_
  lo : 1 ≤ σ.delayed_write_rate_
  hi : σ.delayed_write_rate_ ≤ σ.max_delayed_write_rate_
  le : ∀ r, HasRate σ maps r → σ.delayed_write_rate_ ≤ max 1 r
  attained : σ.delayed_write_rate_ = σ.max_delayed_write_rate_ ∨
    ∃ r, HasRate σ maps r ∧ σ.delayed_write_rate_ = max 1 r

/-- The controller constructed with the maximal rate 32 MB/s and the memory of
the maps, after `AddToDbRateMap` of the empty map at address 0 and
`UpdateRate(1, cf_map, 2097152)` on it. -/
def exampleRates : WriteController × RateMaps :=
  UpdateRate (AddToDbRateMap (WriteController.new false 33554432) 0) emptyMaps 1 0 2097152

/-! ## The states that the public interface reaches -/

/-- One call of the public interface that is neither the acquisition nor the
release of a stop token or of a compaction-pressure token: the controller and
the memory of the maps before and after the call. -/
inductive Call : WriteController → RateMaps → WriteController → RateMaps → Prop
  | set_rate (σ : WriteController) (maps : RateMaps) (write_rate : Nat) :
      Call σ maps (set_delayed_write_rate σ write_rate) maps
  | set_max_rate (σ : WriteController) (maps : RateMaps) (write_rate : Nat) :
      Call σ maps (set_max_delayed_write_rate σ write_rate) maps
  | delay_token (σ : WriteController) (maps : RateMaps) (write_rate : Nat) :
      Call σ maps (GetDelayToken σ write_rate) maps
  | delay_release (σ σ1 : WriteController) (maps : RateMaps) :
      DelayWriteToken.destructor σ = some σ1 → Call σ maps σ1 maps
  | add (σ : WriteController) (maps : RateMaps) (cf_map : Nat) :
      Call σ maps (AddToDbRateMap σ cf_map) maps
  | remove (σ : WriteController) (maps : RateMaps) (cf_map : Nat) :
      Call σ maps (RemoveFromDbRateMap σ maps cf_map) maps
  | update (σ : WriteController) (maps : RateMaps) (id cf_map cf_write_rate : Nat) :
      Call σ maps (UpdateRate σ maps id cf_map cf_write_rate).1
        (UpdateRate σ maps id cf_map cf_write_rate).2
  | delete (σ : WriteController) (maps : RateMaps) (id cf_map : Nat)
      (r : WriteController × RateMaps) :
      DeleteCfFromMapAndMaybeUpdateDelayRate σ maps id cf_map = some r → Call σ maps r.1 r.2
  | get_delay (σ : WriteController) (maps : RateMaps) (clock num_bytes : Nat)
      (r : Nat × WriteController) :
      GetDelay σ clock num_bytes = some r → Call σ maps r.2 maps

/-- The states of the controller and of the memory of the maps that are
reachable from the constructor through the public interface, the calls in any
order and with any arguments. -/
inductive InterfaceReachable : WriteController → RateMaps → Prop
  | init (dynamic_delay : Bool) (_delayed_write_rate : Nat) (maps : RateMaps) :
      InterfaceReachable (WriteController.new dynamic_delay _delayed_write_rate) maps
  | call (σ σ1 : WriteController) (maps maps1 : RateMaps) :
      InterfaceReachable σ maps → Call σ maps σ1 maps1 → InterfaceReachable σ1 maps1
  | stop (σ : WriteController) (maps : RateMaps) :
      InterfaceReachable σ maps → InterfaceReachable (GetStopToken σ) maps
  | stop_release (σ σ1 : WriteController) (maps : RateMaps) :
      InterfaceReachable σ maps → StopWriteToken.destructor σ = some σ1 →
      InterfaceReachable σ1 maps
  | pressure (σ : WriteController) (maps : RateMaps) :
      InterfaceReachable σ maps → InterfaceReachable (GetCompactionPressureToken σ) maps
  | pressure_release (σ σ1 : WriteController) (maps : RateMaps) :
      InterfaceReachable σ maps → CompactionPressureToken.destructor σ = some σ1 →
      InterfaceReachable σ1 maps

/-- The states that are reachable from the constructor, with the number of stop
tokens and the number of compaction-pressure tokens that are held: a token is
released only while it is held, and fewer than `2 ^ 31` tokens of a kind are
held at a time, the range of the `int` counters. -/
inductive Held : WriteController → Nat → Nat → Prop
  | init (dynamic_delay : Bool) (_delayed_write_rate : Nat) :
      Held (WriteController.new dynamic_delay _delayed_write_rate) 0 0
  | call (σ σ1 : WriteController) (maps maps1 : RateMaps) (stops pressures : Nat) :
      Held σ stops pressures → Call σ maps σ1 maps1 → Held σ1 stops pressures
  | stop (σ : WriteController) (stops pressures : Nat) :
      Held σ stops pressures → stops + 1 < 2 ^ 31 → Held (GetStopToken σ) (stops + 1) pressures
  | stop_release (σ σ1 : WriteController) (stops pressures : Nat) :
      Held σ (stops + 1) pressures → StopWriteToken.destructor σ = some σ1 →
      Held σ1 stops pressures
  | pressure (σ : WriteController) (stops pressures : Nat) :
      Held σ stops pressures → pressures + 1 < 2 ^ 31 →
      Held (GetCompactionPressureToken σ) stops (pressures + 1)
  | pressure_release (σ σ1 : WriteController) (stops pressures : Nat) :
      Held σ stops (pressures + 1) → CompactionPressureToken.destructor σ = some σ1 →
      Held σ1 stops pressures

/-- The controller that holds two stop tokens and one compaction-pressure
token. -/
def exampleHeld : WriteController :=
  GetCompactionPressureToken (GetStopToken (GetStopToken (WriteController.new false 1048576)))

/-- The controller constructed with the maximal rate 1 MB/s and the memory of
the maps, after `AddToDbRateMap` of the empty map at address 0 and
`UpdateRate(1, cf_map, 0)` on it. -/
def exampleRatesZero : WriteController × RateMaps :=
  UpdateRate (AddToDbRateMap (WriteController.new false 1048576) 0) emptyMaps 1 0 0

/-- The number of the entries `(id, rate)` of the registered maps, all maps
taken together. -/
def entryCount (σ : WriteController) (maps : RateMaps) : Nat :=
  (σ.db_id_to_write_rate_map_.map fun cf_map => (maps cf_map).size).sum

/-- The controller constructed with the rate 999001 bytes per second, after one
`GetDelayToken(999001)`. -/
def exampleControllerOdd : WriteController :=
  GetDelayToken (WriteController.new false 999001) 999001

/-- The controller `exampleControllerOdd` after `GetDelay(clock, 4997)` at the
clock value 0: the refill earns 1000 bytes and the other 3997 bytes need
4000 us. -/
def exampleControllerOdd1 : WriteController :=
  { total_stopped_ := 0, total_delayed_ := 1, total_compaction_pressure_ := 0,
    credit_in_bytes_ := 0, next_refill_time_ := 5000, max_delayed_write_rate_ := 999001,
    delayed_write_rate_ := 999001, dynamic_delay_ := false, db_id_to_write_rate_map_ := [] }

/-- The controller constructed with the rate 1000000 bytes per second, after one
`GetDelayToken(1000000)`. -/
def exampleControllerMillion : WriteController :=
  GetDelayToken (WriteController.new false 1000000) 1000000

end WriteController -- definitions

/-! ## MemTable (db/memtable.h): the reference count and the flush state

The field `refs_` is an `int` that is not atomic: the model reads it as an
integer, and a call that would take it out of the range of `int` has no result.
The field `flush_state_` is an atomic `FlushStateEnum`; the compare-and-swap of
`MarkFlushScheduled` is one step. The other fields of the class are not read or
written by the four methods below.
-/

/-- The enumeration `FlushStateEnum`. -/
inductive FlushStateEnum
  | FLUSH_NOT_REQUESTED
  | FLUSH_REQUESTED
  | FLUSH_SCHEDULED
deriving DecidableEq

/-- The value of an enumerator of `FlushStateEnum`, in the order of the
declaration. -/
def FlushStateEnum.value : FlushStateEnum → Nat
  | FLUSH_NOT_REQUESTED => 0
  | FLUSH_REQUESTED => 1
  | FLUSH_SCHEDULED => 2

/-- The fields `refs_` and `flush_state_` of the class `MemTable`. -/
structure MemTable where
  refs_ : Int
  flush_state_ : FlushStateEnum
deriving DecidableEq

namespace MemTable

/-- The method `Ref()`: `++refs_`. -/
def Ref (m : MemTable) : Option MemTable :=
  if m.refs_ < 2 ^ 31 - 1 then some { m with refs_ := m.refs_ + 1 } else none

/-- The method `Unref()`, with its assert `refs_ >= 0`: whether the call returns
`this` (and not `nullptr`), and the memtable after the call. -/
def Unref (m : MemTable) : Option (Bool × MemTable) :=
  if -2 ^ 31 < m.refs_ then
    let m1 := { m with refs_ := m.refs_ - 1 }
    (assert (decide (0 ≤ m1.refs_))).bind fun _ =>
    if m1.refs_ ≤ 0 then some (true, m1) else some (false, m1)
  else none

/-- The method `ShouldScheduleFlush()`. -/
def ShouldScheduleFlush (m : MemTable) : Bool :=
  decide (m.flush_state_ = FlushStateEnum.FLUSH_REQUESTED)

/-- The method `MarkFlushScheduled()`: the result of `compare_exchange_strong`
and the memtable after the call. -/
def MarkFlushScheduled (m : MemTable) : Bool × MemTable :=
  let before := FlushStateEnum.FLUSH_REQUESTED
  if m.flush_state_ = before then (true, { m with flush_state_ := FlushStateEnum.FLUSH_SCHEDULED })
  else (false, m)

/-- A number of calls of `Ref()`, one after the other. -/
def RefTimes : Nat → MemTable → Option MemTable
  | 0, m => some m
  | n + 1, m => (Ref m).bind fun m1 => RefTimes n m1

/-- A number of calls of `Unref()`, one after the other: whether each call
returns `this`, in the order of the calls, and the memtable at the end. -/
def UnrefTimes : Nat → MemTable → Option (List Bool × MemTable)
  | 0, m => some ([], m)
  | n + 1, m =>
    (Unref m).bind fun r =>
    (UnrefTimes n r.2).bind fun q => some (r.1 :: q.1, q.2)

/-- A number of calls of `MarkFlushScheduled()`, one after the other: the
results in the order of the calls, and the memtable at the end. -/
def MarkFlushScheduledTimes : Nat → MemTable → List Bool × MemTable
  | 0, m => ([], m)
  | n + 1, m =>
    let r := MarkFlushScheduled m
    let q := MarkFlushScheduledTimes n r.2
    (r.1 :: q.1, q.2)

/-- A memtable without a reference, for which no flush is requested. -/
def exampleMemTable : MemTable :=
  { refs_ := 0, flush_state_ := FlushStateEnum.FLUSH_NOT_REQUESTED }

/-- A memtable with two references, for which a flush is requested. -/
def exampleMemTable2 : MemTable :=
  { refs_ := 2, flush_state_ := FlushStateEnum.FLUSH_REQUESTED }

end MemTable -- definitions

-- end of the definitions
namespace SpdbSortedList

variable {K : Type} [LinearOrder K]

/-! ## Theorems -/

theorem compare__lt (a b : K) : compare_ a b < 0 ↔ a < b := by
  unfold compare_; split_ifs <;> simp_all

theorem compare__eq (a b : K) : compare_ a b = 0 ↔ a = b := by
  unfold compare_; split_ifs with h1 h2 <;> simp_all
  exact ne_of_lt h1

theorem compare__gt (a b : K) : 0 < compare_ a b ↔ b < a := by
  unfold compare_; split_ifs with h1 h2
  · simp; exact le_of_lt h1
  · simp [h2]
  · simp; exact lt_of_le_of_ne (not_lt.mp h1) (Ne.symm h2)

theorem compare__ge (a b : K) : 0 ≤ compare_ a b ↔ b ≤ a := by
  unfold compare_; split_ifs with h1 h2
  · simp; exact h1
  · simp [h2]
  · simp; exact not_lt.mp h1

theorem compare__le (a b : K) : compare_ a b ≤ 0 ↔ a ≤ b := by
  unfold compare_; split_ifs with h1 h2
  · simp; exact le_of_lt h1
  · simp [h2]
  · simp; exact lt_of_le_of_ne (not_lt.mp h1) (Ne.symm h2)

theorem keyB_some {σ : SpdbSortedList K} {a : Nat} {k : K} (h : σ.key a = some k) :
    keyB σ a = (k : WithBot K) := by
  simp [keyB, h]

theorem keyB_none {σ : SpdbSortedList K} {a : Nat} (h : σ.key a = none) :
    keyB σ a = ⊥ := by
  simp [keyB, h]

theorem KeyIsAfterNode_some {σ : SpdbSortedList K} {a : Nat} {ka : K} (key : K)
    (h : σ.key a = some ka) : KeyIsAfterNode σ key (some a) = some (decide (ka < key)) := by
  simp [KeyIsAfterNode, h, compare__lt]

theorem countP_lt_of_imp {α : Type} (p q : α → Bool) (l : List α)
    (himp : ∀ a ∈ l, p a = true → q a = true) (w : α) (hw : w ∈ l) (hq : q w = true) (hp : p w = false) :
    l.countP p < l.countP q := by
  induction l with
  | nil => simp at hw
  | cons b t ih =>
    rw [List.countP_cons, List.countP_cons]
    rcases List.mem_cons.mp hw with rfl | hwt
    · have hle : t.countP p ≤ t.countP q :=
        List.countP_mono_left fun a ha => himp a (List.mem_cons_of_mem _ ha)
      simp [hq, hp]; omega
    · have hlt := ih (fun a ha => himp a (List.mem_cons_of_mem _ ha)) hwt
      have hb := himp b (List.mem_cons_self _ _)
      by_cases hpb : p b = true
      · simp [hpb, hb hpb]; omega
      · simp [hpb]; omega

theorem LevelInv.keyB_ne_bot {σ : SpdbSortedList K} {mem : Nat → Prop} {L : Nat}
    (hl : LevelInv σ mem L) {a : Nat} (ha : mem a) : keyB σ a ≠ ⊥ := by
  obtain ⟨k, hk⟩ := hl.key a ha
  rw [keyB_some hk]; exact WithBot.coe_ne_bot

theorem LevelInv.Next_eq {σ : SpdbSortedList K} {mem : Nat → Prop} {L : Nat}
    (hl : LevelInv σ mem L) {a : Nat} (ha : a = 0 ∨ mem a) :
    Next σ a L = some (σ.next a L) := by
  have : L < σ.height a := by
    rcases ha with rfl | ha
    · exact hl.head_height
    · exact hl.height a ha
  simp [Next, this]

theorem LevelInv.assertSorted_ok {σ : SpdbSortedList K} {mem : Nat → Prop} {L : Nat}
    (hl : LevelInv σ mem L) {a : Nat} (ha : a = 0 ∨ mem a) :
    assertSorted σ a (σ.next a L) = some () := by
  unfold assertSorted
  by_cases h0 : a = 0
  · simp [h0]
  · have hma : mem a := ha.resolve_left h0
    simp only [h0, if_false]
    cases hn : σ.next a L with
    | none => rfl
    | some nx =>
      obtain ⟨hmn, hlt⟩ := (hl.next a ha).1 nx hn
      obtain ⟨kn, hkn⟩ := hl.key nx hmn
      obtain ⟨ka, hka⟩ := hl.key a hma
      rw [keyB_some hkn, keyB_some hka, WithBot.coe_lt_coe] at hlt
      simp [hkn, KeyIsAfterNode_some kn hka, hlt, assert]

theorem LevelInv.assertAfter_ok {σ : SpdbSortedList K} {mem : Nat → Prop} {L : Nat}
    (hl : LevelInv σ mem L) {k : K} {a : Nat} (ha : Start (keyB σ) mem k a) :
    assertAfter σ k a = some () := by
  unfold assertAfter
  by_cases h0 : a = 0
  · simp [h0]
  · have hma : mem a := ha.1.resolve_left h0
    obtain ⟨ka, hka⟩ := hl.key a hma
    have hlt := ha.2
    rw [keyB_some hka, WithBot.coe_lt_coe] at hlt
    simp [h0, KeyIsAfterNode_some k hka, hlt, assert]

/-- When the walk stops at `p`, the pair `(p, next)` brackets the key. -/
theorem LevelInv.stop {σ : SpdbSortedList K} {mem : Nat → Prop} {L : Nat}
    (hl : LevelInv σ mem L) {k : K} {p : Nat} (hp : Start (keyB σ) mem k p)
    (hn : ∀ c, σ.next p L = some c → (k : WithBot K) ≤ keyB σ c) :
    IsPred (keyB σ) mem k p ∧ IsSucc (keyB σ) mem k (σ.next p L) := by
  have hf := hl.next p hp.1
  refine ⟨⟨hp, ?_⟩, ?_, ?_⟩
  · intro c hc hck
    by_contra hcon
    obtain ⟨b, hb, hbc⟩ := hf.2 c hc (not_le.mp hcon)
    exact absurd (lt_of_le_of_lt (le_trans (hn b hb) hbc) hck) (lt_irrefl _)
  · intro b hb
    exact ⟨(hf.1 b hb).1, hn b hb⟩
  · intro d hd hkd
    exact hf.2 d hd (lt_of_lt_of_le hp.2 hkd)

theorem FindSpliceForLevel_spec {σ : SpdbSortedList K} {mem : Nat → Prop} {L : Nat}
    (hl : LevelInv σ mem L) (k : K) (U : List Nat) (hU : ∀ a, mem a → a ∈ U) :
    ∀ (fuel before : Nat) (after : Option Nat), Start (keyB σ) mem k before →
      (∀ c, after = some c → (k : WithBot K) ≤ keyB σ c) →
      U.countP (fun c => decide (keyB σ before < keyB σ c ∧ keyB σ c < (k : WithBot K))) < fuel →
      ∃ p n, FindSpliceForLevel σ k fuel before after L = some (p, n) ∧
        IsPred (keyB σ) mem k p ∧ IsSucc (keyB σ) mem k n ∧ σ.next p L = n := by
  intro fuel
  induction fuel with
  | zero => intro before after _ _ h; omega
  | succ fuel ih =>
    intro before after hs hafter hm
    unfold FindSpliceForLevel
    rw [hl.Next_eq hs.1]
    simp only [Option.some_bind, hl.assertSorted_ok hs.1, hl.assertAfter_ok hs]
    by_cases hna : σ.next before L = after
    · simp only [hna, if_true]
      have := hl.stop hs (fun c hc => hafter c (hna ▸ hc))
      exact ⟨before, after, rfl, this.1, hna ▸ this.2, hna⟩
    · simp only [hna, if_false]
      cases hn : σ.next before L with
      | none =>
        have := hl.stop hs (fun c hc => by rw [hn] at hc; cases hc)
        refine ⟨before, none, by simp [KeyIsAfterNode], this.1, hn ▸ this.2, hn⟩
      | some nx =>
        obtain ⟨hmn, hlt⟩ := (hl.next before hs.1).1 nx hn
        obtain ⟨kn, hkn⟩ := hl.key nx hmn
        rw [KeyIsAfterNode_some k hkn]
        by_cases hk : kn < k
        · simp only [hk, decide_True, Option.some_bind, if_true]
          have hkb : keyB σ nx < (k : WithBot K) := by
            rw [keyB_some hkn]; exact WithBot.coe_lt_coe.mpr hk
          apply ih nx after ⟨Or.inr hmn, hkb⟩ hafter
          have hlt2 := countP_lt_of_imp
            (fun c => decide (keyB σ nx < keyB σ c ∧ keyB σ c < (k : WithBot K)))
            (fun c => decide (keyB σ before < keyB σ c ∧ keyB σ c < (k : WithBot K))) U
            (by
              intro a _ h
              simp only [decide_eq_true_eq] at h ⊢
              exact ⟨lt_trans hlt h.1, h.2⟩)
            nx (hU nx hmn) (by simp [hlt, hkb]) (by simp)
          omega
        · simp only [hk, decide_False, Option.some_bind]
          have := hl.stop hs (fun c hc => by
            rw [hn] at hc; cases hc
            rw [keyB_some hkn]; exact WithBot.coe_le_coe.mpr (not_lt.mp hk))
          exact ⟨before, some nx, by simp, this.1, hn ▸ this.2, hn⟩

theorem Lvl.mono_level {σ : SpdbSortedList K} {ns : List Nat} {L L' a : Nat} (h : Lvl σ ns L a)
    (hle : L' ≤ L) : Lvl σ ns L' a :=
  ⟨h.1, lt_of_le_of_lt hle h.2⟩

theorem Inv.lvl_zero {σ : SpdbSortedList K} {ns : List Nat} (hi : Inv σ ns) {a : Nat}
    (ha : a ∈ ns) : Lvl σ ns 0 a :=
  ⟨ha, (hi.node a ha).2.2.1⟩

theorem Inv.kMax_pos {σ : SpdbSortedList K} {ns : List Nat} (hi : Inv σ ns) :
    0 < σ.kMaxHeight_ :=
  lt_of_lt_of_le hi.height_pos hi.height_le

theorem Start.mono_start {σ : SpdbSortedList K} {ns : List Nat} {L L' : Nat} {k : K} {p : Nat}
    (h : Start (keyB σ) (Lvl σ ns L) k p) (hle : L' ≤ L) :
    Start (keyB σ) (Lvl σ ns L') k p :=
  ⟨h.1.imp id fun hm => hm.mono_level hle, h.2⟩

theorem Inv.key_some {σ : SpdbSortedList K} {ns : List Nat} (hi : Inv σ ns) {a : Nat}
    (ha : a ∈ ns) : ∃ k, σ.key a = some k :=
  (hi.level 0 hi.kMax_pos).key a (hi.lvl_zero ha)

theorem Inv.keyB_head {σ : SpdbSortedList K} {ns : List Nat} (hi : Inv σ ns) :
    keyB σ 0 = ⊥ :=
  keyB_none (hi.level 0 hi.kMax_pos).head_key

theorem Inv.inj {σ : SpdbSortedList K} {ns : List Nat} (hi : Inv σ ns) {a b : Nat}
    (ha : a ∈ ns) (hb : b ∈ ns) (h : keyB σ a = keyB σ b) : a = b :=
  (hi.level 0 hi.kMax_pos).inj a b (hi.lvl_zero ha) (hi.lvl_zero hb) h

/-- The descent of `FindGreaterOrEqual` ends at the first node whose key is at least `k`. -/
theorem FindGreaterOrEqual_loop_spec {σ : SpdbSortedList K} {ns : List Nat} (hi : Inv σ ns)
    (k : K) :
    ∀ (fuel x level : Nat) (last_bigger : Option Nat), level < σ.kMaxHeight_ →
      Start (keyB σ) (Lvl σ ns level) k x →
      (∀ c, last_bigger = some c → (k : WithBot K) < keyB σ c) →
      ns.countP (fun c => decide (keyB σ x < keyB σ c ∧ keyB σ c < (k : WithBot K))) + level < fuel →
      ∃ n, FindGreaterOrEqual.loop σ k fuel x level last_bigger = some n ∧
        IsSucc (keyB σ) (Lvl σ ns 0) k n := by
  intro fuel
  induction fuel with
  | zero => intro x level lb _ _ _ h; omega
  | succ fuel ih =>
    intro x level lb hlev hs hlb hm
    have hl := hi.level level hlev
    unfold FindGreaterOrEqual.loop
    rw [hl.Next_eq hs.1]
    simp only [Option.some_bind, hl.assertSorted_ok hs.1, hl.assertAfter_ok hs]
    cases hn : σ.next x level with
    | none =>
      simp only [true_or, if_true, Option.some_bind]
      by_cases hl0 : level = 0
      · subst hl0
        have := hl.stop hs (fun c hc => by rw [hn] at hc; cases hc)
        exact ⟨none, by simp, hn ▸ this.2⟩
      · have h1 : ¬ ((1 : Int) = 0 ∨ ((0 : Int) < 1 ∧ level = 0)) := by simp [hl0]
        have h2 : ¬ ((1 : Int) < 0) := by decide
        simp only [h1, h2, if_false]
        apply ih x (level - 1) none (by omega) (hs.mono_start (by omega)) (by intro c hc; cases hc)
        omega
    | some nx =>
      obtain ⟨hmn, hlt⟩ := (hl.next x hs.1).1 nx hn
      obtain ⟨kn, hkn⟩ := hl.key nx hmn
      have hcmp : (if (some nx = none ∨ some nx = lb) then some (1 : Int)
          else ((some nx).bind σ.key).bind fun kn => some (compare_ kn k)) =
          some (if some nx = lb then 1 else compare_ kn k) := by
        by_cases hb : some nx = lb
        · simp [hb]
        · simp [hb, hkn]
      rw [hcmp]
      simp only [Option.some_bind]
      have hsign : ∀ v : Int, v = (if some nx = lb then 1 else compare_ kn k) →
          ((v = 0 ↔ kn = k) ∧ (v < 0 ↔ kn < k) ∧ (0 < v ↔ k < kn)) := by
        intro v hv
        by_cases hb : some nx = lb
        · have := hlb nx hb.symm
          rw [keyB_some hkn, WithBot.coe_lt_coe] at this
          simp only [hb, if_true] at hv
          subst hv
          refine ⟨by simp; exact ne_of_gt this, by simp; exact le_of_lt this, by simp [this]⟩
        · simp only [hb, if_false] at hv
          subst hv
          exact ⟨compare__eq _ _, compare__lt _ _, compare__gt _ _⟩
      generalize hv : (if some nx = lb then (1 : Int) else compare_ kn k) = v
      obtain ⟨h0, hneg, hpos⟩ := hsign v hv.symm
      by_cases hret : v = 0 ∨ (0 < v ∧ level = 0)
      · simp only [hret, if_true]
        refine ⟨some nx, rfl, ?_⟩
        rcases hret with hz | ⟨hp, hl0⟩
        · have hkk : keyB σ nx = (k : WithBot K) := by rw [keyB_some hkn, h0.mp hz]
          refine ⟨?_, ?_⟩
          · intro b hb; cases hb
            exact ⟨hmn.mono_level (Nat.zero_le _), le_of_eq hkk.symm⟩
          · intro d _ hd
            exact ⟨nx, rfl, by rw [hkk]; exact hd⟩
        · subst hl0
          have := hl.stop hs (fun c hc => by
            rw [hn] at hc; cases hc
            rw [keyB_some hkn]; exact WithBot.coe_le_coe.mpr (le_of_lt (hpos.mp hp)))
          exact hn ▸ this.2
      · simp only [hret, if_false]
        by_cases hlt0 : v < 0
        · simp only [hlt0, if_true]
          have hkb : keyB σ nx < (k : WithBot K) := by
            rw [keyB_some hkn]; exact WithBot.coe_lt_coe.mpr (hneg.mp hlt0)
          apply ih nx level lb hlev ⟨Or.inr hmn, hkb⟩ hlb
          have hlt2 := countP_lt_of_imp
            (fun c => decide (keyB σ nx < keyB σ c ∧ keyB σ c < (k : WithBot K)))
            (fun c => decide (keyB σ x < keyB σ c ∧ keyB σ c < (k : WithBot K))) ns
            (by
              intro a _ h
              simp only [decide_eq_true_eq] at h ⊢
              exact ⟨lt_trans hlt h.1, h.2⟩)
            nx hmn.1 (by simp [hlt, hkb]) (by simp)
          omega
        · simp only [hlt0, if_false]
          have hvpos : 0 < v := by
            rcases lt_trichotomy v 0 with h | h | h
            · exact absurd h hlt0
            · exact absurd (Or.inl h) hret
            · exact h
          have hl0 : level ≠ 0 := fun h => hret (Or.inr ⟨hvpos, h⟩)
          apply ih x (level - 1) (some nx) (by omega) (hs.mono_start (by omega))
          · intro c hc; cases hc
            rw [keyB_some hkn]; exact WithBot.coe_lt_coe.mpr (hpos.mp hvpos)
          · omega

/-- The descent of `FindLessThan` ends at the last node whose key is below `k`
and records the last such node of every level it visits. -/
theorem FindLessThan_loop_spec {σ : SpdbSortedList K} {ns : List Nat} (hi : Inv σ ns)
    (k : K) :
    ∀ (fuel x level : Nat) (lna : Option Nat) (prev : Option (Nat → Nat)),
      level < σ.kMaxHeight_ →
      Start (keyB σ) (Lvl σ ns level) k x →
      (∀ c, lna = some c → (k : WithBot K) ≤ keyB σ c) →
      ns.countP (fun c => decide (keyB σ x < keyB σ c ∧ keyB σ c < (k : WithBot K))) + level < fuel →
      ∃ r prev1, FindLessThan.loop σ k 0 fuel x level lna prev = some (r, prev1) ∧
        IsPred (keyB σ) (Lvl σ ns 0) k r ∧
        (prev = none → prev1 = none) ∧
        ∀ p, prev = some p → ∃ p1, prev1 = some p1 ∧
          (∀ j, j ≤ level → IsPred (keyB σ) (Lvl σ ns j) k (p1 j)) ∧
          (∀ j, level < j → p1 j = p j) ∧ p1 0 = r := by
  intro fuel
  induction fuel with
  | zero => intro x level lna prev _ _ _ h; omega
  | succ fuel ih =>
    intro x level lna prev hlev hs hlna hm
    have hl := hi.level level hlev
    unfold FindLessThan.loop
    rw [hl.Next_eq hs.1]
    simp only [Option.some_bind, hl.assertSorted_ok hs.1, hl.assertAfter_ok hs]
    -- the value of the test `next != last_not_after && KeyIsAfterNode(key, next)`
    have htest : ∃ b : Bool,
        (if σ.next x level ≠ lna then KeyIsAfterNode σ k (σ.next x level) else some false) = some b ∧
        (b = true → ∃ nx, σ.next x level = some nx ∧ Lvl σ ns level nx ∧
          keyB σ x < keyB σ nx ∧ keyB σ nx < (k : WithBot K)) ∧
        (b = false → ∀ c, σ.next x level = some c → (k : WithBot K) ≤ keyB σ c) := by
      by_cases hne : σ.next x level ≠ lna
      · simp only [hne, if_true, ne_eq, not_false_eq_true]
        cases hn : σ.next x level with
        | none => exact ⟨false, rfl, by simp, by simp⟩
        | some nx =>
          obtain ⟨hmn, hlt⟩ := (hl.next x hs.1).1 nx hn
          obtain ⟨kn, hkn⟩ := hl.key nx hmn
          refine ⟨decide (kn < k), KeyIsAfterNode_some k hkn, ?_, ?_⟩
          · intro hb
            refine ⟨nx, rfl, hmn, hlt, ?_⟩
            rw [keyB_some hkn]; exact WithBot.coe_lt_coe.mpr (by simpa using hb)
          · intro hb c hc
            cases hc
            rw [keyB_some hkn]; exact WithBot.coe_le_coe.mpr (not_lt.mp (by simpa using hb))
      · have heq : σ.next x level = lna := not_not.mp hne
        refine ⟨false, by simp [heq], by simp, ?_⟩
        intro _ c hc
        exact hlna c (heq ▸ hc)
    obtain ⟨b, hb, hbt, hbf⟩ := htest
    rw [hb]
    simp only [Option.some_bind]
    cases b with
    | true =>
      obtain ⟨nx, hn, hmn, hlt, hkb⟩ := hbt rfl
      simp only [if_true, hn]
      have hlt2 := countP_lt_of_imp
        (fun c => decide (keyB σ nx < keyB σ c ∧ keyB σ c < (k : WithBot K)))
        (fun c => decide (keyB σ x < keyB σ c ∧ keyB σ c < (k : WithBot K))) ns
        (by
          intro a _ h
          simp only [decide_eq_true_eq] at h ⊢
          exact ⟨lt_trans hlt h.1, h.2⟩)
        nx hmn.1 (by simp [hlt, hkb]) (by simp)
      exact ih nx level lna prev hlev ⟨Or.inr hmn, hkb⟩ hlna (by omega)
    | false =>
      have hstop := hl.stop hs (hbf rfl)
      simp only [Bool.false_eq_true, if_false]
      by_cases hl0 : level = 0
      · subst hl0
        simp only [if_true]
        refine ⟨x, _, rfl, hstop.1, ?_, ?_⟩
        · intro hp; simp [hp]
        · intro p hp
          subst hp
          refine ⟨setAt p 0 x, rfl, ?_, ?_, by simp [setAt]⟩
          · intro j hj
            have : j = 0 := by omega
            subst this
            simpa [setAt] using hstop.1
          · intro j hj
            have : j ≠ 0 := by omega
            simp [setAt, this]
      · simp only [hl0, if_false]
        obtain ⟨r, prev1, hr, hpred, hnone, hsome⟩ :=
          ih x (level - 1) (σ.next x level) (prev.map fun p => setAt p level x) (by omega)
            (hs.mono_start (by omega)) (hbf rfl) (by omega)
        refine ⟨r, prev1, hr, hpred, ?_, ?_⟩
        · intro hp; apply hnone; simp [hp]
        · intro p hp
          subst hp
          obtain ⟨p1, hp1, hlow, hhigh, hzero⟩ := hsome (setAt p level x) rfl
          refine ⟨p1, hp1, ?_, ?_, hzero⟩
          · intro j hj
            by_cases hjl : j = level
            · subst hjl
              rw [hhigh j (by omega)]
              simpa [setAt] using hstop.1
            · exact hlow j (by omega)
          · intro j hj
            rw [hhigh j (by omega)]
            have : j ≠ level := by omega
            simp [setAt, this]

/-- The descent of `FindLast` ends at the node of greatest key, or at `head_`. -/
theorem FindLast_loop_spec {σ : SpdbSortedList K} {ns : List Nat} (hi : Inv σ ns) :
    ∀ (fuel x level : Nat), level < σ.kMaxHeight_ →
      (x = 0 ∨ Lvl σ ns level x) →
      ns.countP (fun c => decide (keyB σ x < keyB σ c)) + level < fuel →
      ∃ r, FindLast.loop σ fuel x level = some r ∧ (r = 0 ∨ r ∈ ns) ∧
        ∀ c, c ∈ ns → keyB σ c ≤ keyB σ r := by
  intro fuel
  induction fuel with
  | zero => intro x level _ _ h; omega
  | succ fuel ih =>
    intro x level hlev hx hm
    have hl := hi.level level hlev
    unfold FindLast.loop
    rw [hl.Next_eq hx]
    simp only [Option.some_bind]
    cases hn : σ.next x level with
    | none =>
      simp only
      by_cases hl0 : level = 0
      · subst hl0
        simp only [if_true]
        refine ⟨x, rfl, hx.imp id (fun h => h.1), ?_⟩
        intro c hc
        by_contra hcon
        obtain ⟨b, hb, _⟩ := (hl.next x hx).2 c (hi.lvl_zero hc) (not_le.mp hcon)
        rw [hn] at hb; cases hb
      · simp only [hl0, if_false]
        exact ih x (level - 1) (by omega) (hx.imp id fun h => h.mono_level (by omega)) (by omega)
    | some nx =>
      simp only
      obtain ⟨hmn, hlt⟩ := (hl.next x hx).1 nx hn
      have hlt2 := countP_lt_of_imp
        (fun c => decide (keyB σ nx < keyB σ c))
        (fun c => decide (keyB σ x < keyB σ c)) ns
        (by
          intro a _ h
          simp only [decide_eq_true_eq] at h ⊢
          exact lt_trans hlt h)
        nx hmn.1 (by simp [hlt]) (by simp)
      exact ih nx level hlev (Or.inr hmn) (by omega)

theorem IsFirst_find {kb : Nat → WithBot K} {ns : List Nat}
    (hs : ns.Pairwise (fun a b => kb a < kb b)) (P : Nat → Prop) [DecidablePred P] :
    IsFirst kb (fun a => a ∈ ns) P (ns.find? (fun a => decide (P a))) := by
  induction ns with
  | nil => exact ⟨by simp, by simp⟩
  | cons a t ih =>
    have ht := ih (List.Pairwise.of_cons hs)
    have hat : ∀ d, d ∈ t → kb a < kb d := fun d hd => List.rel_of_pairwise_cons hs hd
    by_cases hp : P a
    · rw [List.find?_cons_of_pos _ (by simpa using hp)]
      refine ⟨?_, ?_⟩
      · intro b hb; cases hb; exact ⟨List.mem_cons_self _ _, hp⟩
      · intro d hd _
        refine ⟨a, rfl, ?_⟩
        rcases List.mem_cons.mp hd with rfl | hdt
        · exact le_refl _
        · exact le_of_lt (hat d hdt)
    · rw [List.find?_cons_of_neg _ (by simpa using hp)]
      refine ⟨?_, ?_⟩
      · intro b hb
        exact ⟨List.mem_cons_of_mem _ (ht.1 b hb).1, (ht.1 b hb).2⟩
      · intro d hd hpd
        rcases List.mem_cons.mp hd with rfl | hdt
        · exact absurd hpd hp
        · exact ht.2 d hdt hpd

theorem IsFirst.unique_first {kb : Nat → WithBot K} {mem P : Nat → Prop} {r r' : Option Nat}
    (hinj : ∀ a b, mem a → mem b → kb a = kb b → a = b)
    (h : IsFirst kb mem P r) (h' : IsFirst kb mem P r') : r = r' := by
  cases hr : r with
  | none =>
    cases hr' : r' with
    | none => rfl
    | some b' =>
      obtain ⟨hm, hp⟩ := h'.1 b' hr'
      obtain ⟨b, hb, _⟩ := h.2 b' hm hp
      rw [hr] at hb; cases hb
  | some b =>
    obtain ⟨hm, hp⟩ := h.1 b hr
    obtain ⟨b', hb', hle'⟩ := h'.2 b hm hp
    obtain ⟨hm', hp'⟩ := h'.1 b' hb'
    obtain ⟨b2, hb2, hle⟩ := h.2 b' hm' hp'
    rw [hr] at hb2; cases hb2
    rw [hb', hinj b' b hm' hm (le_antisymm hle' hle)]

theorem IsFirst.congr_first {kb : Nat → WithBot K} {mem mem' P P' : Nat → Prop} {r : Option Nat}
    (h : IsFirst kb mem P r) (hiff : ∀ a, (mem a ∧ P a) ↔ (mem' a ∧ P' a)) :
    IsFirst kb mem' P' r :=
  ⟨fun b hb => (hiff b).mp (h.1 b hb), fun d hd hp => h.2 d ((hiff d).mpr ⟨hd, hp⟩).1
    ((hiff d).mpr ⟨hd, hp⟩).2⟩

theorem pairwise_inj {kb : Nat → WithBot K} {ns : List Nat}
    (hs : ns.Pairwise (fun a b => kb a < kb b)) :
    ∀ a b, a ∈ ns → b ∈ ns → kb a = kb b → a = b := by
  induction ns with
  | nil => intro a b ha; simp at ha
  | cons c t ih =>
    intro a b ha hb hab
    have hct : ∀ d, d ∈ t → kb c < kb d := fun d hd => List.rel_of_pairwise_cons hs hd
    rcases List.mem_cons.mp ha with rfl | hat
    · rcases List.mem_cons.mp hb with rfl | hbt
      · rfl
      · exact absurd hab (ne_of_lt (hct b hbt))
    · rcases List.mem_cons.mp hb with rfl | hbt
      · exact absurd hab.symm (ne_of_lt (hct a hat))
      · exact ih (List.Pairwise.of_cons hs) a b hat hbt hab

/-- A pointer that is first among the nodes of a level is found by `find?` on the list. -/
theorem Inv.first_eq_find {σ : SpdbSortedList K} {ns : List Nat} (hi : Inv σ ns) {L : Nat}
    (P : Nat → Prop) [DecidablePred P] {r : Option Nat}
    (h : IsFirst (keyB σ) (Lvl σ ns L) P r) :
    r = ns.find? (fun a => decide (L < σ.height a ∧ P a)) := by
  have h1 : IsFirst (keyB σ) (fun a => a ∈ ns) (fun a => L < σ.height a ∧ P a) r :=
    h.congr_first fun a => by simp [Lvl, and_assoc]
  exact h1.unique_first (pairwise_inj hi.sorted) (IsFirst_find hi.sorted _)

theorem Inv.nodup {σ : SpdbSortedList K} {ns : List Nat} (hi : Inv σ ns) : ns.Nodup := by
  refine hi.sorted.imp ?_
  intro a b h hab
  rw [hab] at h
  exact lt_irrefl _ h

theorem Inv.length_le {σ : SpdbSortedList K} {ns : List Nat} (hi : Inv σ ns) :
    ns.length ≤ σ.count := by
  have hsub : ns.toFinset ⊆ Finset.Icc 1 σ.count := by
    intro a ha
    rw [List.mem_toFinset] at ha
    have := hi.node a ha
    rw [Finset.mem_Icc]
    omega
  have := Finset.card_le_card hsub
  rw [List.toFinset_card_of_nodup hi.nodup, Nat.card_Icc] at this
  omega

theorem Inv.countP_le {σ : SpdbSortedList K} {ns : List Nat} (hi : Inv σ ns)
    (p : Nat → Bool) : ns.countP p ≤ σ.count :=
  le_trans (List.countP_le_length _) hi.length_le

/-- The level-`L` pointer of the node that ends a prefix of the list of level
`L` is the first node of the rest. -/
theorem Inv.next_split {σ : SpdbSortedList K} {ns : List Nat} (hi : Inv σ ns) {L : Nat}
    (hL : L < σ.kMaxHeight_) {l1 l2 : List Nat}
    (hns : ns.filter (fun a => decide (L < σ.height a)) = l1 ++ l2) {p : Nat}
    (hp : p = 0 ∨ p ∈ l1) (hmax : ∀ c, c ∈ l1 → keyB σ c ≤ keyB σ p) :
    σ.next p L = l2.head? := by
  have hl := hi.level L hL
  have hmemc : ∀ a, a ∈ l1 ++ l2 → Lvl σ ns L a := by
    intro a ha
    rw [← hns, List.mem_filter, decide_eq_true_eq] at ha
    exact ha
  have hpm : p = 0 ∨ Lvl σ ns L p :=
    hp.imp id fun h => hmemc p (List.mem_append_left _ h)
  have hfind : ns.find? (fun a => decide (L < σ.height a ∧ keyB σ p < keyB σ a)) =
      (l1 ++ l2).find? (fun a => decide (keyB σ p < keyB σ a)) := by
    rw [← hns, List.find?_filter]
    congr 1
    funext a
    simp [Bool.decide_and]
  rw [hi.first_eq_find _ (hl.next p hpm), hfind, List.find?_append]
  have h1 : l1.find? (fun a => decide (keyB σ p < keyB σ a)) = none := by
    rw [List.find?_eq_none]
    intro c hc
    simp only [decide_eq_true_eq, not_lt]
    exact hmax c hc
  rw [h1]
  cases l2 with
  | nil => simp
  | cons b t =>
    have hb : Lvl σ ns L b := hmemc b (by simp)
    have hsorted : (l1 ++ b :: t).Pairwise (fun a b => keyB σ a < keyB σ b) := by
      rw [← hns]; exact hi.sorted.filter _
    rw [List.pairwise_append] at hsorted
    have hpb : keyB σ p < keyB σ b := by
      rcases hp with rfl | hp
      · rw [hi.keyB_head]
        exact Ne.bot_lt (hl.keyB_ne_bot hb)
      · exact hsorted.2.2 p hp b (List.mem_cons_self _ _)
    rw [List.find?_cons_of_pos _ (by simpa using hpb)]
    simp

theorem Inv.chainFrom_eq {σ : SpdbSortedList K} {ns : List Nat} (hi : Inv σ ns) {L : Nat}
    (hL : L < σ.kMaxHeight_) :
    ∀ (l2 l1 : List Nat) (p fuel : Nat),
      ns.filter (fun a => decide (L < σ.height a)) = l1 ++ l2 → (p = 0 ∨ p ∈ l1) →
      (∀ c, c ∈ l1 → keyB σ c ≤ keyB σ p) → l2.length < fuel →
      chainFrom σ L fuel (σ.next p L) = some l2 := by
  intro l2
  induction l2 with
  | nil =>
    intro l1 p fuel hns hp hmax hf
    rw [hi.next_split hL hns hp hmax]
    cases fuel with
    | zero => simp at hf
    | succ f => rfl
  | cons b t ih =>
    intro l1 p fuel hns hp hmax hf
    rw [hi.next_split hL hns hp hmax]
    cases fuel with
    | zero => simp at hf
    | succ f =>
      have hb : Lvl σ ns L b := by
        have : b ∈ ns.filter (fun a => decide (L < σ.height a)) := by rw [hns]; simp
        rw [List.mem_filter, decide_eq_true_eq] at this
        exact this
      have hl := hi.level L hL
      have hsorted : (l1 ++ b :: t).Pairwise (fun a b => keyB σ a < keyB σ b) := by
        rw [← hns]; exact hi.sorted.filter _
      rw [List.pairwise_append] at hsorted
      simp only [List.head?_cons, chainFrom]
      rw [hl.Next_eq (Or.inr hb)]
      simp only [Option.some_bind]
      rw [ih (l1 ++ [b]) b f (by rw [hns]; simp) (Or.inr (by simp)) ?_ (by simpa using hf)]
      · rfl
      · intro c hc
        rcases List.mem_append.mp hc with hc1 | hc1
        · exact le_of_lt (hsorted.2.2 c hc1 b (List.mem_cons_self _ _))
        · simp at hc1; rw [hc1]

/-- Following the level-`L` pointers from `head_` visits, in the order of the
list, the nodes that have a pointer of level `L`. -/
theorem Inv.levelChain_eq {σ : SpdbSortedList K} {ns : List Nat} (hi : Inv σ ns) {L : Nat}
    (hL : L < σ.kMaxHeight_) {fuel : Nat} (hf : ns.length < fuel) :
    levelChain fuel σ L = some (ns.filter (fun a => decide (L < σ.height a))) := by
  unfold levelChain
  rw [(hi.level L hL).Next_eq (Or.inl rfl)]
  simp only [Option.some_bind]
  exact hi.chainFrom_eq hL _ [] 0 fuel rfl (Or.inl rfl) (by simp)
    (lt_of_le_of_lt (List.length_filter_le _ _) hf)

/-- Following the level-0 pointers from `head_` visits the nodes of the list in order. -/
theorem Inv.chain_eq {σ : SpdbSortedList K} {ns : List Nat} (hi : Inv σ ns) {fuel : Nat}
    (hf : ns.length < fuel) : chain fuel σ = some ns := by
  unfold chain
  rw [hi.levelChain_eq hi.kMax_pos hf]
  congr 1
  rw [List.filter_eq_self]
  intro a ha
  simpa using (hi.node a ha).2.2.1

@[simp] theorem Splice.set_prev (sp : Splice) (i p : Nat) (n : Option Nat) (j : Nat) :
    (sp.set i p n).prev_ j = if j = i then p else sp.prev_ j := rfl

@[simp] theorem Splice.set_next (sp : Splice) (i p : Nat) (n : Option Nat) (j : Nat) :
    (sp.set i p n).next_ j = if j = i then n else sp.next_ j := rfl

@[simp] theorem Splice.set_height (sp : Splice) (i p : Nat) (n : Option Nat) :
    (sp.set i p n).height_ = sp.height_ := rfl

theorem skipPrev_spec (sp : Splice) (bad M : Nat) (hbad : sp.prev_ M ≠ bad) :
    ∀ (fuel rh : Nat), rh ≤ M → M - rh + 1 ≤ fuel →
      ∃ rh1, Insert.skipPrev sp bad fuel rh = some rh1 ∧ rh ≤ rh1 ∧ rh1 ≤ M ∧
        sp.prev_ rh1 ≠ bad := by
  intro fuel
  induction fuel with
  | zero => intro rh _ h; omega
  | succ fuel ih =>
    intro rh hle hf
    unfold Insert.skipPrev
    by_cases hb : sp.prev_ rh = bad
    · simp only [hb, if_true]
      have hne : rh ≠ M := fun h => hbad (h ▸ hb)
      obtain ⟨rh1, h1, h2, h3, h4⟩ := ih (rh + 1) (by omega) (by omega)
      exact ⟨rh1, h1, by omega, h3, h4⟩
    · simp only [hb, if_false]
      exact ⟨rh, rfl, le_refl _, hle, hb⟩

theorem skipNext_spec (sp : Splice) (bad : Option Nat) (M : Nat) (hbad : sp.next_ M ≠ bad) :
    ∀ (fuel rh : Nat), rh ≤ M → M - rh + 1 ≤ fuel →
      ∃ rh1, Insert.skipNext sp bad fuel rh = some rh1 ∧ rh ≤ rh1 ∧ rh1 ≤ M ∧
        sp.next_ rh1 ≠ bad := by
  intro fuel
  induction fuel with
  | zero => intro rh _ h; omega
  | succ fuel ih =>
    intro rh hle hf
    unfold Insert.skipNext
    by_cases hb : sp.next_ rh = bad
    · simp only [hb, if_true]
      have hne : rh ≠ M := fun h => hbad (h ▸ hb)
      obtain ⟨rh1, h1, h2, h3, h4⟩ := ih (rh + 1) (by omega) (by omega)
      exact ⟨rh1, h1, by omega, h3, h4⟩
    · simp only [hb, if_false]
      exact ⟨rh, rfl, le_refl _, hle, hb⟩

theorem Inv.coe_gt_head {σ : SpdbSortedList K} {ns : List Nat} (hi : Inv σ ns) (k : K) :
    keyB σ 0 < (k : WithBot K) := by
  rw [hi.keyB_head]; exact WithBot.bot_lt_coe k

/-- The validation loop of `Insert` ends at a level whose entries bracket the
key and are adjacent, or at the height of the list. -/
theorem validate_spec {σ : SpdbSortedList K} {ns : List Nat} (hi : Inv σ ns) (k : K)
    {sp : Splice} (hsp : SpliceFrom σ ns sp 0) (hh : sp.height_ = σ.max_height_)
    (allow : Bool) :
    ∀ (fuel rh : Nat), rh ≤ σ.max_height_ → σ.max_height_ - rh + 2 ≤ fuel →
      ∃ rh1, Insert.validate σ k sp allow σ.max_height_ fuel rh = some rh1 ∧
        rh1 ≤ σ.max_height_ ∧
        (keyB σ (sp.prev_ rh1) < (k : WithBot K) ∧
          ∀ c, sp.next_ rh1 = some c → (k : WithBot K) ≤ keyB σ c) ∧
        (rh1 < σ.max_height_ → σ.next (sp.prev_ rh1) rh1 = sp.next_ rh1) := by
  intro fuel
  induction fuel with
  | zero => intro rh _ h; omega
  | succ fuel ih =>
    intro rh hle hf
    unfold Insert.validate
    by_cases hlt : rh < σ.max_height_
    · simp only [hlt, if_true]
      have hlev : rh < σ.kMaxHeight_ := lt_of_lt_of_le hlt hi.height_le
      have hl := hi.level rh hlev
      have hlink := hsp.linked rh (Nat.zero_le _) (hh ▸ hlt)
      rw [hl.Next_eq hlink.1]
      simp only [Option.some_bind]
      by_cases htight : σ.next (sp.prev_ rh) rh = sp.next_ rh
      · simp only [htight, ne_eq, not_true_eq_false, if_false]
        -- the test `prev != head_ && !KeyIsAfterNode(key, prev)`
        have hbefore : ∃ b : Bool, (if sp.prev_ rh ≠ 0 then
              (KeyIsAfterNode σ k (some (sp.prev_ rh))).bind fun b => some (!b)
            else some false) = some b ∧
            (b = true → sp.prev_ rh ≠ 0) ∧
            (b = false → keyB σ (sp.prev_ rh) < (k : WithBot K)) := by
          by_cases h0 : sp.prev_ rh = 0
          · refine ⟨false, by simp [h0], by simp, ?_⟩
            intro _; rw [h0]; exact hi.coe_gt_head k
          · obtain ⟨kp, hkp⟩ := hl.key _ (hlink.1.resolve_left h0)
            refine ⟨!decide (kp < k), by simp [h0, KeyIsAfterNode_some k hkp], fun _ => h0, ?_⟩
            intro hb
            rw [keyB_some hkp]
            exact WithBot.coe_lt_coe.mpr (by simpa using hb)
        obtain ⟨b, hb, hbt, hbf⟩ := hbefore
        rw [hb]
        simp only [Option.some_bind]
        cases b with
        | true =>
          simp only [if_true]
          cases allow with
          | true =>
            simp only [if_true]
            obtain ⟨rh1, h1, h2, h3, h4⟩ := skipPrev_spec sp (sp.prev_ rh) σ.max_height_
              (by rw [← hh, hsp.top_prev]; exact fun h => hbt rfl h.symm) fuel rh hle (by omega)
            have hne : rh1 ≠ rh := fun h => h4 (h ▸ rfl)
            rw [h1]
            simp only [Option.some_bind]
            exact ih rh1 h3 (by omega)
          | false =>
            simp only [Bool.false_eq_true, if_false]
            exact ih σ.max_height_ (le_refl _) (by omega)
        | false =>
          simp only [Bool.false_eq_true, if_false]
          have hafter : ∃ b : Bool, KeyIsAfterNode σ k (sp.next_ rh) = some b ∧
              (b = true → sp.next_ rh ≠ none) ∧
              (b = false → ∀ c, sp.next_ rh = some c → (k : WithBot K) ≤ keyB σ c) := by
            cases hn : sp.next_ rh with
            | none => exact ⟨false, rfl, by simp, by simp⟩
            | some c =>
              obtain ⟨kc, hkc⟩ := hl.key _ (hlink.2 c hn)
              refine ⟨decide (kc < k), KeyIsAfterNode_some k hkc, by simp, ?_⟩
              intro hb c' hc'
              cases hc'
              rw [keyB_some hkc]
              exact WithBot.coe_le_coe.mpr (not_lt.mp (by simpa using hb))
          obtain ⟨b2, hb2, hb2t, hb2f⟩ := hafter
          rw [hb2]
          simp only [Option.some_bind]
          cases b2 with
          | true =>
            simp only [if_true]
            cases allow with
            | true =>
              simp only [if_true]
              obtain ⟨rh1, h1, h2, h3, h4⟩ := skipNext_spec sp (sp.next_ rh) σ.max_height_
                (by rw [← hh, hsp.top_next]; exact fun h => hb2t rfl h.symm) fuel rh hle (by omega)
              have hne : rh1 ≠ rh := fun h => h4 (h ▸ rfl)
              rw [h1]
              simp only [Option.some_bind]
              exact ih rh1 h3 (by omega)
            | false =>
              simp only [Bool.false_eq_true, if_false]
              exact ih σ.max_height_ (le_refl _) (by omega)
          | false =>
            simp only [Bool.false_eq_true, if_false]
            exact ⟨rh, rfl, hle, ⟨hbf rfl, hb2f rfl⟩, fun _ => htight⟩
      · simp only [htight, ne_eq, not_false_eq_true, if_true]
        exact ih (rh + 1) (by omega) (by omega)
    · simp only [hlt, if_false]
      have hrh : rh = σ.max_height_ := by omega
      refine ⟨rh, rfl, hle, ?_, fun h => absurd h hlt⟩
      rw [hrh, ← hh, hsp.top_prev, hsp.top_next]
      exact ⟨hi.coe_gt_head k, by simp⟩

/-- A bracket that is the last node below the key and the first node not below
it is adjacent in the list of its level. -/
theorem LevelInv.prec_tight {σ : SpdbSortedList K} {mem : Nat → Prop} {L : Nat}
    (hl : LevelInv σ mem L) {k : K} {p : Nat} {n : Option Nat}
    (hp : IsPred (keyB σ) mem k p) (hn : IsSucc (keyB σ) mem k n) :
    σ.next p L = n := by
  refine IsFirst.unique_first hl.inj (hl.next p hp.1.1) ⟨?_, ?_⟩
  · intro b hb
    exact ⟨(hn.1 b hb).1, lt_of_lt_of_le hp.1.2 (hn.1 b hb).2⟩
  · intro d hd hpd
    apply hn.2 d hd
    by_contra hcon
    exact absurd (lt_of_lt_of_le hpd (hp.2 d hd (not_le.mp hcon))) (lt_irrefl _)

theorem IsPred.unique_pred {kb : Nat → WithBot K} {mem : Nat → Prop} {k : K} {p p' : Nat}
    (hinj : ∀ a b, mem a → mem b → kb a = kb b → a = b)
    (h0 : kb 0 = ⊥) (hne : ∀ a, mem a → kb a ≠ ⊥)
    (h : IsPred kb mem k p) (h' : IsPred kb mem k p') : p = p' := by
  rcases h.1.1 with rfl | hm
  · rcases h'.1.1 with rfl | hm'
    · rfl
    · have := h.2 p' hm' h'.1.2
      rw [h0, le_bot_iff] at this
      exact absurd this (hne p' hm')
  · rcases h'.1.1 with rfl | hm'
    · have := h'.2 p hm h.1.2
      rw [h0, le_bot_iff] at this
      exact absurd this (hne p hm)
    · exact hinj p p' hm hm' (le_antisymm (h'.2 p hm h.1.2) (h.2 p' hm' h'.1.2))

theorem Prec.loose_prec {σ : SpdbSortedList K} {ns : List Nat} {k : K} {sp : Splice} {j : Nat}
    (h : Prec σ ns k sp j) : Loose σ ns k sp j :=
  ⟨h.1.1, fun c hc => h.2.1 c hc⟩

/-- From the level that brackets the key upwards every level of the splice
brackets the key. -/
theorem Prepared.loose_from {σ : SpdbSortedList K} {ns : List Nat} {k : K}
    {sp : Splice} {lo t : Nat} (h : Prepared σ ns k sp lo t) :
    ∀ j, t ≤ j → j ≤ σ.max_height_ → Loose σ ns k sp j := by
  have htop : ∀ j, j = σ.max_height_ → sp.prev_ j = 0 ∧ sp.next_ j = none := by
    intro j hj
    rw [hj, ← h.height]
    exact ⟨h.rest.top_prev, h.rest.top_next⟩
  have hlink : ∀ j, t ≤ j → j ≤ σ.max_height_ →
      (sp.prev_ j = 0 ∨ Lvl σ ns j (sp.prev_ j)) ∧ ∀ c, sp.next_ j = some c → Lvl σ ns j c := by
    intro j hj hjm
    by_cases hlt : j < σ.max_height_
    · exact h.rest.linked j hj (h.height ▸ hlt)
    · obtain ⟨h1, h2⟩ := htop j (by omega)
      exact ⟨Or.inl h1, by simp [h2]⟩
  intro j hj
  induction j, hj using Nat.le_induction with
  | base =>
    intro hjm
    exact ⟨⟨(hlink t (le_refl _) hjm).1, h.brk.1⟩,
      fun c hc => ⟨(hlink t (le_refl _) hjm).2 c hc, h.brk.2 c hc⟩⟩
  | succ j hj ih =>
    intro hjm
    have hl := ih (by omega)
    have hnest := h.rest.nested j hj (by rw [h.height]; omega)
    refine ⟨⟨(hlink (j + 1) (by omega) hjm).1, lt_of_le_of_lt hnest.1 hl.1.2⟩, ?_⟩
    intro c' hc'
    obtain ⟨c, hc, hle⟩ := hnest.2 c' hc'
    exact ⟨(hlink (j + 1) (by omega) hjm).2 c' hc', le_trans (hl.2 c hc).2 hle⟩

theorem Prepared.loose_at {σ : SpdbSortedList K} {ns : List Nat} {k : K}
    {sp : Splice} {lo t : Nat} (h : Prepared σ ns k sp lo t) :
    ∀ j, lo ≤ j → j ≤ σ.max_height_ → Loose σ ns k sp j := by
  intro j hlo hjm
  by_cases hjt : j < t
  · exact (h.prec j hlo hjt).loose_prec
  · exact h.loose_from j (by omega) hjm

theorem Loose.start_below {σ : SpdbSortedList K} {ns : List Nat} {k : K} {sp : Splice}
    {j : Nat} (h : Loose σ ns k sp (j + 1)) :
    Start (keyB σ) (Lvl σ ns j) k (sp.prev_ (j + 1)) :=
  h.1.mono_start (Nat.le_succ j)

theorem Prec.congr_prec {σ : SpdbSortedList K} {ns : List Nat} {k : K} {sp sp' : Splice} {j : Nat}
    (h : Prec σ ns k sp j) (hp : sp'.prev_ j = sp.prev_ j) (hn : sp'.next_ j = sp.next_ j) :
    Prec σ ns k sp' j := by
  unfold Prec at *
  rw [hp, hn]; exact h

theorem SpliceFrom.set_below_from {σ : SpdbSortedList K} {ns : List Nat} {sp : Splice} {t i : Nat}
    (h : SpliceFrom σ ns sp t) (hi : i < t) (hle : t ≤ sp.height_) (p : Nat) (n : Option Nat) :
    SpliceFrom σ ns (sp.set i p n) t := by
  have e1 : ∀ j, t ≤ j → (sp.set i p n).prev_ j = sp.prev_ j := by
    intro j hj; simp [show j ≠ i by omega]
  have e2 : ∀ j, t ≤ j → (sp.set i p n).next_ j = sp.next_ j := by
    intro j hj; simp [show j ≠ i by omega]
  refine ⟨?_, ?_, ?_, ?_⟩
  · rw [Splice.set_height, e1 _ hle]; exact h.top_prev
  · rw [Splice.set_height, e2 _ hle]; exact h.top_next
  · intro j hj hjh
    have := h.linked j hj hjh
    unfold LinkedAt at *
    rw [e1 j hj, e2 j hj]; exact this
  · intro j hj hjh
    have := h.nested j hj hjh
    unfold Nested at *
    rw [e1 j hj, e2 j hj, e1 (j + 1) (by omega), e2 (j + 1) (by omega)]; exact this

/-- Recomputing a level below the bracketing level makes it exact. -/
theorem Prepared.set_below_prepared {σ : SpdbSortedList K} {ns : List Nat} {k : K} {sp : Splice}
    {t i : Nat} (h : Prepared σ ns k sp (i + 1) t) (hit : i < t) {p : Nat} {n : Option Nat}
    (hp : IsPred (keyB σ) (Lvl σ ns i) k p) (hn : IsSucc (keyB σ) (Lvl σ ns i) k n) :
    Prepared σ ns k (sp.set i p n) i t := by
  refine ⟨h.height, h.le, h.rest.set_below_from hit (h.height ▸ h.le) p n, ?_, ?_⟩
  · have := h.brk
    simpa [show t ≠ i by omega] using this
  · intro j hj hjt
    by_cases hji : j = i
    · subst hji
      unfold Prec
      simpa using ⟨hp, hn⟩
    · exact (h.prec j (by omega) hjt).congr_prec (by simp [hji]) (by simp [hji])

/-- The loop of `RecomputeSpliceLevels` makes every level below the bracketing
level exact and leaves the other levels as they are. -/
theorem recompute_loop_spec {σ : SpdbSortedList K} {ns : List Nat} (hi : Inv σ ns) (k : K)
    {fuel t : Nat} (hf : σ.count < fuel) :
    ∀ (i : Nat) (sp : Splice), i ≤ t → Prepared σ ns k sp i t →
      ∃ sp1, RecomputeSpliceLevels.loop σ k fuel i sp = some sp1 ∧
        Prepared σ ns k sp1 0 t ∧
        (∀ j, i ≤ j → sp1.prev_ j = sp.prev_ j ∧ sp1.next_ j = sp.next_ j) := by
  intro i
  induction i with
  | zero =>
    intro sp _ h
    exact ⟨sp, rfl, h, fun j _ => ⟨rfl, rfl⟩⟩
  | succ i ih =>
    intro sp hit h
    unfold RecomputeSpliceLevels.loop
    have hloose := h.loose_at (i + 1) (le_refl _) (by have := h.le; omega)
    have hlev : i < σ.kMaxHeight_ := by have := h.le; have := hi.height_le; omega
    obtain ⟨p, n, hfs, hp, hn, _⟩ := FindSpliceForLevel_spec (hi.level i hlev) k ns
      (fun a ha => ha.1) fuel (sp.prev_ (i + 1)) (sp.next_ (i + 1)) hloose.start_below
      (fun c hc => (hloose.2 c hc).2) (lt_of_le_of_lt (hi.countP_le _) hf)
    rw [hfs]
    simp only [Option.some_bind]
    obtain ⟨sp1, h1, h2, h3⟩ := ih (sp.set i p n) (by omega) (h.set_below_prepared (by omega) hp hn)
    refine ⟨sp1, h1, h2, ?_⟩
    intro j hj
    obtain ⟨e1, e2⟩ := h3 j (by omega)
    rw [e1, e2]
    simp [show j ≠ i by omega]

theorem keyB_congr {σ σ' : SpdbSortedList K} (h : σ'.key = σ.key) : keyB σ' = keyB σ := by
  funext a; simp [keyB, h]

theorem LevelInv.congr_level {σ σ' : SpdbSortedList K} {mem mem' : Nat → Prop} {L : Nat}
    (hl : LevelInv σ mem L) (hkey : σ'.key = σ.key) (hheight : σ'.height = σ.height)
    (hnext : ∀ a, a = 0 ∨ mem a → σ'.next a L = σ.next a L) (hmem : ∀ a, mem' a ↔ mem a) :
    LevelInv σ' mem' L := by
  have hkb := keyB_congr hkey
  refine ⟨by rw [hheight]; exact hl.head_height, by rw [hkey]; exact hl.head_key, ?_, ?_, ?_, ?_⟩
  · intro a ha; rw [hheight]; exact hl.height a ((hmem a).mp ha)
  · intro a ha; rw [hkey]; exact hl.key a ((hmem a).mp ha)
  · intro a b ha hb; rw [hkb]; exact hl.inj a b ((hmem a).mp ha) ((hmem b).mp hb)
  · intro a ha
    rw [hkb, hnext a (ha.imp id (hmem a).mp)]
    exact (hl.next a (ha.imp id (hmem a).mp)).congr_first fun b => by rw [hmem b]

/-- Linking the node `x` between the last node below its key and the first
node above it keeps the level linked in the order of the keys. -/
theorem LevelInv.link {σ σ' : SpdbSortedList K} {mem : Nat → Prop} {L : Nat}
    (hl : LevelInv σ mem L) {x : Nat} {k : K} (hx0 : x ≠ 0) (hxm : ¬ mem x)
    (hkx : σ.key x = some k) (hhx : L < σ.height x)
    (hnd : ∀ a, mem a → keyB σ a ≠ (k : WithBot K)) {p : Nat} {n : Option Nat}
    (hp : IsPred (keyB σ) mem k p) (hn : IsSucc (keyB σ) mem k n)
    (hkey : σ'.key = σ.key) (hheight : σ'.height = σ.height)
    (hnext : ∀ a, σ'.next a L = if a = p then some x else if a = x then n else σ.next a L) :
    LevelInv σ' (fun a => mem a ∨ a = x) L := by
  have hkb := keyB_congr hkey
  have hkbx : keyB σ x = (k : WithBot K) := keyB_some hkx
  have hk0 : keyB σ 0 = ⊥ := keyB_none hl.head_key
  have hpx : x ≠ p := by
    intro h
    rcases hp.1.1 with h0 | hm
    · exact hx0 (h.trans h0)
    · exact hxm (h ▸ hm)
  refine ⟨by rw [hheight]; exact hl.head_height, by rw [hkey]; exact hl.head_key, ?_, ?_, ?_, ?_⟩
  · intro a ha
    rw [hheight]
    rcases ha with ha | rfl
    · exact hl.height a ha
    · exact hhx
  · intro a ha
    rw [hkey]
    rcases ha with ha | rfl
    · exact hl.key a ha
    · exact ⟨k, hkx⟩
  · intro a b ha hb
    rw [hkb]
    intro hab
    rcases ha with ha | rfl
    · rcases hb with hb | rfl
      · exact hl.inj a b ha hb hab
      · exact absurd (hab.trans hkbx) (hnd a ha)
    · rcases hb with hb | rfl
      · exact absurd (hab.symm.trans hkbx) (hnd b hb)
      · rfl
  · intro a ha
    rw [hkb, hnext]
    by_cases hap : a = p
    · -- the predecessor now points to `x`
      subst hap
      simp only [if_true]
      refine ⟨?_, ?_⟩
      · intro b hb; cases hb
        refine ⟨Or.inr rfl, ?_⟩
        show keyB σ a < keyB σ x
        rw [hkbx]; exact hp.1.2
      · intro d hd hlt
        refine ⟨x, rfl, ?_⟩
        rw [hkbx]
        rcases hd with hd | rfl
        · by_contra hcon
          exact absurd (lt_of_lt_of_le hlt (hp.2 d hd (not_le.mp hcon))) (lt_irrefl _)
        · exact le_of_eq hkbx.symm
    · simp only [hap, if_false]
      by_cases hax : a = x
      · -- the new node points to the successor
        subst hax
        simp only [if_true]
        refine ⟨?_, ?_⟩
        · intro b hb
          obtain ⟨hm, hle⟩ := hn.1 b hb
          refine ⟨Or.inl hm, ?_⟩
          rw [hkbx]
          exact lt_of_le_of_ne hle (Ne.symm (hnd b hm))
        · intro d hd hlt
          rcases hd with hd | rfl
          · exact hn.2 d hd (by rw [hkbx] at hlt; exact le_of_lt hlt)
          · exact absurd hlt (lt_irrefl _)
      · -- the other nodes keep their pointer
        simp only [hax, if_false]
        have ha' : a = 0 ∨ mem a := by
          rcases ha with h | h | h
          · exact Or.inl h
          · exact Or.inr h
          · exact absurd h hax
        have hf := hl.next a ha'
        refine ⟨?_, ?_⟩
        · intro b hb
          exact ⟨Or.inl (hf.1 b hb).1, (hf.1 b hb).2⟩
        · intro d hd hlt
          rcases hd with hd | rfl
          · exact hf.2 d hd hlt
          · rw [hkbx] at hlt
            -- `a` is below the key and is not the predecessor, so it is below the predecessor
            have hlep : keyB σ a ≤ keyB σ p := by
              rcases ha' with h0 | hm
              · rw [h0, hk0]; exact bot_le
              · exact hp.2 a hm hlt
            have hpm : mem p := by
              rcases hp.1.1 with h0 | hm
              · exfalso
                rcases ha' with h0' | hm'
                · exact hap (h0'.trans h0.symm)
                · rw [h0, hk0, le_bot_iff] at hlep
                  exact hl.keyB_ne_bot hm' hlep
              · exact hm
            have hltp : keyB σ a < keyB σ p := by
              refine lt_of_le_of_ne hlep ?_
              intro heq
              rcases ha' with h0 | hm
              · rw [h0, hk0] at heq
                exact hl.keyB_ne_bot hpm heq.symm
              · exact hap (hl.inj a p hm hpm heq)
            obtain ⟨b, hb, hle⟩ := hf.2 p hpm hltp
            exact ⟨b, hb, by rw [hkbx]; exact le_of_lt (lt_of_le_of_lt hle hp.1.2)⟩

theorem SetNext_eq {σ : SpdbSortedList K} {x n : Nat} (v : Option Nat) (h : n < σ.height x) :
    SetNext σ x n v = some (storeNext σ x n v) := by
  simp [SetNext, h]

/-- The test for a duplicate against `next_[0]` is exact when level 0 of the
splice is exact. -/
theorem dupNext_zero {σ0 σ : SpdbSortedList K} {ns : List Nat} (hi : Inv σ0 ns) {k : K}
    {sp : Splice} (hkey : σ.key = σ0.key) (hp : Prec σ0 ns k sp 0) :
    Insert.dupNext σ k sp 0 = some (decide (∃ d, d ∈ ns ∧ keyB σ0 d = (k : WithBot K))) := by
  unfold Insert.dupNext
  simp only [if_true]
  cases hn : sp.next_ 0 with
  | none =>
    have : ¬ ∃ d, d ∈ ns ∧ keyB σ0 d = (k : WithBot K) := by
      rintro ⟨d, hd, hk⟩
      obtain ⟨b, hb, _⟩ := hp.2.2 d (hi.lvl_zero hd) (le_of_eq hk.symm)
      rw [hn] at hb; cases hb
    simp [this]
  | some c =>
    obtain ⟨hmc, hle⟩ := hp.2.1 c hn
    obtain ⟨kc, hkc⟩ := hi.key_some hmc.1
    rw [keyB_some hkc, WithBot.coe_le_coe] at hle
    simp only [hkey, hkc, Option.some_bind, compare__ge]
    congr 1
    by_cases hck : kc ≤ k
    · have : ∃ d, d ∈ ns ∧ keyB σ0 d = (k : WithBot K) :=
        ⟨c, hmc.1, by rw [keyB_some hkc, le_antisymm hck hle]⟩
      simp [hck, this]
    · have : ¬ ∃ d, d ∈ ns ∧ keyB σ0 d = (k : WithBot K) := by
        rintro ⟨d, hd, hk⟩
        obtain ⟨b, hb, hbd⟩ := hp.2.2 d (hi.lvl_zero hd) (le_of_eq hk.symm)
        rw [hn] at hb; cases hb
        rw [keyB_some hkc, hk, WithBot.coe_le_coe] at hbd
        exact hck hbd
      simp [hck, this]

theorem dupNext_pos {σ : SpdbSortedList K} (k : K) (sp : Splice) {i : Nat} (h : 0 < i) :
    Insert.dupNext σ k sp i = some false := by
  simp [Insert.dupNext, show i ≠ 0 by omega]

theorem dupPrev_eq {σ0 σ : SpdbSortedList K} {ns : List Nat} (hi : Inv σ0 ns) {k : K}
    {sp : Splice} {i : Nat} (hkey : σ.key = σ0.key) (hp : Loose σ0 ns k sp i) :
    Insert.dupPrev σ k sp i = some false := by
  unfold Insert.dupPrev
  by_cases h0 : i = 0
  · simp only [h0, if_true]
    by_cases hp0 : sp.prev_ 0 = 0
    · simp [hp0]
    · subst h0
      obtain ⟨kp, hkp⟩ := hi.key_some (hp.1.1.resolve_left hp0).1
      have := hp.1.2
      rw [keyB_some hkp, WithBot.coe_lt_coe] at this
      simp [hp0, hkey, hkp, compare__ge, this]
  · simp [h0]

theorem assertBefore_ok {σ0 σ : SpdbSortedList K} {ns : List Nat} (hi : Inv σ0 ns) {k : K}
    {n : Option Nat} (hkey : σ.key = σ0.key)
    (hn : ∀ c, n = some c → c ∈ ns ∧ (k : WithBot K) ≤ keyB σ0 c)
    (hnd : ∀ a, a ∈ ns → keyB σ0 a ≠ (k : WithBot K)) :
    Insert.assertBefore σ k n = some () := by
  unfold Insert.assertBefore
  cases n with
  | none => rfl
  | some c =>
    obtain ⟨hmc, hle⟩ := hn c rfl
    obtain ⟨kc, hkc⟩ := hi.key_some hmc
    have hne := hnd c hmc
    rw [keyB_some hkc] at hle hne
    have hlt : k < kc := lt_of_le_of_ne (WithBot.coe_le_coe.mp hle)
      (fun h => hne (by rw [h]))
    simp [hkey, hkc, compare__lt, hlt, assert]

theorem assertBracket_ok {σ0 σ : SpdbSortedList K} {ns : List Nat} (hi : Inv σ0 ns) {k : K}
    {sp : Splice} {i : Nat} (hkey : σ.key = σ0.key) (hp : Loose σ0 ns k sp i)
    (hnd : ∀ a, a ∈ ns → keyB σ0 a ≠ (k : WithBot K)) :
    Insert.assertBracket σ k sp i = some () := by
  unfold Insert.assertBracket
  rw [assertBefore_ok hi hkey (fun c hc => ⟨(hp.2 c hc).1.1, (hp.2 c hc).2⟩) hnd]
  simp only [Option.some_bind]
  by_cases hp0 : sp.prev_ i = 0
  · simp [hp0]
  · obtain ⟨kp, hkp⟩ := hi.key_some (hp.1.1.resolve_left hp0).1
    have := hp.1.2
    rw [keyB_some hkp, WithBot.coe_lt_coe] at this
    simp [hp0, hkey, hkp, compare__lt, this, assert]

theorem SpliceFrom.congr_from {σ : SpdbSortedList K} {ns : List Nat} {sp sp' : Splice} {t : Nat}
    (h : SpliceFrom σ ns sp t) (hle : t ≤ sp.height_) (hh : sp'.height_ = sp.height_)
    (he : ∀ j, t ≤ j → sp'.prev_ j = sp.prev_ j ∧ sp'.next_ j = sp.next_ j) :
    SpliceFrom σ ns sp' t := by
  refine ⟨?_, ?_, ?_, ?_⟩
  · rw [hh, (he _ hle).1]; exact h.top_prev
  · rw [hh, (he _ hle).2]; exact h.top_next
  · intro j hj hjh
    have := h.linked j hj (hh ▸ hjh)
    unfold LinkedAt at *
    rw [(he j hj).1, (he j hj).2]; exact this
  · intro j hj hjh
    have := h.nested j hj (hh ▸ hjh)
    unfold Nested at *
    rw [(he j hj).1, (he j hj).2, (he (j + 1) (by omega)).1, (he (j + 1) (by omega)).2]
    exact this

/-- Making the bracketing level exact moves the bracketing level one up. -/
theorem Prepared.advance {σ : SpdbSortedList K} {ns : List Nat} {k : K} {sp sp' : Splice}
    {t : Nat} (h : Prepared σ ns k sp 0 t) (ht : t < σ.max_height_)
    (hh : sp'.height_ = sp.height_)
    (he : ∀ j, j ≠ t → sp'.prev_ j = sp.prev_ j ∧ sp'.next_ j = sp.next_ j)
    (hp : Prec σ ns k sp' t) : Prepared σ ns k sp' 0 (t + 1) := by
  have hl := h.loose_from (t + 1) (by omega) (by omega)
  have hrest : SpliceFrom σ ns sp (t + 1) :=
    ⟨h.rest.top_prev, h.rest.top_next, fun j hj => h.rest.linked j (by omega),
      fun j hj => h.rest.nested j (by omega)⟩
  refine ⟨hh.trans h.height, by omega, ?_, ?_, ?_⟩
  · exact hrest.congr_from (by rw [h.height]; omega) hh (fun j hj => he j (by omega))
  · rw [(he (t + 1) (by omega)).1, (he (t + 1) (by omega)).2]
    exact ⟨hl.1.2, fun c hc => (hl.2 c hc).2⟩
  · intro j _ hj
    by_cases hjt : j = t
    · rw [hjt]; exact hp
    · exact (h.prec j (Nat.zero_le _) (by omega)).congr_prec (he j hjt).1 (he j hjt).2

theorem ne_of_head_or_mem {ns : List Nat} {x a : Nat} (hx0 : x ≠ 0) (hxn : x ∉ ns)
    (ha : a = 0 ∨ a ∈ ns) : a ≠ x := by
  rintro rfl
  rcases ha with h | h
  · exact hx0 h
  · exact hxn h

theorem Linked.next_old {σ0 σ : SpdbSortedList K} {ns : List Nat} {k : K} {x rh i : Nat}
    {sp : Splice} (hlk : Linked σ0 ns k x rh i σ sp) (hx0 : x ≠ 0) (hxn : x ∉ ns) {L a : Nat}
    (hiL : i ≤ L) (ha : a = 0 ∨ Lvl σ0 ns L a) : σ.next a L = σ0.next a L := by
  have hax : a ≠ x := ne_of_head_or_mem hx0 hxn (ha.imp id fun h => h.1)
  rw [hlk.next a L (fun h => hax h.1)]
  simp [show ¬ L < i by omega]

theorem Linked.levelInv {σ0 σ : SpdbSortedList K} {ns : List Nat} {k : K} {x rh i : Nat}
    {sp : Splice} (hlk : Linked σ0 ns k x rh i σ sp) (hi : Inv σ0 ns) (hx0 : x ≠ 0)
    (hxn : x ∉ ns) {L : Nat} (hiL : i ≤ L) (hL : L < σ0.kMaxHeight_) :
    LevelInv σ (Lvl σ0 ns L) L :=
  (hi.level L hL).congr_level hlk.key hlk.height
    (fun _ ha => hlk.next_old hx0 hxn hiL ha) (fun _ => Iff.rfl)

theorem Loose.prec_of_tight {σ : SpdbSortedList K} {ns : List Nat} {k : K} {sp : Splice}
    {j : Nat} (h : Loose σ ns k sp j) (hl : LevelInv σ (Lvl σ ns j) j)
    (ht : σ.next (sp.prev_ j) j = sp.next_ j) : Prec σ ns k sp j := by
  have := hl.stop h.1 (fun c hc => (h.2 c (ht ▸ hc)).2)
  exact ⟨this.1, ht ▸ this.2⟩

/-- The statement that repairs level `i` of the splice leaves it exact. -/
theorem fixLevel_spec {σ0 σ : SpdbSortedList K} {ns : List Nat} (hi : Inv σ0 ns) {k : K}
    {x rh i fuel : Nat} {sp : Splice} (hlk : Linked σ0 ns k x rh i σ sp) (hx0 : x ≠ 0)
    (hxn : x ∉ ns) (hiM : i < σ0.max_height_) (hf : σ0.count < fuel) :
    ∃ sp1, Insert.fixLevel σ k rh fuel i sp = some sp1 ∧
      sp1.height_ = sp.height_ ∧
      (∀ j, j ≠ i → sp1.prev_ j = sp.prev_ j ∧ sp1.next_ j = sp.next_ j) ∧
      Prec σ0 ns k sp1 i ∧ Prepared σ0 ns k sp1 0 (max rh (i + 1)) ∧ Prec σ0 ns k sp1 0 ∧
      (Prec σ0 ns k sp i → sp1 = sp) := by
  unfold Insert.fixLevel
  have hkb := keyB_congr hlk.key
  by_cases hrh : rh ≤ i
  · simp only [hrh, if_true]
    have hmax : max rh i = i := max_eq_right hrh
    have hmax1 : max rh (i + 1) = i + 1 := max_eq_right (by omega)
    have hprep := hlk.prep
    rw [hmax] at hprep
    rw [hmax1]
    have hloose := hprep.loose_from i (le_refl _) (by omega)
    have hL : i < σ0.kMaxHeight_ := lt_of_lt_of_le hiM hi.height_le
    have hl := hlk.levelInv hi hx0 hxn (le_refl i) hL
    have hl0 := hi.level i hL
    have hn0 : σ.next (sp.prev_ i) i = σ0.next (sp.prev_ i) i :=
      hlk.next_old hx0 hxn (le_refl i) hloose.1.1
    rw [hl.Next_eq hloose.1.1]
    simp only [Option.some_bind]
    by_cases htight : σ.next (sp.prev_ i) i = sp.next_ i
    · simp only [htight, ne_eq, not_true_eq_false, if_false]
      have hprec := hloose.prec_of_tight hl0 (hn0 ▸ htight)
      exact ⟨sp, rfl, rfl, fun _ _ => ⟨rfl, rfl⟩, hprec,
        hprep.advance hiM rfl (fun _ _ => ⟨rfl, rfl⟩) hprec, hlk.prec0, fun _ => rfl⟩
    · simp only [htight, ne_eq, not_false_eq_true, if_true]
      obtain ⟨p, n, hfs, hp, hn, _⟩ := FindSpliceForLevel_spec hl k ns
        (fun a ha => ha.1) fuel (sp.prev_ i) none (by rw [hkb]; exact hloose.1)
        (by simp) (by rw [hkb]; exact lt_of_le_of_lt (hi.countP_le _) hf)
      rw [hkb] at hp hn
      rw [hfs]
      simp only [Option.some_bind]
      have hprec : Prec σ0 ns k (sp.set i p n) i := by
        unfold Prec; simpa using ⟨hp, hn⟩
      have he : ∀ j, j ≠ i → (sp.set i p n).prev_ j = sp.prev_ j ∧
          (sp.set i p n).next_ j = sp.next_ j := by
        intro j hj; simp [hj]
      refine ⟨sp.set i p n, rfl, rfl, he, hprec,
        hprep.advance hiM (Splice.set_height sp i p n) he hprec, ?_, ?_⟩
      · by_cases h0 : i = 0
        · rw [← h0]; exact hprec
        · exact hlk.prec0.congr_prec (by simp [Ne.symm h0]) (by simp [Ne.symm h0])
      · intro hprec0
        exact absurd (hn0 ▸ hl0.prec_tight hprec0.1 hprec0.2) htight
  · simp only [hrh, if_false]
    have hmax : max rh i = rh := max_eq_left (by omega)
    have hmax1 : max rh (i + 1) = rh := max_eq_left (by omega)
    have hprep := hlk.prep
    rw [hmax] at hprep
    rw [hmax1]
    exact ⟨sp, rfl, rfl, fun _ _ => ⟨rfl, rfl⟩, hprep.prec i (Nat.zero_le _) (by omega),
      hprep, hlk.prec0, fun _ => rfl⟩

/-- Storing the two pointers of level `i` takes the loop to level `i + 1`. -/
theorem Linked.step {σ0 σ σ2 : SpdbSortedList K} {ns : List Nat} {k : K} {x rh i : Nat}
    {sp sp1 : Splice} (hlk : Linked σ0 ns k x rh i σ sp)
    (he : ∀ j, j ≠ i → sp1.prev_ j = sp.prev_ j ∧ sp1.next_ j = sp.next_ j)
    (hprep : Prepared σ0 ns k sp1 0 (max rh (i + 1))) (hprec0 : Prec σ0 ns k sp1 0)
    (hkey : σ2.key = σ.key) (hheight : σ2.height = σ.height)
    (hmh : σ2.max_height_ = σ.max_height_) (hkm : σ2.kMaxHeight_ = σ.kMaxHeight_)
    (hkbr : σ2.kBranching_ = σ.kBranching_)
    (hks : σ2.kScaledInverseBranching_ = σ.kScaledInverseBranching_)
    (hcount : σ2.count = σ.count) (hss : σ2.seq_splice_ = σ.seq_splice_)
    (hnext : ∀ a L, σ2.next a L =
      if a = sp1.prev_ i ∧ L = i then some x
      else if a = x ∧ L = i then sp1.next_ i else σ.next a L) :
    Linked σ0 ns k x rh (i + 1) σ2 sp1 := by
  refine ⟨hkey.trans hlk.key, hheight.trans hlk.height, hmh.trans hlk.max_height,
    hkm.trans hlk.kMaxHeight, hkbr.trans hlk.kBranching, hks.trans hlk.kScaled,
    hcount.trans hlk.count, hss.trans hlk.seq_splice, ?_, hprep, hprec0⟩
  intro a L hex
  rw [hnext a L]
  by_cases hLi : L = i
  · subst hLi
    by_cases hax : a = x
    · subst hax
      simp
    · rw [hlk.next a L (fun h => hax h.1)]
      simp [hax]
  · rw [hlk.next a L (fun h => hex ⟨h.1, by omega, h.2.2⟩)]
    by_cases hlt : L < i
    · simp [hLi, hlt, show L < i + 1 by omega, (he L hLi).1, (he L hLi).2]
    · simp [hLi, hlt, show ¬ L < i + 1 by omega]

/-- The linking loop of `Insert<false>`: it returns at level 0 without a store
when the key is in the list, and links the node at every level otherwise. -/
theorem link_spec {σ0 : SpdbSortedList K} {ns : List Nat} (hi : Inv σ0 ns) {k : K}
    {x fuel : Nat} (rh : Nat) (hx0 : x ≠ 0) (hxn : x ∉ ns) (hhM : σ0.height x ≤ σ0.max_height_)
    (hf : σ0.count < fuel) :
    ∀ (n i : Nat) (σ : SpdbSortedList K) (sp : Splice), n + i = σ0.height x →
      Linked σ0 ns k x rh i σ sp →
      (i = 0 ∨ ∀ a, a ∈ ns → keyB σ0 a ≠ (k : WithBot K)) →
      ((∃ d, d ∈ ns ∧ keyB σ0 d = (k : WithBot K)) → 0 < n →
        Insert.link k x rh fuel n i σ sp = some (false, σ, sp)) ∧
      ((∀ a, a ∈ ns → keyB σ0 a ≠ (k : WithBot K)) →
        ∃ σ1 sp1, Insert.link k x rh fuel n i σ sp = some (true, σ1, sp1) ∧
          Linked σ0 ns k x rh (σ0.height x) σ1 sp1) := by
  intro n
  induction n with
  | zero =>
    intro i σ sp hni hlk _
    refine ⟨fun _ h => absurd h (lt_irrefl _), fun _ => ⟨σ, sp, rfl, ?_⟩⟩
    have : i = σ0.height x := by omega
    rw [← this]; exact hlk
  | succ n ih =>
    intro i σ sp hni hlk hcase
    have hiM : i < σ0.max_height_ := by omega
    obtain ⟨sp1, hfix, hh1, he, hprec, hprep, hprec0, hsame⟩ :=
      fixLevel_spec hi hlk hx0 hxn hiM hf
    have hloose := hprec.loose_prec
    unfold Insert.link
    rw [hfix]
    simp only [Option.some_bind]
    refine ⟨?_, ?_⟩
    · rintro ⟨d, hd, hdk⟩ _
      have hi0 : i = 0 := hcase.resolve_right (fun h => h d hd hdk)
      subst hi0
      rw [hsame hlk.prec0] at hprec0 ⊢
      rw [dupNext_zero hi hlk.key hprec0]
      simp [show ∃ d, d ∈ ns ∧ keyB σ0 d = (k : WithBot K) from ⟨d, hd, hdk⟩]
    · intro hnd
      have hd1 : Insert.dupNext σ k sp1 i = some false := by
        by_cases hi0 : i = 0
        · subst hi0
          rw [dupNext_zero hi hlk.key hprec0]
          simp only [Option.some.injEq, decide_eq_false_iff_not]
          rintro ⟨d, hd, hdk⟩
          exact hnd d hd hdk
        · exact dupNext_pos k sp1 (by omega)
      rw [hd1]
      simp only [Option.some_bind, Bool.false_eq_true, if_false]
      rw [dupPrev_eq hi hlk.key hloose]
      simp only [Option.some_bind, Bool.false_eq_true, if_false]
      rw [assertBracket_ok hi hlk.key hloose hnd]
      simp only [Option.some_bind]
      have hL : i < σ0.kMaxHeight_ := lt_of_lt_of_le hiM hi.height_le
      have hl0 := hi.level i hL
      have hhp : i < σ.height (sp1.prev_ i) := by
        rw [hlk.height]
        rcases hloose.1.1 with h0 | hm
        · rw [h0, hi.head]; exact hL
        · exact hm.2
      have htight : σ.next (sp1.prev_ i) i = sp1.next_ i := by
        rw [hlk.next_old hx0 hxn (le_refl i) hloose.1.1]
        exact hl0.prec_tight hprec.1 hprec.2
      have hNext : Next σ (sp1.prev_ i) i = some (sp1.next_ i) := by
        simp [Next, hhp, htight]
      rw [hNext]
      simp only [Option.some_bind, decide_True, assert, if_true]
      have hhx : i < σ.height x := by rw [hlk.height]; omega
      rw [SetNext_eq _ hhx]
      simp only [Option.some_bind]
      rw [SetNext_eq _ (show i < (storeNext σ x i (sp1.next_ i)).height (sp1.prev_ i) from hhp)]
      simp only [Option.some_bind]
      refine (ih (i + 1) _ sp1 (by omega) ?_ (Or.inr hnd)).2 hnd
      exact hlk.step he hprep hprec0 rfl rfl rfl rfl rfl rfl rfl rfl (fun a L => rfl)

/-- One round of the loop of `Insert<true>` at a level whose bracket is exact:
the compare-and-swap succeeds. -/
theorem casLevel_prec {σ0 σ : SpdbSortedList K} {ns : List Nat} (hi : Inv σ0 ns) {k : K}
    {x rh i : Nat} {sp0 sp : Splice} (hx0 : x ≠ 0) (hxn : x ∉ ns)
    (hhM : σ0.height x ≤ σ0.max_height_) (hix : i < σ0.height x)
    (hlk : Linked σ0 ns k x rh i σ sp0)
    (he : ∀ j, j ≠ i → sp.prev_ j = sp0.prev_ j ∧ sp.next_ j = sp0.next_ j)
    (hprec : Prec σ0 ns k sp i) (hprep : Prepared σ0 ns k sp 0 (max rh (i + 1)))
    (hprec0 : Prec σ0 ns k sp 0)
    (hcase : i = 0 ∨ ∀ a, a ∈ ns → keyB σ0 a ≠ (k : WithBot K)) (fuel tries : Nat)
    (valid : Bool) :
    ((∃ d, d ∈ ns ∧ keyB σ0 d = (k : WithBot K)) →
      Insert.casLevel k x i fuel (tries + 1) σ sp valid = some (false, σ, sp, valid)) ∧
    ((∀ a, a ∈ ns → keyB σ0 a ≠ (k : WithBot K)) →
      ∃ σ2, Insert.casLevel k x i fuel (tries + 1) σ sp valid = some (true, σ2, sp, valid) ∧
        Linked σ0 ns k x rh (i + 1) σ2 sp) := by
  have hloose := hprec.loose_prec
  have hiM : i < σ0.max_height_ := by omega
  unfold Insert.casLevel
  refine ⟨?_, ?_⟩
  · rintro ⟨d, hd, hdk⟩
    have hi0 : i = 0 := hcase.resolve_right (fun h => h d hd hdk)
    subst hi0
    rw [dupNext_zero hi hlk.key hprec0]
    simp [show ∃ d, d ∈ ns ∧ keyB σ0 d = (k : WithBot K) from ⟨d, hd, hdk⟩]
  · intro hnd
    have hd1 : Insert.dupNext σ k sp i = some false := by
      by_cases hi0 : i = 0
      · subst hi0
        rw [dupNext_zero hi hlk.key hprec0]
        simp only [Option.some.injEq, decide_eq_false_iff_not]
        rintro ⟨d, hd, hdk⟩
        exact hnd d hd hdk
      · exact dupNext_pos k sp (by omega)
    rw [hd1]
    simp only [Option.some_bind, Bool.false_eq_true, if_false]
    rw [dupPrev_eq hi hlk.key hloose]
    simp only [Option.some_bind, Bool.false_eq_true, if_false]
    rw [assertBracket_ok hi hlk.key hloose hnd]
    simp only [Option.some_bind]
    have hL : i < σ0.kMaxHeight_ := lt_of_lt_of_le hiM hi.height_le
    have hl0 := hi.level i hL
    have hhp : i < σ.height (sp.prev_ i) := by
      rw [hlk.height]
      rcases hloose.1.1 with h0 | hm
      · rw [h0, hi.head]; exact hL
      · exact hm.2
    have hpx : sp.prev_ i ≠ x := ne_of_head_or_mem hx0 hxn (hloose.1.1.imp id fun h => h.1)
    have htight : σ.next (sp.prev_ i) i = sp.next_ i := by
      rw [hlk.next_old hx0 hxn (le_refl i) hloose.1.1]
      exact hl0.prec_tight hprec.1 hprec.2
    have hhx : i < σ.height x := by rw [hlk.height]; omega
    rw [SetNext_eq _ hhx]
    simp only [Option.some_bind]
    unfold CASNext
    have hNext : Next (storeNext σ x i (sp.next_ i)) (sp.prev_ i) i = some (sp.next_ i) := by
      simp [Next, storeNext, hhp, hpx, htight]
    rw [hNext]
    simp only [Option.some_bind, if_true]
    rw [SetNext_eq _ (show i < (storeNext σ x i (sp.next_ i)).height (sp.prev_ i) from hhp)]
    simp only [Option.some_bind, if_true]
    exact ⟨_, rfl, hlk.step he hprep hprec0 rfl rfl rfl rfl rfl rfl rfl rfl (fun a L => rfl)⟩

/-- The loop of `Insert<true>` at level `i`: it returns at level 0 without a
store when the key is in the list, and links the node at level `i` otherwise,
after at most one failed compare-and-swap. -/
theorem casLevel_spec {σ0 σ : SpdbSortedList K} {ns : List Nat} (hi : Inv σ0 ns) {k : K}
    {x rh i fuel : Nat} {sp : Splice} (hx0 : x ≠ 0) (hxn : x ∉ ns)
    (hhM : σ0.height x ≤ σ0.max_height_) (hix : i < σ0.height x) (hf : σ0.count < fuel)
    (hlk : Linked σ0 ns k x rh i σ sp)
    (hcase : i = 0 ∨ ∀ a, a ∈ ns → keyB σ0 a ≠ (k : WithBot K)) (tries : Nat) (valid : Bool) :
    ((∃ d, d ∈ ns ∧ keyB σ0 d = (k : WithBot K)) →
      Insert.casLevel k x i fuel (tries + 2) σ sp valid = some (false, σ, sp, valid)) ∧
    ((∀ a, a ∈ ns → keyB σ0 a ≠ (k : WithBot K)) →
      ∃ σ2 sp2 v2, Insert.casLevel k x i fuel (tries + 2) σ sp valid =
          some (true, σ2, sp2, v2) ∧
        Linked σ0 ns k x rh (i + 1) σ2 sp2) := by
  have hiM : i < σ0.max_height_ := by omega
  have hL : i < σ0.kMaxHeight_ := lt_of_lt_of_le hiM hi.height_le
  have hl0 := hi.level i hL
  have hloose : Loose σ0 ns k sp i := hlk.prep.loose_at i (Nat.zero_le _) (by omega)
  by_cases htight : σ.next (sp.prev_ i) i = sp.next_ i
  · -- the bracket is adjacent: one round
    have hprec : Prec σ0 ns k sp i :=
      hloose.prec_of_tight hl0 (by rw [← hlk.next_old hx0 hxn (le_refl i) hloose.1.1]; exact htight)
    obtain ⟨sp1, hfix, _, _, _, hprep, _, hsame⟩ := fixLevel_spec hi hlk hx0 hxn hiM hf
    rw [hsame hprec] at hprep
    have := casLevel_prec hi hx0 hxn hhM hix hlk (fun _ _ => ⟨rfl, rfl⟩) hprec hprep hlk.prec0
      hcase fuel (tries + 1) valid
    exact ⟨this.1, fun hnd => by
      obtain ⟨σ2, h1, h2⟩ := this.2 hnd
      exact ⟨σ2, sp, valid, h1, h2⟩⟩
  · -- the bracket is stale: the compare-and-swap fails once
    have hnprec : ¬ Prec σ0 ns k sp i := by
      intro hp
      apply htight
      rw [hlk.next_old hx0 hxn (le_refl i) hloose.1.1]
      exact hl0.prec_tight hp.1 hp.2
    have hi0 : i ≠ 0 := by
      intro h; subst h; exact hnprec hlk.prec0
    have hnd : ∀ a, a ∈ ns → keyB σ0 a ≠ (k : WithBot K) := hcase.resolve_left hi0
    have hrh : rh ≤ i := by
      by_contra hcon
      have hprep := hlk.prep
      rw [max_eq_left (by omega)] at hprep
      exact hnprec (hprep.prec i (Nat.zero_le _) (by omega))
    refine ⟨fun ⟨d, hd, hdk⟩ => absurd hdk (hnd d hd), fun _ => ?_⟩
    have hhp : i < σ.height (sp.prev_ i) := by
      rw [hlk.height]
      rcases hloose.1.1 with h0 | hm
      · rw [h0, hi.head]; exact hL
      · exact hm.2
    have hpx : sp.prev_ i ≠ x := ne_of_head_or_mem hx0 hxn (hloose.1.1.imp id fun h => h.1)
    have hhx : i < σ.height x := by rw [hlk.height]; omega
    -- the list after the store into the new node
    have hlk1 : Linked σ0 ns k x rh i (storeNext σ x i (sp.next_ i)) sp := by
      refine { hlk with next := ?_ }
      intro a L hex
      have : ¬ (a = x ∧ L = i) := fun h => hex ⟨h.1, by omega, by rw [h.2]; exact hix⟩
      show (if a = x ∧ L = i then sp.next_ i else σ.next a L) = _
      rw [if_neg this]
      exact hlk.next a L hex
    obtain ⟨sp1, hfix, _, he, hprec1, hprep1, hprec01, _⟩ :=
      fixLevel_spec hi hlk1 hx0 hxn hiM hf
    have hfix2 : (FindSpliceForLevel (storeNext σ x i (sp.next_ i))
        k fuel (sp.prev_ i) none i).bind (fun r => some (sp.set i r.1 r.2)) = some sp1 := by
      rw [← hfix]
      unfold Insert.fixLevel
      simp [hrh, Next, storeNext, hhp, hpx, htight]
    obtain ⟨r, hr, hset⟩ := Option.bind_eq_some.mp hfix2
    simp only [Option.some.injEq] at hset
    unfold Insert.casLevel
    rw [dupNext_pos k sp (by omega)]
    simp only [Option.some_bind, Bool.false_eq_true, if_false]
    rw [dupPrev_eq hi hlk.key hloose]
    simp only [Option.some_bind, Bool.false_eq_true, if_false]
    rw [assertBracket_ok hi hlk.key hloose hnd]
    simp only [Option.some_bind]
    rw [SetNext_eq _ hhx]
    simp only [Option.some_bind]
    unfold CASNext
    have hNext : Next (storeNext σ x i (sp.next_ i)) (sp.prev_ i) i =
        some (σ.next (sp.prev_ i) i) := by
      simp [Next, storeNext, hhp, hpx]
    rw [hNext]
    simp only [Option.some_bind, htight, if_false, Bool.false_eq_true]
    rw [hr]
    simp only [Option.some_bind, hset]
    obtain ⟨σ2, h1, h2⟩ := (casLevel_prec hi hx0 hxn hhM hix hlk1 he hprec1 hprep1 hprec01
      hcase fuel tries (if 0 < i then false else valid)).2 hnd
    exact ⟨σ2, sp1, _, h1, h2⟩

/-- The linking loop of `Insert<true>` run by one thread: it returns at level 0
without a store when the key is in the list, and links the node at every level
otherwise. -/
theorem linkCAS_spec {σ0 : SpdbSortedList K} {ns : List Nat} (hi : Inv σ0 ns) {k : K}
    {x fuel : Nat} (rh : Nat) (hx0 : x ≠ 0) (hxn : x ∉ ns) (hhM : σ0.height x ≤ σ0.max_height_)
    (hf : σ0.count < fuel) (hf2 : 2 ≤ fuel) :
    ∀ (n i : Nat) (σ : SpdbSortedList K) (sp : Splice) (valid : Bool), n + i = σ0.height x →
      Linked σ0 ns k x rh i σ sp →
      (i = 0 ∨ ∀ a, a ∈ ns → keyB σ0 a ≠ (k : WithBot K)) →
      ((∃ d, d ∈ ns ∧ keyB σ0 d = (k : WithBot K)) → 0 < n →
        Insert.linkCAS k x fuel n i σ sp valid = some (false, σ, sp, valid)) ∧
      ((∀ a, a ∈ ns → keyB σ0 a ≠ (k : WithBot K)) →
        ∃ σ1 sp1 v1, Insert.linkCAS k x fuel n i σ sp valid = some (true, σ1, sp1, v1) ∧
          Linked σ0 ns k x rh (σ0.height x) σ1 sp1) := by
  obtain ⟨tries, rfl⟩ : ∃ t, fuel = t + 2 := ⟨fuel - 2, by omega⟩
  intro n
  induction n with
  | zero =>
    intro i σ sp valid hni hlk _
    refine ⟨fun _ h => absurd h (lt_irrefl _), fun _ => ⟨σ, sp, valid, rfl, ?_⟩⟩
    have : i = σ0.height x := by omega
    rw [← this]; exact hlk
  | succ n ih =>
    intro i σ sp valid hni hlk hcase
    have hspec := casLevel_spec hi hx0 hxn hhM (by omega) hf hlk hcase tries valid
    unfold Insert.linkCAS
    refine ⟨?_, ?_⟩
    · intro hdup _
      rw [hspec.1 hdup]
      simp
    · intro hnd
      obtain ⟨σ2, sp2, v2, h1, h2⟩ := hspec.2 hnd
      rw [h1]
      simp only [Option.some_bind, if_true]
      exact (ih (i + 1) σ2 sp2 v2 (by omega) h2 (Or.inr hnd)).2 hnd

/-- Once the levels below the bracketing level are exact, the brackets of all
levels are nested. -/
theorem Prepared.nested_all {σ : SpdbSortedList K} {ns : List Nat} (hi : Inv σ ns) {k : K}
    {sp : Splice} {t : Nat} (h : Prepared σ ns k sp 0 t) :
    ∀ j, j < σ.max_height_ → Nested σ sp j := by
  intro j hj
  by_cases hjt : t ≤ j
  · exact h.rest.nested j hjt (h.height ▸ hj)
  · have hprec := h.prec j (Nat.zero_le _) (by omega)
    have hl1 := h.loose_at (j + 1) (Nat.zero_le _) (by omega)
    refine ⟨?_, ?_⟩
    · rcases hl1.1.1 with h0 | hm
      · rw [h0, hi.keyB_head]; exact bot_le
      · exact hprec.1.2 _ (hm.mono_level (Nat.le_succ j)) hl1.1.2
    · intro c' hc'
      exact hprec.2.2 c' ((hl1.2 c' hc').1.mono_level (Nat.le_succ j)) (hl1.2 c' hc').2

theorem assertLevel_ok {σ0 σ : SpdbSortedList K} {ns : List Nat} (hi : Inv σ0 ns) {k : K}
    {x t : Nat} {sp : Splice} (hkey : σ.key = σ0.key) (hkx : σ0.key x = some k)
    (hhM : σ0.height x ≤ σ0.max_height_)
    (hprep : Prepared σ0 ns k sp 0 t)
    (hnd : ∀ a, a ∈ ns → keyB σ0 a ≠ (k : WithBot K)) {i : Nat} (hiM : i < σ0.max_height_) :
    Insert.assertLevel σ k (finalSplice sp x (σ0.height x)) i = some () := by
  have hl0 := hprep.loose_at i (Nat.zero_le _) (by omega)
  have hl1 := hprep.loose_at (i + 1) (Nat.zero_le _) (by omega)
  have hnest := hprep.nested_all hi i hiM
  have hkeylt : ∀ c, c ∈ ns → ∃ kc, σ0.key c = some kc := fun c hc => hi.key_some hc
  -- the four asserts, one by one
  have a1 : Insert.assertBefore σ k ((finalSplice sp x (σ0.height x)).next_ i) = some () :=
    assertBefore_ok hi hkey (fun c hc => ⟨(hl0.2 c hc).1.1, (hl0.2 c hc).2⟩) hnd
  have a2 : (if (finalSplice sp x (σ0.height x)).prev_ i = 0 then some ()
      else (σ.key ((finalSplice sp x (σ0.height x)).prev_ i)).bind fun kp =>
        assert (decide (compare_ kp k ≤ 0))) = some () := by
    show (if (if i < σ0.height x then x else sp.prev_ i) = 0 then some ()
      else (σ.key (if i < σ0.height x then x else sp.prev_ i)).bind fun kp =>
        assert (decide (compare_ kp k ≤ 0))) = some ()
    by_cases hih : i < σ0.height x
    · simp only [hih, if_true]
      split_ifs
      · rfl
      · simp [hkey, hkx, compare__le, assert]
    · simp only [hih, if_false]
      by_cases hp0 : sp.prev_ i = 0
      · simp [hp0]
      · obtain ⟨kp, hkp⟩ := hkeylt _ (hl0.1.1.resolve_left hp0).1
        have := hl0.1.2
        rw [keyB_some hkp, WithBot.coe_lt_coe] at this
        simp [hp0, hkey, hkp, compare__le, le_of_lt this, assert]
  have a3 : (if (finalSplice sp x (σ0.height x)).prev_ (i + 1) =
        (finalSplice sp x (σ0.height x)).prev_ i ∨
        (finalSplice sp x (σ0.height x)).prev_ (i + 1) = 0 then some ()
      else (σ.key ((finalSplice sp x (σ0.height x)).prev_ (i + 1))).bind fun k1 =>
        (σ.key ((finalSplice sp x (σ0.height x)).prev_ i)).bind fun k0 =>
          assert (decide (compare_ k1 k0 < 0))) = some () := by
    show (if (if i + 1 < σ0.height x then x else sp.prev_ (i + 1)) =
        (if i < σ0.height x then x else sp.prev_ i) ∨
        (if i + 1 < σ0.height x then x else sp.prev_ (i + 1)) = 0 then some ()
      else (σ.key (if i + 1 < σ0.height x then x else sp.prev_ (i + 1))).bind fun k1 =>
        (σ.key (if i < σ0.height x then x else sp.prev_ i)).bind fun k0 =>
          assert (decide (compare_ k1 k0 < 0))) = some ()
    by_cases hih1 : i + 1 < σ0.height x
    · have hih : i < σ0.height x := by omega
      simp [hih, hih1]
    · simp only [hih1, if_false]
      by_cases hp1 : sp.prev_ (i + 1) = 0
      · simp [hp1]
      · obtain ⟨hm1, _⟩ := hl1.1.1.resolve_left hp1
        obtain ⟨k1, hk1⟩ := hkeylt _ hm1
        have hlt1 := hl1.1.2
        rw [keyB_some hk1, WithBot.coe_lt_coe] at hlt1
        by_cases hih : i < σ0.height x
        · simp only [hih, if_true]
          split_ifs
          · rfl
          · simp [hkey, hk1, hkx, compare__lt, hlt1, assert]
        · simp only [hih, if_false]
          by_cases heq : sp.prev_ (i + 1) = sp.prev_ i
          · simp [heq]
          · simp only [heq, hp1, or_self, if_false]
            have hle := hnest.1
            have hp0 : sp.prev_ i ≠ 0 := by
              intro h0
              rw [h0, hi.keyB_head, keyB_some hk1, le_bot_iff] at hle
              exact WithBot.coe_ne_bot hle
            obtain ⟨hm0, _⟩ := hl0.1.1.resolve_left hp0
            obtain ⟨k0, hk0⟩ := hkeylt _ hm0
            have hne : keyB σ0 (sp.prev_ (i + 1)) ≠ keyB σ0 (sp.prev_ i) :=
              fun h => heq (hi.inj hm1 hm0 h)
            rw [keyB_some hk1, keyB_some hk0] at hle hne
            have hlt : k1 < k0 := lt_of_le_of_ne (WithBot.coe_le_coe.mp hle)
              (fun h => hne (by rw [h]))
            simp [hkey, hk1, hk0, compare__lt, hlt, assert]
  have a4 : (if (finalSplice sp x (σ0.height x)).next_ (i + 1) =
        (finalSplice sp x (σ0.height x)).next_ i ∨
        (finalSplice sp x (σ0.height x)).next_ (i + 1) = none then some ()
      else (keyOf σ ((finalSplice sp x (σ0.height x)).next_ i)).bind fun k0 =>
        (keyOf σ ((finalSplice sp x (σ0.height x)).next_ (i + 1))).bind fun k1 =>
          assert (decide (compare_ k0 k1 < 0))) = some () := by
    show (if sp.next_ (i + 1) = sp.next_ i ∨ sp.next_ (i + 1) = none then some ()
      else (keyOf σ (sp.next_ i)).bind fun k0 =>
        (keyOf σ (sp.next_ (i + 1))).bind fun k1 =>
          assert (decide (compare_ k0 k1 < 0))) = some ()
    by_cases heq : sp.next_ (i + 1) = sp.next_ i
    · simp [heq]
    · cases hn1 : sp.next_ (i + 1) with
      | none => simp
      | some c' =>
        obtain ⟨c, hc, hle⟩ := hnest.2 c' hn1
        have hmc' := (hl1.2 c' hn1).1.1
        have hmc := (hl0.2 c hc).1.1
        obtain ⟨k1, hk1⟩ := hkeylt _ hmc'
        obtain ⟨k0, hk0⟩ := hkeylt _ hmc
        have hcc : c ≠ c' := by
          intro h; apply heq; rw [hn1, hc, h]
        have hne : keyB σ0 c ≠ keyB σ0 c' := fun h => hcc (hi.inj hmc hmc' h)
        rw [keyB_some hk1, keyB_some hk0] at hle hne
        have hlt : k0 < k1 := lt_of_le_of_ne (WithBot.coe_le_coe.mp hle)
          (fun h => hne (by rw [h]))
        have hne2 : ¬ (some c' = some c) := fun h => hcc (Option.some.inj h).symm
        simp [hc, hne2, keyOf, hkey, hk0, hk1, compare__lt, hlt, assert]
  unfold Insert.assertLevel
  rw [a1]
  simp only [Option.some_bind]
  rw [a2]
  simp only [Option.some_bind]
  rw [a3]
  simp only [Option.some_bind]
  exact a4

theorem assertLevels_ok {σ0 σ : SpdbSortedList K} {ns : List Nat} (hi : Inv σ0 ns) {k : K}
    {x t : Nat} {sp : Splice} (hkey : σ.key = σ0.key) (hkx : σ0.key x = some k)
    (hhM : σ0.height x ≤ σ0.max_height_) (hprep : Prepared σ0 ns k sp 0 t)
    (hnd : ∀ a, a ∈ ns → keyB σ0 a ≠ (k : WithBot K)) :
    ∀ n i, n + i = σ0.max_height_ →
      Insert.assertLevels σ k (finalSplice sp x (σ0.height x)) n i = some () := by
  intro n
  induction n with
  | zero => intro i _; rfl
  | succ n ih =>
    intro i hni
    unfold Insert.assertLevels
    rw [assertLevel_ok hi hkey hkx hhM hprep hnd (by omega)]
    simp only [Option.some_bind]
    exact ih (i + 1) (by omega)

/-- The closing block of `Insert`: its asserts hold on the splice that is left. -/
theorem finish_spec {σ0 σ : SpdbSortedList K} {ns : List Nat} (hi : Inv σ0 ns) {k : K}
    {x t : Nat} {sp : Splice} (hkey : σ.key = σ0.key) (hkx : σ0.key x = some k)
    (hhM : σ0.height x ≤ σ0.max_height_) (hprep : Prepared σ0 ns k sp 0 t)
    (hnd : ∀ a, a ∈ ns → keyB σ0 a ≠ (k : WithBot K)) (valid : Bool) :
    Insert.finish σ k x (σ0.height x) sp valid =
      some (if valid then finalSplice sp x (σ0.height x) else { sp with height_ := 0 }) := by
  unfold Insert.finish
  cases valid with
  | false => simp
  | true =>
    have hh : (finalSplice sp x (σ0.height x)).height_ = σ0.max_height_ := hprep.height
    have h1 : (finalSplice sp x (σ0.height x)).prev_ (finalSplice sp x (σ0.height x)).height_
        = 0 := by
      rw [hh]
      show (if σ0.max_height_ < σ0.height x then x else sp.prev_ σ0.max_height_) = 0
      rw [if_neg (by omega), ← hprep.height]
      exact hprep.rest.top_prev
    have h2 : (finalSplice sp x (σ0.height x)).next_ (finalSplice sp x (σ0.height x)).height_
        = none := by
      rw [hh]
      show sp.next_ σ0.max_height_ = none
      rw [← hprep.height]
      exact hprep.rest.top_next
    simp only [if_true, h1, h2, decide_True, assert, Option.some_bind]
    rw [hh, assertLevels_ok hi hkey hkx hhM hprep hnd σ0.max_height_ 0 (by omega)]
    rfl

theorem mem_insertNode {σ : SpdbSortedList K} {k : K} (x : Nat) {ns : List Nat}
    (hnd : ∀ a, a ∈ ns → keyB σ a ≠ (k : WithBot K)) (a : Nat) :
    a ∈ insertNode σ k x ns ↔ a = x ∨ a ∈ ns := by
  unfold insertNode
  simp only [List.mem_append, List.mem_cons, List.mem_filter, decide_eq_true_eq]
  constructor
  · rintro (⟨h, _⟩ | h | ⟨h, _⟩)
    · exact Or.inr h
    · exact Or.inl h
    · exact Or.inr h
  · rintro (h | h)
    · exact Or.inr (Or.inl h)
    · rcases lt_trichotomy (keyB σ a) (k : WithBot K) with hlt | heq | hgt
      · exact Or.inl ⟨h, hlt⟩
      · exact absurd heq (hnd a h)
      · exact Or.inr (Or.inr ⟨h, hgt⟩)

theorem pairwise_insertNode {σ : SpdbSortedList K} {k : K} {x : Nat} {ns : List Nat}
    (hs : ns.Pairwise (fun a b => keyB σ a < keyB σ b)) (hkx : keyB σ x = (k : WithBot K)) :
    (insertNode σ k x ns).Pairwise (fun a b => keyB σ a < keyB σ b) := by
  unfold insertNode
  rw [List.pairwise_append]
  refine ⟨hs.filter _, ?_, ?_⟩
  · rw [List.pairwise_cons]
    refine ⟨?_, hs.filter _⟩
    intro b hb
    rw [List.mem_filter, decide_eq_true_eq] at hb
    rw [hkx]; exact hb.2
  · intro a ha b hb
    rw [List.mem_filter, decide_eq_true_eq] at ha
    rcases List.mem_cons.mp hb with rfl | hb
    · rw [hkx]; exact ha.2
    · rw [List.mem_filter, decide_eq_true_eq] at hb
      exact lt_trans ha.2 hb.2

/-- After the linking loop the list satisfies its invariant with the new node
at its place in the order of the keys. -/
theorem Linked.inv_final {σ0 σ : SpdbSortedList K} {ns : List Nat} (hi : Inv σ0 ns) {k : K}
    {x rh : Nat} {sp : Splice} (hx0 : x ≠ 0) (hxn : x ∉ ns) (hkx : σ0.key x = some k)
    (hh1 : 1 ≤ σ0.height x) (hhM : σ0.height x ≤ σ0.max_height_) (hxc : x ≤ σ0.count)
    (hnd : ∀ a, a ∈ ns → keyB σ0 a ≠ (k : WithBot K))
    (hlk : Linked σ0 ns k x rh (σ0.height x) σ sp) :
    Inv σ (insertNode σ0 k x ns) := by
  have hkb := keyB_congr hlk.key
  have hmem := mem_insertNode x hnd
  refine ⟨?_, ?_, ?_, ?_, ?_, ?_, ?_⟩
  · rw [hkb]; exact pairwise_insertNode hi.sorted (keyB_some hkx)
  · intro a ha
    rw [hlk.count, hlk.height, hlk.max_height]
    rcases (hmem a).mp ha with rfl | ha
    · exact ⟨hx0, hxc, hh1, hhM⟩
    · exact hi.node a ha
  · rw [hlk.max_height]; exact hi.height_pos
  · rw [hlk.max_height, hlk.kMaxHeight]; exact hi.height_le
  · rw [hlk.kMaxHeight]; exact hi.cap
  · rw [hlk.height, hlk.kMaxHeight]; exact hi.head
  · intro L hL
    rw [hlk.kMaxHeight] at hL
    by_cases hLh : L < σ0.height x
    · have hprec := hlk.prep.prec L (Nat.zero_le _) (lt_of_lt_of_le hLh (le_max_right _ _))
      have hlink := (hi.level L hL).link hx0 (fun h => hxn h.1) hkx hLh
        (fun a ha => hnd a ha.1) hprec.1 hprec.2 hlk.key hlk.height
        (fun a => by rw [hlk.next a L (fun h => by omega)]; simp [hLh])
      refine hlink.congr_level rfl rfl (fun _ _ => rfl) ?_
      intro a
      unfold Lvl
      rw [hmem a, hlk.height]
      constructor
      · rintro ⟨h | h, h2⟩
        · exact Or.inr h
        · exact Or.inl ⟨h, h2⟩
      · rintro (⟨h, h2⟩ | h)
        · exact ⟨Or.inr h, h2⟩
        · exact ⟨Or.inl h, h ▸ hLh⟩
    · refine (hi.level L hL).congr_level hlk.key hlk.height
        (fun a ha => hlk.next_old hx0 hxn (by omega) ha) ?_
      intro a
      unfold Lvl
      rw [hmem a, hlk.height]
      constructor
      · rintro ⟨h | h, h2⟩
        · exact absurd (h ▸ h2) hLh
        · exact ⟨h, h2⟩
      · rintro ⟨h, h2⟩
        exact ⟨Or.inr h, h2⟩

/-- The splice that a successful `Insert` leaves satisfies the invariant of a
splice with respect to the new list. -/
theorem Linked.splice_final {σ0 σ : SpdbSortedList K} {ns : List Nat} (hi : Inv σ0 ns) {k : K}
    {x rh : Nat} {sp : Splice} (hkx : σ0.key x = some k)
    (hhM : σ0.height x ≤ σ0.max_height_)
    (hnd : ∀ a, a ∈ ns → keyB σ0 a ≠ (k : WithBot K))
    (hlk : Linked σ0 ns k x rh (σ0.height x) σ sp) :
    SpliceOK σ (insertNode σ0 k x ns) (finalSplice sp x (σ0.height x)) := by
  have hkb := keyB_congr hlk.key
  have hmem := mem_insertNode x hnd
  have hprep := hlk.prep
  have hloose := fun j (hj : j ≤ σ0.max_height_) => hprep.loose_at j (Nat.zero_le _) hj
  have hlvl : ∀ j a, Lvl σ0 ns j a → Lvl σ (insertNode σ0 k x ns) j a := by
    intro j a ha
    exact ⟨(hmem a).mpr (Or.inr ha.1), by rw [hlk.height]; exact ha.2⟩
  refine Or.inr ⟨hprep.height.trans hlk.max_height.symm, ?_, ?_, ?_, ?_⟩
  · show (if sp.height_ < σ0.height x then x else sp.prev_ sp.height_) = 0
    rw [if_neg (by rw [hprep.height]; omega)]
    exact hprep.rest.top_prev
  · exact hprep.rest.top_next
  · intro j _ hj
    have hjM : j < σ0.max_height_ := by rw [← hprep.height]; exact hj
    refine ⟨?_, fun c hc => hlvl j c ((hloose j (by omega)).2 c hc).1⟩
    show (if j < σ0.height x then x else sp.prev_ j) = 0 ∨
      Lvl σ (insertNode σ0 k x ns) j (if j < σ0.height x then x else sp.prev_ j)
    by_cases hjh : j < σ0.height x
    · simp only [hjh, if_true]
      exact Or.inr ⟨(hmem x).mpr (Or.inl rfl), by rw [hlk.height]; exact hjh⟩
    · simp only [hjh, if_false]
      exact (hloose j (by omega)).1.1.imp id (hlvl j _)
  · intro j _ hj
    have hjM : j < σ0.max_height_ := by rw [← hprep.height]; exact hj
    have hnest := hprep.nested_all hi j hjM
    refine ⟨?_, ?_⟩
    · rw [hkb]
      show keyB σ0 (if j + 1 < σ0.height x then x else sp.prev_ (j + 1)) ≤
        keyB σ0 (if j < σ0.height x then x else sp.prev_ j)
      by_cases hj1 : j + 1 < σ0.height x
      · simp [hj1, show j < σ0.height x by omega]
      · by_cases hjh : j < σ0.height x
        · simp only [hj1, hjh, if_true, if_false]
          rw [keyB_some hkx]
          exact le_of_lt (hloose (j + 1) (by omega)).1.2
        · simp only [hj1, hjh, if_false]
          exact hnest.1
    · rw [hkb]
      exact hnest.2

theorem Inv.raise_inv {σ : SpdbSortedList K} {ns : List Nat} (hi : Inv σ ns) {h : Nat}
    (hh : h ≤ σ.kMaxHeight_) : Inv (raiseMaxHeight σ h) ns := by
  have hm : σ.max_height_ ≤ (raiseMaxHeight σ h).max_height_ := by
    show σ.max_height_ ≤ (if σ.max_height_ < h then h else σ.max_height_)
    split_ifs <;> omega
  refine ⟨hi.sorted, ?_, ?_, ?_, hi.cap, hi.head, fun L hL =>
    (hi.level L hL).congr_level rfl rfl (fun _ _ => rfl) (fun _ => Iff.rfl)⟩
  · intro a ha
    have := hi.node a ha
    exact ⟨this.1, this.2.1, this.2.2.1, le_trans this.2.2.2 hm⟩
  · exact le_trans hi.height_pos hm
  · show (if σ.max_height_ < h then h else σ.max_height_) ≤ σ.kMaxHeight_
    split_ifs
    · exact hh
    · exact hi.height_le

theorem SpliceOK.raise_splice {σ : SpdbSortedList K} {ns : List Nat} {sp : Splice}
    (h : SpliceOK σ ns sp) (height : Nat) : SpliceOK (raiseMaxHeight σ height) ns sp := by
  have hm : (raiseMaxHeight σ height).max_height_ =
      (if σ.max_height_ < height then height else σ.max_height_) := rfl
  by_cases hlt : σ.max_height_ < height
  · left
    rw [hm, if_pos hlt]
    rcases h with h | h
    · omega
    · omega
  · have : raiseMaxHeight σ height = σ := by
      unfold raiseMaxHeight
      rw [if_neg hlt]
    rw [this]; exact h

/-- Once the levels below the bracketing level are exact, the splice satisfies
the invariant of a splice. -/
theorem Prepared.spliceOK {σ : SpdbSortedList K} {ns : List Nat} (hi : Inv σ ns) {k : K}
    {sp : Splice} {t : Nat} (h : Prepared σ ns k sp 0 t) : SpliceOK σ ns sp := by
  refine Or.inr ⟨h.height, h.rest.top_prev, h.rest.top_next, ?_, ?_⟩
  · intro j _ hj
    have hl := h.loose_at j (Nat.zero_le _) (by rw [← h.height]; omega)
    exact ⟨hl.1.1, fun c hc => (hl.2 c hc).1⟩
  · intro j _ hj
    exact h.nested_all hi j (h.height ▸ hj)

/-- The first part of `Insert` leaves a splice whose levels below
`recompute_height` are exact and whose level 0 is exact. -/
theorem prepare_spec {σ : SpdbSortedList K} {ns : List Nat} (hi : Inv σ ns) (k : K)
    {sp : Splice} (hsp : SpliceOK σ ns sp) (allow : Bool) {fuel : Nat}
    (hf : σ.count + σ.kMaxHeight_ + 2 ≤ fuel) :
    ∃ sp1 rh, Insert.prepare σ k fuel sp allow σ.max_height_ = some (sp1, rh) ∧
      Prepared σ ns k sp1 0 rh ∧ Prec σ ns k sp1 0 := by
  have hML := hi.height_le
  have hM1 := hi.height_pos
  -- the splice after validation
  have hval : ∃ sp0 rh, (if sp.height_ < σ.max_height_ then
        some ({ (sp.set σ.max_height_ 0 none) with height_ := σ.max_height_ }, σ.max_height_)
      else (Insert.validate σ k sp allow σ.max_height_ fuel 0).bind fun rh => some (sp, rh)) =
        some (sp0, rh) ∧ Prepared σ ns k sp0 rh rh ∧
        (rh < σ.max_height_ → σ.next (sp0.prev_ rh) rh = sp0.next_ rh) := by
    by_cases hlt : sp.height_ < σ.max_height_
    · refine ⟨_, _, if_pos hlt, ⟨rfl, le_refl _, ⟨?_, ?_, ?_, ?_⟩, ⟨?_, ?_⟩, ?_⟩, ?_⟩
      · show (if σ.max_height_ = σ.max_height_ then 0 else sp.prev_ σ.max_height_) = 0
        simp
      · show (if σ.max_height_ = σ.max_height_ then none else sp.next_ σ.max_height_) = none
        simp
      · intro j hj hjh
        exact absurd hjh (not_lt.mpr hj)
      · intro j hj hjh
        exact absurd hjh (not_lt.mpr hj)
      · show keyB σ (if σ.max_height_ = σ.max_height_ then 0 else sp.prev_ σ.max_height_) < _
        simp only [if_true]
        exact hi.coe_gt_head k
      · intro c hc
        have : (if σ.max_height_ = σ.max_height_ then none else sp.next_ σ.max_height_)
            = some c := hc
        simp at this
      · intro j hj hjh; omega
      · intro h; exact absurd h (lt_irrefl _)
    · have hsp' := hsp.resolve_left hlt
      obtain ⟨rh, h1, h2, h3, h4⟩ := validate_spec hi k hsp'.2 hsp'.1 allow fuel 0
        (Nat.zero_le _) (by omega)
      refine ⟨sp, rh, by rw [if_neg hlt, h1]; rfl, ⟨hsp'.1, h2, ?_, h3, ?_⟩, h4⟩
      · exact ⟨hsp'.2.top_prev, hsp'.2.top_next, fun j _ => hsp'.2.linked j (Nat.zero_le _),
          fun j _ => hsp'.2.nested j (Nat.zero_le _)⟩
      · intro j hj hjh; omega
  obtain ⟨sp0, rh, hv, hprep, htight⟩ := hval
  unfold Insert.prepare
  rw [hv]
  simp only [Option.some_bind]
  have hle : rh ≤ σ.max_height_ := hprep.le
  simp only [hle, decide_True, assert, if_true, Option.some_bind]
  by_cases h0 : 0 < rh
  · simp only [h0, if_true]
    unfold RecomputeSpliceLevels
    have hrh : rh ≤ sp0.height_ := by rw [hprep.height]; exact hle
    simp only [h0, hrh, decide_True, assert, if_true, Option.some_bind]
    obtain ⟨sp1, h1, h2, _⟩ := recompute_loop_spec hi k (show σ.count < fuel by omega) rh sp0
      (le_refl _) hprep
    rw [h1]
    exact ⟨sp1, rh, rfl, h2, h2.prec 0 (le_refl _) h0⟩
  · have hrh0 : rh = 0 := by omega
    subst hrh0
    simp only [lt_irrefl, if_false, Option.some_bind]
    refine ⟨sp0, 0, rfl, hprep, ?_⟩
    exact (hprep.loose_at 0 (le_refl _) (Nat.zero_le _)).prec_of_tight
      (hi.level 0 hi.kMax_pos) (htight (by omega))

/-- The behaviour of `Insert` run by one thread on a list that satisfies its
invariant, with a splice that it accepts and a node `x` that is allocated and
not linked: a key that is in the list is rejected and no pointer is stored; a
key that is not in the list is linked at its place at every level of `x`. -/
theorem Insert_spec {σ : SpdbSortedList K} {ns : List Nat} (hi : Inv σ ns) {sp : Splice}
    (hsp : SpliceOK σ ns sp) {x : Nat} {k : K} (hx0 : x ≠ 0) (hxn : x ∉ ns)
    (hkx : σ.key x = some k) (hh1 : 1 ≤ σ.height x) (hhk : σ.height x ≤ σ.kMaxHeight_)
    (UseCAS allow : Bool) {fuel : Nat} (hf : σ.count + σ.kMaxHeight_ + 2 ≤ fuel) :
    ((∃ d, d ∈ ns ∧ keyB σ d = (k : WithBot K)) →
      ∃ sp1, Insert UseCAS fuel σ x sp allow =
          some (false, raiseMaxHeight σ (σ.height x), sp1) ∧
        SpliceOK (raiseMaxHeight σ (σ.height x)) ns sp1) ∧
    ((∀ a, a ∈ ns → keyB σ a ≠ (k : WithBot K)) →
      ∃ σ1 sp1 sp2 rh, Insert UseCAS fuel σ x sp allow = some (true, σ1, sp2) ∧
        Linked (raiseMaxHeight σ (σ.height x)) ns k x rh (σ.height x) σ1 sp1 ∧
        SpliceOK σ1 (insertNode σ k x ns) sp2) := by
  have hi0 : Inv (raiseMaxHeight σ (σ.height x)) ns := hi.raise_inv hhk
  have hsp0 := hsp.raise_splice (σ.height x)
  have hhM : (raiseMaxHeight σ (σ.height x)).height x ≤
      (raiseMaxHeight σ (σ.height x)).max_height_ := by
    show σ.height x ≤ (if σ.max_height_ < σ.height x then σ.height x else σ.max_height_)
    split_ifs <;> omega
  have hf0 : (raiseMaxHeight σ (σ.height x)).count +
      (raiseMaxHeight σ (σ.height x)).kMaxHeight_ + 2 ≤ fuel := hf
  have hfc : (raiseMaxHeight σ (σ.height x)).count < fuel := by
    show σ.count < fuel
    omega
  obtain ⟨sp1, rh, hprepare, hprep, hprec0⟩ := prepare_spec hi0 k hsp0 allow hf0
  have hcap : (raiseMaxHeight σ (σ.height x)).max_height_ ≤ kMaxPossibleHeight :=
    le_trans hi0.height_le hi0.cap
  have hlk0 : Linked (raiseMaxHeight σ (σ.height x)) ns k x rh 0
      (raiseMaxHeight σ (σ.height x)) sp1 :=
    ⟨rfl, rfl, rfl, rfl, rfl, rfl, rfl, rfl, fun a L _ => by simp,
      by rw [max_eq_left (Nat.zero_le _)]; exact hprep, hprec0⟩
  have hkx0 : (raiseMaxHeight σ (σ.height x)).key x = some k := hkx
  unfold Insert
  simp only [hkx, Option.some_bind, hh1, hhk, decide_True, Bool.and_self, assert, if_true,
    hcap, hprepare]
  cases UseCAS with
  | false =>
    have hlink := link_spec hi0 rh hx0 hxn hhM hfc (σ.height x) 0
      (raiseMaxHeight σ (σ.height x)) sp1 rfl hlk0 (Or.inl rfl)
    refine ⟨?_, ?_⟩
    · intro hdup
      rw [hlink.1 hdup hh1]
      exact ⟨sp1, by simp, hprep.spliceOK hi0⟩
    · intro hnd
      obtain ⟨σ1, sp2, h1, h2⟩ := hlink.2 hnd
      rw [h1]
      simp only [Bool.false_eq_true, if_false, Option.some_bind, if_true]
      have hfin : Insert.finish σ1 k x (σ.height x) sp2 true = _ :=
        finish_spec hi0 h2.key hkx0 hhM h2.prep hnd true
      rw [hfin]
      exact ⟨σ1, sp2, _, rh, by simp, h2, h2.splice_final hi0 hkx0 hhM hnd⟩
  | true =>
    have hlink := linkCAS_spec hi0 rh hx0 hxn hhM hfc (by omega) (σ.height x) 0
      (raiseMaxHeight σ (σ.height x)) sp1 true rfl hlk0 (Or.inl rfl)
    refine ⟨?_, ?_⟩
    · intro hdup
      rw [hlink.1 hdup hh1]
      exact ⟨sp1, by simp, hprep.spliceOK hi0⟩
    · intro hnd
      obtain ⟨σ1, sp2, v, h1, h2⟩ := hlink.2 hnd
      rw [h1]
      simp only [if_true, Option.some_bind]
      have hfin : Insert.finish σ1 k x (σ.height x) sp2 v = _ :=
        finish_spec hi0 h2.key hkx0 hhM h2.prep hnd v
      rw [hfin]
      cases v with
      | true => exact ⟨σ1, sp2, _, rh, by simp, h2, h2.splice_final hi0 hkx0 hhM hnd⟩
      | false =>
        refine ⟨σ1, sp2, { sp2 with height_ := 0 }, rh, by simp, h2, Or.inl ?_⟩
        show 0 < σ1.max_height_
        rw [h2.max_height]
        exact hi0.height_pos

theorem keyB_eq_of_key {σ σ' : SpdbSortedList K} {a : Nat} (h : σ'.key a = σ.key a) :
    keyB σ' a = keyB σ a := by
  simp [keyB, h]

theorem LevelInv.congr_on {σ σ' : SpdbSortedList K} {mem mem' : Nat → Prop} {L : Nat}
    (hl : LevelInv σ mem L) (hkey : ∀ a, a = 0 ∨ mem a → σ'.key a = σ.key a)
    (hheight : ∀ a, a = 0 ∨ mem a → σ'.height a = σ.height a)
    (hnext : ∀ a, a = 0 ∨ mem a → σ'.next a L = σ.next a L) (hmem : ∀ a, mem' a ↔ mem a) :
    LevelInv σ' mem' L := by
  have hkb : ∀ a, a = 0 ∨ mem a → keyB σ' a = keyB σ a := fun a ha => keyB_eq_of_key (hkey a ha)
  refine ⟨by rw [hheight 0 (Or.inl rfl)]; exact hl.head_height,
    by rw [hkey 0 (Or.inl rfl)]; exact hl.head_key, ?_, ?_, ?_, ?_⟩
  · intro a ha
    have := (hmem a).mp ha
    rw [hheight a (Or.inr this)]; exact hl.height a this
  · intro a ha
    have := (hmem a).mp ha
    rw [hkey a (Or.inr this)]; exact hl.key a this
  · intro a b ha hb
    have ha' := (hmem a).mp ha
    have hb' := (hmem b).mp hb
    rw [hkb a (Or.inr ha'), hkb b (Or.inr hb')]
    exact hl.inj a b ha' hb'
  · intro a ha
    have ha' : a = 0 ∨ mem a := ha.imp id (hmem a).mp
    rw [hnext a ha']
    have hf := hl.next a ha'
    refine ⟨?_, ?_⟩
    · intro b hb
      obtain ⟨hm, hlt⟩ := hf.1 b hb
      refine ⟨(hmem b).mpr hm, ?_⟩
      show keyB σ' a < keyB σ' b
      rw [hkb a ha', hkb b (Or.inr hm)]; exact hlt
    · intro d hd hlt
      have hd' := (hmem d).mp hd
      have hlt : keyB σ' a < keyB σ' d := hlt
      rw [hkb a ha', hkb d (Or.inr hd')] at hlt
      obtain ⟨b, hb, hle⟩ := hf.2 d hd' hlt
      exact ⟨b, hb, by rw [hkb b (Or.inr (hf.1 b hb).1), hkb d (Or.inr hd')]; exact hle⟩

/-- The invariant of the list depends on the keys, heights and pointers of
`head_` and of the linked nodes, and on the heights of the list. -/
theorem Inv.transfer_inv {σ σ' : SpdbSortedList K} {ns : List Nat} (hi : Inv σ ns)
    (hkey : ∀ a, a = 0 ∨ a ∈ ns → σ'.key a = σ.key a)
    (hheight : ∀ a, a = 0 ∨ a ∈ ns → σ'.height a = σ.height a)
    (hnext : ∀ a, a = 0 ∨ a ∈ ns → ∀ L, σ'.next a L = σ.next a L)
    (hcount : σ.count ≤ σ'.count) (hmax : σ'.max_height_ = σ.max_height_)
    (hkm : σ'.kMaxHeight_ = σ.kMaxHeight_) : Inv σ' ns := by
  refine ⟨?_, ?_, by rw [hmax]; exact hi.height_pos, by rw [hmax, hkm]; exact hi.height_le,
    by rw [hkm]; exact hi.cap, by rw [hheight 0 (Or.inl rfl), hkm]; exact hi.head, ?_⟩
  · refine hi.sorted.imp_of_mem ?_
    intro a b ha hb hlt
    rw [keyB_eq_of_key (hkey a (Or.inr ha)), keyB_eq_of_key (hkey b (Or.inr hb))]
    exact hlt
  · intro a ha
    have := hi.node a ha
    rw [hheight a (Or.inr ha), hmax]
    exact ⟨this.1, le_trans this.2.1 hcount, this.2.2⟩
  · intro L hL
    rw [hkm] at hL
    refine (hi.level L hL).congr_on (fun a ha => hkey a (ha.imp id fun h => h.1))
      (fun a ha => hheight a (ha.imp id fun h => h.1))
      (fun a ha => hnext a (ha.imp id fun h => h.1) L) ?_
    intro a
    unfold Lvl
    constructor
    · rintro ⟨h1, h2⟩
      exact ⟨h1, by rw [← hheight a (Or.inr h1)]; exact h2⟩
    · rintro ⟨h1, h2⟩
      exact ⟨h1, by rw [hheight a (Or.inr h1)]; exact h2⟩

/-- A splice that `Insert` accepts stays one when nodes are linked and the
list grows in height. -/
theorem SpliceOK.transfer_splice {σ σ' : SpdbSortedList K} {ns ns' : List Nat} {sp : Splice}
    (h : SpliceOK σ ns sp) (hmax : σ.max_height_ ≤ σ'.max_height_)
    (hsub : ∀ a, a ∈ ns → a ∈ ns')
    (hkey : ∀ a, a = 0 ∨ a ∈ ns → σ'.key a = σ.key a)
    (hheight : ∀ a, a ∈ ns → σ'.height a = σ.height a) : SpliceOK σ' ns' sp := by
  rcases h with h | ⟨heq, hfrom⟩
  · exact Or.inl (lt_of_lt_of_le h hmax)
  · by_cases hm : σ'.max_height_ = σ.max_height_
    · have hlvl : ∀ j a, Lvl σ ns j a → Lvl σ' ns' j a := by
        intro j a ha
        exact ⟨hsub a ha.1, by rw [hheight a ha.1]; exact ha.2⟩
      have hprev : ∀ j, j ≤ sp.height_ → sp.prev_ j = 0 ∨ sp.prev_ j ∈ ns := by
        intro j hj
        by_cases hlt : j < sp.height_
        · exact (hfrom.linked j (Nat.zero_le _) hlt).1.imp id fun h => h.1
        · have : j = sp.height_ := by omega
          rw [this]; exact Or.inl hfrom.top_prev
      have hnext : ∀ j c, j ≤ sp.height_ → sp.next_ j = some c → c ∈ ns := by
        intro j c hj hc
        by_cases hlt : j < sp.height_
        · exact ((hfrom.linked j (Nat.zero_le _) hlt).2 c hc).1
        · have : j = sp.height_ := by omega
          rw [this, hfrom.top_next] at hc
          cases hc
      refine Or.inr ⟨heq.trans hm.symm, hfrom.top_prev, hfrom.top_next, ?_, ?_⟩
      · intro j _ hj
        have := hfrom.linked j (Nat.zero_le _) hj
        exact ⟨this.1.imp id (hlvl j _), fun c hc => hlvl j c (this.2 c hc)⟩
      · intro j _ hj
        have := hfrom.nested j (Nat.zero_le _) hj
        refine ⟨?_, ?_⟩
        · rw [keyB_eq_of_key (hkey _ (hprev (j + 1) (by omega))),
            keyB_eq_of_key (hkey _ (hprev j (by omega)))]
          exact this.1
        · intro c' hc'
          obtain ⟨c, hc, hle⟩ := this.2 c' hc'
          refine ⟨c, hc, ?_⟩
          rw [keyB_eq_of_key (hkey _ (Or.inr (hnext j c (by omega) hc))),
            keyB_eq_of_key (hkey _ (Or.inr (hnext (j + 1) c' (by omega) hc')))]
          exact hle
    · left
      rw [heq]
      omega

theorem insertNode_congr {σ σ' : SpdbSortedList K} (k : K) (x : Nat) {ns : List Nat}
    (h : ∀ a, a ∈ ns → σ'.key a = σ.key a) : insertNode σ' k x ns = insertNode σ k x ns := by
  unfold insertNode
  congr 1
  · apply List.filter_congr
    intro a ha
    rw [keyB_eq_of_key (h a ha)]
  · congr 1
    apply List.filter_congr
    intro a ha
    rw [keyB_eq_of_key (h a ha)]

theorem Inv.not_mem_fresh {σ : SpdbSortedList K} {ns : List Nat} (hi : Inv σ ns) :
    σ.count + 1 ∉ ns := by
  intro h
  have := (hi.node _ h).2.1
  omega

theorem Inv.ne_fresh {σ : SpdbSortedList K} {ns : List Nat} (hi : Inv σ ns) {a : Nat}
    (ha : a = 0 ∨ a ∈ ns) : a ≠ σ.count + 1 := by
  rintro rfl
  rcases ha with h | h
  · omega
  · exact hi.not_mem_fresh h

/-- `Insert` on a newly allocated node: a key of the list is rejected and the
pointers stay as they are; a new key is linked at its place, and the
invariants of the list and of the splice hold afterwards. -/
theorem Insert_alloc {σ : SpdbSortedList K} {ns : List Nat} (hi : Inv σ ns)
    (hq : Quiet σ ns) {sp : Splice} (hsp : SpliceOK σ ns sp) (UseCAS allow : Bool) (k : K)
    {h : Nat} (h1 : 1 ≤ h) (h2 : h ≤ σ.kMaxHeight_) {fuel : Nat}
    (hf : σ.count + σ.kMaxHeight_ + 3 ≤ fuel) :
    ((∃ d, d ∈ ns ∧ keyB σ d = (k : WithBot K)) →
      ∃ σL sp2, Insert UseCAS fuel (AllocateNode σ k h).1 (σ.count + 1) sp allow =
          some (false, σL, sp2) ∧
        Stepped σ σL k h ∧ Inv σL ns ∧ SpliceOK σL ns sp2 ∧ Quiet σL ns ∧
        σL.next = σ.next ∧ σL.seq_splice_ = σ.seq_splice_) ∧
    ((∀ a, a ∈ ns → keyB σ a ≠ (k : WithBot K)) →
      ∃ σL sp2, Insert UseCAS fuel (AllocateNode σ k h).1 (σ.count + 1) sp allow =
          some (true, σL, sp2) ∧
        Stepped σ σL k h ∧ Inv σL (insertNode σ k (σ.count + 1) ns) ∧
        SpliceOK σL (insertNode σ k (σ.count + 1) ns) sp2 ∧
        Quiet σL (insertNode σ k (σ.count + 1) ns) ∧
        σL.seq_splice_ = σ.seq_splice_) := by
  -- the list after the allocation
  have hkeyA : ∀ a, (AllocateNode σ k h).1.key a =
      if a = σ.count + 1 then some k else σ.key a := fun _ => rfl
  have hheightA : ∀ a, (AllocateNode σ k h).1.height a =
      if a = σ.count + 1 then h else σ.height a := fun _ => rfl
  have hnextA : ∀ a L, (AllocateNode σ k h).1.next a L =
      if a = σ.count + 1 then none else σ.next a L := fun _ _ => rfl
  have hkeyO : ∀ a, a = 0 ∨ a ∈ ns → (AllocateNode σ k h).1.key a = σ.key a := by
    intro a ha; rw [hkeyA, if_neg (hi.ne_fresh ha)]
  have hheightO : ∀ a, a = 0 ∨ a ∈ ns → (AllocateNode σ k h).1.height a = σ.height a := by
    intro a ha; rw [hheightA, if_neg (hi.ne_fresh ha)]
  have hnextAll : ∀ a L, (AllocateNode σ k h).1.next a L = σ.next a L := by
    intro a L
    rw [hnextA]
    split_ifs with hax
    · rw [hax]; exact (hq _ (by omega) hi.not_mem_fresh L).symm
    · rfl
  have hiA : Inv (AllocateNode σ k h).1 ns :=
    hi.transfer_inv hkeyO hheightO (fun a _ L => hnextAll a L) (Nat.le_succ _) rfl rfl
  have hspA : SpliceOK (AllocateNode σ k h).1 ns sp :=
    hsp.transfer_splice (le_refl _) (fun _ h => h) hkeyO (fun a ha => hheightO a (Or.inr ha))
  have hkx : (AllocateNode σ k h).1.key (σ.count + 1) = some k := by rw [hkeyA, if_pos rfl]
  have hhx : (AllocateNode σ k h).1.height (σ.count + 1) = h := by rw [hheightA, if_pos rfl]
  have hkbO : ∀ a, a ∈ ns → keyB (AllocateNode σ k h).1 a = keyB σ a :=
    fun a ha => keyB_eq_of_key (hkeyO a (Or.inr ha))
  have hspec := Insert_spec hiA hspA (Nat.succ_ne_zero _) hi.not_mem_fresh hkx
    (by rw [hhx]; exact h1) (by rw [hhx]; exact h2) UseCAS allow
    (show (AllocateNode σ k h).1.count + (AllocateNode σ k h).1.kMaxHeight_ + 2 ≤ fuel by
      show σ.count + 1 + σ.kMaxHeight_ + 2 ≤ fuel
      omega)
  rw [hhx] at hspec
  have hi0 : Inv (raiseMaxHeight (AllocateNode σ k h).1 h) ns := hiA.raise_inv h2
  have hstep0 : Stepped σ (raiseMaxHeight (AllocateNode σ k h).1 h) k h :=
    ⟨rfl, rfl, rfl, rfl, hkx, hhx, fun a ha => by
      show (AllocateNode σ k h).1.key a = _
      rw [hkeyA, if_neg ha], fun a ha => by
      show (AllocateNode σ k h).1.height a = _
      rw [hheightA, if_neg ha], rfl⟩
  refine ⟨?_, ?_⟩
  · rintro ⟨d, hd, hdk⟩
    obtain ⟨sp2, hins, hsp2⟩ := hspec.1 ⟨d, hd, (hkbO d hd).trans hdk⟩
    refine ⟨_, sp2, hins, hstep0, hi0, hsp2, ?_, ?_, rfl⟩
    · intro a ha0 han L
      show (AllocateNode σ k h).1.next a L = none
      rw [hnextAll]; exact hq a ha0 han L
    · funext a L
      exact hnextAll a L
  · intro hnd
    have hndA : ∀ a, a ∈ ns → keyB (AllocateNode σ k h).1 a ≠ (k : WithBot K) :=
      fun a ha => by rw [hkbO a ha]; exact hnd a ha
    obtain ⟨σL, sp1, sp2, rh, hins, hlk, hsp2⟩ := hspec.2 hndA
    have hhM : (raiseMaxHeight (AllocateNode σ k h).1 h).height (σ.count + 1) ≤
        (raiseMaxHeight (AllocateNode σ k h).1 h).max_height_ := by
      show (AllocateNode σ k h).1.height (σ.count + 1) ≤
        (if σ.max_height_ < h then h else σ.max_height_)
      rw [hhx]
      split_ifs <;> omega
    have hlk' : Linked (raiseMaxHeight (AllocateNode σ k h).1 h) ns k (σ.count + 1) rh
        ((raiseMaxHeight (AllocateNode σ k h).1 h).height (σ.count + 1)) σL sp1 := by
      rw [show (raiseMaxHeight (AllocateNode σ k h).1 h).height (σ.count + 1) = h from hhx]
      exact hlk
    have hinvL := hlk'.inv_final hi0 (Nat.succ_ne_zero _) hi.not_mem_fresh hkx
      (by rw [show (raiseMaxHeight (AllocateNode σ k h).1 h).height (σ.count + 1) = h from hhx]
          exact h1) hhM (le_refl _) hndA
    have hcongr : insertNode (raiseMaxHeight (AllocateNode σ k h).1 h) k (σ.count + 1) ns =
        insertNode σ k (σ.count + 1) ns :=
      insertNode_congr k _ (fun a ha => hkeyO a (Or.inr ha))
    have hcongr2 : insertNode (AllocateNode σ k h).1 k (σ.count + 1) ns =
        insertNode σ k (σ.count + 1) ns :=
      insertNode_congr k _ (fun a ha => hkeyO a (Or.inr ha))
    rw [hcongr] at hinvL
    rw [hcongr2] at hsp2
    refine ⟨σL, sp2, hins, ?_, hinvL, hsp2, ?_, hlk.seq_splice⟩
    · exact ⟨hlk.kMaxHeight, hlk.kBranching, hlk.kScaled, hlk.count,
        by rw [hlk.key]; exact hkx, by rw [hlk.height]; exact hhx,
        fun a ha => by rw [hlk.key]; exact hstep0.key_old a ha,
        fun a ha => by rw [hlk.height]; exact hstep0.height_old a ha, hlk.max_height⟩
    · intro a ha0 han L
      have hmem := mem_insertNode (σ.count + 1) hnd a
      have hax : a ≠ σ.count + 1 := fun h => han (hmem.mpr (Or.inl h))
      have hans : a ∉ ns := fun h => han (hmem.mpr (Or.inr h))
      rw [hlk.next a L (fun h => hax h.1)]
      have hold : (raiseMaxHeight (AllocateNode σ k h).1 h).next a L = none := by
        show (AllocateNode σ k h).1.next a L = none
        rw [hnextAll]; exact hq a ha0 hans L
      by_cases hLh : L < h
      · have hloose := hlk.prep.loose_at L (Nat.zero_le _) (by
          have : h ≤ (raiseMaxHeight (AllocateNode σ k h).1 h).max_height_ := by
            have hM := hhM
            rw [show (raiseMaxHeight (AllocateNode σ k h).1 h).height (σ.count + 1) = h
              from hhx] at hM
            exact hM
          omega)
        have hap : a ≠ sp1.prev_ L := by
          intro h
          rcases hloose.1.1 with h0 | hm
          · exact ha0 (h.trans h0)
          · exact hans (h ▸ hm.1)
        simp only [hLh, if_true, hap, hax, if_false]
        exact hold
      · simp only [hLh, if_false]
        exact hold

/-- The fields of a constructed list. -/
theorem new_fields {kMaxNext : Nat} {max_height branching_factor : Int} {σ : SpdbSortedList K}
    (h : SpdbSortedList.new kMaxNext max_height branching_factor = some σ) :
    1 ≤ σ.kMaxHeight_ ∧ σ.count = 0 ∧ σ.key = (fun _ => none) ∧
      σ.height = (fun a => if a = 0 then σ.kMaxHeight_ else 0) ∧
      σ.next = (fun _ _ => none) ∧ σ.max_height_ = 1 ∧ σ.seq_splice_ = AllocateSplice ∧
      (σ.kMaxHeight_ : Int) = max_height ∧ (σ.kBranching_ : Int) = branching_factor ∧
      σ.kScaledInverseBranching_ = ((kMaxNext + 1) % 4294967296) / σ.kBranching_ ∧
      0 < σ.kScaledInverseBranching_ := by
  unfold SpdbSortedList.new at h
  simp only [assert] at h
  split_ifs at h with c1 c2 c3
  all_goals simp only [Option.some_bind, Option.none_bind, Option.some.injEq] at h
  all_goals try (exact absurd h (by simp))
  subst h
  simp only [Bool.and_eq_true, decide_eq_true_eq] at c1 c2 c3
  refine ⟨?_, rfl, rfl, rfl, rfl, rfl, rfl, c1.2, c2.2, rfl, c3⟩
  show 1 ≤ (max_height % 65536).toNat
  have := c1.2
  omega

/-- A constructed list is empty and satisfies the invariant of reachable lists. -/
theorem new_good {kMaxNext : Nat} {max_height branching_factor : Int} {σ : SpdbSortedList K}
    (h : SpdbSortedList.new kMaxNext max_height branching_factor = some σ)
    (hcap : σ.kMaxHeight_ ≤ kMaxPossibleHeight) : Good σ [] := by
  obtain ⟨hk1, hcount, hkey, hheight, hnext, hmax, hsp, _⟩ := new_fields h
  refine ⟨⟨List.Pairwise.nil, by simp, by omega, by omega, hcap, by simp [hheight], ?_⟩,
    Or.inl (by rw [hsp, hmax]; exact Nat.zero_lt_one), fun a _ _ L => by rw [hnext]⟩
  intro L hL
  refine ⟨by simp [hheight, hL], by rw [hkey], ?_, ?_, ?_, ?_⟩
  · intro a ha; exact absurd ha.1 (List.not_mem_nil a)
  · intro a ha; exact absurd ha.1 (List.not_mem_nil a)
  · intro a b ha; exact absurd ha.1 (List.not_mem_nil a)
  · intro a _
    rw [hnext]
    exact ⟨by simp, fun d hd => absurd hd.1 (List.not_mem_nil d)⟩

/-- One insertion on a list that satisfies the invariant of reachable lists: a
key of the list is rejected and the pointers stay as they are; a new key is
linked at its place; the invariant holds afterwards. -/
theorem insertKey_spec {σ : SpdbSortedList K} {ns : List Nat} (hg : Good σ ns)
    (UseCAS : Bool) (own : Option Splice) (allow : Bool)
    (hown : ∀ sp, own = some sp → sp.height_ = 0) (k : K) {h : Nat} (h1 : 1 ≤ h)
    (h2 : h ≤ σ.kMaxHeight_) {fuel : Nat} (hf : σ.count + σ.kMaxHeight_ + 3 ≤ fuel) :
    ((∃ d, d ∈ ns ∧ keyB σ d = (k : WithBot K)) →
      ∃ σ1, insertKey UseCAS own allow fuel σ k h = some (false, σ1) ∧
        Stepped σ σ1 k h ∧ Good σ1 ns ∧ σ1.next = σ.next) ∧
    ((∀ a, a ∈ ns → keyB σ a ≠ (k : WithBot K)) →
      ∃ σ1, insertKey UseCAS own allow fuel σ k h = some (true, σ1) ∧
        Stepped σ σ1 k h ∧ Good σ1 (insertNode σ k (σ.count + 1) ns)) := by
  cases own with
  | none =>
    have hspec := Insert_alloc hg.inv hg.quiet hg.splice UseCAS allow k h1 h2 hf
    refine ⟨?_, ?_⟩
    · intro hdup
      obtain ⟨σL, sp2, hins, hst, hinv, hsp2, hqL, hnx, _⟩ := hspec.1 hdup
      refine ⟨{ σL with seq_splice_ := sp2 }, ?_, ?_, ⟨?_, ?_, hqL⟩, hnx⟩
      · show (Insert UseCAS fuel (AllocateNode σ k h).1 (σ.count + 1) σ.seq_splice_ allow).bind
          _ = _
        rw [hins]; rfl
      · exact ⟨hst.kMaxHeight, hst.kBranching, hst.kScaled, hst.count, hst.key_new,
          hst.height_new, hst.key_old, hst.height_old, hst.max_height⟩
      · exact hinv.transfer_inv (fun _ _ => rfl) (fun _ _ => rfl) (fun _ _ _ => rfl) (le_refl _)
          rfl rfl
      · exact hsp2.transfer_splice (le_refl _) (fun _ h => h) (fun _ _ => rfl) (fun _ _ => rfl)
    · intro hnd
      obtain ⟨σL, sp2, hins, hst, hinv, hsp2, hqL, _⟩ := hspec.2 hnd
      refine ⟨{ σL with seq_splice_ := sp2 }, ?_, ?_, ⟨?_, ?_, hqL⟩⟩
      · show (Insert UseCAS fuel (AllocateNode σ k h).1 (σ.count + 1) σ.seq_splice_ allow).bind
          _ = _
        rw [hins]; rfl
      · exact ⟨hst.kMaxHeight, hst.kBranching, hst.kScaled, hst.count, hst.key_new,
          hst.height_new, hst.key_old, hst.height_old, hst.max_height⟩
      · exact hinv.transfer_inv (fun _ _ => rfl) (fun _ _ => rfl) (fun _ _ _ => rfl) (le_refl _)
          rfl rfl
      · exact hsp2.transfer_splice (le_refl _) (fun _ h => h) (fun _ _ => rfl) (fun _ _ => rfl)
  | some sp =>
    have hsp : SpliceOK σ ns sp := Or.inl (by rw [hown sp rfl]; exact hg.inv.height_pos)
    have hspec := Insert_alloc hg.inv hg.quiet hsp UseCAS allow k h1 h2 hf
    have hold : ∀ {σL : SpdbSortedList K} {ns' : List Nat}, Stepped σ σL k h →
        σL.seq_splice_ = σ.seq_splice_ → (∀ a, a ∈ ns → a ∈ ns') →
        SpliceOK σL ns' σL.seq_splice_ := by
      intro σL ns' hst hss hsub
      rw [hss]
      refine hg.splice.transfer_splice ?_ hsub
        (fun a ha => hst.key_old a (hg.inv.ne_fresh ha))
        (fun a ha => hst.height_old a (hg.inv.ne_fresh (Or.inr ha)))
      rw [hst.max_height]
      split_ifs <;> omega
    refine ⟨?_, ?_⟩
    · intro hdup
      obtain ⟨σL, sp2, hins, hst, hinv, _, hqL, hnx, hss⟩ := hspec.1 hdup
      refine ⟨σL, ?_, hst, ⟨hinv, hold hst hss (fun _ h => h), hqL⟩, hnx⟩
      show (Insert UseCAS fuel (AllocateNode σ k h).1 (σ.count + 1) sp allow).bind _ = _
      rw [hins]; rfl
    · intro hnd
      obtain ⟨σL, sp2, hins, hst, hinv, _, hqL, hss⟩ := hspec.2 hnd
      refine ⟨σL, ?_, hst, ⟨hinv, hold hst hss
        (fun a ha => (mem_insertNode (σ.count + 1) hnd a).mpr (Or.inr ha)), hqL⟩⟩
      show (Insert UseCAS fuel (AllocateNode σ k h).1 (σ.count + 1) sp allow).bind _ = _
      rw [hins]; rfl

/-- Every reachable list satisfies the invariant of reachable lists. -/
theorem Reachable.good {σ : SpdbSortedList K} (hr : Reachable σ) : ∃ ns, Good σ ns := by
  induction hr with
  | init kMaxNext mh bf σ hnew hcap => exact ⟨[], new_good hnew hcap⟩
  | insert σ UseCAS own allow fuel k height b σ1 _ hown h1 h2 hf hins ih =>
    obtain ⟨ns, hg⟩ := ih
    have hspec := insertKey_spec hg UseCAS own allow hown k h1 h2 hf
    by_cases hdup : ∃ d, d ∈ ns ∧ keyB σ d = (k : WithBot K)
    · obtain ⟨σ2, h2', _, hg2, _⟩ := hspec.1 hdup
      rw [hins] at h2'
      cases h2'
      exact ⟨ns, hg2⟩
    · have hnd : ∀ a, a ∈ ns → keyB σ a ≠ (k : WithBot K) :=
        fun a ha hk => hdup ⟨a, ha, hk⟩
      obtain ⟨σ2, h2', _, hg2⟩ := hspec.2 hnd
      rw [hins] at h2'
      cases h2'
      exact ⟨_, hg2⟩

theorem keyB_eq_coe_iff {σ : SpdbSortedList K} {a : Nat} {k : K} :
    keyB σ a = (k : WithBot K) ↔ σ.key a = some k := by
  unfold keyB
  cases h : σ.key a with
  | none => simp
  | some ka => simp

theorem collect_of_chainFrom {σ : SpdbSortedList K} :
    ∀ (fuel : Nat) (n : Option Nat) (l : List Nat), chainFrom σ 0 fuel n = some l →
      (∀ a, a ∈ l → ∃ k, σ.key a = some k) →
      Iterator.collect σ fuel { node_ := n } = some (l.filterMap σ.key) := by
  intro fuel
  induction fuel with
  | zero => intro n l h; simp [chainFrom] at h
  | succ fuel ih =>
    intro n l h hkeys
    cases n with
    | none =>
      simp only [chainFrom, Option.some.injEq] at h
      subst h
      simp [Iterator.collect, Iterator.Valid]
    | some a =>
      simp only [chainFrom] at h
      obtain ⟨nx, hnx, h⟩ := Option.bind_eq_some.mp h
      obtain ⟨l', hl', h⟩ := Option.bind_eq_some.mp h
      simp only [Option.some.injEq] at h
      subst h
      obtain ⟨k, hk⟩ := hkeys a (List.mem_cons_self _ _)
      have hrec := ih nx l' hl' (fun b hb => hkeys b (List.mem_cons_of_mem _ hb))
      simp [Iterator.collect, Iterator.Valid, Iterator.key, Iterator.Next, hk, hnx, hrec]

/-- The iteration from the first node yields the keys of the linked nodes in
the order of the list. -/
theorem Inv.scan_eq {σ : SpdbSortedList K} {ns : List Nat} (hi : Inv σ ns) {fuel : Nat}
    (hf : ns.length < fuel) : scan fuel σ = some (keysOf σ ns) := by
  have hc := hi.chain_eq hf
  unfold chain levelChain at hc
  obtain ⟨n, hn, hc⟩ := Option.bind_eq_some.mp hc
  unfold scan Iterator.SeekToFirst
  rw [hn]
  simp only [Option.some_bind]
  exact collect_of_chainFrom fuel n ns hc (fun a ha => hi.key_some ha)

theorem mem_keysOf {σ : SpdbSortedList K} {ns : List Nat} {k : K} :
    k ∈ keysOf σ ns ↔ ∃ d, d ∈ ns ∧ keyB σ d = (k : WithBot K) := by
  unfold keysOf
  rw [List.mem_filterMap]
  constructor
  · rintro ⟨a, ha, hk⟩; exact ⟨a, ha, keyB_eq_coe_iff.mpr hk⟩
  · rintro ⟨a, ha, hk⟩; exact ⟨a, ha, keyB_eq_coe_iff.mp hk⟩

theorem keysOf_sorted {σ : SpdbSortedList K} {ns : List Nat} (hi : Inv σ ns) :
    (keysOf σ ns).Pairwise (· < ·) := by
  have hs := hi.sorted
  have hk : ∀ a, a ∈ ns → ∃ k, σ.key a = some k := fun a ha => hi.key_some ha
  clear hi
  unfold keysOf
  induction ns with
  | nil => simp
  | cons a t ih =>
    obtain ⟨ka, hka⟩ := hk a (List.mem_cons_self _ _)
    rw [List.filterMap_cons_some hka, List.pairwise_cons]
    refine ⟨?_, ih (List.Pairwise.of_cons hs) (fun b hb => hk b (List.mem_cons_of_mem _ hb))⟩
    intro kb hkb
    rw [List.mem_filterMap] at hkb
    obtain ⟨b, hb, hbk⟩ := hkb
    have := List.rel_of_pairwise_cons hs hb
    rw [keyB_some hka, keyB_some hbk, WithBot.coe_lt_coe] at this
    exact this

theorem keysOf_filter {σ σ1 : SpdbSortedList K} (ns : List Nat)
    (hk : ∀ a, a ∈ ns → ∃ k, σ.key a = some k) (hk1 : ∀ a, a ∈ ns → σ1.key a = σ.key a)
    (p : K → Bool) (q : Nat → Bool)
    (hpq : ∀ a ka, a ∈ ns → σ.key a = some ka → q a = p ka) :
    (ns.filter q).filterMap σ1.key = (ns.filterMap σ.key).filter p := by
  induction ns with
  | nil => rfl
  | cons a t ih =>
    obtain ⟨ka, hka⟩ := hk a (List.mem_cons_self _ _)
    have hrec := ih (fun b hb => hk b (List.mem_cons_of_mem _ hb))
      (fun b hb => hk1 b (List.mem_cons_of_mem _ hb))
      (fun b kb hb => hpq b kb (List.mem_cons_of_mem _ hb))
    have hqa := hpq a ka (List.mem_cons_self _ _) hka
    have hka1 : σ1.key a = some ka := (hk1 a (List.mem_cons_self _ _)).trans hka
    rw [List.filterMap_cons_some hka]
    by_cases hp : p ka = true
    · rw [List.filter_cons_of_pos (by rw [hqa]; exact hp), List.filter_cons_of_pos hp,
        List.filterMap_cons_some hka1, hrec]
    · rw [List.filter_cons_of_neg (by rw [hqa]; exact hp), List.filter_cons_of_neg hp, hrec]

/-- The keys of the list after a node of key `k` is linked: `k` stands between
the smaller and the greater keys. -/
theorem keysOf_insertNode {σ σ1 : SpdbSortedList K} {ns : List Nat} {k : K} {x : Nat}
    (hk : ∀ a, a ∈ ns → ∃ k, σ.key a = some k) (hk1 : ∀ a, a ∈ ns → σ1.key a = σ.key a)
    (hx : σ1.key x = some k) :
    keysOf σ1 (insertNode σ k x ns) =
      (keysOf σ ns).filter (fun c => decide (c < k)) ++
        k :: (keysOf σ ns).filter (fun c => decide (k < c)) := by
  unfold keysOf insertNode
  rw [List.filterMap_append, List.filterMap_cons_some hx,
    keysOf_filter ns hk hk1 (fun c => decide (c < k)) _
      (fun a ka _ hka => by simp only [keyB_some hka, WithBot.coe_lt_coe]),
    keysOf_filter ns hk hk1 (fun c => decide (k < c)) _
      (fun a ka _ hka => by simp only [keyB_some hka, WithBot.coe_lt_coe])]

theorem filter_split_perm (ks : List K) (k : K) (hk : k ∉ ks) :
    (ks.filter (fun c => decide (c < k)) ++ k :: ks.filter (fun c => decide (k < c))).Perm
      (k :: ks) := by
  refine List.perm_middle.trans (List.Perm.cons k ?_)
  have h2 : ks.filter (fun c => decide (k < c)) = ks.filter (fun c => !decide (c < k)) := by
    apply List.filter_congr
    intro c hc
    have hne : c ≠ k := fun h => hk (h ▸ hc)
    rcases lt_trichotomy c k with h | h | h
    · simp [h, not_lt_of_lt h]
    · exact absurd h hne
    · simp [h, not_lt_of_lt h]
  rw [h2]
  exact List.filter_append_perm _ ks

/-- A sorted list of nodes without the key `k` is the nodes below `k` followed
by the nodes above `k`. -/
theorem filter_split_eq {kb : Nat → WithBot K} (k : K) :
    ∀ (ns : List Nat), ns.Pairwise (fun a b => kb a < kb b) →
      (∀ a, a ∈ ns → kb a ≠ (k : WithBot K)) →
      ns.filter (fun a => decide (kb a < (k : WithBot K))) ++
        ns.filter (fun a => decide ((k : WithBot K) < kb a)) = ns := by
  intro ns
  induction ns with
  | nil => intro _ _; rfl
  | cons a t ih =>
    intro hs hnd
    have hrec := ih (List.Pairwise.of_cons hs) (fun b hb => hnd b (List.mem_cons_of_mem _ hb))
    rcases lt_trichotomy (kb a) (k : WithBot K) with h | h | h
    · rw [List.filter_cons_of_pos (by simpa using h),
        List.filter_cons_of_neg (by simpa using le_of_lt h), List.cons_append, hrec]
    · exact absurd h (hnd a (List.mem_cons_self _ _))
    · have hall : ∀ b, b ∈ t → (k : WithBot K) < kb b :=
        fun b hb => lt_trans h (List.rel_of_pairwise_cons hs hb)
      have h1 : t.filter (fun a => decide (kb a < (k : WithBot K))) = [] := by
        rw [List.filter_eq_nil_iff]
        intro b hb
        simpa using le_of_lt (hall b hb)
      have h2 : t.filter (fun a => decide ((k : WithBot K) < kb a)) = t := by
        rw [List.filter_eq_self]
        intro b hb
        simpa using hall b hb
      rw [List.filter_cons_of_neg (by simpa using le_of_lt h),
        List.filter_cons_of_pos (by simpa using h), h1, h2]
      rfl

theorem Insert2_eq_insertKey (fuel : Nat) (σ : SpdbSortedList K) (k : K) (h : Nat) :
    Insert2 fuel (AllocateNode σ k h).1 (AllocateNode σ k h).2 false =
      insertKey false none false fuel σ k h := rfl

/-- The keys of the list after one insertion of a new key. -/
theorem Stepped.keysOf_insert {σ σ1 : SpdbSortedList K} {ns : List Nat} {k : K} {h : Nat}
    (hst : Stepped σ σ1 k h) (hi : Inv σ ns) :
    keysOf σ1 (insertNode σ k (σ.count + 1) ns) =
      (keysOf σ ns).filter (fun c => decide (c < k)) ++
        k :: (keysOf σ ns).filter (fun c => decide (k < c)) :=
  keysOf_insertNode (fun a ha => hi.key_some ha)
    (fun a ha => hst.key_old a (hi.ne_fresh (Or.inr ha))) hst.key_new

theorem Stepped.keysOf_same {σ σ1 : SpdbSortedList K} {ns : List Nat} {k : K} {h : Nat}
    (hst : Stepped σ σ1 k h) (hi : Inv σ ns) : keysOf σ1 ns = keysOf σ ns := by
  unfold keysOf
  apply List.filterMap_congr
  intro a ha
  exact hst.key_old a (hi.ne_fresh (Or.inr ha))

/-- Inserting keys that are pairwise unequal and not in the list links all of them. -/
theorem insertAll_spec (fuel : Nat) :
    ∀ (kh : List (K × Nat)) (σ : SpdbSortedList K) (ns : List Nat), Good σ ns →
      (kh.map Prod.fst).Nodup → (∀ p, p ∈ kh → p.1 ∉ keysOf σ ns) →
      (∀ p, p ∈ kh → 1 ≤ p.2 ∧ p.2 ≤ σ.kMaxHeight_) →
      σ.count + kh.length + σ.kMaxHeight_ + 2 ≤ fuel →
      ∃ σ1 ns1, insertAll fuel kh σ = some (List.replicate kh.length true, σ1) ∧
        Good σ1 ns1 ∧ (keysOf σ1 ns1).Perm (kh.map Prod.fst ++ keysOf σ ns) ∧
        σ1.count = σ.count + kh.length := by
  intro kh
  induction kh with
  | nil =>
    intro σ ns hg _ _ _ _
    exact ⟨σ, ns, rfl, hg, List.Perm.refl _, rfl⟩
  | cons p rest ih =>
    intro σ ns hg hnd hnew hh hf
    have hlen : (p :: rest).length = rest.length + 1 := rfl
    rw [hlen] at hf
    obtain ⟨hp1, hp2⟩ := hh p (List.mem_cons_self _ _)
    have hndk : ∀ a, a ∈ ns → keyB σ a ≠ (p.1 : WithBot K) := by
      intro a ha hk
      exact hnew p (List.mem_cons_self _ _) (mem_keysOf.mpr ⟨a, ha, hk⟩)
    obtain ⟨σ1, hins, hst, hg1⟩ := (insertKey_spec hg false none false (by simp) p.1 hp1 hp2
      (show σ.count + σ.kMaxHeight_ + 3 ≤ fuel by omega)).2 hndk
    have hkeys := hst.keysOf_insert hg.inv
    have hperm1 : (keysOf σ1 (insertNode σ p.1 (σ.count + 1) ns)).Perm (p.1 :: keysOf σ ns) := by
      rw [hkeys]
      exact filter_split_perm _ _ (hnew p (List.mem_cons_self _ _))
    rw [List.map_cons, List.nodup_cons] at hnd
    obtain ⟨σ2, ns2, hall, hg2, hperm2, hcount2⟩ := ih σ1 _ hg1 hnd.2
      (by
        intro q hq hmem
        have := (hperm1.mem_iff).mp hmem
        rcases List.mem_cons.mp this with h | h
        · exact hnd.1 (h ▸ List.mem_map_of_mem Prod.fst hq)
        · exact hnew q (List.mem_cons_of_mem _ hq) h)
      (by
        intro q hq
        rw [hst.kMaxHeight]
        exact hh q (List.mem_cons_of_mem _ hq))
      (by rw [hst.count, hst.kMaxHeight]; omega)
    refine ⟨σ2, ns2, ?_, hg2, ?_, by rw [hcount2, hst.count, hlen]; omega⟩
    · show (Insert2 fuel (AllocateNode σ p.1 p.2).1 (AllocateNode σ p.1 p.2).2 false).bind _ = _
      rw [Insert2_eq_insertKey, hins]
      simp only [Option.some_bind]
      rw [hall]
      rfl
    · refine hperm2.trans ?_
      rw [List.map_cons, List.cons_append]
      exact (List.Perm.append_left _ hperm1).trans List.perm_middle

/-- C1: inserting finitely many pairwise unequal keys, with any node heights
in `[1, kMaxHeight_]`, one by one with `Insert<false>(key, seq_splice_, false)` into a
newly constructed list (whose height limit is within `kMaxPossibleHeight`), and
then iterating with `SeekToFirst` and `Next` until the iterator is not valid,
yields exactly the inserted keys, each once, in strictly ascending order. Each
`Insert` returns true; the iteration budget `fuel` is large enough. -/
theorem C1_insert_then_iterate_sorted (kMaxNext : Nat) (max_height branching_factor : Int)
    (σ0 : SpdbSortedList K)
    (hnew : SpdbSortedList.new kMaxNext max_height branching_factor = some σ0)
    (hcap : σ0.kMaxHeight_ ≤ kMaxPossibleHeight) (kh : List (K × Nat))
    (hkeys : (kh.map Prod.fst).Nodup)
    (hheights : ∀ p, p ∈ kh → 1 ≤ p.2 ∧ p.2 ≤ σ0.kMaxHeight_) (fuel : Nat)
    (hfuel : kh.length + σ0.kMaxHeight_ + 3 ≤ fuel) :
    ∃ σ out, insertAll fuel kh σ0 = some (List.replicate kh.length true, σ) ∧
      scan fuel σ = some out ∧ out.Sorted (· < ·) ∧ out.Perm (kh.map Prod.fst) := by
  have hg := new_good hnew hcap
  have hc0 : σ0.count = 0 := (new_fields hnew).2.1
  obtain ⟨σ, ns, hall, hg1, hperm, hcount⟩ := insertAll_spec fuel kh σ0 [] hg hkeys
    (fun p _ h => by simp [keysOf] at h) hheights (by omega)
  refine ⟨σ, keysOf σ ns, hall, ?_, keysOf_sorted hg1.inv, ?_⟩
  · apply hg1.inv.scan_eq
    have := hg1.inv.length_le
    omega
  · simpa [keysOf] using hperm

/-- C2: on every reachable list, `Insert` (either linking strategy, the splice
of the list or a fresh one, either value of `allow_partial_splice_fix`) of a key
that is unequal to every key of the list, with any node height in
`[1, kMaxHeight_]`, returns true; afterwards the iteration yields the previous
keys with `k` added at its sorted position, and the nodes reachable at level 0
are the previous ones, in the same order, with the new node between them. -/
theorem C2_insert_new_key (σ : SpdbSortedList K) (hr : Reachable σ) (UseCAS : Bool)
    (own : Option Splice) (allow : Bool) (hown : ∀ sp, own = some sp → sp.height_ = 0)
    (k : K) (height : Nat) (h1 : 1 ≤ height) (h2 : height ≤ σ.kMaxHeight_) (fuel : Nat)
    (hf : σ.count + σ.kMaxHeight_ + 3 ≤ fuel) (ks : List K) (hscan : scan fuel σ = some ks)
    (hk : k ∉ ks) :
    ∃ σ1 l1 l2, insertKey UseCAS own allow fuel σ k height = some (true, σ1) ∧
      scan fuel σ1 =
        some (ks.filter (fun c => decide (c < k)) ++ k :: ks.filter (fun c => decide (k < c))) ∧
      chain fuel σ = some (l1 ++ l2) ∧ chain fuel σ1 = some (l1 ++ (σ.count + 1) :: l2) ∧
      σ1.key (σ.count + 1) = some k := by
  obtain ⟨ns, hg⟩ := hr.good
  have hlen := hg.inv.length_le
  have hks : ks = keysOf σ ns := by
    have := hg.inv.scan_eq (show ns.length < fuel by omega)
    rw [hscan] at this
    exact Option.some.inj this
  subst hks
  have hnd : ∀ a, a ∈ ns → keyB σ a ≠ (k : WithBot K) :=
    fun a ha h => hk (mem_keysOf.mpr ⟨a, ha, h⟩)
  obtain ⟨σ1, hins, hst, hg1⟩ := (insertKey_spec hg UseCAS own allow hown k h1 h2 hf).2 hnd
  have hlen1 := hg1.inv.length_le
  rw [hst.count] at hlen1
  refine ⟨σ1, ns.filter (fun a => decide (keyB σ a < (k : WithBot K))),
    ns.filter (fun a => decide ((k : WithBot K) < keyB σ a)), hins, ?_, ?_, ?_, hst.key_new⟩
  · rw [hg1.inv.scan_eq (by omega), hst.keysOf_insert hg.inv]
  · rw [filter_split_eq k ns hg.inv.sorted hnd]
    exact hg.inv.chain_eq (by omega)
  · exact hg1.inv.chain_eq (by omega)

/-- C3: on every reachable list, `Insert` (either linking strategy, any node
height in `[1, kMaxHeight_]`, the splice of the list or a fresh one, either value
of `allow_partial_splice_fix`) of a key that is equal to a key of the list returns
false, and the iteration yields the same keys, from the same nodes, as before. -/
theorem C3_insert_duplicate (σ : SpdbSortedList K) (hr : Reachable σ) (UseCAS : Bool)
    (own : Option Splice) (allow : Bool) (hown : ∀ sp, own = some sp → sp.height_ = 0)
    (k : K) (height : Nat) (h1 : 1 ≤ height) (h2 : height ≤ σ.kMaxHeight_) (fuel : Nat)
    (hf : σ.count + σ.kMaxHeight_ + 3 ≤ fuel) (ks : List K) (hscan : scan fuel σ = some ks)
    (hk : k ∈ ks) :
    ∃ σ1, insertKey UseCAS own allow fuel σ k height = some (false, σ1) ∧
      scan fuel σ1 = some ks ∧ chain fuel σ1 = chain fuel σ := by
  obtain ⟨ns, hg⟩ := hr.good
  have hlen := hg.inv.length_le
  have hks : ks = keysOf σ ns := by
    have := hg.inv.scan_eq (show ns.length < fuel by omega)
    rw [hscan] at this
    exact Option.some.inj this
  subst hks
  obtain ⟨σ1, hins, hst, hg1, _⟩ :=
    (insertKey_spec hg UseCAS own allow hown k h1 h2 hf).1 (mem_keysOf.mp hk)
  refine ⟨σ1, hins, ?_, ?_⟩
  · rw [hg1.inv.scan_eq (by omega), hst.keysOf_same hg.inv]
  · rw [hg1.inv.chain_eq (by omega), hg.inv.chain_eq (by omega)]

theorem IsSucc_eq_find {σ : SpdbSortedList K} {ns : List Nat} (hi : Inv σ ns) {k : K}
    {n : Option Nat} (h : IsSucc (keyB σ) (Lvl σ ns 0) k n) :
    n = ns.find? (fun a => decide ((k : WithBot K) ≤ keyB σ a)) := by
  rw [hi.first_eq_find _ h]
  have hnode : ∀ a, a ∈ ns → 0 < σ.height a := fun a ha => (hi.node a ha).2.2.1
  clear h hi
  induction ns with
  | nil => rfl
  | cons a t ih =>
    have ha := hnode a (List.mem_cons_self _ _)
    have hrec := ih (fun b hb => hnode b (List.mem_cons_of_mem _ hb))
    by_cases hk : (k : WithBot K) ≤ keyB σ a
    · rw [List.find?_cons_of_pos _ (by simpa using ⟨ha, hk⟩),
        List.find?_cons_of_pos _ (by simpa using hk)]
    · rw [List.find?_cons_of_neg _ (by simpa using fun _ => not_le.mp hk),
        List.find?_cons_of_neg _ (by simpa using not_le.mp hk), hrec]

/-- The result of `FindGreaterOrEqual` on a list that satisfies its invariant. -/
theorem Inv.FindGreaterOrEqual_eq {σ : SpdbSortedList K} {ns : List Nat} (hi : Inv σ ns)
    (k : K) {fuel : Nat} (hf : σ.count + σ.kMaxHeight_ + 2 ≤ fuel) :
    FindGreaterOrEqual fuel σ k =
      some (ns.find? (fun a => decide ((k : WithBot K) ≤ keyB σ a))) := by
  unfold FindGreaterOrEqual
  have h1 := hi.height_pos
  have h2 := hi.height_le
  rw [if_neg (by omega)]
  obtain ⟨n, hn, hsucc⟩ := FindGreaterOrEqual_loop_spec hi k fuel 0 (σ.max_height_ - 1) none
    (by omega) ⟨Or.inl rfl, hi.coe_gt_head k⟩ (by simp)
    (by have := hi.countP_le
          (fun c => decide (keyB σ 0 < keyB σ c ∧ keyB σ c < (k : WithBot K)))
        omega)
  rw [hn, IsSucc_eq_find hi hsucc]

/-- C4: on every reachable list, for every key `k`, `FindGreaterOrEqual(k)` and
`Iterator::Seek(k)` return the first node in level-0 order whose key is at least
`k`, and null when there is none; on a list with the single node `n0` of key `k0`
the result is `n0` for `k0` and null for every key greater than `k0`. -/
theorem C4_find_greater_or_equal (σ : SpdbSortedList K) (hr : Reachable σ) (fuel : Nat)
    (hf : σ.count + σ.kMaxHeight_ + 2 ≤ fuel) :
    ∃ ns, chain fuel σ = some ns ∧
      (∀ k : K,
        FindGreaterOrEqual fuel σ k =
          some (ns.find? (fun a => decide ((k : WithBot K) ≤ keyB σ a))) ∧
        Iterator.Seek fuel σ k =
          some { node_ := ns.find? (fun a => decide ((k : WithBot K) ≤ keyB σ a)) }) ∧
      (∀ n0 k0, ns = [n0] → σ.key n0 = some k0 →
        FindGreaterOrEqual fuel σ k0 = some (some n0) ∧
        ∀ k, k0 < k → FindGreaterOrEqual fuel σ k = some none) := by
  obtain ⟨ns, hg⟩ := hr.good
  have hlen := hg.inv.length_le
  refine ⟨ns, hg.inv.chain_eq (by omega), ?_, ?_⟩
  · intro k
    have := hg.inv.FindGreaterOrEqual_eq k hf
    exact ⟨this, by simp [Iterator.Seek, this]⟩
  · intro n0 k0 hns hk0
    subst hns
    refine ⟨?_, ?_⟩
    · rw [hg.inv.FindGreaterOrEqual_eq k0 hf]
      simp [keyB_some hk0]
    · intro k hk
      rw [hg.inv.FindGreaterOrEqual_eq k hf]
      simp [keyB_some hk0, hk]

theorem last_max {kb : Nat → WithBot K} {F : List Nat} {m : Nat}
    (hs : F.Pairwise (fun a b => kb a < kb b)) (hm : F.getLast? = some m) :
    m ∈ F ∧ ∀ c, c ∈ F → kb c ≤ kb m := by
  refine ⟨List.mem_of_getLast?_eq_some hm, ?_⟩
  obtain ⟨ys, rfl⟩ := List.getLast?_eq_some_iff.mp hm
  rw [List.pairwise_append] at hs
  intro c hc
  rcases List.mem_append.mp hc with h | h
  · exact le_of_lt (hs.2.2 c h m (by simp))
  · simp at h; rw [h]

/-- The last node of a level whose key is below `k` is the last node of the
list that has a pointer of the level and a key below `k`. -/
theorem IsPred_eq_lastBelow {σ : SpdbSortedList K} {ns : List Nat} (hi : Inv σ ns) {L : Nat}
    {k : K} {p : Nat} (h : IsPred (keyB σ) (Lvl σ ns L) k p) : p = lastBelow σ ns k L := by
  unfold lastBelow
  have hmemF : ∀ a, a ∈ ns.filter (fun a => decide (L < σ.height a ∧ keyB σ a < (k : WithBot K)))
      ↔ Lvl σ ns L a ∧ keyB σ a < (k : WithBot K) := by
    intro a
    simp [Lvl, List.mem_filter, and_assoc]
  have hne : ∀ a, a ∈ ns → keyB σ a ≠ ⊥ := by
    intro a ha
    obtain ⟨ka, hka⟩ := hi.key_some ha
    rw [keyB_some hka]; exact WithBot.coe_ne_bot
  cases hlast : (ns.filter
      (fun a => decide (L < σ.height a ∧ keyB σ a < (k : WithBot K)))).getLast? with
  | none =>
    rw [List.getLast?_eq_none_iff] at hlast
    rcases h.1.1 with h0 | hm
    · simpa using h0
    · have := (hmemF p).mpr ⟨hm, h.1.2⟩
      rw [hlast] at this
      exact absurd this (List.not_mem_nil p)
  | some m =>
    obtain ⟨hmF, hmax⟩ := last_max ((hi.sorted.filter _)) hlast
    obtain ⟨hmL, hmk⟩ := (hmemF m).mp hmF
    have hle := h.2 m hmL hmk
    have hp : Lvl σ ns L p := by
      rcases h.1.1 with h0 | hm
      · rw [h0, hi.keyB_head, le_bot_iff] at hle
        exact absurd hle (hne m hmL.1)
      · exact hm
    have hle2 := hmax p ((hmemF p).mpr ⟨hp, h.1.2⟩)
    simpa using hi.inj hp.1 hmL.1 (le_antisymm hle2 hle)

/-- C5: on every reachable list, for every key `k`, `FindLessThan(k, prev)` returns
the last node in level-0 order whose key is below `k`, and `head_` when there is
none; when `prev` is not null, for every level `L` in `[0, max_height_ - 1]` the
entry `prev[L]` is afterwards the last node linked at level `L` whose key is
below `k` (`head_` when there is none), and the entries of the other levels are
as before. -/
theorem C5_find_less_than (σ : SpdbSortedList K) (hr : Reachable σ) (k : K)
    (prev : Option (Nat → Nat)) (fuel : Nat) (hf : σ.count + σ.kMaxHeight_ + 2 ≤ fuel) :
    ∃ ns r prev1, chain fuel σ = some ns ∧ FindLessThan fuel σ k prev = some (r, prev1) ∧
      r = ((ns.filter fun a => decide (keyB σ a < (k : WithBot K))).getLast?).getD 0 ∧
      (prev = none → prev1 = none) ∧
      ∀ p, prev = some p → ∃ p1, prev1 = some p1 ∧
        (∀ L, L < σ.max_height_ → p1 L = lastBelow σ ns k L) ∧
        ∀ L, σ.max_height_ ≤ L → p1 L = p L := by
  obtain ⟨ns, hg⟩ := hr.good
  have hi := hg.inv
  have hlen := hi.length_le
  have h1 := hi.height_pos
  have h2 := hi.height_le
  obtain ⟨r, prev1, hloop, hpred, hnone, hsome⟩ := FindLessThan_loop_spec hi k fuel 0
    (σ.max_height_ - 1) none prev (by omega) ⟨Or.inl rfl, hi.coe_gt_head k⟩ (by simp)
    (by have := hi.countP_le
          (fun c => decide (keyB σ 0 < keyB σ c ∧ keyB σ c < (k : WithBot K)))
        omega)
  refine ⟨ns, r, prev1, hi.chain_eq (by omega), ?_, ?_, hnone, ?_⟩
  · unfold FindLessThan FindLessThanFrom
    simp only [show 0 < σ.max_height_ by omega, decide_True, assert, if_true, Option.some_bind]
    exact hloop
  · rw [IsPred_eq_lastBelow hi hpred]
    unfold lastBelow
    congr 2
    apply List.filter_congr
    intro a ha
    have := (hi.node a ha).2.2.1
    simp [show 0 < σ.height a by omega]
  · intro p hp
    obtain ⟨p1, hp1, hlow, hhigh, _⟩ := hsome p hp
    refine ⟨p1, hp1, ?_, ?_⟩
    · intro L hL
      exact IsPred_eq_lastBelow hi (hlow L (by omega))
    · intro L hL
      exact hhigh L (by omega)

/-- The result of `FindLast` on a list that satisfies its invariant. -/
theorem Inv.FindLast_eq {σ : SpdbSortedList K} {ns : List Nat} (hi : Inv σ ns) {fuel : Nat}
    (hf : σ.count + σ.kMaxHeight_ + 2 ≤ fuel) :
    FindLast fuel σ = some (ns.getLast?.getD 0) ∧
      ∀ c, c ∈ ns → keyB σ c ≤ keyB σ (ns.getLast?.getD 0) := by
  have h1 := hi.height_pos
  have h2 := hi.height_le
  obtain ⟨r, hloop, hr, hmax⟩ := FindLast_loop_spec hi fuel 0 (σ.max_height_ - 1) (by omega)
    (Or.inl rfl)
    (by have := hi.countP_le (fun c => decide (keyB σ 0 < keyB σ c))
        omega)
  have hne : ∀ a, a ∈ ns → keyB σ a ≠ ⊥ := by
    intro a ha
    obtain ⟨ka, hka⟩ := hi.key_some ha
    rw [keyB_some hka]; exact WithBot.coe_ne_bot
  have hreq : r = ns.getLast?.getD 0 := by
    cases hlast : ns.getLast? with
    | none =>
      rw [List.getLast?_eq_none_iff] at hlast
      subst hlast
      simpa using hr
    | some m =>
      obtain ⟨hm, hmmax⟩ := last_max hi.sorted hlast
      have hle := hmax m hm
      have hrn : r ∈ ns := by
        rcases hr with h0 | h
        · rw [h0, hi.keyB_head, le_bot_iff] at hle
          exact absurd hle (hne m hm)
        · exact h
      simpa using hi.inj hrn hm (le_antisymm (hmmax r hrn) hle)
  refine ⟨?_, fun c hc => hreq ▸ hmax c hc⟩
  unfold FindLast
  rw [if_neg (by omega), hloop, hreq]

/-- C6: on every reachable list, `FindLast()` returns the last node of the
level-0 chain, which holds the greatest key, and returns `head_` exactly when
the list is empty. -/
theorem C6_find_last (σ : SpdbSortedList K) (hr : Reachable σ) (fuel : Nat)
    (hf : σ.count + σ.kMaxHeight_ + 2 ≤ fuel) :
    ∃ ns, chain fuel σ = some ns ∧ FindLast fuel σ = some (ns.getLast?.getD 0) ∧
      (∀ c, c ∈ ns → keyB σ c ≤ keyB σ (ns.getLast?.getD 0)) ∧
      (FindLast fuel σ = some 0 ↔ ns = []) := by
  obtain ⟨ns, hg⟩ := hr.good
  have hi := hg.inv
  have hlen := hi.length_le
  obtain ⟨hlast, hmax⟩ := hi.FindLast_eq hf
  refine ⟨ns, hi.chain_eq (by omega), hlast, hmax, ?_⟩
  rw [hlast]
  constructor
  · intro h
    cases hl : ns.getLast? with
    | none => exact List.getLast?_eq_none_iff.mp hl
    | some m =>
      rw [hl] at h
      simp only [Option.getD_some, Option.some.injEq] at h
      exact absurd h (hi.node m (List.mem_of_getLast?_eq_some hl)).1
  · intro h
    subst h
    rfl

/-- C7: in every reachable list (reached by successful and rejected `Insert`
calls), for every level `L` and every node `a` other than `head_` whose pointer
of level `L` is a node `b`, the key of `a` is strictly below the key of `b`; so the
assert `x == head_ || next == nullptr || KeyIsAfterNode(next->Key(), x)` of the
searches holds at `a`. -/
theorem C7_ordering_invariant (σ : SpdbSortedList K) (hr : Reachable σ) (a L b : Nat)
    (ha : a ≠ 0) (hnext : Next σ a L = some (some b)) :
    (∃ ka kb, σ.key a = some ka ∧ σ.key b = some kb ∧ ka < kb) ∧
      assertSorted σ a (some b) = some () := by
  obtain ⟨ns, hg⟩ := hr.good
  have hi := hg.inv
  unfold Next at hnext
  split_ifs at hnext with hL
  simp only [Option.some.injEq] at hnext
  have han : a ∈ ns := by
    by_contra hcon
    rw [hg.quiet a ha hcon L] at hnext
    cases hnext
  have hLk : L < σ.kMaxHeight_ := by
    have := (hi.node a han).2.2.2
    have := hi.height_le
    omega
  have hl := hi.level L hLk
  have hma : Lvl σ ns L a := ⟨han, hL⟩
  obtain ⟨hmb, hlt⟩ := (hl.next a (Or.inr hma)).1 b hnext
  obtain ⟨ka, hka⟩ := hl.key a hma
  obtain ⟨kb, hkb⟩ := hl.key b hmb
  refine ⟨⟨ka, kb, hka, hkb, ?_⟩, ?_⟩
  · rw [keyB_some hka, keyB_some hkb, WithBot.coe_lt_coe] at hlt
    exact hlt
  · have := hl.assertSorted_ok (Or.inr hma)
    rw [hnext] at this
    exact this

/-- C8: in every reachable list, the nodes reachable from `head_` along the
pointers of a level `L` are the nodes of the level-0 chain that have more than
`L` pointers; hence the nodes reachable at level `L + 1` are reachable at level
`L`, in the same order; and a node inserted with height `height` is reachable at
exactly the levels below `height`. -/
theorem C8_level_subset (σ : SpdbSortedList K) (hr : Reachable σ) (fuel : Nat)
    (hf : σ.count + σ.kMaxHeight_ + 3 ≤ fuel) :
    ∃ ns, chain fuel σ = some ns ∧
      (∀ L, L < σ.kMaxHeight_ → ∃ c, levelChain fuel σ L = some c ∧
        ∀ a, a ∈ c ↔ a ∈ ns ∧ L < σ.height a) ∧
      (∀ L c1 c0, levelChain fuel σ (L + 1) = some c1 → levelChain fuel σ L = some c0 →
        c1.Sublist c0) ∧
      (∀ (UseCAS : Bool) (own : Option Splice) (allow : Bool) (k : K) (height : Nat)
        (σ1 : SpdbSortedList K), (∀ sp, own = some sp → sp.height_ = 0) → 1 ≤ height →
        height ≤ σ.kMaxHeight_ →
        insertKey UseCAS own allow fuel σ k height = some (true, σ1) →
        σ1.height (σ.count + 1) = height ∧
        ∀ L, L < σ.kMaxHeight_ → ∃ c, levelChain fuel σ1 L = some c ∧
          (σ.count + 1 ∈ c ↔ L < height)) := by
  obtain ⟨ns, hg⟩ := hr.good
  have hi := hg.inv
  have hlen := hi.length_le
  refine ⟨ns, hi.chain_eq (by omega), ?_, ?_, ?_⟩
  · intro L hL
    refine ⟨_, hi.levelChain_eq hL (by omega), ?_⟩
    intro a
    simp [List.mem_filter]
  · intro L c1 c0 h1 h0
    have hL1 : L + 1 < σ.kMaxHeight_ := by
      unfold levelChain Next at h1
      rw [hi.head] at h1
      by_contra hcon
      rw [if_neg hcon] at h1
      cases h1
    rw [hi.levelChain_eq hL1 (by omega)] at h1
    rw [hi.levelChain_eq (show L < σ.kMaxHeight_ by omega) (by omega)] at h0
    cases h1
    cases h0
    have : ns.filter (fun a => decide (L + 1 < σ.height a)) =
        (ns.filter (fun a => decide (L < σ.height a))).filter
          (fun a => decide (L + 1 < σ.height a)) := by
      rw [List.filter_filter]
      apply List.filter_congr
      intro a _
      by_cases h : L + 1 < σ.height a
      · simp [h, show L < σ.height a by omega]
      · simp [h]
    rw [this]
    exact List.filter_sublist _
  · intro UseCAS own allow k height σ1 hown h1 h2 hins
    have hspec := insertKey_spec hg UseCAS own allow hown k h1 h2 hf
    have hnd : ∀ a, a ∈ ns → keyB σ a ≠ (k : WithBot K) := by
      intro a ha hk
      obtain ⟨σ2, h2', _⟩ := hspec.1 ⟨a, ha, hk⟩
      rw [hins] at h2'
      cases h2'
    obtain ⟨σ2, h2', hst, hg1⟩ := hspec.2 hnd
    rw [hins] at h2'
    cases h2'
    refine ⟨hst.height_new, ?_⟩
    intro L hL
    have hlen1 := hg1.inv.length_le
    rw [hst.count] at hlen1
    refine ⟨_, hg1.inv.levelChain_eq (by rw [hst.kMaxHeight]; exact hL) (by omega), ?_⟩
    rw [List.mem_filter, mem_insertNode (σ.count + 1) hnd, hst.height_new]
    simp

/-- C9: on every reachable list, after `SeekToFirst()` the iterator is valid if
and only if the list is not empty, and likewise after `SeekToLast()`; a newly
constructed list is empty, `FindGreaterOrEqual(k)` is null on it for every `k` and
`FindLast()` is `head_`. -/
theorem C9_seek_first_last_valid (σ : SpdbSortedList K) (hr : Reachable σ) (fuel : Nat)
    (hf : σ.count + σ.kMaxHeight_ + 2 ≤ fuel) :
    ∃ ns it1 it2, chain fuel σ = some ns ∧
      Iterator.SeekToFirst σ = some it1 ∧ (it1.Valid = true ↔ ns ≠ []) ∧
      Iterator.SeekToLast fuel σ = some it2 ∧ (it2.Valid = true ↔ ns ≠ []) ∧
      (∀ (kMaxNext : Nat) (max_height branching_factor : Int),
        SpdbSortedList.new kMaxNext max_height branching_factor = some σ →
        ns = [] ∧ (∀ k : K, FindGreaterOrEqual fuel σ k = some none) ∧
          FindLast fuel σ = some 0) := by
  obtain ⟨ns, hg⟩ := hr.good
  have hi := hg.inv
  have hlen := hi.length_le
  obtain ⟨hlast, _⟩ := hi.FindLast_eq hf
  have hfilter : ns.filter (fun a => decide (0 < σ.height a)) = [] ++ ns := by
    rw [List.nil_append, List.filter_eq_self]
    intro a ha
    simpa using (hi.node a ha).2.2.1
  have hfirst : σ.next 0 0 = ns.head? :=
    hi.next_split hi.kMax_pos hfilter (Or.inl rfl) (by simp)
  refine ⟨ns, { node_ := ns.head? },
    { node_ := if ns.getLast?.getD 0 = 0 then none else some (ns.getLast?.getD 0) },
    hi.chain_eq (by omega), ?_, ?_, ?_, ?_, ?_⟩
  · unfold Iterator.SeekToFirst
    rw [(hi.level 0 hi.kMax_pos).Next_eq (Or.inl rfl), hfirst]
    rfl
  · cases ns with
    | nil => simp [Iterator.Valid]
    | cons a t => simp [Iterator.Valid]
  · unfold Iterator.SeekToLast
    rw [hlast]
    rfl
  · cases hl : ns.getLast? with
    | none =>
      have := List.getLast?_eq_none_iff.mp hl
      subst this
      simp [Iterator.Valid]
    | some m =>
      have hm0 : m ≠ 0 := (hi.node m (List.mem_of_getLast?_eq_some hl)).1
      have hne : ns ≠ [] := by
        intro h
        rw [h] at hl
        cases hl
      simp [Iterator.Valid, hm0, hne]
  · intro kMaxNext mh bf hnew
    have hc : σ.count = 0 := (new_fields hnew).2.1
    have hnil : ns = [] := by
      apply List.eq_nil_of_length_eq_zero
      omega
    subst hnil
    refine ⟨rfl, fun k => ?_, ?_⟩
    · rw [hi.FindGreaterOrEqual_eq k hf]
      rfl
    · rw [hlast]
      rfl

theorem RandomHeight_loop_spec (σ : SpdbSortedList K) (rnd : Nat → Nat) :
    ∀ (fuel height pos : Nat), height ≤ min σ.kMaxHeight_ kMaxPossibleHeight →
      min σ.kMaxHeight_ kMaxPossibleHeight - height < fuel →
      ∃ h pos1, RandomHeight.loop σ rnd fuel height pos = some (h, pos1) ∧ height ≤ h ∧
        h ≤ min σ.kMaxHeight_ kMaxPossibleHeight := by
  intro fuel
  induction fuel with
  | zero => intro height pos _ h; omega
  | succ fuel ih =>
    intro height pos hle hf
    unfold RandomHeight.loop
    by_cases hc : height < σ.kMaxHeight_ ∧ height < kMaxPossibleHeight
    · rw [if_pos hc]
      by_cases hr : rnd pos < σ.kScaledInverseBranching_
      · rw [if_pos hr]
        have hlt : height < min σ.kMaxHeight_ kMaxPossibleHeight := lt_min hc.1 hc.2
        obtain ⟨h, pos1, h1, h2, h3⟩ := ih (height + 1) (pos + 1) hlt (by omega)
        exact ⟨h, pos1, h1, by omega, h3⟩
      · rw [if_neg hr]
        exact ⟨height, pos + 1, rfl, le_refl _, hle⟩
    · rw [if_neg hc]
      exact ⟨height, pos, rfl, le_refl _, hle⟩

theorem exampleList_new : SpdbSortedList.new 2147483647 12 4 = some exampleList := rfl

theorem exampleList_reachable : Reachable exampleList :=
  Reachable.init 2147483647 12 4 exampleList exampleList_new (by decide)

theorem exampleList1_eq :
    insertKey false none false 20 exampleList 5 2 = some (true, exampleList1) := rfl

theorem exampleList1_reachable : Reachable exampleList1 :=
  Reachable.insert exampleList false none false 20 5 2 true exampleList1 exampleList_reachable
    (by simp) (by decide) (by decide) (by decide) exampleList1_eq

theorem exampleList2_eq :
    insertKey true none true 20 exampleList1 3 3 = some (true, exampleList2) := rfl

theorem exampleList2_reachable : Reachable exampleList2 :=
  Reachable.insert exampleList1 true none true 20 3 3 true exampleList2 exampleList1_reachable
    (by simp) (by decide) (by decide) (by decide) exampleList2_eq

/-- Witness of C1: the keys 5, 3, 9 inserted with the heights 1, 2, 4 into the
list constructed with `max_height = 12`. -/
theorem C1_witness :
    SpdbSortedList.new 2147483647 12 4 = some exampleList ∧
    exampleList.kMaxHeight_ ≤ kMaxPossibleHeight ∧
    ([(5, 1), (3, 2), (9, 4)].map Prod.fst : List Nat).Nodup ∧
    (∀ p : Nat × Nat, p ∈ [(5, 1), (3, 2), (9, 4)] →
      1 ≤ p.2 ∧ p.2 ≤ exampleList.kMaxHeight_) ∧
    ∃ σ out, insertAll 20 [(5, 1), (3, 2), (9, 4)] exampleList =
        some (List.replicate [((5 : Nat), 1), (3, 2), (9, 4)].length true, σ) ∧
      scan 20 σ = some out ∧ out.Sorted (· < ·) ∧
      out.Perm ([(5, 1), (3, 2), (9, 4)].map Prod.fst) :=
  ⟨exampleList_new, by decide, by decide, by decide,
    C1_insert_then_iterate_sorted 2147483647 12 4 exampleList exampleList_new (by decide)
      [(5, 1), (3, 2), (9, 4)] (by decide) (by decide) 20 (by decide)⟩

/-- Witness of C2: the key 3 inserted into the list that holds the key 5. -/
theorem C2_witness :
    Reachable exampleList1 ∧ scan 20 exampleList1 = some [5] ∧ (3 : Nat) ∉ [5] ∧
    ∃ σ1 l1 l2, insertKey true none true 20 exampleList1 3 3 = some (true, σ1) ∧
      scan 20 σ1 = some (([5] : List Nat).filter (fun c => decide (c < 3)) ++
        3 :: ([5] : List Nat).filter (fun c => decide (3 < c))) ∧
      chain 20 exampleList1 = some (l1 ++ l2) ∧
      chain 20 σ1 = some (l1 ++ (exampleList1.count + 1) :: l2) ∧
      σ1.key (exampleList1.count + 1) = some 3 :=
  ⟨exampleList1_reachable, by decide, by decide,
    C2_insert_new_key exampleList1 exampleList1_reachable true none true (by simp) 3 3
      (by decide) (by decide) 20 (by decide) [5] (by decide) (by decide)⟩

/-- Witness of C3: the key 5 inserted again into the list that holds 3 and 5. -/
theorem C3_witness :
    Reachable exampleList2 ∧ scan 20 exampleList2 = some [3, 5] ∧ (5 : Nat) ∈ [3, 5] ∧
    ∃ σ1, insertKey false none false 20 exampleList2 5 4 = some (false, σ1) ∧
      scan 20 σ1 = some [3, 5] ∧ chain 20 σ1 = chain 20 exampleList2 :=
  ⟨exampleList2_reachable, by decide, by decide,
    C3_insert_duplicate exampleList2 exampleList2_reachable false none false (by simp) 5 4
      (by decide) (by decide) 20 (by decide) [3, 5] (by decide) (by decide)⟩

/-- Witness of C4: the searches on the list that holds 3 and 5. -/
theorem C4_witness :
    Reachable exampleList2 ∧ exampleList2.count + exampleList2.kMaxHeight_ + 2 ≤ 20 ∧
    ∃ ns, chain 20 exampleList2 = some ns ∧
      (∀ k : Nat,
        FindGreaterOrEqual 20 exampleList2 k =
          some (ns.find? (fun a => decide ((k : WithBot Nat) ≤ keyB exampleList2 a))) ∧
        Iterator.Seek 20 exampleList2 k =
          some { node_ := ns.find? (fun a => decide ((k : WithBot Nat) ≤ keyB exampleList2 a)) }) ∧
      (∀ n0 k0, ns = [n0] → exampleList2.key n0 = some k0 →
        FindGreaterOrEqual 20 exampleList2 k0 = some (some n0) ∧
        ∀ k, k0 < k → FindGreaterOrEqual 20 exampleList2 k = some none) :=
  ⟨exampleList2_reachable, by decide,
    C4_find_greater_or_equal exampleList2 exampleList2_reachable 20 (by decide)⟩

/-- Witness of C5: `FindLessThan(4, prev)` on the list that holds 3 and 5. -/
theorem C5_witness :
    Reachable exampleList2 ∧ exampleList2.count + exampleList2.kMaxHeight_ + 2 ≤ 20 ∧
    ∃ ns r prev1, chain 20 exampleList2 = some ns ∧
      FindLessThan 20 exampleList2 4 (some fun _ => 0) = some (r, prev1) ∧
      r = ((ns.filter fun a =>
        decide (keyB exampleList2 a < ((4 : Nat) : WithBot Nat))).getLast?).getD 0 ∧
      ((some fun _ => 0 : Option (Nat → Nat)) = none → prev1 = none) ∧
      ∀ p, (some fun _ => 0 : Option (Nat → Nat)) = some p → ∃ p1, prev1 = some p1 ∧
        (∀ L, L < exampleList2.max_height_ → p1 L = lastBelow exampleList2 ns 4 L) ∧
        ∀ L, exampleList2.max_height_ ≤ L → p1 L = p L :=
  ⟨exampleList2_reachable, by decide,
    C5_find_less_than exampleList2 exampleList2_reachable 4 (some fun _ => 0) 20 (by decide)⟩

/-- Witness of C6: `FindLast()` on the list that holds 3 and 5. -/
theorem C6_witness :
    Reachable exampleList2 ∧ exampleList2.count + exampleList2.kMaxHeight_ + 2 ≤ 20 ∧
    ∃ ns, chain 20 exampleList2 = some ns ∧
      FindLast 20 exampleList2 = some (ns.getLast?.getD 0) ∧
      (∀ c, c ∈ ns → keyB exampleList2 c ≤ keyB exampleList2 (ns.getLast?.getD 0)) ∧
      (FindLast 20 exampleList2 = some 0 ↔ ns = []) :=
  ⟨exampleList2_reachable, by decide,
    C6_find_last exampleList2 exampleList2_reachable 20 (by decide)⟩

/-- Witness of C7: node 2 (key 3) points at level 0 to node 1 (key 5). -/
theorem C7_witness :
    Reachable exampleList2 ∧ (2 : Nat) ≠ 0 ∧ Next exampleList2 2 0 = some (some 1) ∧
    ((∃ ka kb, exampleList2.key 2 = some ka ∧ exampleList2.key 1 = some kb ∧ ka < kb) ∧
      assertSorted exampleList2 2 (some 1) = some ()) :=
  ⟨exampleList2_reachable, by decide, by decide,
    C7_ordering_invariant exampleList2 exampleList2_reachable 2 0 1 (by decide) (by decide)⟩

/-- Witness of C8: the levels of the list that holds 3 and 5. -/
theorem C8_witness :
    Reachable exampleList2 ∧ exampleList2.count + exampleList2.kMaxHeight_ + 3 ≤ 20 ∧
    ∃ ns, chain 20 exampleList2 = some ns ∧
      (∀ L, L < exampleList2.kMaxHeight_ → ∃ c, levelChain 20 exampleList2 L = some c ∧
        ∀ a, a ∈ c ↔ a ∈ ns ∧ L < exampleList2.height a) ∧
      (∀ L c1 c0, levelChain 20 exampleList2 (L + 1) = some c1 →
        levelChain 20 exampleList2 L = some c0 → c1.Sublist c0) ∧
      (∀ (UseCAS : Bool) (own : Option Splice) (allow : Bool) (k : Nat) (height : Nat)
        (σ1 : SpdbSortedList Nat), (∀ sp, own = some sp → sp.height_ = 0) → 1 ≤ height →
        height ≤ exampleList2.kMaxHeight_ →
        insertKey UseCAS own allow 20 exampleList2 k height = some (true, σ1) →
        σ1.height (exampleList2.count + 1) = height ∧
        ∀ L, L < exampleList2.kMaxHeight_ → ∃ c, levelChain 20 σ1 L = some c ∧
          (exampleList2.count + 1 ∈ c ↔ L < height)) :=
  ⟨exampleList2_reachable, by decide,
    C8_level_subset exampleList2 exampleList2_reachable 20 (by decide)⟩

/-- Witness of C9: the iterator on the newly constructed list, where the
premise of the last part holds, and on the list that holds 3 and 5. -/
theorem C9_witness :
    (Reachable exampleList ∧ exampleList.count + exampleList.kMaxHeight_ + 2 ≤ 20 ∧
      SpdbSortedList.new 2147483647 12 4 = some exampleList ∧
      ∃ ns it1 it2, chain 20 exampleList = some ns ∧
        Iterator.SeekToFirst exampleList = some it1 ∧ (it1.Valid = true ↔ ns ≠ []) ∧
        Iterator.SeekToLast 20 exampleList = some it2 ∧ (it2.Valid = true ↔ ns ≠ []) ∧
        (∀ (kMaxNext : Nat) (max_height branching_factor : Int),
          SpdbSortedList.new kMaxNext max_height branching_factor = some exampleList →
          ns = [] ∧ (∀ k : Nat, FindGreaterOrEqual 20 exampleList k = some none) ∧
            FindLast 20 exampleList = some 0)) ∧
    (Reachable exampleList2 ∧ exampleList2.count + exampleList2.kMaxHeight_ + 2 ≤ 20 ∧
      ∃ ns it1 it2, chain 20 exampleList2 = some ns ∧
        Iterator.SeekToFirst exampleList2 = some it1 ∧ (it1.Valid = true ↔ ns ≠ []) ∧
        Iterator.SeekToLast 20 exampleList2 = some it2 ∧ (it2.Valid = true ↔ ns ≠ []) ∧
        (∀ (kMaxNext : Nat) (max_height branching_factor : Int),
          SpdbSortedList.new kMaxNext max_height branching_factor = some exampleList2 →
          ns = [] ∧ (∀ k : Nat, FindGreaterOrEqual 20 exampleList2 k = some none) ∧
            FindLast 20 exampleList2 = some 0)) :=
  ⟨⟨exampleList_reachable, by decide, exampleList_new,
      C9_seek_first_last_valid exampleList exampleList_reachable 20 (by decide)⟩,
    ⟨exampleList2_reachable, by decide,
      C9_seek_first_last_valid exampleList2 exampleList2_reachable 20 (by decide)⟩⟩

/-- The branching factor of a reachable list is the one that the constructor
accepted: it is greater than one. -/
theorem Reachable.kBranching_gt {σ : SpdbSortedList K} (hr : Reachable σ) :
    1 < σ.kBranching_ := by
  induction hr with
  | init kMaxNext mh bf σ hnew hcap =>
    have hb : (σ.kBranching_ : Int) = bf := (new_fields hnew).2.2.2.2.2.2.2.2.1
    have h1 : 1 < bf := by
      by_contra hcon
      unfold SpdbSortedList.new at hnew
      simp [assert, hcon] at hnew
    omega
  | insert σ UseCAS own allow fuel k height b σ1 hr0 hown h1 h2 hf hins ih =>
    obtain ⟨ns, hg⟩ := hr0.good
    have hspec := insertKey_spec hg UseCAS own allow hown k h1 h2 hf
    by_cases hdup : ∃ d, d ∈ ns ∧ keyB σ d = (k : WithBot K)
    · obtain ⟨σ2, h2', hst, _, _⟩ := hspec.1 hdup
      rw [hins] at h2'
      cases h2'
      rw [hst.kBranching]; exact ih
    · have hnd : ∀ a, a ∈ ns → keyB σ a ≠ (k : WithBot K) :=
        fun a ha hk => hdup ⟨a, ha, hk⟩
      obtain ⟨σ2, h2', hst, _⟩ := hspec.2 hnd
      rw [hins] at h2'
      cases h2'
      rw [hst.kBranching]; exact ih

/-- The descent of `EstimateCount` returns, and `count` stays within the number
of nodes passed so far, scaled by `kBranching_` for each level still to go down. -/
theorem EstimateCount_loop_spec {σ : SpdbSortedList K} {ns : List Nat} (hi : Inv σ ns)
    (hB : 1 ≤ σ.kBranching_) (k : K) :
    ∀ (fuel x level count : Nat), level < σ.max_height_ →
      Start (keyB σ) (Lvl σ ns level) k x →
      count ≤ ns.countP (fun c => decide (keyB σ c ≤ keyB σ x)) *
        σ.kBranching_ ^ (σ.max_height_ - 1 - level) →
      ns.countP (fun c => decide (keyB σ x < keyB σ c ∧ keyB σ c < (k : WithBot K))) + level
        < fuel →
      ∃ c, EstimateCount.loop σ k fuel x level count = some c ∧
        c ≤ ns.countP (fun a => decide (keyB σ a < (k : WithBot K))) *
          σ.kBranching_ ^ (σ.max_height_ - 1) := by
  intro fuel
  induction fuel with
  | zero => intro x level count _ _ _ h; omega
  | succ fuel ih =>
    intro x level count hlev hs hc hm
    have hlevk : level < σ.kMaxHeight_ := lt_of_lt_of_le hlev hi.height_le
    have hl := hi.level level hlevk
    have hassert : EstimateCount.assertBelow σ k x = some () := by
      unfold EstimateCount.assertBelow
      by_cases h0 : x = 0
      · simp [h0]
      · have hmx := hs.1.resolve_left h0
        obtain ⟨kx, hkx⟩ := hl.key x hmx
        have hlt := hs.2
        rw [keyB_some hkx, WithBot.coe_lt_coe] at hlt
        simp [h0, hkx, assert, (compare__lt kx k).mpr hlt]
    unfold EstimateCount.loop
    rw [hassert, hl.Next_eq hs.1]
    simp only [Option.some_bind]
    have hpow : 1 ≤ σ.kBranching_ ^ (σ.max_height_ - 1 - level) := Nat.one_le_pow _ _ hB
    -- the two continuations
    have hdown : level ≠ 0 →
        ∃ c, EstimateCount.loop σ k fuel x (level - 1) (count * σ.kBranching_ % 2 ^ 64) = some c ∧
          c ≤ ns.countP (fun a => decide (keyB σ a < (k : WithBot K))) *
            σ.kBranching_ ^ (σ.max_height_ - 1) := by
      intro hl0
      apply ih x (level - 1) _ (by omega) (hs.mono_start (by omega))
      · have he : σ.max_height_ - 1 - (level - 1) = (σ.max_height_ - 1 - level) + 1 := by omega
        have hp : ns.countP (fun c => decide (keyB σ c ≤ keyB σ x)) *
            σ.kBranching_ ^ (σ.max_height_ - 1 - (level - 1)) =
            ns.countP (fun c => decide (keyB σ c ≤ keyB σ x)) *
              σ.kBranching_ ^ (σ.max_height_ - 1 - level) * σ.kBranching_ := by
          rw [he, Nat.pow_succ, Nat.mul_assoc]
        rw [hp]
        exact le_trans (Nat.mod_le _ _) (Nat.mul_le_mul_right _ hc)
      · omega
    have hend : level = 0 → count ≤
        ns.countP (fun a => decide (keyB σ a < (k : WithBot K))) *
          σ.kBranching_ ^ (σ.max_height_ - 1) := by
      intro hl0
      subst hl0
      refine le_trans hc (Nat.mul_le_mul_right _ ?_)
      apply List.countP_mono_left
      intro a _ ha
      simp only [decide_eq_true_eq] at ha ⊢
      exact lt_of_le_of_lt ha hs.2
    cases hn : σ.next x level with
    | none =>
      simp only [EstimateCount.atEnd, Option.some_bind, if_true]
      by_cases hl0 : level = 0
      · simp only [hl0, if_true]
        exact ⟨count, rfl, hend hl0⟩
      · simp only [hl0, if_false]
        exact hdown hl0
    | some nx =>
      obtain ⟨hmn, hlt⟩ := (hl.next x hs.1).1 nx hn
      obtain ⟨kn, hkn⟩ := hl.key nx hmn
      simp only [EstimateCount.atEnd, hkn, Option.some_bind]
      by_cases hge : 0 ≤ compare_ kn k
      · simp only [hge, decide_True, if_true]
        by_cases hl0 : level = 0
        · simp only [hl0, if_true]
          exact ⟨count, rfl, hend hl0⟩
        · simp only [hl0, if_false]
          exact hdown hl0
      · simp only [hge, decide_False, Bool.false_eq_true, if_false]
        have hknk : kn < k := by
          by_contra hcon
          exact hge ((compare__ge kn k).mpr (not_lt.mp hcon))
        have hkb : keyB σ nx < (k : WithBot K) := by
          rw [keyB_some hkn]; exact WithBot.coe_lt_coe.mpr hknk
        apply ih nx level _ hlev ⟨Or.inr hmn, hkb⟩
        · have hlt2 := countP_lt_of_imp
            (fun c => decide (keyB σ c ≤ keyB σ x))
            (fun c => decide (keyB σ c ≤ keyB σ nx)) ns
            (by
              intro a _ h
              simp only [decide_eq_true_eq] at h ⊢
              exact le_trans h (le_of_lt hlt))
            nx hmn.1 (by simp) (by simp [hlt])
          have h1 : (count + 1) % 2 ^ 64 ≤ count + 1 := Nat.mod_le _ _
          have h2 : count + 1 ≤ (ns.countP (fun c => decide (keyB σ c ≤ keyB σ x)) + 1) *
              σ.kBranching_ ^ (σ.max_height_ - 1 - level) := by
            rw [Nat.add_mul, Nat.one_mul]
            omega
          exact le_trans h1 (le_trans h2 (Nat.mul_le_mul_right _ hlt2))
        · have hlt2 := countP_lt_of_imp
            (fun c => decide (keyB σ nx < keyB σ c ∧ keyB σ c < (k : WithBot K)))
            (fun c => decide (keyB σ x < keyB σ c ∧ keyB σ c < (k : WithBot K))) ns
            (by
              intro a _ h
              simp only [decide_eq_true_eq] at h ⊢
              exact ⟨lt_trans hlt h.1, h.2⟩)
            nx hmn.1 (by simp [hlt, hkb]) (by simp)
          omega

/-- C11 (amended): on every reachable list, `EstimateCount(k)` returns, and the
estimate is at most the number of nodes whose key is below `k`, hence at most
the number `N` of keys, multiplied by `kBranching_ ^ (max_height_ - 1)`. -/
theorem C11_estimate_count_bound (σ : SpdbSortedList K) (hr : Reachable σ) (k : K) (fuel : Nat)
    (hf : σ.count + σ.kMaxHeight_ + 2 ≤ fuel) :
    ∃ ns c, chain fuel σ = some ns ∧ EstimateCount fuel σ k = some c ∧
      c ≤ (ns.filter fun a => decide (keyB σ a < (k : WithBot K))).length *
        σ.kBranching_ ^ (σ.max_height_ - 1) ∧
      c ≤ ns.length * σ.kBranching_ ^ (σ.max_height_ - 1) := by
  obtain ⟨ns, hg⟩ := hr.good
  have hi := hg.inv
  have hlen := hi.length_le
  have h1 := hi.height_pos
  have h2 := hi.height_le
  have hB : 1 ≤ σ.kBranching_ := le_of_lt hr.kBranching_gt
  obtain ⟨c, hloop, hc⟩ := EstimateCount_loop_spec hi hB k fuel 0 (σ.max_height_ - 1) 0
    (by omega) ⟨Or.inl rfl, by rw [hi.keyB_head]; exact WithBot.bot_lt_coe k⟩ (Nat.zero_le _)
    (by have := hi.countP_le
          (fun c => decide (keyB σ 0 < keyB σ c ∧ keyB σ c < (k : WithBot K)))
        omega)
  have hE : EstimateCount fuel σ k = some c := by
    unfold EstimateCount
    rw [if_neg (by omega)]
    exact hloop
  rw [List.countP_eq_length_filter] at hc
  refine ⟨ns, c, hi.chain_eq (by omega), hE, hc, le_trans hc (Nat.mul_le_mul_right _ ?_)⟩
  exact List.length_filter_le _ _

/-- Witness of C11: `EstimateCount(4)` on the list that holds 3 and 5. -/
theorem C11_witness :
    Reachable exampleList2 ∧ exampleList2.count + exampleList2.kMaxHeight_ + 2 ≤ 20 ∧
    ∃ ns c, chain 20 exampleList2 = some ns ∧ EstimateCount 20 exampleList2 4 = some c ∧
      c ≤ (ns.filter fun a => decide (keyB exampleList2 a < ((4 : Nat) : WithBot Nat))).length *
        exampleList2.kBranching_ ^ (exampleList2.max_height_ - 1) ∧
      c ≤ ns.length * exampleList2.kBranching_ ^ (exampleList2.max_height_ - 1) :=
  ⟨exampleList2_reachable, by decide,
    C11_estimate_count_bound exampleList2 exampleList2_reachable 4 20 (by decide)⟩

/-- Counterexample of C11: the list that holds the single key 5 in a node of
height 2 is reachable, and `EstimateCount(10)` returns 4 on it, which is more
than the number of its keys. -/
theorem C11_counterexample :
    Reachable exampleList1 ∧ scan 20 exampleList1 = some [5] ∧
    EstimateCount 20 exampleList1 10 = some 4 ∧ ¬ (4 ≤ ([5] : List Nat).length) :=
  ⟨exampleList1_reachable, by decide, by decide, by decide⟩

/-- Two lists with the same keys and heights that satisfy the invariant of
reachable lists on the same list of linked nodes hold the same pointers. -/
theorem Good.Next_unique {σ1 σ2 : SpdbSortedList K} {ns : List Nat} (hg1 : Good σ1 ns)
    (hg2 : Good σ2 ns) (hkey : σ2.key = σ1.key) (hheight : σ2.height = σ1.height)
    (hmax : σ2.kMaxHeight_ = σ1.kMaxHeight_) : ∀ a L, Next σ2 a L = Next σ1 a L := by
  intro a L
  unfold Next
  rw [hheight]
  by_cases hL : L < σ1.height a
  · simp only [hL, if_true]
    congr 1
    have hkb : keyB σ2 = keyB σ1 := keyB_congr hkey
    have hlvl : ∀ c, Lvl σ2 ns L c ↔ Lvl σ1 ns L c := by
      intro c; unfold Lvl; rw [hheight]
    by_cases hmem : a = 0 ∨ a ∈ ns
    · have hLk : L < σ1.kMaxHeight_ := by
        rcases hmem with rfl | ha
        · rw [← hg1.inv.head]; exact hL
        · have := (hg1.inv.node a ha).2.2.2
          have := hg1.inv.height_le
          omega
      have hm1 : a = 0 ∨ Lvl σ1 ns L a := hmem.imp id fun ha => ⟨ha, hL⟩
      have hm2 : a = 0 ∨ Lvl σ2 ns L a := hm1.imp id (hlvl a).mpr
      have hf1 := (hg1.inv.level L hLk).next a hm1
      have hf2 := (hg2.inv.level L (by rw [hmax]; exact hLk)).next a hm2
      rw [hkb] at hf2
      have hf2' : IsFirst (keyB σ1) (Lvl σ1 ns L) (fun b => keyB σ1 a < keyB σ1 b)
          (σ2.next a L) := hf2.congr_first fun c => by rw [hlvl c]
      exact IsFirst.unique_first (hg1.inv.level L hLk).inj hf2' hf1
    · have h0 : a ≠ 0 := fun h => hmem (Or.inl h)
      have hn : a ∉ ns := fun h => hmem (Or.inr h)
      rw [hg1.quiet a h0 hn L, hg2.quiet a h0 hn L]
  · simp only [hL, if_false]

/-- What one insertion leaves does not depend on the linking strategy, on the
splice that the caller passes or on `allow_partial_splice_fix`: the returned
boolean, the keys, the heights and the pointers are the same. -/
theorem insertKey_agree {σ : SpdbSortedList K} {ns : List Nat} (hg : Good σ ns)
    (U1 U2 : Bool) (own1 own2 : Option Splice) (allow1 allow2 : Bool)
    (hown1 : ∀ sp, own1 = some sp → sp.height_ = 0)
    (hown2 : ∀ sp, own2 = some sp → sp.height_ = 0) (k : K) {h : Nat} (h1 : 1 ≤ h)
    (h2 : h ≤ σ.kMaxHeight_) {fuel : Nat} (hf : σ.count + σ.kMaxHeight_ + 3 ≤ fuel) :
    ∃ b σ1 σ2, insertKey U1 own1 allow1 fuel σ k h = some (b, σ1) ∧
      insertKey U2 own2 allow2 fuel σ k h = some (b, σ2) ∧
      (∀ a L, Next σ2 a L = Next σ1 a L) ∧ σ2.key = σ1.key ∧ σ2.height = σ1.height ∧
      σ2.max_height_ = σ1.max_height_ ∧ σ2.count = σ1.count := by
  have hs1 := insertKey_spec hg U1 own1 allow1 hown1 k h1 h2 hf
  have hs2 := insertKey_spec hg U2 own2 allow2 hown2 k h1 h2 hf
  have hsame : ∀ {σ1 σ2 : SpdbSortedList K}, Stepped σ σ1 k h → Stepped σ σ2 k h →
      σ2.key = σ1.key ∧ σ2.height = σ1.height ∧ σ2.max_height_ = σ1.max_height_ ∧
        σ2.count = σ1.count ∧ σ2.kMaxHeight_ = σ1.kMaxHeight_ := by
    intro σ1 σ2 s1 s2
    refine ⟨?_, ?_, ?_, ?_, ?_⟩
    · funext a
      by_cases ha : a = σ.count + 1
      · rw [ha, s1.key_new, s2.key_new]
      · rw [s1.key_old a ha, s2.key_old a ha]
    · funext a
      by_cases ha : a = σ.count + 1
      · rw [ha, s1.height_new, s2.height_new]
      · rw [s1.height_old a ha, s2.height_old a ha]
    · rw [s1.max_height, s2.max_height]
    · rw [s1.count, s2.count]
    · rw [s1.kMaxHeight, s2.kMaxHeight]
  by_cases hdup : ∃ d, d ∈ ns ∧ keyB σ d = (k : WithBot K)
  · obtain ⟨σ1, hi1, st1, hg1, hn1⟩ := hs1.1 hdup
    obtain ⟨σ2, hi2, st2, hg2, hn2⟩ := hs2.1 hdup
    obtain ⟨e1, e2, e3, e4, e5⟩ := hsame st1 st2
    exact ⟨false, σ1, σ2, hi1, hi2, hg1.Next_unique hg2 e1 e2 e5, e1, e2, e3, e4⟩
  · have hnd : ∀ a, a ∈ ns → keyB σ a ≠ (k : WithBot K) := fun a ha hk => hdup ⟨a, ha, hk⟩
    obtain ⟨σ1, hi1, st1, hg1⟩ := hs1.2 hnd
    obtain ⟨σ2, hi2, st2, hg2⟩ := hs2.2 hnd
    obtain ⟨e1, e2, e3, e4, e5⟩ := hsame st1 st2
    exact ⟨true, σ1, σ2, hi1, hi2, hg1.Next_unique hg2 e1 e2 e5, e1, e2, e3, e4⟩

/-- C12: the splice is an optimisation only. On every reachable list, for every
key and every node height in `[1, kMaxHeight_]`, `Insert<false>` with the splice
`seq_splice_` that earlier insertions left and `allow_partial_splice_fix = false`
returns a boolean `b` and a list `σ1`; the call with a fresh splice of `height_`
0 in its place, and either call with `allow_partial_splice_fix = true` in its
place, returns the same boolean and a list with the same pointer at every level
of every node, the same keys, heights, `max_height_` and number of nodes. -/
theorem C12_splice_pure_optimisation (σ : SpdbSortedList K) (hr : Reachable σ) (k : K)
    (height : Nat) (h1 : 1 ≤ height) (h2 : height ≤ σ.kMaxHeight_) (fuel : Nat)
    (hf : σ.count + σ.kMaxHeight_ + 3 ≤ fuel) :
    ∃ b σ1, insertKey false none false fuel σ k height = some (b, σ1) ∧
      ∀ (own : Option Splice) (allow : Bool), (∀ sp, own = some sp → sp.height_ = 0) →
        ∃ σ2, insertKey false own allow fuel σ k height = some (b, σ2) ∧
          (∀ a L, Next σ2 a L = Next σ1 a L) ∧ σ2.key = σ1.key ∧ σ2.height = σ1.height ∧
          σ2.max_height_ = σ1.max_height_ ∧ σ2.count = σ1.count := by
  obtain ⟨ns, hg⟩ := hr.good
  obtain ⟨b, σ1, _, hi1, _⟩ := insertKey_agree hg false false none none false false
    (fun _ h => by cases h) (fun _ h => by cases h) k h1 h2 hf
  refine ⟨b, σ1, hi1, ?_⟩
  intro own allow hown
  obtain ⟨b', σ1', σ2, hi1', hi2, hrest⟩ := insertKey_agree hg false false none own false allow
    (fun _ h => by cases h) hown k h1 h2 hf
  rw [hi1] at hi1'
  cases hi1'
  exact ⟨σ2, hi2, hrest⟩

/-- Witness of C12: the key 4 inserted with height 4 into the list that holds 3
and 5, whose splice was left by the insertion of 3. -/
theorem C12_witness :
    Reachable exampleList2 ∧ 1 ≤ 4 ∧ 4 ≤ exampleList2.kMaxHeight_ ∧
    exampleList2.count + exampleList2.kMaxHeight_ + 3 ≤ 20 ∧
    ∃ b σ1, insertKey false none false 20 exampleList2 4 4 = some (b, σ1) ∧
      ∀ (own : Option Splice) (allow : Bool), (∀ sp, own = some sp → sp.height_ = 0) →
        ∃ σ2, insertKey false own allow 20 exampleList2 4 4 = some (b, σ2) ∧
          (∀ a L, Next σ2 a L = Next σ1 a L) ∧ σ2.key = σ1.key ∧ σ2.height = σ1.height ∧
          σ2.max_height_ = σ1.max_height_ ∧ σ2.count = σ1.count :=
  ⟨exampleList2_reachable, by decide, by decide, by decide,
    C12_splice_pure_optimisation exampleList2 exampleList2_reachable 4 4 (by decide)
      (by decide) 20 (by decide)⟩

/-! ## The iterator that moves backwards -/

theorem Inv.node_key_ne_bot {σ : SpdbSortedList K} {ns : List Nat} (hi : Inv σ ns) {a : Nat}
    (ha : a ∈ ns) : keyB σ a ≠ ⊥ := by
  obtain ⟨ka, hka⟩ := hi.key_some ha
  rw [keyB_some hka]
  exact WithBot.coe_ne_bot

/-- The method `FindLessThan(key)` without the array `prev` returns the last
node whose key is below `key`, or `head_`. -/
theorem Inv.FindLessThan_pred {σ : SpdbSortedList K} {ns : List Nat} (hi : Inv σ ns) (k : K)
    {fuel : Nat} (hf : σ.count + σ.kMaxHeight_ + 2 ≤ fuel) :
    ∃ r, FindLessThan fuel σ k none = some (r, none) ∧
      (r = 0 ∨ r ∈ ns) ∧ keyB σ r < (k : WithBot K) ∧
      ∀ c, c ∈ ns → keyB σ c < (k : WithBot K) → keyB σ c ≤ keyB σ r := by
  have h1 := hi.height_pos
  have h2 := hi.height_le
  obtain ⟨r, prev1, hloop, hpred, hnone, -⟩ := FindLessThan_loop_spec hi k fuel 0
    (σ.max_height_ - 1) none none (by omega) ⟨Or.inl rfl, hi.coe_gt_head k⟩ (by simp)
    (by have := hi.countP_le
          (fun c => decide (keyB σ 0 < keyB σ c ∧ keyB σ c < (k : WithBot K)))
        omega)
  rw [hnone rfl] at hloop
  refine ⟨r, ?_, hpred.1.1.imp id (fun h => h.1), hpred.1.2, ?_⟩
  · unfold FindLessThan FindLessThanFrom
    simp only [show 0 < σ.max_height_ by omega, decide_True, assert, if_true, Option.some_bind]
    exact hloop
  · intro c hc hlt
    exact hpred.2 c (hi.lvl_zero hc) hlt

/-- The node that an optional pointer names is the last node of a sorted list
that satisfies a test, when it is the node of greatest key among those that
satisfy it. -/
theorem last_filter_eq {σ : SpdbSortedList K} {ns : List Nat} (hi : Inv σ ns) (P : Nat → Bool)
    (r : Option Nat)
    (h1 : ∀ p, r = some p → p ∈ ns ∧ P p = true ∧ ∀ c, c ∈ ns → P c = true →
      keyB σ c ≤ keyB σ p)
    (h2 : r = none → ∀ c, c ∈ ns → P c = false) :
    r = (ns.filter P).getLast? := by
  cases hlast : (ns.filter P).getLast? with
  | none =>
    rw [List.getLast?_eq_none_iff] at hlast
    cases hr : r with
    | none => rfl
    | some p =>
      obtain ⟨hp, hP, -⟩ := h1 p hr
      have : p ∈ ns.filter P := List.mem_filter.mpr ⟨hp, hP⟩
      rw [hlast] at this
      exact absurd this (List.not_mem_nil p)
  | some m =>
    obtain ⟨hmF, hmax⟩ := last_max (hi.sorted.filter P) hlast
    obtain ⟨hm, hPm⟩ := List.mem_filter.mp hmF
    cases hr : r with
    | none =>
      have := h2 hr m hm
      rw [hPm] at this
      cases this
    | some p =>
      obtain ⟨hp, hP, hpmax⟩ := h1 p hr
      have e : p = m := hi.inj hp hm
        (le_antisymm (hmax p (List.mem_filter.mpr ⟨hp, hP⟩)) (hpmax m hm hPm))
      rw [e]

/-- The nodes before a node of a sorted list are the nodes whose key is below
the key of that node. -/
theorem Inv.filter_below {σ : SpdbSortedList K} {ns : List Nat} (hi : Inv σ ns)
    {l1 l2 : List Nat} {n : Nat} (hns : ns = l1 ++ n :: l2) :
    ns.filter (fun a => decide (keyB σ a < keyB σ n)) = l1 := by
  have hs := hi.sorted
  rw [hns, List.pairwise_append] at hs
  obtain ⟨-, hs2, hs3⟩ := hs
  rw [hns, List.filter_append, List.filter_eq_self.mpr, List.filter_eq_nil_iff.mpr, List.append_nil]
  · intro a ha
    rcases List.mem_cons.mp ha with rfl | hat
    · simp
    · have := List.rel_of_pairwise_cons hs2 hat
      simpa using le_of_lt this
  · intro a ha
    simpa using hs3 a ha n (List.mem_cons_self _ _)

/-- The method `Iterator::Prev()` at a linked node. -/
theorem Inv.Prev_eq {σ : SpdbSortedList K} {ns : List Nat} (hi : Inv σ ns)
    {fuel : Nat} (hf : σ.count + σ.kMaxHeight_ + 2 ≤ fuel) {n : Nat} (hn : n ∈ ns) :
    Iterator.Prev fuel σ { node_ := some n } =
      some { node_ := (ns.filter (fun a => decide (keyB σ a < keyB σ n))).getLast? } := by
  obtain ⟨k, hk⟩ := hi.key_some hn
  obtain ⟨r, hfind, hr, hlt, hmax⟩ := hi.FindLessThan_pred k hf
  unfold Iterator.Prev
  simp only [Option.some_bind, hk, hfind]
  congr 2
  rw [keyB_some hk]
  apply last_filter_eq hi
  · intro p hp
    split_ifs at hp with h0
    cases hp
    have hpn : r ∈ ns := hr.resolve_left h0
    refine ⟨hpn, by simpa using hlt, ?_⟩
    intro c hc hP
    exact hmax c hc (by simpa using hP)
  · intro hnone c hc
    split_ifs at hnone with h0
    by_contra hP
    have hlt2 : keyB σ c < (k : WithBot K) := by simpa using hP
    have := hmax c hc hlt2
    rw [h0, hi.keyB_head, le_bot_iff] at this
    exact hi.node_key_ne_bot hc this

/-- C28: on every reachable list, at every node `n` of the level-0 chain,
`Iterator::Prev()` moves to the node that precedes `n` in the chain, which is
the node with the greatest key below the key of `n`, and the iterator is not
valid afterwards exactly when `n` is the first node; when `Next()` moves from
`n` to a node, `Prev()` moves back from that node to `n`. -/
theorem C28_iterator_prev (σ : SpdbSortedList K) (hr : Reachable σ) (fuel : Nat)
    (hf : σ.count + σ.kMaxHeight_ + 2 ≤ fuel) (l1 l2 : List Nat) (n : Nat)
    (hchain : chain fuel σ = some (l1 ++ n :: l2)) :
    ∃ it, Iterator.Prev fuel σ { node_ := some n } = some it ∧
      it.node_ = l1.getLast? ∧
      (∀ p, it.node_ = some p → keyB σ p < keyB σ n ∧
        ∀ c, c ∈ l1 ++ n :: l2 → keyB σ c < keyB σ n → keyB σ c ≤ keyB σ p) ∧
      (it.Valid = false ↔ l1 = []) ∧
      ∃ it1, Iterator.Next σ { node_ := some n } = some it1 ∧ it1.node_ = l2.head? ∧
        (it1.Valid = true →
          Iterator.Prev fuel σ it1 = some { node_ := some n }) := by
  obtain ⟨ns, hg⟩ := hr.good
  have hi := hg.inv
  have hlen := hi.length_le
  have hns : ns = l1 ++ n :: l2 := by
    have := hi.chain_eq (show ns.length < fuel by omega)
    rw [hchain] at this
    exact (Option.some.inj this).symm
  have hn : n ∈ ns := by rw [hns]; simp
  have hprev := hi.Prev_eq hf hn
  rw [hi.filter_below hns] at hprev
  refine ⟨_, hprev, rfl, ?_, ?_, ?_⟩
  · intro p hp
    have hs := hi.sorted
    rw [hns, List.pairwise_append] at hs
    have hp1 : p ∈ l1 := List.mem_of_getLast?_eq_some hp
    refine ⟨hs.2.2 p hp1 n (List.mem_cons_self _ _), ?_⟩
    intro c hc hlt
    have hc1 : c ∈ l1 := by
      rw [← hi.filter_below hns, List.mem_filter]
      exact ⟨hns ▸ hc, by simpa using hlt⟩
    exact (last_max hs.1 hp).2 c hc1
  · show (l1.getLast? != none) = false ↔ _
    cases l1 with
    | nil => simp
    | cons a t => simp [List.getLast?_cons_cons, List.getLast?_eq_getLast]
  · have hfilter : ns.filter (fun a => decide (0 < σ.height a)) = (l1 ++ [n]) ++ l2 := by
      rw [List.filter_eq_self.mpr, hns]
      · simp
      · intro a ha
        simpa using (hi.node a ha).2.2.1
    have hnext : σ.next n 0 = l2.head? := by
      refine hi.next_split hi.kMax_pos hfilter (Or.inr (by simp)) ?_
      intro c hc
      have hs := hi.sorted
      rw [hns, List.pairwise_append] at hs
      rcases List.mem_append.mp hc with h | h
      · exact le_of_lt (hs.2.2 c h n (List.mem_cons_self _ _))
      · simp at h; rw [h]
    have hN : Iterator.Next σ { node_ := some n } = some { node_ := l2.head? } := by
      unfold Iterator.Next
      simp only [Option.some_bind]
      rw [(hi.level 0 hi.kMax_pos).Next_eq (Or.inr (hi.lvl_zero hn)), hnext]
      rfl
    refine ⟨_, hN, rfl, ?_⟩
    intro hv
    cases l2 with
    | nil => simp [Iterator.Valid] at hv
    | cons m t =>
      have hns2 : ns = (l1 ++ [n]) ++ m :: t := by rw [hns]; simp
      have hm : m ∈ ns := by rw [hns2]; simp
      have := hi.Prev_eq hf hm
      rw [hi.filter_below hns2] at this
      simpa using this

theorem LessThan_iff (a b : K) : LessThan a b = true ↔ a < b := by
  unfold LessThan
  rw [decide_eq_true_eq, compare__lt]

/-- The loop of `SeekForPrev` stops at once at an iterator that is not valid or
whose key is not above the target. -/
theorem SeekForPrev_loop_stop (σ : SpdbSortedList K) (target : K) (fuel n : Nat)
    (it : Iterator)
    (h : ∀ p, it.node_ = some p → ∃ k, σ.key p = some k ∧ k ≤ target) :
    Iterator.SeekForPrev.loop σ target fuel (n + 1) it = some it := by
  unfold Iterator.SeekForPrev.loop
  cases hn : it.node_ with
  | none => simp [Iterator.Valid, hn]
  | some p =>
    obtain ⟨k, hk, hle⟩ := h p hn
    have hL : LessThan target k = false := by
      rw [← Bool.not_eq_true, LessThan_iff]
      exact not_lt.mpr hle
    simp [Iterator.Valid, Iterator.key, hn, hk, hL]

/-- The method `Iterator::SeekForPrev(target)` on a list that satisfies the
invariant. -/
theorem Inv.SeekForPrev_eq {σ : SpdbSortedList K} {ns : List Nat} (hi : Inv σ ns)
    {fuel : Nat} (hf : σ.count + σ.kMaxHeight_ + 2 ≤ fuel) (target : K) :
    Iterator.SeekForPrev fuel σ target =
      some { node_ := (ns.filter (fun a => decide (keyB σ a ≤ (target : WithBot K)))).getLast? } := by
  have hkm := hi.kMax_pos
  obtain ⟨f, rfl⟩ : ∃ f, fuel = f + 2 := ⟨fuel - 2, by omega⟩
  have hfirst := IsFirst_find hi.sorted (fun a => (target : WithBot K) ≤ keyB σ a)
  unfold Iterator.SeekForPrev Iterator.Seek
  rw [hi.FindGreaterOrEqual_eq target hf]
  simp only [Option.some_bind]
  cases hs : ns.find? (fun a => decide ((target : WithBot K) ≤ keyB σ a)) with
  | none =>
    rw [hs] at hfirst
    have hall : ∀ c, c ∈ ns → keyB σ c < (target : WithBot K) := by
      intro c hc
      by_contra hcon
      obtain ⟨b, hb, -⟩ := hfirst.2 c hc (not_lt.mp hcon)
      cases hb
    have hlast : (if ns.getLast?.getD 0 = 0 then none else some (ns.getLast?.getD 0)) =
        ns.getLast? := by
      cases hl : ns.getLast? with
      | none => simp
      | some m =>
        have := (hi.node m (List.mem_of_getLast?_eq_some hl)).1
        simp [this]
    have hfilter : ns.filter (fun a => decide (keyB σ a ≤ (target : WithBot K))) = ns := by
      rw [List.filter_eq_self]
      intro a ha
      simpa using le_of_lt (hall a ha)
    rw [hfilter]
    simp only [Iterator.Valid, bne_self_eq_false, Bool.false_eq_true, if_false]
    unfold Iterator.SeekToLast
    rw [(hi.FindLast_eq hf).1, Option.some_bind, hlast, Option.some_bind]
    apply SeekForPrev_loop_stop
    intro p hp
    have hpn : p ∈ ns := List.mem_of_getLast?_eq_some hp
    obtain ⟨k, hk⟩ := hi.key_some hpn
    refine ⟨k, hk, ?_⟩
    have := hall p hpn
    rw [keyB_some hk, WithBot.coe_lt_coe] at this
    exact le_of_lt this
  | some m =>
    rw [hs] at hfirst
    obtain ⟨hm, hge⟩ := hfirst.1 m rfl
    have hmin : ∀ d, d ∈ ns → (target : WithBot K) ≤ keyB σ d → keyB σ m ≤ keyB σ d := by
      intro d hd hle
      obtain ⟨b, hb, hbd⟩ := hfirst.2 d hd hle
      cases hb
      exact hbd
    obtain ⟨km, hkm⟩ := hi.key_some hm
    simp only [Iterator.Valid, bne_iff_ne, ne_eq, reduceCtorEq, not_false_eq_true, if_true,
      Option.some_bind]
    by_cases hlt : target < km
    · -- one step back
      have hfc : ns.filter (fun a => decide (keyB σ a ≤ (target : WithBot K))) =
          ns.filter (fun a => decide (keyB σ a < keyB σ m)) := by
        apply List.filter_congr
        intro a ha
        rw [decide_eq_decide, keyB_some hkm]
        constructor
        · intro h
          exact lt_of_le_of_lt h (WithBot.coe_lt_coe.mpr hlt)
        · intro h
          by_contra hcon
          have := hmin a ha (le_of_lt (not_le.mp hcon))
          rw [keyB_some hkm] at this
          exact absurd h (not_lt.mpr this)
      rw [hfc]
      unfold Iterator.SeekForPrev.loop
      simp only [Iterator.Valid, bne_iff_ne, ne_eq, reduceCtorEq, not_false_eq_true, if_true,
        Iterator.key, Option.some_bind, hkm, (LessThan_iff target km).mpr hlt]
      rw [hi.Prev_eq hf hm, Option.some_bind]
      apply SeekForPrev_loop_stop
      intro p hp
      have hpF := List.mem_of_getLast?_eq_some hp
      rw [← hfc, List.mem_filter, decide_eq_true_eq] at hpF
      obtain ⟨k, hk⟩ := hi.key_some hpF.1
      refine ⟨k, hk, ?_⟩
      have := hpF.2
      rw [keyB_some hk, WithBot.coe_le_coe] at this
      exact this
    · have hle : km ≤ target := not_lt.mp hlt
      have heq : (some m : Option Nat) =
          (ns.filter (fun a => decide (keyB σ a ≤ (target : WithBot K)))).getLast? := by
        apply last_filter_eq hi
        · intro p hp
          cases hp
          refine ⟨hm, ?_, ?_⟩
          · rw [decide_eq_true_eq, keyB_some hkm, WithBot.coe_le_coe]
            exact hle
          · intro c hc hP
            rw [decide_eq_true_eq] at hP
            exact le_trans hP hge
        · intro h
          cases h
      rw [← heq]
      apply SeekForPrev_loop_stop
      intro p hp
      cases hp
      exact ⟨km, hkm, hle⟩

/-- C27: on every reachable list, for every target key,
`Iterator::SeekForPrev(target)` leaves the iterator at the last node of the
level-0 chain whose key is at most `target`, which is the node with the greatest
such key, and leaves it not valid exactly when no key of the list is at most
`target`. -/
theorem C27_seek_for_prev (σ : SpdbSortedList K) (hr : Reachable σ) (fuel : Nat)
    (hf : σ.count + σ.kMaxHeight_ + 2 ≤ fuel) (target : K) :
    ∃ ns it, chain fuel σ = some ns ∧ Iterator.SeekForPrev fuel σ target = some it ∧
      it.node_ = (ns.filter (fun a => decide (keyB σ a ≤ (target : WithBot K)))).getLast? ∧
      (∀ p, it.node_ = some p → p ∈ ns ∧ keyB σ p ≤ (target : WithBot K) ∧
        ∀ c, c ∈ ns → keyB σ c ≤ (target : WithBot K) → keyB σ c ≤ keyB σ p) ∧
      (it.Valid = false ↔ ∀ c, c ∈ ns → ¬ keyB σ c ≤ (target : WithBot K)) := by
  obtain ⟨ns, hg⟩ := hr.good
  have hi := hg.inv
  have hlen := hi.length_le
  refine ⟨ns, _, hi.chain_eq (by omega), hi.SeekForPrev_eq hf target, rfl, ?_, ?_⟩
  · intro p hp
    obtain ⟨hpF, hmax⟩ := last_max (hi.sorted.filter _) hp
    rw [List.mem_filter, decide_eq_true_eq] at hpF
    refine ⟨hpF.1, hpF.2, ?_⟩
    intro c hc hle
    exact hmax c (List.mem_filter.mpr ⟨hc, by simpa using hle⟩)
  · show ((ns.filter
      (fun a => decide (keyB σ a ≤ (target : WithBot K)))).getLast? != none) = false ↔ _
    rw [bne_eq_false_iff_eq, List.getLast?_eq_none_iff, List.filter_eq_nil_iff]
    simp

/-- Witness of C27: `SeekForPrev(4)` on the list that holds 3 and 5. -/
theorem C27_witness :
    Reachable exampleList2 ∧ exampleList2.count + exampleList2.kMaxHeight_ + 2 ≤ 20 ∧
    ∃ ns it, chain 20 exampleList2 = some ns ∧
      Iterator.SeekForPrev 20 exampleList2 4 = some it ∧
      it.node_ =
        (ns.filter (fun a => decide (keyB exampleList2 a ≤ ((4 : Nat) : WithBot Nat)))).getLast? ∧
      (∀ p, it.node_ = some p → p ∈ ns ∧ keyB exampleList2 p ≤ ((4 : Nat) : WithBot Nat) ∧
        ∀ c, c ∈ ns → keyB exampleList2 c ≤ ((4 : Nat) : WithBot Nat) →
          keyB exampleList2 c ≤ keyB exampleList2 p) ∧
      (it.Valid = false ↔ ∀ c, c ∈ ns → ¬ keyB exampleList2 c ≤ ((4 : Nat) : WithBot Nat)) :=
  ⟨exampleList2_reachable, by decide,
    C27_seek_for_prev exampleList2 exampleList2_reachable 20 (by decide) 4⟩

/-- Witness of C28: `Prev()` at the first node of the list that holds 3 and 5,
and `Next()` followed by `Prev()` there. -/
theorem C28_witness :
    Reachable exampleList2 ∧ exampleList2.count + exampleList2.kMaxHeight_ + 2 ≤ 20 ∧
    chain 20 exampleList2 = some ([] ++ 2 :: [1]) ∧
    ∃ it, Iterator.Prev 20 exampleList2 { node_ := some 2 } = some it ∧
      it.node_ = ([] : List Nat).getLast? ∧
      (∀ p, it.node_ = some p → keyB exampleList2 p < keyB exampleList2 2 ∧
        ∀ c, c ∈ [] ++ 2 :: [1] → keyB exampleList2 c < keyB exampleList2 2 →
          keyB exampleList2 c ≤ keyB exampleList2 p) ∧
      (it.Valid = false ↔ ([] : List Nat) = []) ∧
      ∃ it1, Iterator.Next exampleList2 { node_ := some 2 } = some it1 ∧
        it1.node_ = [1].head? ∧
        (it1.Valid = true →
          Iterator.Prev 20 exampleList2 it1 = some { node_ := some 2 }) :=
  ⟨exampleList2_reachable, by decide, by decide,
    C28_iterator_prev exampleList2 exampleList2_reachable 20 (by decide) [] [1] 2 (by decide)⟩

/-- C30 (amended): on every reachable list, `Insert` (either linking strategy,
any node height in `[1, kMaxHeight_]`, the splice of the list or a fresh one,
either value of `allow_partial_splice_fix`) of a key that is equal to a key of
the list returns false and leaves every pointer of every node at every level as
it was; `max_height_` is afterwards the greater of its value before the call
and the height of the rejected node, so that it is as before exactly when that
height is not above it. -/
theorem C30_rejected_insert_frame (σ : SpdbSortedList K) (hr : Reachable σ) (UseCAS : Bool)
    (own : Option Splice) (allow : Bool) (hown : ∀ sp, own = some sp → sp.height_ = 0)
    (k : K) (height : Nat) (h1 : 1 ≤ height) (h2 : height ≤ σ.kMaxHeight_) (fuel : Nat)
    (hf : σ.count + σ.kMaxHeight_ + 3 ≤ fuel) (ks : List K) (hscan : scan fuel σ = some ks)
    (hk : k ∈ ks) :
    ∃ σ1, insertKey UseCAS own allow fuel σ k height = some (false, σ1) ∧
      (∀ a L, σ1.next a L = σ.next a L) ∧
      (∀ a L, Next σ1 a L = Next σ a L ∨ a = σ.count + 1) ∧
      σ1.max_height_ = max σ.max_height_ height ∧
      (σ1.max_height_ = σ.max_height_ ↔ height ≤ σ.max_height_) := by
  obtain ⟨ns, hg⟩ := hr.good
  have hlen := hg.inv.length_le
  have hks : ks = keysOf σ ns := by
    have := hg.inv.scan_eq (show ns.length < fuel by omega)
    rw [hscan] at this
    exact Option.some.inj this
  subst hks
  obtain ⟨σ1, hins, hst, hg1, hnext⟩ :=
    (insertKey_spec hg UseCAS own allow hown k h1 h2 hf).1 (mem_keysOf.mp hk)
  have hmax : σ1.max_height_ = max σ.max_height_ height := by
    rw [hst.max_height]
    split_ifs with h
    · rw [max_eq_right (le_of_lt h)]
    · rw [max_eq_left (not_lt.mp h)]
  refine ⟨σ1, hins, fun a L => by rw [hnext], ?_, hmax, ?_⟩
  · intro a L
    by_cases ha : a = σ.count + 1
    · exact Or.inr ha
    · left
      unfold Next
      rw [hst.height_old a ha, hnext]
  · rw [hmax]
    constructor
    · intro h
      rw [← h]
      exact le_max_right _ _
    · intro h
      exact max_eq_left h

/-- Witness of C30: the key 5 inserted again, with a node of height 2, into the
list that holds 3 and 5. -/
theorem C30_witness :
    Reachable exampleList2 ∧ scan 20 exampleList2 = some [3, 5] ∧ (5 : Nat) ∈ [3, 5] ∧
    ∃ σ1, insertKey true none false 20 exampleList2 5 2 = some (false, σ1) ∧
      (∀ a L, σ1.next a L = exampleList2.next a L) ∧
      (∀ a L, Next σ1 a L = Next exampleList2 a L ∨ a = exampleList2.count + 1) ∧
      σ1.max_height_ = max exampleList2.max_height_ 2 ∧
      (σ1.max_height_ = exampleList2.max_height_ ↔ 2 ≤ exampleList2.max_height_) :=
  ⟨exampleList2_reachable, by decide, by decide,
    C30_rejected_insert_frame exampleList2 exampleList2_reachable true none false (by simp) 5 2
      (by decide) (by decide) 20 (by decide) [3, 5] (by decide) (by decide)⟩

/-- Counterexample of C30: the list that holds 3 and 5 is reachable and has
`max_height_ = 3`; `Insert<false>` of the key 5 with a node of height 4, which is
within `kMaxHeight_ = 12`, returns false and leaves `max_height_ = 4`. -/
theorem C30_counterexample :
    Reachable exampleList2 ∧ scan 20 exampleList2 = some [3, 5] ∧
    1 ≤ 4 ∧ 4 ≤ exampleList2.kMaxHeight_ ∧
    insertKey false none false 20 exampleList2 5 4 = some (false, exampleList3) ∧
    exampleList2.max_height_ = 3 ∧ exampleList3.max_height_ = 4 ∧
    ¬ exampleList3.max_height_ = exampleList2.max_height_ :=
  ⟨exampleList2_reachable, by decide, by decide, by decide, rfl, by decide, by decide,
    by decide⟩

/-! ## The height of the list -/

/-- The pointers of `head_` at the levels from `max_height_` on are null. -/
theorem Inv.head_above {σ : SpdbSortedList K} {ns : List Nat} (hi : Inv σ ns) {L : Nat}
    (hL : σ.max_height_ ≤ L) (hk : L < σ.kMaxHeight_) : Next σ 0 L = some none := by
  have hl := hi.level L hk
  rw [hl.Next_eq (Or.inl rfl)]
  cases hn : σ.next 0 L with
  | none => rfl
  | some b =>
    obtain ⟨hm, -⟩ := (hl.next 0 (Or.inl rfl)).1 b hn
    have := (hi.node b hm.1).2.2.2
    have := hm.2
    omega

/-- C31: on every reachable list, `1 <= max_height_ <= kMaxHeight_` and every
pointer of `head_` at a level `L` with `max_height_ <= L < kMaxHeight_` is null;
every `Insert` of a node of height `h` into a list of height `m` (either linking
strategy, the splice of the list or a fresh one) returns and leaves the height
`max(m, h)`, which is not below `m`, and the list that it leaves satisfies the
same bounds and has null pointers of `head_` from its height on. -/
theorem C31_max_height_after_insert (σ : SpdbSortedList K) (hr : Reachable σ) (UseCAS : Bool)
    (own : Option Splice) (allow : Bool) (hown : ∀ sp, own = some sp → sp.height_ = 0)
    (k : K) (height : Nat) (h1 : 1 ≤ height) (h2 : height ≤ σ.kMaxHeight_) (fuel : Nat)
    (hf : σ.count + σ.kMaxHeight_ + 3 ≤ fuel) :
    1 ≤ σ.max_height_ ∧ σ.max_height_ ≤ σ.kMaxHeight_ ∧
    (∀ L, σ.max_height_ ≤ L → L < σ.kMaxHeight_ → Next σ 0 L = some none) ∧
    ∃ b σ1, insertKey UseCAS own allow fuel σ k height = some (b, σ1) ∧
      σ1.max_height_ = max σ.max_height_ height ∧ σ.max_height_ ≤ σ1.max_height_ ∧
      σ1.kMaxHeight_ = σ.kMaxHeight_ ∧
      1 ≤ σ1.max_height_ ∧ σ1.max_height_ ≤ σ1.kMaxHeight_ ∧
      ∀ L, σ1.max_height_ ≤ L → L < σ1.kMaxHeight_ → Next σ1 0 L = some none := by
  obtain ⟨ns, hg⟩ := hr.good
  have hi := hg.inv
  refine ⟨hi.height_pos, hi.height_le, fun L h h' => hi.head_above h h', ?_⟩
  have hspec := insertKey_spec hg UseCAS own allow hown k h1 h2 hf
  have hfin : ∀ (b : Bool) (σ1 : SpdbSortedList K) (ns1 : List Nat),
      insertKey UseCAS own allow fuel σ k height = some (b, σ1) → Stepped σ σ1 k height →
      Good σ1 ns1 →
      ∃ b σ1, insertKey UseCAS own allow fuel σ k height = some (b, σ1) ∧
        σ1.max_height_ = max σ.max_height_ height ∧ σ.max_height_ ≤ σ1.max_height_ ∧
        σ1.kMaxHeight_ = σ.kMaxHeight_ ∧
        1 ≤ σ1.max_height_ ∧ σ1.max_height_ ≤ σ1.kMaxHeight_ ∧
        ∀ L, σ1.max_height_ ≤ L → L < σ1.kMaxHeight_ → Next σ1 0 L = some none := by
    intro b σ1 ns1 hins hst hg1
    have hmax : σ1.max_height_ = max σ.max_height_ height := by
      rw [hst.max_height]
      split_ifs with h
      · rw [max_eq_right (le_of_lt h)]
      · rw [max_eq_left (not_lt.mp h)]
    exact ⟨b, σ1, hins, hmax, by rw [hmax]; exact le_max_left _ _, hst.kMaxHeight,
      hg1.inv.height_pos, hg1.inv.height_le, fun L h h' => hg1.inv.head_above h h'⟩
  by_cases hdup : ∃ d, d ∈ ns ∧ keyB σ d = (k : WithBot K)
  · obtain ⟨σ1, hins, hst, hg1, -⟩ := hspec.1 hdup
    exact hfin false σ1 ns hins hst hg1
  · have hnd : ∀ a, a ∈ ns → keyB σ a ≠ (k : WithBot K) := fun a ha hk => hdup ⟨a, ha, hk⟩
    obtain ⟨σ1, hins, hst, hg1⟩ := hspec.2 hnd
    exact hfin true σ1 _ hins hst hg1

/-- Witness of C31: the key 4 inserted with a node of height 5 into the list
that holds 3 and 5 and has the height 3. -/
theorem C31_witness :
    Reachable exampleList2 ∧ 1 ≤ 5 ∧ 5 ≤ exampleList2.kMaxHeight_ ∧
    exampleList2.count + exampleList2.kMaxHeight_ + 3 ≤ 20 ∧
    1 ≤ exampleList2.max_height_ ∧ exampleList2.max_height_ ≤ exampleList2.kMaxHeight_ ∧
    (∀ L, exampleList2.max_height_ ≤ L → L < exampleList2.kMaxHeight_ →
      Next exampleList2 0 L = some none) ∧
    ∃ b σ1, insertKey true none false 20 exampleList2 4 5 = some (b, σ1) ∧
      σ1.max_height_ = max exampleList2.max_height_ 5 ∧
      exampleList2.max_height_ ≤ σ1.max_height_ ∧
      σ1.kMaxHeight_ = exampleList2.kMaxHeight_ ∧
      1 ≤ σ1.max_height_ ∧ σ1.max_height_ ≤ σ1.kMaxHeight_ ∧
      ∀ L, σ1.max_height_ ≤ L → L < σ1.kMaxHeight_ → Next σ1 0 L = some none :=
  ⟨exampleList2_reachable, by decide, by decide, by decide,
    C31_max_height_after_insert exampleList2 exampleList2_reachable true none false (by simp)
      4 5 (by decide) (by decide) 20 (by decide)⟩

/-- Run by one thread, the two linking strategies agree on the splice of the
list and on fresh splices. On every reachable list, for every key, every node
height in `[1, kMaxHeight_]`, the splice of the list as earlier insertions left
it or a fresh splice, and either value of `allow_partial_splice_fix`,
`Insert<true>` and `Insert<false>` return the same boolean and leave the same
pointer at every level of every node and the same `max_height_`, keys, heights
and number of nodes. -/
theorem insertKey_strategies_agree (σ : SpdbSortedList K) (hr : Reachable σ)
    (own1 own2 : Option Splice) (allow1 allow2 : Bool)
    (hown1 : ∀ sp, own1 = some sp → sp.height_ = 0)
    (hown2 : ∀ sp, own2 = some sp → sp.height_ = 0) (k : K) (height : Nat) (h1 : 1 ≤ height)
    (h2 : height ≤ σ.kMaxHeight_) (fuel : Nat) (hf : σ.count + σ.kMaxHeight_ + 3 ≤ fuel) :
    ∃ b σ1 σ2, insertKey true own1 allow1 fuel σ k height = some (b, σ1) ∧
      insertKey false own2 allow2 fuel σ k height = some (b, σ2) ∧
      (∀ a L, Next σ2 a L = Next σ1 a L) ∧ σ2.max_height_ = σ1.max_height_ ∧
      σ2.key = σ1.key ∧ σ2.height = σ1.height ∧ σ2.count = σ1.count := by
  obtain ⟨ns, hg⟩ := hr.good
  obtain ⟨b, σ1, σ2, hi1, hi2, hnext, hkey, hheight, hmax, hcount⟩ :=
    insertKey_agree hg true false own1 own2 allow1 allow2 hown1 hown2 k h1 h2 hf
  exact ⟨b, σ1, σ2, hi1, hi2, hnext, hmax, hkey, hheight, hcount⟩

/-- The key 4 inserted with a node of height 4 into the list that holds 3 and
5, by `Insert<true>` and by `Insert<false>` with the splice of the list. -/
theorem insertKey_strategies_agree_example :
    Reachable exampleList2 ∧ 1 ≤ 4 ∧ 4 ≤ exampleList2.kMaxHeight_ ∧
    exampleList2.count + exampleList2.kMaxHeight_ + 3 ≤ 20 ∧
    ∃ b σ1 σ2, insertKey true none false 20 exampleList2 4 4 = some (b, σ1) ∧
      insertKey false none false 20 exampleList2 4 4 = some (b, σ2) ∧
      (∀ a L, Next σ2 a L = Next σ1 a L) ∧ σ2.max_height_ = σ1.max_height_ ∧
      σ2.key = σ1.key ∧ σ2.height = σ1.height ∧ σ2.count = σ1.count :=
  ⟨exampleList2_reachable, by decide, by decide, by decide,
    insertKey_strategies_agree exampleList2 exampleList2_reachable none none false false
      (by simp) (by simp) 4 4 (by decide) (by decide) 20 (by decide)⟩

/-! ## The random height -/

/-- The constants of a reachable list are those that its constructor set. -/
theorem Reachable.constants {σ : SpdbSortedList K} (hr : Reachable σ) :
    ∃ (kMaxNext : Nat) (max_height branching_factor : Int) (σ0 : SpdbSortedList K),
      SpdbSortedList.new kMaxNext max_height branching_factor = some σ0 ∧
      σ.kMaxHeight_ = σ0.kMaxHeight_ ∧ σ.kBranching_ = σ0.kBranching_ ∧
      σ.kScaledInverseBranching_ = σ0.kScaledInverseBranching_ := by
  induction hr with
  | init kMaxNext mh bf σ hnew hcap => exact ⟨kMaxNext, mh, bf, σ, hnew, rfl, rfl, rfl⟩
  | insert σ UseCAS own allow fuel k height b σ1 hr0 hown h1 h2 hf hins ih =>
    obtain ⟨kMaxNext, mh, bf, σ0, hnew, e1, e2, e3⟩ := ih
    obtain ⟨ns, hg⟩ := hr0.good
    have hspec := insertKey_spec hg UseCAS own allow hown k h1 h2 hf
    have hst : Stepped σ σ1 k height := by
      by_cases hdup : ∃ d, d ∈ ns ∧ keyB σ d = (k : WithBot K)
      · obtain ⟨σ2, h2', hst, _, _⟩ := hspec.1 hdup
        rw [hins] at h2'
        cases h2'
        exact hst
      · have hnd : ∀ a, a ∈ ns → keyB σ a ≠ (k : WithBot K) :=
          fun a ha hk => hdup ⟨a, ha, hk⟩
        obtain ⟨σ2, h2', hst, _⟩ := hspec.2 hnd
        rw [hins] at h2'
        cases h2'
        exact hst
    exact ⟨kMaxNext, mh, bf, σ0, hnew, by rw [hst.kMaxHeight, e1], by rw [hst.kBranching, e2],
      by rw [hst.kScaled, e3]⟩

/-- The loop of `RandomHeight` from the height `pos + 1`, when the first `j`
samples are below the threshold and sample `j` is not, or `j` is large. -/
theorem RandomHeight_loop_formula (σ : SpdbSortedList K) (rnd : Nat → Nat) (j : Nat)
    (hbelow : ∀ i, i < j → rnd i < σ.kScaledInverseBranching_)
    (hlast : ¬ rnd j < σ.kScaledInverseBranching_ ∨
      min σ.kMaxHeight_ kMaxPossibleHeight ≤ 1 + j) :
    ∀ (fuel height pos : Nat), height ≤ min σ.kMaxHeight_ kMaxPossibleHeight →
      min σ.kMaxHeight_ kMaxPossibleHeight - height < fuel → pos + 1 = height → pos ≤ j →
      RandomHeight.loop σ rnd fuel height pos =
        some (min (min σ.kMaxHeight_ kMaxPossibleHeight) (1 + j),
          min (min σ.kMaxHeight_ kMaxPossibleHeight - 1) (j + 1)) := by
  intro fuel
  induction fuel with
  | zero => intro height pos _ h; omega
  | succ fuel ih =>
    intro height pos hle hf hpos hj
    unfold RandomHeight.loop
    by_cases hc : height < σ.kMaxHeight_ ∧ height < kMaxPossibleHeight
    · have hlt : height < min σ.kMaxHeight_ kMaxPossibleHeight := lt_min hc.1 hc.2
      rw [if_pos hc]
      by_cases hr : rnd pos < σ.kScaledInverseBranching_
      · rw [if_pos hr]
        have hne : pos ≠ j := by
          rintro rfl
          rcases hlast with h | h
          · exact h hr
          · omega
        exact ih (height + 1) (pos + 1) hlt (by omega) (by omega) (by omega)
      · rw [if_neg hr]
        have he : pos = j := by
          by_contra hne
          exact hr (hbelow pos (by omega))
        subst he
        have e1 : min (min σ.kMaxHeight_ kMaxPossibleHeight) (1 + pos) = height :=
          by rw [min_eq_right (by omega)]; omega
        have e2 : min (min σ.kMaxHeight_ kMaxPossibleHeight - 1) (pos + 1) = pos + 1 :=
          min_eq_right (by omega)
        rw [e1, e2]
    · rw [if_neg hc]
      have he : height = min σ.kMaxHeight_ kMaxPossibleHeight := by
        rcases not_and_or.mp hc with h | h
        · have := min_le_left σ.kMaxHeight_ kMaxPossibleHeight
          omega
        · have := min_le_right σ.kMaxHeight_ kMaxPossibleHeight
          omega
      have e1 : min (min σ.kMaxHeight_ kMaxPossibleHeight) (1 + j) = height := by
        rw [← he]; exact min_eq_left (by omega)
      have e2 : min (min σ.kMaxHeight_ kMaxPossibleHeight - 1) (j + 1) = pos := by
        rw [← he, ← hpos]; exact min_eq_left (by omega)
      rw [e1, e2]

/-! ## The estimate of `EstimateCount` as a sum over the levels -/

/-- Counting with a test that one more member of a list without repetition
satisfies. -/
theorem countP_add_one {l : List Nat} (hnd : l.Nodup) (p q : Nat → Bool) (w : Nat)
    (hw : w ∈ l) (hq : ∀ a, a ∈ l → q a = (p a || decide (a = w))) (hp : p w = false) :
    l.countP q = l.countP p + 1 := by
  induction l with
  | nil => cases hw
  | cons b t ih =>
    rw [List.nodup_cons] at hnd
    rw [List.countP_cons, List.countP_cons]
    have hqb := hq b (List.mem_cons_self _ _)
    by_cases hb : b = w
    · subst hb
      have hsame : t.countP q = t.countP p := by
        apply List.countP_congr
        intro a ha
        have hne : a ≠ b := fun e => hnd.1 (e ▸ ha)
        rw [hq a (List.mem_cons_of_mem _ ha)]
        simp [hne]
      rw [hsame, hqb, hp]
      simp
    · have hwt : w ∈ t := by
        rcases List.mem_cons.mp hw with e | e
        · exact absurd e.symm hb
        · exact e
      rw [ih hnd.2 hwt (fun a ha => hq a (List.mem_cons_of_mem _ ha)), hqb]
      simp only [hb, decide_False, Bool.or_false]
      omega

/-- At the last node of a level whose key is below `k` the descent takes no
further step at that level. -/
theorem descentSteps_stop {σ : SpdbSortedList K} {ns : List Nat} {k : K} {x level : Nat}
    (hp : IsPred (keyB σ) (Lvl σ ns level) k x) : descentSteps σ ns k x level level = 0 := by
  unfold descentSteps
  rw [if_neg (lt_irrefl _), List.countP_eq_zero]
  intro a ha
  simp only [if_true, decide_eq_true_eq, not_and]
  intro hL hlt hk
  exact absurd (lt_of_lt_of_le hlt (hp.2 a ⟨ha, hL⟩ hk)) (lt_irrefl _)

/-- Going down a level at the last node below `k` does not change the steps. -/
theorem descentSteps_down {σ : SpdbSortedList K} {ns : List Nat} (hi : Inv σ ns) {k : K}
    {x level : Nat} (hp : IsPred (keyB σ) (Lvl σ ns level) k x) (h0 : level ≠ 0) (L : Nat) :
    descentSteps σ ns k x level L = descentSteps σ ns k x (level - 1) L := by
  by_cases h1 : level < L
  · unfold descentSteps
    rw [if_pos h1, if_pos (by omega)]
  by_cases h2 : L = level
  · subst h2
    rw [descentSteps_stop hp]
    unfold descentSteps
    rw [if_pos (by omega)]
  by_cases h3 : L = level - 1
  · simp only [descentSteps, if_neg h1, if_neg (show ¬ level - 1 < L by omega), if_neg h2,
      if_pos h3]
    have : level - 1 + 1 = level := by omega
    rw [← h3] at this
    rw [this, ← IsPred_eq_lastBelow hi hp]
  · simp only [descentSteps, if_neg h1, if_neg (show ¬ level - 1 < L by omega), if_neg h2,
      if_neg h3]

/-- A forward step of the descent at the level `level`. -/
theorem descentSteps_forward {σ : SpdbSortedList K} {ns : List Nat} (hi : Inv σ ns) {k : K}
    {x nx level : Nat} (hlev : level < σ.kMaxHeight_) (hx : x = 0 ∨ Lvl σ ns level x)
    (hn : σ.next x level = some nx) (hk : keyB σ nx < (k : WithBot K)) :
    descentSteps σ ns k x level level = descentSteps σ ns k nx level level + 1 ∧
    ∀ L, L ≠ level → descentSteps σ ns k x level L = descentSteps σ ns k nx level L := by
  have hl := hi.level level hlev
  have hf := hl.next x hx
  obtain ⟨hmn, hlt⟩ := hf.1 nx hn
  constructor
  · simp only [descentSteps, if_neg (lt_irrefl level), if_true]
    apply countP_add_one hi.nodup _ _ nx hmn.1
    · intro a ha
      by_cases hane : a = nx
      · subst hane
        simp [hmn.2, hlt, hk]
      · simp only [hane, decide_False, Bool.or_false, decide_eq_decide]
        constructor
        · rintro ⟨hL, hxa, hak⟩
          refine ⟨hL, ?_, hak⟩
          obtain ⟨b, hb, hba⟩ := hf.2 a ⟨ha, hL⟩ hxa
          rw [hn] at hb
          cases hb
          exact lt_of_le_of_ne hba (fun e => hane (hi.inj hmn.1 ha e).symm)
        · rintro ⟨hL, hna, hak⟩
          exact ⟨hL, lt_trans hlt hna, hak⟩
    · simp
  · intro L hL
    by_cases h1 : level < L
    · simp only [descentSteps, if_pos h1]
    · simp only [descentSteps, if_neg h1, if_neg hL]

/-- The descent of `EstimateCount` returns; the steps that it takes at each
level are the numbers `descentSteps`, and `count` ends as the sum of the steps
of each level `L` multiplied by `kBranching_ ^ L`, as a `uint64_t`. -/
theorem EstimateCount_steps_spec {σ : SpdbSortedList K} {ns : List Nat} (hi : Inv σ ns) (k : K) :
    ∀ (fuel x level count : Nat) (steps0 : Nat → Nat), level < σ.max_height_ →
      Start (keyB σ) (Lvl σ ns level) k x → count < 2 ^ 64 →
      ns.countP (fun c => decide (keyB σ x < keyB σ c ∧ keyB σ c < (k : WithBot K))) + level
        < fuel →
      EstimateCount.stepsLoop σ k fuel x level steps0 =
        some (fun L => steps0 L + descentSteps σ ns k x level L) ∧
      EstimateCount.loop σ k fuel x level count =
        some ((count * σ.kBranching_ ^ level +
          Finset.sum (Finset.range (level + 1))
            (fun L => descentSteps σ ns k x level L * σ.kBranching_ ^ L)) % 2 ^ 64) := by
  intro fuel
  induction fuel with
  | zero => intro x level count steps0 _ _ _ h; omega
  | succ fuel ih =>
    intro x level count steps0 hlev hs hcount hm
    have hlevk : level < σ.kMaxHeight_ := lt_of_lt_of_le hlev hi.height_le
    have hl := hi.level level hlevk
    have hassert : EstimateCount.assertBelow σ k x = some () := by
      unfold EstimateCount.assertBelow
      by_cases h0 : x = 0
      · simp [h0]
      · have hmx := hs.1.resolve_left h0
        obtain ⟨kx, hkx⟩ := hl.key x hmx
        have hlt := hs.2
        rw [keyB_some hkx, WithBot.coe_lt_coe] at hlt
        simp [h0, hkx, assert, (compare__lt kx k).mpr hlt]
    -- the descent stops at `x` on this level
    have hstop : (∀ c, σ.next x level = some c → (k : WithBot K) ≤ keyB σ c) →
        (if level = 0 then some steps0
          else EstimateCount.stepsLoop σ k fuel x (level - 1) steps0) =
          some (fun L => steps0 L + descentSteps σ ns k x level L) ∧
        (if level = 0 then some count
          else EstimateCount.loop σ k fuel x (level - 1) (count * σ.kBranching_ % 2 ^ 64)) =
          some ((count * σ.kBranching_ ^ level +
            Finset.sum (Finset.range (level + 1))
              (fun L => descentSteps σ ns k x level L * σ.kBranching_ ^ L)) % 2 ^ 64) := by
      intro hn
      have hp : IsPred (keyB σ) (Lvl σ ns level) k x := (hl.stop hs hn).1
      have htop := descentSteps_stop hp
      by_cases hl0 : level = 0
      · subst hl0
        rw [if_pos rfl, if_pos rfl]
        constructor
        · congr 1
          funext L
          by_cases hL : L = 0
          · subst hL
            rw [htop]
            rfl
          · simp only [descentSteps, if_pos (Nat.pos_of_ne_zero hL), Nat.add_zero]
        · rw [Finset.sum_range_one, htop, Nat.pow_zero, Nat.mul_one, Nat.zero_mul, Nat.add_zero,
            Nat.mod_eq_of_lt hcount]
      · rw [if_neg hl0, if_neg hl0]
        obtain ⟨e1, e2⟩ := ih x (level - 1) (count * σ.kBranching_ % 2 ^ 64) steps0 (by omega)
          (hs.mono_start (by omega)) (Nat.mod_lt _ (by norm_num)) (by omega)
        rw [e1, e2]
        constructor
        · congr 1
          funext L
          rw [descentSteps_down hi hp hl0 L]
        · congr 1
          have hsum : Finset.sum (Finset.range (level + 1))
              (fun L => descentSteps σ ns k x level L * σ.kBranching_ ^ L) =
              Finset.sum (Finset.range (level - 1 + 1))
                (fun L => descentSteps σ ns k x (level - 1) L * σ.kBranching_ ^ L) := by
            rw [Finset.sum_range_succ, htop, Nat.zero_mul, Nat.add_zero,
              show level - 1 + 1 = level by omega]
            apply Finset.sum_congr rfl
            intro L _
            rw [descentSteps_down hi hp hl0 L]
          rw [hsum]
          have hpow : σ.kBranching_ ^ level = σ.kBranching_ * σ.kBranching_ ^ (level - 1) := by
            obtain ⟨m, rfl⟩ : ∃ m, level = m + 1 := ⟨level - 1, by omega⟩
            rw [Nat.add_sub_cancel, Nat.pow_succ']
          rw [hpow, ← Nat.mul_assoc, Nat.add_mod, Nat.mul_mod, Nat.mod_mod, ← Nat.mul_mod,
            ← Nat.add_mod]
    unfold EstimateCount.stepsLoop EstimateCount.loop
    rw [hassert, hl.Next_eq hs.1]
    simp only [Option.some_bind]
    cases hn : σ.next x level with
    | none =>
      simp only [EstimateCount.atEnd, Option.some_bind, if_true]
      exact hstop (fun c hc => by rw [hn] at hc; cases hc)
    | some nx =>
      obtain ⟨hmn, hlt⟩ := (hl.next x hs.1).1 nx hn
      obtain ⟨kn, hkn⟩ := hl.key nx hmn
      simp only [EstimateCount.atEnd, hkn, Option.some_bind]
      by_cases hge : 0 ≤ compare_ kn k
      · simp only [hge, decide_True, if_true]
        apply hstop
        intro c hc
        rw [hn] at hc
        cases hc
        rw [keyB_some hkn, WithBot.coe_le_coe]
        exact (compare__ge kn k).mp hge
      · simp only [hge, decide_False, Bool.false_eq_true, if_false]
        have hknk : kn < k := by
          by_contra hcon
          exact hge ((compare__ge kn k).mpr (not_lt.mp hcon))
        have hkb : keyB σ nx < (k : WithBot K) := by
          rw [keyB_some hkn]; exact WithBot.coe_lt_coe.mpr hknk
        have hlt2 := countP_lt_of_imp
          (fun c => decide (keyB σ nx < keyB σ c ∧ keyB σ c < (k : WithBot K)))
          (fun c => decide (keyB σ x < keyB σ c ∧ keyB σ c < (k : WithBot K))) ns
          (by
            intro a _ h
            simp only [decide_eq_true_eq] at h ⊢
            exact ⟨lt_trans hlt h.1, h.2⟩)
          nx hmn.1 (by simp [hlt, hkb]) (by simp)
        obtain ⟨e1, e2⟩ := ih nx level ((count + 1) % 2 ^ 64)
          (fun L => if L = level then steps0 L + 1 else steps0 L) hlev ⟨Or.inr hmn, hkb⟩
          (Nat.mod_lt _ (by norm_num)) (by omega)
        obtain ⟨f1, f2⟩ := descentSteps_forward hi hlevk hs.1 hn hkb
        rw [e1, e2]
        constructor
        · congr 1
          funext L
          by_cases hL : L = level
          · subst hL
            rw [if_pos rfl, f1]
            omega
          · rw [if_neg hL, f2 L hL]
        · congr 1
          have hsum : Finset.sum (Finset.range (level + 1))
              (fun L => descentSteps σ ns k x level L * σ.kBranching_ ^ L) =
              Finset.sum (Finset.range (level + 1))
                (fun L => descentSteps σ ns k nx level L * σ.kBranching_ ^ L) +
              σ.kBranching_ ^ level := by
            rw [Finset.sum_range_succ, Finset.sum_range_succ, f1, Nat.add_mul, Nat.one_mul,
              ← Nat.add_assoc]
            congr 2
            apply Finset.sum_congr rfl
            intro L hL
            rw [f2 L (by rw [Finset.mem_range] at hL; omega)]
          rw [hsum]
          have hexp : count * σ.kBranching_ ^ level +
              (Finset.sum (Finset.range (level + 1))
                (fun L => descentSteps σ ns k nx level L * σ.kBranching_ ^ L) +
              σ.kBranching_ ^ level) =
              (count + 1) * σ.kBranching_ ^ level +
              Finset.sum (Finset.range (level + 1))
                (fun L => descentSteps σ ns k nx level L * σ.kBranching_ ^ L) := by
            rw [Nat.add_mul, Nat.one_mul]
            omega
          rw [hexp, Nat.add_mod, Nat.mul_mod, Nat.mod_mod, ← Nat.mul_mod, ← Nat.add_mod]

/-- C34: on every reachable list, for every key `k`, `EstimateCount(k)` returns
the sum over the levels `L` below `max_height_` of `s_L * kBranching_ ^ L`, taken
as a `uint64_t` (modulo `2 ^ 64`, hence the sum itself when that is below
`2 ^ 64`), where `s_L` is the number of forward steps that the descent takes at
level `L`; `s_L` is the number of nodes of level `L` between the node at which
the descent enters the level and `k`. The result is 0 when no key is below `k`,
and when `max_height_` is 1 it is the number of the keys below `k`. -/
theorem C34_estimate_count_sum (σ : SpdbSortedList K) (hr : Reachable σ) (k : K) (fuel : Nat)
    (hf : σ.count + σ.kMaxHeight_ + 2 ≤ fuel) :
    ∃ (ns : List Nat) (c : Nat) (s : Nat → Nat), chain fuel σ = some ns ∧
      EstimateCount fuel σ k = some c ∧ EstimateCount.steps fuel σ k = some s ∧
      c = (Finset.sum (Finset.range σ.max_height_) fun L => s L * σ.kBranching_ ^ L) % 2 ^ 64 ∧
      ((Finset.sum (Finset.range σ.max_height_) fun L => s L * σ.kBranching_ ^ L) < 2 ^ 64 →
        c = Finset.sum (Finset.range σ.max_height_) fun L => s L * σ.kBranching_ ^ L) ∧
      (∀ L, s L = descentSteps σ ns k 0 (σ.max_height_ - 1) L) ∧
      ((∀ a, a ∈ ns → ¬ keyB σ a < (k : WithBot K)) → (∀ L, s L = 0) ∧ c = 0) ∧
      (σ.max_height_ = 1 →
        s 0 = (ns.filter fun a => decide (keyB σ a < (k : WithBot K))).length ∧
        c = (ns.filter fun a => decide (keyB σ a < (k : WithBot K))).length % 2 ^ 64 ∧
        (σ.count < 2 ^ 64 →
          c = (ns.filter fun a => decide (keyB σ a < (k : WithBot K))).length)) := by
  obtain ⟨ns, hg⟩ := hr.good
  have hi := hg.inv
  have hlen := hi.length_le
  have h1 := hi.height_pos
  have h2 := hi.height_le
  obtain ⟨e1, e2⟩ := EstimateCount_steps_spec hi k fuel 0 (σ.max_height_ - 1) 0 (fun _ => 0)
    (by omega) ⟨Or.inl rfl, hi.coe_gt_head k⟩ (by norm_num)
    (by have := hi.countP_le
          (fun c => decide (keyB σ 0 < keyB σ c ∧ keyB σ c < (k : WithBot K)))
        omega)
  have hmh : σ.max_height_ - 1 + 1 = σ.max_height_ := by omega
  rw [hmh, Nat.zero_mul, Nat.zero_add] at e2
  have hs : ∀ L, (fun L => 0 + descentSteps σ ns k 0 (σ.max_height_ - 1) L) L =
      descentSteps σ ns k 0 (σ.max_height_ - 1) L := fun L => Nat.zero_add _
  have hE : EstimateCount fuel σ k = some
      ((Finset.sum (Finset.range σ.max_height_) fun L =>
        (fun L => 0 + descentSteps σ ns k 0 (σ.max_height_ - 1) L) L * σ.kBranching_ ^ L) %
          2 ^ 64) := by
    unfold EstimateCount
    rw [if_neg (by omega), e2]
    congr 2
    apply Finset.sum_congr rfl
    intro L _
    rw [hs]
  have hS : EstimateCount.steps fuel σ k =
      some (fun L => 0 + descentSteps σ ns k 0 (σ.max_height_ - 1) L) := by
    unfold EstimateCount.steps
    rw [if_neg (by omega), e1]
  refine ⟨ns, _, _, hi.chain_eq (by omega), hE, hS, rfl, fun h => Nat.mod_eq_of_lt h, hs, ?_, ?_⟩
  · intro hno
    have hz : ∀ L, (fun L => 0 + descentSteps σ ns k 0 (σ.max_height_ - 1) L) L = 0 := by
      intro L
      rw [hs]
      unfold descentSteps
      split_ifs
      all_goals first
        | rfl
        | (rw [List.countP_eq_zero]
           intro a ha
           simp only [decide_eq_true_eq, not_and]
           intro _ _ hk
           exact hno a ha hk)
    refine ⟨hz, ?_⟩
    rw [Finset.sum_eq_zero (fun L _ => by rw [hz L, Nat.zero_mul])]
    rfl
  · intro hone
    have hcnt : descentSteps σ ns k 0 (σ.max_height_ - 1) 0 =
        (ns.filter fun a => decide (keyB σ a < (k : WithBot K))).length := by
      rw [← List.countP_eq_length_filter]
      unfold descentSteps
      rw [hone, if_neg (by omega)]
      apply List.countP_congr
      intro a ha
      have hh := (hi.node a ha).2.2.1
      have hb : keyB σ 0 < keyB σ a := by
        rw [hi.keyB_head]
        exact Ne.bot_lt (hi.node_key_ne_bot ha)
      simp [show 0 < σ.height a by omega, hb]
    have hsum : (Finset.sum (Finset.range σ.max_height_) fun L =>
        (fun L => 0 + descentSteps σ ns k 0 (σ.max_height_ - 1) L) L * σ.kBranching_ ^ L) =
        (ns.filter fun a => decide (keyB σ a < (k : WithBot K))).length := by
      rw [hone] at hcnt
      rw [hone, Finset.sum_range_one]
      show (0 + descentSteps σ ns k 0 (1 - 1) 0) * σ.kBranching_ ^ 0 = _
      rw [Nat.zero_add, Nat.pow_zero, Nat.mul_one, hcnt]
    refine ⟨(hs 0).trans hcnt, by rw [hsum], fun hc => ?_⟩
    rw [hsum]
    apply Nat.mod_eq_of_lt
    have := List.length_filter_le (fun a => decide (keyB σ a < (k : WithBot K))) ns
    omega

/-- Witness of C34: `EstimateCount(6)` on the list that holds 3 and 5. -/
theorem C34_witness :
    Reachable exampleList2 ∧ exampleList2.count + exampleList2.kMaxHeight_ + 2 ≤ 20 ∧
    EstimateCount 20 exampleList2 6 = some 20 ∧
    ∃ (ns : List Nat) (c : Nat) (s : Nat → Nat), chain 20 exampleList2 = some ns ∧
      EstimateCount 20 exampleList2 6 = some c ∧ EstimateCount.steps 20 exampleList2 6 = some s ∧
      c = (Finset.sum (Finset.range exampleList2.max_height_)
        fun L => s L * exampleList2.kBranching_ ^ L) % 2 ^ 64 ∧
      ((Finset.sum (Finset.range exampleList2.max_height_)
          fun L => s L * exampleList2.kBranching_ ^ L) < 2 ^ 64 →
        c = Finset.sum (Finset.range exampleList2.max_height_)
          fun L => s L * exampleList2.kBranching_ ^ L) ∧
      (∀ L, s L = descentSteps exampleList2 ns 6 0 (exampleList2.max_height_ - 1) L) ∧
      ((∀ a, a ∈ ns → ¬ keyB exampleList2 a < ((6 : Nat) : WithBot Nat)) →
        (∀ L, s L = 0) ∧ c = 0) ∧
      (exampleList2.max_height_ = 1 →
        s 0 = (ns.filter fun a =>
          decide (keyB exampleList2 a < ((6 : Nat) : WithBot Nat))).length ∧
        c = (ns.filter fun a =>
          decide (keyB exampleList2 a < ((6 : Nat) : WithBot Nat))).length % 2 ^ 64 ∧
        (exampleList2.count < 2 ^ 64 →
          c = (ns.filter fun a =>
            decide (keyB exampleList2 a < ((6 : Nat) : WithBot Nat))).length)) :=
  ⟨exampleList2_reachable, by decide, by decide,
    C34_estimate_count_sum exampleList2 exampleList2_reachable 6 20 (by decide)⟩

/-! ## The height of a splice above the height of the list

`Insert` reads `height_` of a splice when it decides whether the splice is
lower than the list, in the assert of `RecomputeSpliceLevels` and in its closing
block; the searches and the linking loops read the arrays only. -/

theorem skipPrev_height (sp : Splice) (H bad : Nat) : ∀ fuel rh,
    Insert.skipPrev { sp with height_ := H } bad fuel rh = Insert.skipPrev sp bad fuel rh := by
  intro fuel
  induction fuel with
  | zero => intro rh; rfl
  | succ n ih => intro rh; simp only [Insert.skipPrev, ih]

theorem skipNext_height (sp : Splice) (H : Nat) (bad : Option Nat) : ∀ fuel rh,
    Insert.skipNext { sp with height_ := H } bad fuel rh = Insert.skipNext sp bad fuel rh := by
  intro fuel
  induction fuel with
  | zero => intro rh; rfl
  | succ n ih => intro rh; simp only [Insert.skipNext, ih]

theorem validate_height (σ : SpdbSortedList K) (k : K) (sp : Splice) (H : Nat) (allow : Bool)
    (M : Nat) : ∀ fuel rh,
    Insert.validate σ k { sp with height_ := H } allow M fuel rh =
      Insert.validate σ k sp allow M fuel rh := by
  intro fuel
  induction fuel with
  | zero => intro rh; rfl
  | succ n ih => intro rh; simp only [Insert.validate, ih, skipPrev_height, skipNext_height]

theorem recompute_loop_height (σ : SpdbSortedList K) (k : K) (fuel H : Nat) : ∀ i sp,
    RecomputeSpliceLevels.loop σ k fuel i { sp with height_ := H } =
      (RecomputeSpliceLevels.loop σ k fuel i sp).map fun s => { s with height_ := H } := by
  intro i
  induction i with
  | zero => intro sp; rfl
  | succ i ih =>
    intro sp
    simp only [RecomputeSpliceLevels.loop]
    cases FindSpliceForLevel σ k fuel (sp.prev_ (i + 1)) (sp.next_ (i + 1)) i with
    | none => rfl
    | some r => exact ih (sp.set i r.1 r.2)

theorem fixLevel_height (σ : SpdbSortedList K) (k : K) (rh fuel i H : Nat) (sp : Splice) :
    Insert.fixLevel σ k rh fuel i { sp with height_ := H } =
      (Insert.fixLevel σ k rh fuel i sp).map fun s => { s with height_ := H } := by
  unfold Insert.fixLevel
  by_cases h : rh ≤ i
  · simp only [h, if_true]
    cases Next σ (sp.prev_ i) i with
    | none => rfl
    | some cur =>
      simp only [Option.some_bind]
      by_cases hc : cur ≠ sp.next_ i
      · simp only [hc, if_true, ne_eq, not_false_eq_true]
        cases FindSpliceForLevel σ k fuel (sp.prev_ i) none i with
        | none => rfl
        | some r => rfl
      · simp only [hc, if_false]
        rfl
  · simp only [h, if_false]
    rfl

theorem link_height (k : K) (x rh fuel H : Nat) : ∀ (n i : Nat) (σ : SpdbSortedList K)
    (sp : Splice),
    Insert.link k x rh fuel n i σ { sp with height_ := H } =
      (Insert.link k x rh fuel n i σ sp).map fun r => (r.1, r.2.1, { r.2.2 with height_ := H }) := by
  intro n
  induction n with
  | zero => intro i σ sp; rfl
  | succ n ih =>
    intro i σ sp
    simp only [Insert.link, fixLevel_height]
    cases Insert.fixLevel σ k rh fuel i sp with
    | none => rfl
    | some s =>
      simp only [Option.map_some', Option.some_bind]
      show (Insert.dupNext σ k s i).bind _ = Option.map _ ((Insert.dupNext σ k s i).bind _)
      cases Insert.dupNext σ k s i with
      | none => rfl
      | some d1 =>
        simp only [Option.some_bind]
        cases d1 with
        | true => rfl
        | false =>
          simp only [Bool.false_eq_true, if_false]
          show (Insert.dupPrev σ k s i).bind _ = Option.map _ ((Insert.dupPrev σ k s i).bind _)
          cases Insert.dupPrev σ k s i with
          | none => rfl
          | some d2 =>
            simp only [Option.some_bind]
            cases d2 with
            | true => rfl
            | false =>
              simp only [Bool.false_eq_true, if_false]
              show (Insert.assertBracket σ k s i).bind _ =
                Option.map _ ((Insert.assertBracket σ k s i).bind _)
              cases Insert.assertBracket σ k s i with
              | none => rfl
              | some _ =>
                simp only [Option.some_bind]
                show (Next σ (s.prev_ i) i).bind _ = Option.map _ ((Next σ (s.prev_ i) i).bind _)
                cases Next σ (s.prev_ i) i with
                | none => rfl
                | some cur =>
                  simp only [Option.some_bind]
                  show (assert (decide (cur = s.next_ i))).bind _ =
                    Option.map _ ((assert (decide (cur = s.next_ i))).bind _)
                  cases assert (decide (cur = s.next_ i)) with
                  | none => rfl
                  | some _ =>
                    simp only [Option.some_bind]
                    show (SetNext σ x i (s.next_ i)).bind _ =
                      Option.map _ ((SetNext σ x i (s.next_ i)).bind _)
                    cases SetNext σ x i (s.next_ i) with
                    | none => rfl
                    | some σ1 =>
                      simp only [Option.some_bind]
                      show (SetNext σ1 (s.prev_ i) i (some x)).bind _ =
                        Option.map _ ((SetNext σ1 (s.prev_ i) i (some x)).bind _)
                      cases SetNext σ1 (s.prev_ i) i (some x) with
                      | none => rfl
                      | some σ2 =>
                        simp only [Option.some_bind]
                        exact ih (i + 1) σ2 s

theorem casLevel_height (k : K) (x i fuel H : Nat) : ∀ (tries : Nat) (σ : SpdbSortedList K)
    (sp : Splice) (valid : Bool),
    Insert.casLevel k x i fuel tries σ { sp with height_ := H } valid =
      (Insert.casLevel k x i fuel tries σ sp valid).map fun r =>
        (r.1, r.2.1, { r.2.2.1 with height_ := H }, r.2.2.2) := by
  intro tries
  induction tries with
  | zero => intro σ sp valid; rfl
  | succ n ih =>
    intro σ sp valid
    simp only [Insert.casLevel]
    show (Insert.dupNext σ k sp i).bind _ = Option.map _ ((Insert.dupNext σ k sp i).bind _)
    cases Insert.dupNext σ k sp i with
    | none => rfl
    | some d1 =>
      simp only [Option.some_bind]
      cases d1 with
      | true => rfl
      | false =>
        simp only [Bool.false_eq_true, if_false]
        show (Insert.dupPrev σ k sp i).bind _ = Option.map _ ((Insert.dupPrev σ k sp i).bind _)
        cases Insert.dupPrev σ k sp i with
        | none => rfl
        | some d2 =>
          simp only [Option.some_bind]
          cases d2 with
          | true => rfl
          | false =>
            simp only [Bool.false_eq_true, if_false]
            show (Insert.assertBracket σ k sp i).bind _ =
              Option.map _ ((Insert.assertBracket σ k sp i).bind _)
            cases Insert.assertBracket σ k sp i with
            | none => rfl
            | some _ =>
              simp only [Option.some_bind]
              show (SetNext σ x i (sp.next_ i)).bind _ =
                Option.map _ ((SetNext σ x i (sp.next_ i)).bind _)
              cases SetNext σ x i (sp.next_ i) with
              | none => rfl
              | some σ1 =>
                simp only [Option.some_bind]
                show (CASNext σ1 (sp.prev_ i) i (sp.next_ i) (some x)).bind _ =
                  Option.map _ ((CASNext σ1 (sp.prev_ i) i (sp.next_ i) (some x)).bind _)
                cases CASNext σ1 (sp.prev_ i) i (sp.next_ i) (some x) with
                | none => rfl
                | some r =>
                  simp only [Option.some_bind]
                  cases hr1 : r.1 with
                  | true => rfl
                  | false =>
                    simp only [Bool.false_eq_true, if_false]
                    show (FindSpliceForLevel r.2 k fuel (sp.prev_ i) none i).bind _ =
                      Option.map _ ((FindSpliceForLevel r.2 k fuel (sp.prev_ i) none i).bind _)
                    cases FindSpliceForLevel r.2 k fuel (sp.prev_ i) none i with
                    | none => rfl
                    | some b =>
                      simp only [Option.some_bind]
                      exact ih r.2 (sp.set i b.1 b.2) _

theorem linkCAS_height (k : K) (x fuel H : Nat) : ∀ (n i : Nat) (σ : SpdbSortedList K)
    (sp : Splice) (valid : Bool),
    Insert.linkCAS k x fuel n i σ { sp with height_ := H } valid =
      (Insert.linkCAS k x fuel n i σ sp valid).map fun r =>
        (r.1, r.2.1, { r.2.2.1 with height_ := H }, r.2.2.2) := by
  intro n
  induction n with
  | zero => intro i σ sp valid; rfl
  | succ n ih =>
    intro i σ sp valid
    simp only [Insert.linkCAS, casLevel_height]
    cases Insert.casLevel k x i fuel fuel σ sp valid with
    | none => rfl
    | some r =>
      simp only [Option.map_some', Option.some_bind]
      cases hr1 : r.1 with
      | true =>
        simp only [if_true]
        exact ih (i + 1) r.2.1 r.2.2.1 r.2.2.2
      | false => simp only [Bool.false_eq_true, if_false, Option.map_some', hr1]

theorem assertLevels_height (σ : SpdbSortedList K) (k : K) (sp : Splice) (H : Nat) : ∀ n i,
    Insert.assertLevels σ k { sp with height_ := H } n i = Insert.assertLevels σ k sp n i := by
  intro n
  induction n with
  | zero => intro i; rfl
  | succ n ih =>
    intro i
    simp only [Insert.assertLevels, ih]
    rfl

theorem recompute_loop_frame (σ : SpdbSortedList K) (k : K) (fuel : Nat) : ∀ i sp s,
    RecomputeSpliceLevels.loop σ k fuel i sp = some s →
      ∀ j, i ≤ j → s.prev_ j = sp.prev_ j ∧ s.next_ j = sp.next_ j := by
  intro i
  induction i with
  | zero =>
    intro sp s h j _
    simp only [RecomputeSpliceLevels.loop, Option.some.injEq] at h
    subst h
    exact ⟨rfl, rfl⟩
  | succ i ih =>
    intro sp s h j hj
    simp only [RecomputeSpliceLevels.loop] at h
    obtain ⟨r, _, h2⟩ := Option.bind_eq_some.mp h
    have := ih _ _ h2 j (by omega)
    have hji : j ≠ i := by omega
    simpa [Splice.set, setAt, hji] using this

theorem fixLevel_frame {σ : SpdbSortedList K} {k : K} {rh fuel i : Nat} {sp s : Splice}
    (h : Insert.fixLevel σ k rh fuel i sp = some s) :
    ∀ j, j ≠ i → s.prev_ j = sp.prev_ j ∧ s.next_ j = sp.next_ j := by
  intro j hj
  unfold Insert.fixLevel at h
  split_ifs at h with h1
  · obtain ⟨cur, _, h2⟩ := Option.bind_eq_some.mp h
    split_ifs at h2 with h3
    · obtain ⟨r, _, h4⟩ := Option.bind_eq_some.mp h2
      simp only [Option.some.injEq] at h4
      subst h4
      simp [Splice.set, setAt, hj]
    · simp only [Option.some.injEq] at h2
      subst h2
      exact ⟨rfl, rfl⟩
  · simp only [Option.some.injEq] at h
    subst h
    exact ⟨rfl, rfl⟩

theorem link_frame (k : K) (x rh fuel : Nat) : ∀ (n i : Nat) (σ : SpdbSortedList K)
    (sp : Splice) (r : Bool × SpdbSortedList K × Splice),
    Insert.link k x rh fuel n i σ sp = some r →
      ∀ j, n + i ≤ j → r.2.2.prev_ j = sp.prev_ j ∧ r.2.2.next_ j = sp.next_ j := by
  intro n
  induction n with
  | zero =>
    intro i σ sp r h j _
    simp only [Insert.link, Option.some.injEq] at h
    subst h
    exact ⟨rfl, rfl⟩
  | succ n ih =>
    intro i σ sp r h j hj
    simp only [Insert.link] at h
    obtain ⟨s, hs, h⟩ := Option.bind_eq_some.mp h
    have hfr := fixLevel_frame hs j (by omega)
    obtain ⟨d1, _, h⟩ := Option.bind_eq_some.mp h
    split_ifs at h
    · simp only [Option.some.injEq] at h
      subst h
      exact hfr
    · obtain ⟨d2, _, h⟩ := Option.bind_eq_some.mp h
      split_ifs at h
      · simp only [Option.some.injEq] at h
        subst h
        exact hfr
      · obtain ⟨_, _, h⟩ := Option.bind_eq_some.mp h
        obtain ⟨cur, _, h⟩ := Option.bind_eq_some.mp h
        obtain ⟨_, _, h⟩ := Option.bind_eq_some.mp h
        obtain ⟨σ1, _, h⟩ := Option.bind_eq_some.mp h
        obtain ⟨σ2, _, h⟩ := Option.bind_eq_some.mp h
        have := ih _ _ _ _ h j (by omega)
        exact ⟨this.1.trans hfr.1, this.2.trans hfr.2⟩

theorem casLevel_frame (k : K) (x i fuel : Nat) : ∀ (tries : Nat) (σ : SpdbSortedList K)
    (sp : Splice) (valid : Bool) (r : Bool × SpdbSortedList K × Splice × Bool),
    Insert.casLevel k x i fuel tries σ sp valid = some r →
      ∀ j, j ≠ i → r.2.2.1.prev_ j = sp.prev_ j ∧ r.2.2.1.next_ j = sp.next_ j := by
  intro tries
  induction tries with
  | zero =>
    intro σ sp valid r h
    simp [Insert.casLevel] at h
  | succ n ih =>
    intro σ sp valid r h j hj
    simp only [Insert.casLevel] at h
    generalize (if 0 < i then false else valid) = v at h
    obtain ⟨d1, _, h⟩ := Option.bind_eq_some.mp h
    split_ifs at h
    · simp only [Option.some.injEq] at h
      subst h
      exact ⟨rfl, rfl⟩
    · obtain ⟨d2, _, h⟩ := Option.bind_eq_some.mp h
      split_ifs at h
      · simp only [Option.some.injEq] at h
        subst h
        exact ⟨rfl, rfl⟩
      · obtain ⟨_, _, h⟩ := Option.bind_eq_some.mp h
        obtain ⟨σ1, _, h⟩ := Option.bind_eq_some.mp h
        obtain ⟨c, _, h⟩ := Option.bind_eq_some.mp h
        split_ifs at h
        · simp only [Option.some.injEq] at h
          subst h
          exact ⟨rfl, rfl⟩
        · obtain ⟨b, _, h⟩ := Option.bind_eq_some.mp h
          have := ih _ _ _ _ h j hj
          simpa [Splice.set, setAt, hj] using this

theorem linkCAS_frame (k : K) (x fuel : Nat) : ∀ (n i : Nat) (σ : SpdbSortedList K)
    (sp : Splice) (valid : Bool) (r : Bool × SpdbSortedList K × Splice × Bool),
    Insert.linkCAS k x fuel n i σ sp valid = some r →
      ∀ j, n + i ≤ j → r.2.2.1.prev_ j = sp.prev_ j ∧ r.2.2.1.next_ j = sp.next_ j := by
  intro n
  induction n with
  | zero =>
    intro i σ sp valid r h j _
    simp only [Insert.linkCAS, Option.some.injEq] at h
    subst h
    exact ⟨rfl, rfl⟩
  | succ n ih =>
    intro i σ sp valid r h j hj
    simp only [Insert.linkCAS] at h
    obtain ⟨c, hc, h⟩ := Option.bind_eq_some.mp h
    have hfr := casLevel_frame k x i fuel fuel σ sp valid c hc j (by omega)
    split_ifs at h
    · have := ih _ _ _ _ _ h j (by omega)
      exact ⟨this.1.trans hfr.1, this.2.trans hfr.2⟩
    · simp only [Option.some.injEq] at h
      subst h
      exact hfr

/-- The first part of `Insert` on a splice that is not lower than the list:
the levels from `max_height` on are not written, and `height_` is read in the
assert of `RecomputeSpliceLevels` only. -/
theorem prepare_height (σ : SpdbSortedList K) (k : K) (fuel : Nat) (sp : Splice) (allow : Bool)
    (M H : Nat) (h1 : M ≤ sp.height_) (h2 : M ≤ H) :
    Insert.prepare σ k fuel { sp with height_ := H } allow M =
      (Insert.prepare σ k fuel sp allow M).map fun v => ({ v.1 with height_ := H }, v.2) := by
  unfold Insert.prepare
  rw [if_neg (show ¬ sp.height_ < M by omega),
    if_neg (show ¬ ({ sp with height_ := H } : Splice).height_ < M from by
      show ¬ H < M
      omega), validate_height]
  cases Insert.validate σ k sp allow M fuel 0 with
  | none => rfl
  | some rh =>
    simp only [Option.some_bind]
    by_cases hle : rh ≤ M
    · simp only [hle, decide_True, assert, if_true, Option.some_bind]
      by_cases h0 : 0 < rh
      · simp only [h0, if_true]
        unfold RecomputeSpliceLevels
        have e1 : rh ≤ sp.height_ := by omega
        have e2 : rh ≤ H := by omega
        simp only [h0, e1, e2, decide_True, assert, if_true, Option.some_bind]
        rw [recompute_loop_height]
        cases RecomputeSpliceLevels.loop σ k fuel rh sp with
        | none => rfl
        | some s => rfl
      · simp only [h0, if_false]
        rfl
    · simp only [hle, decide_False, assert, if_false, Bool.false_eq_true]
      rfl

theorem prepare_frame {σ : SpdbSortedList K} {k : K} {fuel : Nat} {sp : Splice} {allow : Bool}
    {M : Nat} {v : Splice × Nat} (h : Insert.prepare σ k fuel sp allow M = some v)
    (h1 : M ≤ sp.height_) :
    ∀ j, M ≤ j → v.1.prev_ j = sp.prev_ j ∧ v.1.next_ j = sp.next_ j := by
  intro j hj
  unfold Insert.prepare at h
  rw [if_neg (show ¬ sp.height_ < M by omega)] at h
  obtain ⟨w, hw, h⟩ := Option.bind_eq_some.mp h
  obtain ⟨rh, _, hw⟩ := Option.bind_eq_some.mp hw
  simp only [Option.some.injEq] at hw
  subst hw
  obtain ⟨_, ha, h⟩ := Option.bind_eq_some.mp h
  have hle : rh ≤ M := by
    simp only [assert] at ha
    split_ifs at ha with hc
    simpa using hc
  obtain ⟨s, hs, h⟩ := Option.bind_eq_some.mp h
  simp only [Option.some.injEq] at h
  subst h
  split_ifs at hs with h0
  · unfold RecomputeSpliceLevels at hs
    obtain ⟨_, _, hs⟩ := Option.bind_eq_some.mp hs
    obtain ⟨_, _, hs⟩ := Option.bind_eq_some.mp hs
    exact recompute_loop_frame σ k fuel rh sp s hs j (by omega)
  · simp only [Option.some.injEq] at hs
    subst hs
    exact ⟨rfl, rfl⟩

/-- The asserts of the closing loop at a level whose entries and whose upper
neighbours are `head_` and null. -/
theorem assertLevel_top (σ : SpdbSortedList K) (k : K) (sp : Splice) (i : Nat)
    (h1 : sp.prev_ i = 0) (h2 : sp.next_ i = none) (h3 : sp.prev_ (i + 1) = 0)
    (h4 : sp.next_ (i + 1) = none) : Insert.assertLevel σ k sp i = some () := by
  simp [Insert.assertLevel, Insert.assertBefore, h1, h2, h3, h4]

theorem assertLevels_high {σ0 σ : SpdbSortedList K} {ns : List Nat} (hi : Inv σ0 ns) {k : K}
    {x t : Nat} {sp : Splice} (hkey : σ.key = σ0.key) (hkx : σ0.key x = some k)
    (hhM : σ0.height x ≤ σ0.max_height_) (hprep : Prepared σ0 ns k sp 0 t)
    (hnd : ∀ a, a ∈ ns → keyB σ0 a ≠ (k : WithBot K)) {H : Nat}
    (htop : ∀ j, σ0.max_height_ ≤ j → j ≤ H → sp.prev_ j = 0 ∧ sp.next_ j = none) :
    ∀ n i, n + i = H →
      Insert.assertLevels σ k (finalSplice { sp with height_ := H } x (σ0.height x)) n i =
        some () := by
  intro n
  induction n with
  | zero => intro i _; rfl
  | succ n ih =>
    intro i hni
    unfold Insert.assertLevels
    have hlev : Insert.assertLevel σ k (finalSplice { sp with height_ := H } x (σ0.height x)) i =
        some () := by
      by_cases hiM : i < σ0.max_height_
      · exact assertLevel_ok hi hkey hkx hhM hprep hnd hiM
      · have e0 := htop i (by omega) (by omega)
        have e1 := htop (i + 1) (by omega) (by omega)
        apply assertLevel_top
        · show (if i < σ0.height x then x else sp.prev_ i) = 0
          rw [if_neg (by omega)]; exact e0.1
        · exact e0.2
        · show (if i + 1 < σ0.height x then x else sp.prev_ (i + 1)) = 0
          rw [if_neg (by omega)]; exact e1.1
        · exact e1.2
    rw [hlev]
    simp only [Option.some_bind]
    exact ih (i + 1) (by omega)

/-- The closing block of `Insert` on a splice that is not lower than the list
and holds `head_` and null from the height of the list on. -/
theorem finish_high {σ0 σ : SpdbSortedList K} {ns : List Nat} (hi : Inv σ0 ns) {k : K}
    {x t : Nat} {sp : Splice} (hkey : σ.key = σ0.key) (hkx : σ0.key x = some k)
    (hhM : σ0.height x ≤ σ0.max_height_) (hprep : Prepared σ0 ns k sp 0 t)
    (hnd : ∀ a, a ∈ ns → keyB σ0 a ≠ (k : WithBot K)) {H : Nat} (hMH : σ0.max_height_ ≤ H)
    (htop : ∀ j, σ0.max_height_ ≤ j → j ≤ H → sp.prev_ j = 0 ∧ sp.next_ j = none)
    (valid : Bool) :
    Insert.finish σ k x (σ0.height x) { sp with height_ := H } valid =
      some (if valid then finalSplice { sp with height_ := H } x (σ0.height x)
        else { sp with height_ := 0 }) := by
  unfold Insert.finish
  cases valid with
  | false => rfl
  | true =>
    have hh : (finalSplice { sp with height_ := H } x (σ0.height x)).height_ = H := rfl
    have e := htop H hMH (le_refl _)
    have h1 : (finalSplice { sp with height_ := H } x (σ0.height x)).prev_
        (finalSplice { sp with height_ := H } x (σ0.height x)).height_ = 0 := by
      rw [hh]
      show (if H < σ0.height x then x else sp.prev_ H) = 0
      rw [if_neg (by omega)]
      exact e.1
    have h2 : (finalSplice { sp with height_ := H } x (σ0.height x)).next_
        (finalSplice { sp with height_ := H } x (σ0.height x)).height_ = none := by
      rw [hh]
      exact e.2
    simp only [if_true, h1, h2, decide_True, assert, Option.some_bind]
    rw [hh, assertLevels_high hi hkey hkx hhM hprep hnd htop H 0 (by omega)]
    rfl

/-- The linking and the closing block of `Insert` run by one thread, from the
splice that the first part of `Insert` leaves: a key that is in the list is
rejected; a key that is not in the list is linked, and the splice is left with
`prev_[i] = x` below the height of the node when it is still valid, and with
`height_ = 0` otherwise, which `Insert<false>` never does. -/
theorem Insert_of_prepare {σ : SpdbSortedList K} {ns : List Nat} (hi : Inv σ ns)
    {sp sp1 : Splice} {x rh H : Nat} {k : K} (hx0 : x ≠ 0) (hxn : x ∉ ns)
    (hkx : σ.key x = some k) (hh1 : 1 ≤ σ.height x) (hhk : σ.height x ≤ σ.kMaxHeight_)
    (UseCAS allow : Bool) {fuel : Nat} (hf : σ.count + σ.kMaxHeight_ + 2 ≤ fuel)
    (hprepare : Insert.prepare (raiseMaxHeight σ (σ.height x)) k fuel sp allow
      (raiseMaxHeight σ (σ.height x)).max_height_ = some ({ sp1 with height_ := H }, rh))
    (hprep : Prepared (raiseMaxHeight σ (σ.height x)) ns k sp1 0 rh)
    (hprec0 : Prec (raiseMaxHeight σ (σ.height x)) ns k sp1 0)
    (hMH : (raiseMaxHeight σ (σ.height x)).max_height_ ≤ H)
    (htop : ∀ j, (raiseMaxHeight σ (σ.height x)).max_height_ ≤ j → j ≤ H →
      sp1.prev_ j = 0 ∧ sp1.next_ j = none) :
    ((∃ d, d ∈ ns ∧ keyB σ d = (k : WithBot K)) →
      ∃ s, Insert UseCAS fuel σ x sp allow = some (false, raiseMaxHeight σ (σ.height x), s)) ∧
    ((∀ a, a ∈ ns → keyB σ a ≠ (k : WithBot K)) →
      ∃ σ1 sp2 rh1 v, Insert UseCAS fuel σ x sp allow =
          some (true, σ1, if v then finalSplice { sp2 with height_ := H } x (σ.height x)
            else { sp2 with height_ := 0 }) ∧
        (UseCAS = false → v = true) ∧
        Linked (raiseMaxHeight σ (σ.height x)) ns k x rh1 (σ.height x) σ1 sp2 ∧
        ∀ j, (raiseMaxHeight σ (σ.height x)).max_height_ ≤ j → j ≤ H →
          sp2.prev_ j = 0 ∧ sp2.next_ j = none) := by
  have hi0 : Inv (raiseMaxHeight σ (σ.height x)) ns := hi.raise_inv hhk
  have hhM : (raiseMaxHeight σ (σ.height x)).height x ≤
      (raiseMaxHeight σ (σ.height x)).max_height_ := by
    show σ.height x ≤ (if σ.max_height_ < σ.height x then σ.height x else σ.max_height_)
    split_ifs <;> omega
  have hfc : (raiseMaxHeight σ (σ.height x)).count < fuel := by
    show σ.count < fuel
    omega
  have hcap : (raiseMaxHeight σ (σ.height x)).max_height_ ≤ kMaxPossibleHeight :=
    le_trans hi0.height_le hi0.cap
  have hlk0 : Linked (raiseMaxHeight σ (σ.height x)) ns k x rh 0
      (raiseMaxHeight σ (σ.height x)) sp1 :=
    ⟨rfl, rfl, rfl, rfl, rfl, rfl, rfl, rfl, fun a L _ => by simp,
      by rw [max_eq_left (Nat.zero_le _)]; exact hprep, hprec0⟩
  have hkx0 : (raiseMaxHeight σ (σ.height x)).key x = some k := hkx
  unfold Insert
  simp only [hkx, Option.some_bind, hh1, hhk, decide_True, Bool.and_self, assert, if_true,
    hcap, hprepare]
  cases UseCAS with
  | false =>
    have hlink := link_spec hi0 rh hx0 hxn hhM hfc (σ.height x) 0
      (raiseMaxHeight σ (σ.height x)) sp1 rfl hlk0 (Or.inl rfl)
    simp only [Bool.false_eq_true, if_false, link_height]
    refine ⟨?_, ?_⟩
    · intro hdup
      rw [hlink.1 hdup hh1]
      exact ⟨{ sp1 with height_ := H }, by simp⟩
    · intro hnd
      obtain ⟨σ1, sp2, h1, h2⟩ := hlink.2 hnd
      have hfr := link_frame k x rh fuel (σ.height x) 0 _ sp1 _ h1
      have htop2 : ∀ j, (raiseMaxHeight σ (σ.height x)).max_height_ ≤ j → j ≤ H →
          sp2.prev_ j = 0 ∧ sp2.next_ j = none := by
        intro j hj hjH
        have e := hfr j (by
          have : (raiseMaxHeight σ (σ.height x)).height x = σ.height x := rfl
          omega)
        have e2 := htop j hj hjH
        exact ⟨e.1.trans e2.1, e.2.trans e2.2⟩
      rw [h1]
      simp only [Option.map_some', Option.some_bind, if_true]
      have hfin : Insert.finish σ1 k x (σ.height x) { sp2 with height_ := H } true = _ :=
        finish_high hi0 h2.key hkx0 hhM h2.prep hnd hMH htop2 true
      rw [hfin]
      exact ⟨σ1, sp2, rh, true, rfl, fun _ => rfl, h2, htop2⟩
  | true =>
    have hlink := linkCAS_spec hi0 rh hx0 hxn hhM hfc (by omega) (σ.height x) 0
      (raiseMaxHeight σ (σ.height x)) sp1 true rfl hlk0 (Or.inl rfl)
    simp only [if_true, linkCAS_height]
    refine ⟨?_, ?_⟩
    · intro hdup
      rw [hlink.1 hdup hh1]
      exact ⟨{ sp1 with height_ := H }, by simp⟩
    · intro hnd
      obtain ⟨σ1, sp2, v, h1, h2⟩ := hlink.2 hnd
      have hfr := linkCAS_frame k x fuel (σ.height x) 0 _ sp1 true _ h1
      have htop2 : ∀ j, (raiseMaxHeight σ (σ.height x)).max_height_ ≤ j → j ≤ H →
          sp2.prev_ j = 0 ∧ sp2.next_ j = none := by
        intro j hj hjH
        have e := hfr j (by
          have : (raiseMaxHeight σ (σ.height x)).height x = σ.height x := rfl
          omega)
        have e2 := htop j hj hjH
        exact ⟨e.1.trans e2.1, e.2.trans e2.2⟩
      rw [h1]
      simp only [Option.map_some', Option.some_bind, if_true]
      have hfin : Insert.finish σ1 k x (σ.height x) { sp2 with height_ := H } v = _ :=
        finish_high hi0 h2.key hkx0 hhM h2.prep hnd hMH htop2 v
      rw [hfin]
      exact ⟨σ1, sp2, rh, v, rfl, (fun h => by cases h), h2, htop2⟩

/-- The splice that a successful `Insert` leaves when it is still valid: the
conditions of the closing block hold, and the splice satisfies the Splice
invariant with respect to the list with the new node. -/
theorem Linked.closing {σ0 σ : SpdbSortedList K} {ns : List Nat} (hi : Inv σ0 ns) {k : K}
    {x rh : Nat} {sp : Splice} (hkx : σ0.key x = some k)
    (hhM : σ0.height x ≤ σ0.max_height_)
    (hnd : ∀ a, a ∈ ns → keyB σ0 a ≠ (k : WithBot K))
    (hlk : Linked σ0 ns k x rh (σ0.height x) σ sp) {H : Nat} (hMH : σ0.max_height_ ≤ H)
    (htop : ∀ j, σ0.max_height_ ≤ j → j ≤ H → sp.prev_ j = 0 ∧ sp.next_ j = none) :
    ClosingAsserts σ k (finalSplice { sp with height_ := H } x (σ0.height x)) ∧
    SpliceInvariant σ (insertNode σ0 k x ns)
      (finalSplice { sp with height_ := H } x (σ0.height x)) := by
  have hkb := keyB_congr hlk.key
  have hprep := hlk.prep
  have hfrom : SpliceFrom σ (insertNode σ0 k x ns) (finalSplice sp x (σ0.height x)) 0 := by
    rcases hlk.splice_final hi hkx hhM hnd with hlt | h
    · have e1 : (finalSplice sp x (σ0.height x)).height_ = σ0.max_height_ := hprep.height
      have e2 := hlk.max_height
      omega
    · exact h.2
  have hhf : (finalSplice sp x (σ0.height x)).height_ = σ0.max_height_ := hprep.height
  have hhead : keyB σ 0 = ⊥ := by rw [hkb]; exact hi.keyB_head
  have hp : ∀ i, σ0.max_height_ ≤ i → i ≤ H →
      (finalSplice { sp with height_ := H } x (σ0.height x)).prev_ i = 0 := by
    intro i h1 h2
    show (if i < σ0.height x then x else sp.prev_ i) = 0
    rw [if_neg (by omega)]
    exact (htop i h1 h2).1
  have hn : ∀ i, σ0.max_height_ ≤ i → i ≤ H →
      (finalSplice { sp with height_ := H } x (σ0.height x)).next_ i = none :=
    fun i h1 h2 => (htop i h1 h2).2
  have hlevel : ∀ i, i < H →
      (∀ c, (finalSplice { sp with height_ := H } x (σ0.height x)).next_ i = some c →
        (k : WithBot K) < keyB σ c) ∧
      keyB σ ((finalSplice { sp with height_ := H } x (σ0.height x)).prev_ i) ≤ (k : WithBot K) ∧
      keyB σ ((finalSplice { sp with height_ := H } x (σ0.height x)).prev_ (i + 1)) ≤
        keyB σ ((finalSplice { sp with height_ := H } x (σ0.height x)).prev_ i) ∧
      ∀ c', (finalSplice { sp with height_ := H } x (σ0.height x)).next_ (i + 1) = some c' →
        ∃ c, (finalSplice { sp with height_ := H } x (σ0.height x)).next_ i = some c ∧
          keyB σ c ≤ keyB σ c' := by
    intro i hiH
    by_cases hiM : i < σ0.max_height_
    · have hl0 := hprep.loose_at i (Nat.zero_le _) (by omega)
      have hnest := hfrom.nested i (Nat.zero_le _) (by rw [hhf]; exact hiM)
      refine ⟨?_, ?_, hnest.1, hnest.2⟩
      · intro c hc
        have h := hl0.2 c hc
        rw [hkb]
        exact lt_of_le_of_ne h.2 (fun e => hnd c h.1.1 e.symm)
      · rw [hkb]
        show keyB σ0 (if i < σ0.height x then x else sp.prev_ i) ≤ _
        by_cases hih : i < σ0.height x
        · rw [if_pos hih, keyB_some hkx]
        · rw [if_neg hih]
          exact le_of_lt hl0.1.2
    · refine ⟨?_, ?_, ?_, ?_⟩
      · intro c hc
        rw [hn i (by omega) (by omega)] at hc
        cases hc
      · rw [hp i (by omega) (by omega), hhead]
        exact bot_le
      · rw [hp (i + 1) (by omega) (by omega), hhead]
        exact bot_le
      · intro c' hc'
        rw [hn (i + 1) (by omega) (by omega)] at hc'
        cases hc'
  refine ⟨⟨hp H hMH (le_refl _), hn H hMH (le_refl _), hlevel⟩,
    ⟨?_, fun i h => (hlevel i h).2.2.1, ?_, fun i h => (hlevel i h).2.2.2,
      hp H hMH (le_refl _), hn H hMH (le_refl _)⟩⟩
  · intro i hiH
    by_cases hiM : i < σ0.max_height_
    · exact hfrom.linked i (Nat.zero_le _) (by rw [hhf]; exact hiM)
    · refine ⟨Or.inl (hp i (by omega) (le_of_lt hiH)), ?_⟩
      intro c hc
      rw [hn i (by omega) (le_of_lt hiH)] at hc
      cases hc
  · intro i hiH c hc
    exact lt_of_le_of_lt (hlevel i hiH).2.1 ((hlevel i hiH).1 c hc)

/-- The Splice invariant with respect to a list that has no node above its
height: the levels of the splice from the height of the list on hold `head_`
and null. -/
theorem SpliceInvariant.tops {σ : SpdbSortedList K} {ns : List Nat} {sp : Splice}
    (hi : Inv σ ns) (h : SpliceInvariant σ ns sp) :
    ∀ j, σ.max_height_ ≤ j → j ≤ sp.height_ → sp.prev_ j = 0 ∧ sp.next_ j = none := by
  intro j hj hjH
  by_cases hlt : j < sp.height_
  · have hl := h.entries j hlt
    refine ⟨?_, ?_⟩
    · rcases hl.1 with h0 | hm
      · exact h0
      · have := (hi.node _ hm.1).2.2.2
        have := hm.2
        omega
    · cases hc : sp.next_ j with
      | none => rfl
      | some c =>
        have hm := hl.2 c hc
        have := (hi.node _ hm.1).2.2.2
        have := hm.2
        omega
  · have : j = sp.height_ := by omega
    rw [this]
    exact ⟨h.top_prev, h.top_next⟩

/-- The first part of `Insert` on a splice that is lower than the list or
satisfies the Splice invariant: it leaves the splice at the greater of the two
heights, with exact levels below `recompute_height`, an exact level 0, and
`head_` and null from the height of the list on. -/
theorem prepare_general {σ : SpdbSortedList K} {ns : List Nat} (hi : Inv σ ns) (k : K)
    {sp : Splice} (hsp : sp.height_ < σ.max_height_ ∨ SpliceInvariant σ ns sp) (allow : Bool)
    {fuel : Nat} (hf : σ.count + σ.kMaxHeight_ + 2 ≤ fuel) :
    ∃ sp1 rh, Insert.prepare σ k fuel sp allow σ.max_height_ =
        some ({ sp1 with height_ := max sp.height_ σ.max_height_ }, rh) ∧
      Prepared σ ns k sp1 0 rh ∧ Prec σ ns k sp1 0 ∧
      ∀ j, σ.max_height_ ≤ j → j ≤ max sp.height_ σ.max_height_ →
        sp1.prev_ j = 0 ∧ sp1.next_ j = none := by
  by_cases hlt : sp.height_ < σ.max_height_
  · obtain ⟨sp1, rh, h1, h2, h3⟩ := prepare_spec hi k (Or.inl hlt) allow hf
    have hmax : max sp.height_ σ.max_height_ = σ.max_height_ := max_eq_right (le_of_lt hlt)
    have hh := h2.height
    refine ⟨sp1, rh, ?_, h2, h3, ?_⟩
    · rw [h1, hmax, ← hh]
    · intro j hj hjH
      have : j = sp1.height_ := by omega
      rw [this]
      exact ⟨h2.rest.top_prev, h2.rest.top_next⟩
  · have hinv := hsp.resolve_left hlt
    have htops := hinv.tops hi
    have hmax : max sp.height_ σ.max_height_ = sp.height_ := max_eq_left (by omega)
    have hsp' : SpliceOK σ ns { sp with height_ := σ.max_height_ } := by
      refine Or.inr ⟨rfl, (htops _ (le_refl _) (by omega)).1, (htops _ (le_refl _) (by omega)).2,
        ?_, ?_⟩
      · intro j _ hj
        have hj' : j < σ.max_height_ := hj
        exact hinv.entries j (by omega)
      · intro j _ hj
        have hj' : j < σ.max_height_ := hj
        exact ⟨hinv.prev_le j (by omega), hinv.next_le j (by omega)⟩
    obtain ⟨sp1, rh, h1, h2, h3⟩ := prepare_spec hi k hsp' allow hf
    have hcomm := prepare_height σ k fuel { sp with height_ := σ.max_height_ } allow
      σ.max_height_ sp.height_ (le_refl _) (by omega)
    rw [h1] at hcomm
    have hfr := prepare_frame h1 (le_refl _)
    refine ⟨sp1, rh, ?_, h2, h3, ?_⟩
    · rw [hmax]
      exact hcomm
    · intro j hj hjH
      rw [hmax] at hjH
      have e := hfr j hj
      have e2 := htops j hj hjH
      exact ⟨e.1.trans e2.1, e.2.trans e2.2⟩

/-- The Splice invariant depends on the keys and heights of `head_` and of the
linked nodes. -/
theorem SpliceInvariant.transfer_invariant {σ σ' : SpdbSortedList K} {ns : List Nat}
    {sp : Splice} (h : SpliceInvariant σ ns sp)
    (hkey : ∀ a, a = 0 ∨ a ∈ ns → σ'.key a = σ.key a)
    (hheight : ∀ a, a ∈ ns → σ'.height a = σ.height a) : SpliceInvariant σ' ns sp := by
  have hlvl : ∀ j a, Lvl σ ns j a → Lvl σ' ns j a := by
    intro j a ha
    exact ⟨ha.1, by rw [hheight a ha.1]; exact ha.2⟩
  have hprev : ∀ j, j ≤ sp.height_ → sp.prev_ j = 0 ∨ sp.prev_ j ∈ ns := by
    intro j hj
    by_cases hlt : j < sp.height_
    · exact (h.entries j hlt).1.imp id fun h => h.1
    · have : j = sp.height_ := by omega
      rw [this]; exact Or.inl h.top_prev
  have hnext : ∀ j c, j ≤ sp.height_ → sp.next_ j = some c → c ∈ ns := by
    intro j c hj hc
    by_cases hlt : j < sp.height_
    · exact ((h.entries j hlt).2 c hc).1
    · have : j = sp.height_ := by omega
      rw [this, h.top_next] at hc
      cases hc
  refine ⟨?_, ?_, ?_, ?_, h.top_prev, h.top_next⟩
  · intro j hj
    have := h.entries j hj
    exact ⟨this.1.imp id (hlvl j _), fun c hc => hlvl j c (this.2 c hc)⟩
  · intro j hj
    rw [keyB_eq_of_key (hkey _ (hprev (j + 1) (by omega))),
      keyB_eq_of_key (hkey _ (hprev j (by omega)))]
    exact h.prev_le j hj
  · intro j hj c hc
    rw [keyB_eq_of_key (hkey _ (hprev j (by omega))),
      keyB_eq_of_key (hkey _ (Or.inr (hnext j c (by omega) hc)))]
    exact h.bracket j hj c hc
  · intro j hj c' hc'
    obtain ⟨c, hc, hle⟩ := h.next_le j hj c' hc'
    refine ⟨c, hc, ?_⟩
    rw [keyB_eq_of_key (hkey _ (Or.inr (hnext j c (by omega) hc))),
      keyB_eq_of_key (hkey _ (Or.inr (hnext (j + 1) c' (by omega) hc')))]
    exact hle

/-- C37: on every reachable list whose linked nodes are `ns`, for every splice
that is lower than the list (`height_ < max_height_`) or satisfies the Splice
invariant with respect to the list, every `Insert` run by one thread returns, so
none of its asserts fails, the asserts of the closing block
`if (splice_is_valid)` included. After a successful one whose closing block was
entered (the splice is left with a `height_` other than 0, which is always so
for `Insert<false>`), the conditions that the block asserts hold on the splice:
`prev_[height_] == head_`, `next_[height_] == nullptr`, and at every level
`i < height_` the inserted key is below the key of `next_[i]`, not below the key
of `prev_[i]`, and `prev_` and `next_` are monotone from one level to the next;
the splice satisfies the Splice invariant with respect to the new list. When
the block was not entered the `else` branch has set `height_` to 0, which is
below `max_height_`, and no assert was evaluated. -/
theorem C37_splice_closing_asserts (σ : SpdbSortedList K) (hr : Reachable σ) (ns : List Nat)
    (sp : Splice) (UseCAS allow : Bool) (k : K) (height fuel : Nat)
    (hns : chain fuel σ = some ns)
    (hsp : sp.height_ < σ.max_height_ ∨ SpliceInvariant σ ns sp)
    (h1 : 1 ≤ height) (h2 : height ≤ σ.kMaxHeight_)
    (hf : σ.count + σ.kMaxHeight_ + 3 ≤ fuel) :
    ∃ b σ1 sp2,
      Insert UseCAS fuel (AllocateNode σ k height).1 (AllocateNode σ k height).2 sp allow =
        some (b, σ1, sp2) ∧
      σ1.max_height_ = max σ.max_height_ height ∧
      (b = true →
        chain fuel σ1 = some (insertNode σ k (σ.count + 1) ns) ∧
        (UseCAS = false → sp2.height_ ≠ 0) ∧
        (sp2.height_ ≠ 0 →
          sp2.height_ = max sp.height_ σ1.max_height_ ∧ ClosingAsserts σ1 k sp2 ∧
          SpliceInvariant σ1 (insertNode σ k (σ.count + 1) ns) sp2) ∧
        (sp2.height_ < σ1.max_height_ ∨
          SpliceInvariant σ1 (insertNode σ k (σ.count + 1) ns) sp2)) := by
  obtain ⟨ns', hg⟩ := hr.good
  have hi := hg.inv
  have hq := hg.quiet
  have hlen := hi.length_le
  have hns' := hi.chain_eq (show ns'.length < fuel by omega)
  rw [hns] at hns'
  obtain rfl : ns = ns' := Option.some.inj hns'
  -- the list after the allocation
  have hkeyA : ∀ a, (AllocateNode σ k height).1.key a =
      if a = σ.count + 1 then some k else σ.key a := fun _ => rfl
  have hheightA : ∀ a, (AllocateNode σ k height).1.height a =
      if a = σ.count + 1 then height else σ.height a := fun _ => rfl
  have hnextA : ∀ a L, (AllocateNode σ k height).1.next a L =
      if a = σ.count + 1 then none else σ.next a L := fun _ _ => rfl
  have hkeyO : ∀ a, a = 0 ∨ a ∈ ns → (AllocateNode σ k height).1.key a = σ.key a := by
    intro a ha; rw [hkeyA, if_neg (hi.ne_fresh ha)]
  have hheightO : ∀ a, a = 0 ∨ a ∈ ns → (AllocateNode σ k height).1.height a = σ.height a := by
    intro a ha; rw [hheightA, if_neg (hi.ne_fresh ha)]
  have hnextAll : ∀ a L, (AllocateNode σ k height).1.next a L = σ.next a L := by
    intro a L
    rw [hnextA]
    split_ifs with hax
    · rw [hax]; exact (hq _ (by omega) hi.not_mem_fresh L).symm
    · rfl
  have hiA : Inv (AllocateNode σ k height).1 ns :=
    hi.transfer_inv hkeyO hheightO (fun a _ L => hnextAll a L) (Nat.le_succ _) rfl rfl
  have hkx : (AllocateNode σ k height).1.key (σ.count + 1) = some k := by
    rw [hkeyA, if_pos rfl]
  have hhx : (AllocateNode σ k height).1.height (σ.count + 1) = height := by
    rw [hheightA, if_pos rfl]
  have hh1 : 1 ≤ (AllocateNode σ k height).1.height (σ.count + 1) := by rw [hhx]; exact h1
  have hhk : (AllocateNode σ k height).1.height (σ.count + 1) ≤
      (AllocateNode σ k height).1.kMaxHeight_ := by rw [hhx]; exact h2
  have hfA : (AllocateNode σ k height).1.count + (AllocateNode σ k height).1.kMaxHeight_ + 2 ≤
      fuel := by
    show σ.count + 1 + σ.kMaxHeight_ + 2 ≤ fuel
    omega
  have hi0 : Inv (raiseMaxHeight (AllocateNode σ k height).1
      ((AllocateNode σ k height).1.height (σ.count + 1))) ns := hiA.raise_inv hhk
  have hM : (raiseMaxHeight (AllocateNode σ k height).1
      ((AllocateNode σ k height).1.height (σ.count + 1))).max_height_ =
      max σ.max_height_ height := by
    show (if σ.max_height_ < (AllocateNode σ k height).1.height (σ.count + 1) then
      (AllocateNode σ k height).1.height (σ.count + 1) else σ.max_height_) = _
    rw [hhx]
    split_ifs with hc
    · exact (max_eq_right (le_of_lt hc)).symm
    · exact (max_eq_left (by omega)).symm
  have hhM : (raiseMaxHeight (AllocateNode σ k height).1
      ((AllocateNode σ k height).1.height (σ.count + 1))).height (σ.count + 1) ≤
      (raiseMaxHeight (AllocateNode σ k height).1
        ((AllocateNode σ k height).1.height (σ.count + 1))).max_height_ := by
    rw [hM]
    show (AllocateNode σ k height).1.height (σ.count + 1) ≤ _
    rw [hhx]
    exact le_max_right _ _
  -- the splice, with respect to the list after the allocation
  have hsp0 : sp.height_ < (raiseMaxHeight (AllocateNode σ k height).1
        ((AllocateNode σ k height).1.height (σ.count + 1))).max_height_ ∨
      SpliceInvariant (raiseMaxHeight (AllocateNode σ k height).1
        ((AllocateNode σ k height).1.height (σ.count + 1))) ns sp := by
    rcases hsp with h | h
    · left
      rw [hM]
      exact lt_of_lt_of_le h (le_max_left _ _)
    · right
      exact h.transfer_invariant hkeyO (fun a ha => hheightO a (Or.inr ha))
  obtain ⟨sp1, rh, hprepare, hprep, hprec0, htop⟩ := prepare_general hi0 k hsp0 allow
    (show _ + _ + 2 ≤ fuel from hfA)
  have hspec := Insert_of_prepare hiA (Nat.succ_ne_zero _) hi.not_mem_fresh hkx hh1 hhk UseCAS
    allow hfA hprepare hprep hprec0 (le_max_right _ _) htop
  show ∃ b σ1 sp2, Insert UseCAS fuel (AllocateNode σ k height).1 (σ.count + 1) sp allow =
    some (b, σ1, sp2) ∧ _
  by_cases hdup : ∃ d, d ∈ ns ∧ keyB (AllocateNode σ k height).1 d = (k : WithBot K)
  · obtain ⟨s, hins⟩ := hspec.1 hdup
    exact ⟨false, _, s, hins, hM, fun h => by cases h⟩
  · have hnd : ∀ a, a ∈ ns → keyB (AllocateNode σ k height).1 a ≠ (k : WithBot K) :=
      fun a ha e => hdup ⟨a, ha, e⟩
    obtain ⟨σ1, sp2, rh1, v, hins, hv, hlk, htop2⟩ := hspec.2 hnd
    have hmax1 : σ1.max_height_ = max σ.max_height_ height := hlk.max_height.trans hM
    have hcongr : insertNode (raiseMaxHeight (AllocateNode σ k height).1
        ((AllocateNode σ k height).1.height (σ.count + 1))) k (σ.count + 1) ns =
        insertNode σ k (σ.count + 1) ns :=
      insertNode_congr k _ (fun a ha => hkeyO a (Or.inr ha))
    have hinvL := hlk.inv_final hi0 (Nat.succ_ne_zero _) hi.not_mem_fresh hkx hh1 hhM
      (le_refl _) hnd
    rw [hcongr] at hinvL
    have hchain : chain fuel σ1 = some (insertNode σ k (σ.count + 1) ns) := by
      apply hinvL.chain_eq
      have hl := hinvL.length_le
      have hc1 : σ1.count = σ.count + 1 := hlk.count
      rw [hc1] at hl
      exact lt_of_le_of_lt hl (by omega)
    have hpos : 1 ≤ σ1.max_height_ := by
      rw [hmax1]
      exact le_trans hi.height_pos (le_max_left _ _)
    refine ⟨true, σ1, _, hins, hmax1, fun _ => ?_⟩
    cases v with
    | true =>
      obtain ⟨hc1, hc2⟩ := hlk.closing hi0 hkx hhM hnd (le_max_right _ _) htop2
      rw [hcongr] at hc2
      have hheq : max sp.height_ (raiseMaxHeight (AllocateNode σ k height).1
          ((AllocateNode σ k height).1.height (σ.count + 1))).max_height_ =
          max sp.height_ σ1.max_height_ := by rw [hlk.max_height]
      have hne : max sp.height_ σ1.max_height_ ≠ 0 := by
        have := le_max_right sp.height_ σ1.max_height_
        omega
      simp only [if_true]
      refine ⟨hchain, fun _ => ?_, fun _ => ⟨hheq, hc1, hc2⟩, Or.inr hc2⟩
      show max sp.height_ _ ≠ 0
      rw [hheq]
      exact hne
    | false =>
      simp only [Bool.false_eq_true, if_false]
      refine ⟨hchain, fun hu => ?_, fun hne => ?_, Or.inl ?_⟩
      · exact absurd (hv hu) (by simp)
      · exact absurd rfl hne
      · show 0 < σ1.max_height_
        omega

/-! ## The random entry -/

/-- The scan of `FindRandomEntry` at a level, from a node of the level to a
limit of greater key: it returns the node and the nodes of the level between
the node and the limit, in the order of their keys. -/
theorem FindRandomEntry_scan_spec {σ : SpdbSortedList K} {ns : List Nat} (hi : Inv σ ns) {L : Nat}
    (hL : L < σ.kMaxHeight_) (limit : Option Nat) :
    ∀ (fuel a : Nat) (acc : List Nat), (a = 0 ∨ Lvl σ ns L a) →
      (∀ l, limit = some l → Lvl σ ns L l ∧ keyB σ a < keyB σ l) →
      ns.countP (fun c => decide (keyB σ a < keyB σ c)) + 1 < fuel →
      ∃ l, FindRandomEntry.scan σ L limit fuel (some a) acc = some (acc ++ a :: l) ∧
        (∀ b, b ∈ l → Lvl σ ns L b ∧ keyB σ a < keyB σ b ∧
          ∀ lim, limit = some lim → keyB σ b < keyB σ lim) ∧
        (a :: l).Pairwise (fun b c => keyB σ b < keyB σ c) := by
  intro fuel
  induction fuel with
  | zero => intro a acc _ _ h; omega
  | succ fuel ih =>
    intro a acc ha hlim hm
    have hl := hi.level L hL
    have hne : ¬ (some a = limit) := by
      intro h
      exact lt_irrefl _ (hlim a h.symm).2
    unfold FindRandomEntry.scan
    rw [if_neg hne]
    simp only
    rw [hl.Next_eq ha]
    simp only [Option.some_bind]
    by_cases hnx : σ.next a L = limit
    · refine ⟨[], ?_, by simp, by simp⟩
      obtain ⟨f, rfl⟩ : ∃ f, fuel = f + 1 := ⟨fuel - 1, by omega⟩
      unfold FindRandomEntry.scan
      rw [if_pos hnx]
    · cases hn : σ.next a L with
      | none =>
        exfalso
        cases hlimit : limit with
        | none => exact hnx (by rw [hn, hlimit])
        | some lim =>
          obtain ⟨hm1, hlt⟩ := hlim lim hlimit
          obtain ⟨b, hb, _⟩ := (hl.next a ha).2 lim hm1 hlt
          rw [hn] at hb
          cases hb
      | some b =>
        obtain ⟨hmb, hltb⟩ := (hl.next a ha).1 b hn
        have hlimb : ∀ lim, limit = some lim → Lvl σ ns L lim ∧ keyB σ b < keyB σ lim := by
          intro lim hlimit
          obtain ⟨hm1, hlt⟩ := hlim lim hlimit
          refine ⟨hm1, ?_⟩
          obtain ⟨b', hb', hle⟩ := (hl.next a ha).2 lim hm1 hlt
          rw [hn] at hb'
          cases hb'
          refine lt_of_le_of_ne hle ?_
          intro he
          have : b = lim := hl.inj b lim hmb hm1 he
          exact hnx (by rw [hn, hlimit, this])
        have hlt2 := countP_lt_of_imp (fun c => decide (keyB σ b < keyB σ c))
          (fun c => decide (keyB σ a < keyB σ c)) ns
          (by
            intro c _ h
            simp only [decide_eq_true_eq] at h ⊢
            exact lt_trans hltb h)
          b hmb.1 (by simp [hltb]) (by simp)
        obtain ⟨l, h1, h2, h3⟩ := ih b (acc ++ [a]) (Or.inr hmb) hlimb (by omega)
        refine ⟨b :: l, ?_, ?_, ?_⟩
        · rw [h1]; simp
        · intro c hc
          rcases List.mem_cons.mp hc with rfl | hc
          · exact ⟨hmb, hltb, fun lim hlimit => (hlimb lim hlimit).2⟩
          · obtain ⟨e1, e2, e3⟩ := h2 c hc
            exact ⟨e1, lt_trans hltb e2, e3⟩
        · refine List.Pairwise.cons ?_ h3
          intro c hc
          rcases List.mem_cons.mp hc with rfl | hc
          · exact hltb
          · exact lt_trans hltb (h2 c hc).2.1

/-- The descent of `FindRandomEntry` returns; `lvl_nodes` is not empty at any
level, and the node that is left is `head_` or a node of the list. -/
theorem FindRandomEntry_loop_spec {σ : SpdbSortedList K} {ns : List Nat} (hi : Inv σ ns)
    (rnd : Nat → Nat) {fuel : Nat} (hf : σ.count + 2 ≤ fuel) (hc : σ.count + 1 < 4294967296) :
    ∀ (n pos x : Nat) (limit : Option Nat), n ≤ σ.kMaxHeight_ → (x = 0 ∨ Lvl σ ns n x) →
      (∀ l, limit = some l → Lvl σ ns n l ∧ keyB σ x < keyB σ l) →
      ∃ r sizes, FindRandomEntry.loop σ rnd fuel n pos x limit = some (r, sizes) ∧
        sizes.length = n ∧ (∀ s, s ∈ sizes → 1 ≤ s) ∧ (r = 0 ∨ r ∈ ns) := by
  intro n
  induction n with
  | zero =>
    intro pos x limit _ hx _
    exact ⟨x, [], rfl, rfl, by simp, hx.imp id fun h => h.1⟩
  | succ n ih =>
    intro pos x limit hn hx hlim
    have hx' : x = 0 ∨ Lvl σ ns n x := hx.imp id fun h => h.mono_level (Nat.le_succ n)
    have hlim' : ∀ l, limit = some l → Lvl σ ns n l ∧ keyB σ x < keyB σ l :=
      fun l hl => ⟨(hlim l hl).1.mono_level (Nat.le_succ n), (hlim l hl).2⟩
    obtain ⟨l, h1, h2, h3⟩ := FindRandomEntry_scan_spec hi (show n < σ.kMaxHeight_ by omega)
      limit fuel x [] hx' hlim' (by
        have := hi.countP_le (fun c => decide (keyB σ x < keyB σ c))
        omega)
    rw [List.nil_append] at h1
    -- the size of the vector
    have hsub : l ⊆ ns := fun b hb => (h2 b hb).1.1
    have hnodup : l.Nodup := by
      have := (List.pairwise_cons.mp h3).2
      exact this.imp (fun h e => by rw [e] at h; exact lt_irrefl _ h)
    have hlen : l.length ≤ σ.count :=
      le_trans (hnodup.subperm hsub).length_le hi.length_le
    have hlen1 : (x :: l).length = l.length + 1 := rfl
    have hidx : rnd pos % (x :: l).length < (x :: l).length :=
      Nat.mod_lt _ (by rw [hlen1]; omega)
    have hidx1 : rnd pos % (x :: l).length % 4294967296 = rnd pos % (x :: l).length :=
      Nat.mod_eq_of_lt (by omega)
    have hidx2 : (rnd pos % (x :: l).length + 1) % 4294967296 =
        rnd pos % (x :: l).length + 1 := Nat.mod_eq_of_lt (by omega)
    -- the chosen node
    have hx1 : (x :: l).get ⟨rnd pos % (x :: l).length, hidx⟩ = 0 ∨
        Lvl σ ns n ((x :: l).get ⟨rnd pos % (x :: l).length, hidx⟩) := by
      rcases List.mem_cons.mp (List.get_mem (x :: l) _ hidx) with e | e
      · rw [e]; exact hx'
      · exact Or.inr (h2 _ e).1
    have hx1lim : ∀ lim, limit = some lim →
        keyB σ ((x :: l).get ⟨rnd pos % (x :: l).length, hidx⟩) < keyB σ lim := by
      intro lim hl
      rcases List.mem_cons.mp (List.get_mem (x :: l) _ hidx) with e | e
      · rw [e]; exact (hlim lim hl).2
      · exact (h2 _ e).2.2 lim hl
    unfold FindRandomEntry.loop
    rw [h1]
    simp only [Option.some_bind]
    rw [if_neg (by rw [hlen1]; omega), hidx1, hidx2, List.get?_eq_get hidx]
    simp only [Option.some_bind]
    by_cases hnext : rnd pos % (x :: l).length + 1 < (x :: l).length
    · rw [if_pos hnext, List.get?_eq_get hnext]
      simp only [Option.some_bind]
      have hmem : (x :: l).get ⟨rnd pos % (x :: l).length + 1, hnext⟩ ∈ l := by
        rw [List.get_cons_succ]
        exact List.get_mem _ _ _
      have hlt : keyB σ ((x :: l).get ⟨rnd pos % (x :: l).length, hidx⟩) <
          keyB σ ((x :: l).get ⟨rnd pos % (x :: l).length + 1, hnext⟩) :=
        List.pairwise_iff_get.mp h3 ⟨_, hidx⟩ ⟨_, hnext⟩ (Nat.lt_succ_self _)
      obtain ⟨r, sizes, e1, e2, e3, e4⟩ := ih (pos + 1) _
        (some ((x :: l).get ⟨rnd pos % (x :: l).length + 1, hnext⟩)) (by omega) hx1
        (by
          intro lim hl
          cases hl
          exact ⟨(h2 _ hmem).1, hlt⟩)
      rw [e1]
      refine ⟨r, (x :: l).length :: sizes, rfl, by simp [e2], ?_, e4⟩
      intro s hs
      rcases List.mem_cons.mp hs with rfl | hs
      · rw [hlen1]; omega
      · exact e3 s hs
    · rw [if_neg hnext]
      simp only [Option.some_bind]
      obtain ⟨r, sizes, e1, e2, e3, e4⟩ := ih (pos + 1) _ limit (by omega) hx1
        (fun lim hl => ⟨(hlim' lim hl).1, hx1lim lim hl⟩)
      rw [e1]
      refine ⟨r, (x :: l).length :: sizes, rfl, by simp [e2], ?_, e4⟩
      intro s hs
      rcases List.mem_cons.mp hs with rfl | hs
      · rw [hlen1]; omega
      · exact e3 s hs

/-- C33: on every reachable list with fewer than `2 ^ 32 - 1` allocated nodes,
for every stream `rnd` of random samples, `FindRandomEntry()` returns, so its
scans end, it reads no pointer of a null node, it reads `lvl_nodes` within its
bounds and it takes no remainder by the size of an empty `lvl_nodes`: the size
is at least 1 at each of the `max_height_` levels. It returns null exactly when
the list is empty, and otherwise a node that is in the list and is not `head_`. -/
theorem C33_find_random_entry (σ : SpdbSortedList K) (hr : Reachable σ) (rnd : Nat → Nat)
    (fuel : Nat) (hf : σ.count + 2 ≤ fuel) (hc : σ.count + 1 < 4294967296) :
    ∃ ns r sizes, chain fuel σ = some ns ∧ FindRandomEntry fuel σ rnd = some (r, sizes) ∧
      sizes.length = σ.max_height_ ∧ (∀ s, s ∈ sizes → 1 ≤ s) ∧ (r = none ↔ ns = []) ∧
      ∀ x, r = some x → x ∈ ns ∧ x ≠ 0 := by
  obtain ⟨ns, hg⟩ := hr.good
  have hi := hg.inv
  have hlen := hi.length_le
  obtain ⟨r0, sizes, e1, e2, e3, e4⟩ := FindRandomEntry_loop_spec hi rnd hf hc σ.max_height_ 0 0
    none hi.height_le (Or.inl rfl) (fun l hl => by cases hl)
  have hl := hi.level 0 hi.kMax_pos
  unfold FindRandomEntry
  rw [e1]
  simp only [Option.some_bind]
  by_cases h0 : r0 = 0
  · rw [if_pos h0, hl.Next_eq (Or.inl rfl)]
    simp only [Option.some_bind]
    refine ⟨ns, σ.next 0 0, sizes, hi.chain_eq (by omega), rfl, e2, e3, ?_, ?_⟩
    · constructor
      · intro hn
        by_contra hne
        obtain ⟨d, hd⟩ := List.exists_mem_of_ne_nil ns hne
        have hlt : keyB σ 0 < keyB σ d := by
          rw [hi.keyB_head]
          exact Ne.bot_lt (hi.node_key_ne_bot hd)
        obtain ⟨b, hb, _⟩ := (hl.next 0 (Or.inl rfl)).2 d (hi.lvl_zero hd) hlt
        rw [hn] at hb
        cases hb
      · intro hnil
        cases hn : σ.next 0 0 with
        | none => rfl
        | some b =>
          have := ((hl.next 0 (Or.inl rfl)).1 b hn).1.1
          rw [hnil] at this
          cases this
    · intro x hx
      have hm := ((hl.next 0 (Or.inl rfl)).1 x hx).1.1
      exact ⟨hm, (hi.node x hm).1⟩
  · rw [if_neg h0]
    have hm : r0 ∈ ns := e4.resolve_left h0
    refine ⟨ns, some r0, sizes, hi.chain_eq (by omega), rfl, e2, e3, ?_, ?_⟩
    · constructor
      · intro h; cases h
      · intro hnil
        rw [hnil] at hm
        cases hm
    · intro x hx
      cases hx
      exact ⟨hm, h0⟩

/-- Witness of C33: `FindRandomEntry()` on the list that holds 3 and 5, with
the samples 7, 6, 5. -/
theorem C33_witness :
    Reachable exampleList2 ∧ exampleList2.count + 2 ≤ 20 ∧
    exampleList2.count + 1 < 4294967296 ∧
    FindRandomEntry 20 exampleList2 (fun i => 7 - i) = some (some 2, [2, 2, 1]) ∧
    ∃ ns r sizes, chain 20 exampleList2 = some ns ∧
      FindRandomEntry 20 exampleList2 (fun i => 7 - i) = some (r, sizes) ∧
      sizes.length = exampleList2.max_height_ ∧ (∀ s, s ∈ sizes → 1 ≤ s) ∧
      (r = none ↔ ns = []) ∧ ∀ x, r = some x → x ∈ ns ∧ x ≠ 0 :=
  ⟨exampleList2_reachable, by decide, by decide, by decide,
    C33_find_random_entry exampleList2 exampleList2_reachable (fun i => 7 - i) 20 (by decide)
      (by decide)⟩

/-! ## The linking strategies on the splices that insertions leave -/

/-- `Insert` on a newly allocated node, with a splice that `Insert` accepts,
leaves a list that satisfies the invariant of reachable lists and a splice that
`Insert` accepts; it returns false exactly when the key is in the list. -/
theorem Insert_alloc_good {σ : SpdbSortedList K} {ns : List Nat} (hg : Good σ ns) {sp : Splice}
    (hsp : SpliceOK σ ns sp) (UseCAS allow : Bool) (k : K) {h : Nat} (h1 : 1 ≤ h)
    (h2 : h ≤ σ.kMaxHeight_) {fuel : Nat} (hf : σ.count + σ.kMaxHeight_ + 3 ≤ fuel) :
    ∃ b σL sp2 ns1, Insert UseCAS fuel (AllocateNode σ k h).1 (AllocateNode σ k h).2 sp allow =
        some (b, σL, sp2) ∧
      Stepped σ σL k h ∧ Good σL ns1 ∧ SpliceOK σL ns1 sp2 ∧
      (b = false ↔ ∃ d, d ∈ ns ∧ keyB σ d = (k : WithBot K)) ∧
      ns1 = (if b then insertNode σ k (σ.count + 1) ns else ns) := by
  have hspec := Insert_alloc hg.inv hg.quiet hsp UseCAS allow k h1 h2 hf
  have hold : ∀ {σL : SpdbSortedList K} {ns' : List Nat}, Stepped σ σL k h →
      σL.seq_splice_ = σ.seq_splice_ → (∀ a, a ∈ ns → a ∈ ns') →
      SpliceOK σL ns' σL.seq_splice_ := by
    intro σL ns' hst hss hsub
    rw [hss]
    refine hg.splice.transfer_splice ?_ hsub
      (fun a ha => hst.key_old a (hg.inv.ne_fresh ha))
      (fun a ha => hst.height_old a (hg.inv.ne_fresh (Or.inr ha)))
    rw [hst.max_height]
    split_ifs <;> omega
  by_cases hdup : ∃ d, d ∈ ns ∧ keyB σ d = (k : WithBot K)
  · obtain ⟨σL, sp2, hins, hst, hinv, hsp2, hqL, _, hss⟩ := hspec.1 hdup
    exact ⟨false, σL, sp2, ns, hins, hst, ⟨hinv, hold hst hss (fun _ h => h), hqL⟩, hsp2,
      ⟨fun _ => hdup, fun _ => rfl⟩, rfl⟩
  · have hnd : ∀ a, a ∈ ns → keyB σ a ≠ (k : WithBot K) := fun a ha hk => hdup ⟨a, ha, hk⟩
    obtain ⟨σL, sp2, hins, hst, hinv, hsp2, hqL, hss⟩ := hspec.2 hnd
    refine ⟨true, σL, sp2, _, hins, hst, ⟨hinv, hold hst hss
      (fun a ha => (mem_insertNode (σ.count + 1) hnd a).mpr (Or.inr ha)), hqL⟩, hsp2,
      ⟨(fun h => by cases h), fun h => absurd h hdup⟩, rfl⟩

/-- A list with a splice that insertions left satisfies the invariant of
reachable lists, and `Insert` accepts the splice. -/
theorem ReachableWith.good_with {σ : SpdbSortedList K} {sp : Splice} (hw : ReachableWith σ sp) :
    ∃ ns, Good σ ns ∧ SpliceOK σ ns sp := by
  induction hw with
  | own σ hr =>
    obtain ⟨ns, hg⟩ := hr.good
    exact ⟨ns, hg, hg.splice⟩
  | fresh σ sp hr h0 =>
    obtain ⟨ns, hg⟩ := hr.good
    exact ⟨ns, hg, Or.inl (by rw [h0]; exact hg.inv.height_pos)⟩
  | used σ sp UseCAS allow fuel k height b σ1 sp1 _ h1 h2 hf hins ih =>
    obtain ⟨ns, hg, hsp⟩ := ih
    obtain ⟨b', σL, sp2, ns1, hins', _, hgL, hsp2, _, _⟩ :=
      Insert_alloc_good hg hsp UseCAS allow k h1 h2 hf
    rw [hins] at hins'
    cases hins'
    exact ⟨ns1, hgL, hsp2⟩
  | kept σ sp UseCAS own allow fuel k height b σ1 _ hown h1 h2 hf hins ih =>
    obtain ⟨ns, hg, hsp⟩ := ih
    have hspec := insertKey_spec hg UseCAS own allow hown k h1 h2 hf
    have hkeep : ∀ {ns' : List Nat}, Stepped σ σ1 k height → (∀ a, a ∈ ns → a ∈ ns') →
        SpliceOK σ1 ns' sp := by
      intro ns' hst hsub
      refine hsp.transfer_splice ?_ hsub
        (fun a ha => hst.key_old a (hg.inv.ne_fresh ha))
        (fun a ha => hst.height_old a (hg.inv.ne_fresh (Or.inr ha)))
      rw [hst.max_height]
      split_ifs <;> omega
    by_cases hdup : ∃ d, d ∈ ns ∧ keyB σ d = (k : WithBot K)
    · obtain ⟨σ2, hins', hst, hg2, _⟩ := hspec.1 hdup
      rw [hins] at hins'
      cases hins'
      exact ⟨ns, hg2, hkeep hst (fun _ h => h)⟩
    · have hnd : ∀ a, a ∈ ns → keyB σ a ≠ (k : WithBot K) := fun a ha hk => hdup ⟨a, ha, hk⟩
      obtain ⟨σ2, hins', hst, hg2⟩ := hspec.2 hnd
      rw [hins] at hins'
      cases hins'
      exact ⟨_, hg2, hkeep hst
        (fun a ha => (mem_insertNode (σ.count + 1) hnd a).mpr (Or.inr ha))⟩

/-- C36: run by one thread, the two linking strategies agree. On every list
that insertions reach, for every key, every node height in `[1, kMaxHeight_]`,
every two splices of which each is the splice of the list, a fresh splice or a
splice that earlier insertions left, and either value of
`allow_partial_splice_fix`, `Insert<true>` with the one splice and
`Insert<false>` with the other return the same boolean and leave the same
pointer at every level of every node and the same `max_height_`, keys, heights
and number of nodes. -/
theorem C36_linking_strategies_agree (σ : SpdbSortedList K) (sp1 sp2 : Splice)
    (hw1 : ReachableWith σ sp1) (hw2 : ReachableWith σ sp2) (allow1 allow2 : Bool) (k : K)
    (height : Nat) (h1 : 1 ≤ height) (h2 : height ≤ σ.kMaxHeight_) (fuel : Nat)
    (hf : σ.count + σ.kMaxHeight_ + 3 ≤ fuel) :
    ∃ b σ1 σ2 s1 s2,
      Insert true fuel (AllocateNode σ k height).1 (AllocateNode σ k height).2 sp1 allow1 =
        some (b, σ1, s1) ∧
      Insert false fuel (AllocateNode σ k height).1 (AllocateNode σ k height).2 sp2 allow2 =
        some (b, σ2, s2) ∧
      (∀ a L, Next σ2 a L = Next σ1 a L) ∧ σ2.max_height_ = σ1.max_height_ ∧
      σ2.key = σ1.key ∧ σ2.height = σ1.height ∧ σ2.count = σ1.count := by
  obtain ⟨ns, hg, hsp1⟩ := hw1.good_with
  obtain ⟨ns', hg', hsp2'⟩ := hw2.good_with
  have hlen := hg.inv.length_le
  have hlen' := hg'.inv.length_le
  have e1 := hg.inv.chain_eq (show ns.length < fuel by omega)
  have e2 := hg'.inv.chain_eq (show ns'.length < fuel by omega)
  rw [e1] at e2
  obtain rfl : ns = ns' := Option.some.inj e2
  obtain ⟨b, σ1, s1, na, hins1, st1, hg1, _, hb1, hna⟩ :=
    Insert_alloc_good hg hsp1 true allow1 k h1 h2 hf
  obtain ⟨b', σ2, s2, nb, hins2, st2, hg2, _, hb2, hnb⟩ :=
    Insert_alloc_good hg hsp2' false allow2 k h1 h2 hf
  have hbb : b' = b := by
    cases b <;> cases b'
    · rfl
    · exact absurd (hb1.mp rfl) (fun h => by cases hb2.mpr h)
    · exact absurd (hb2.mp rfl) (fun h => by cases hb1.mpr h)
    · rfl
  subst hbb
  subst hna
  subst hnb
  have hkey : σ2.key = σ1.key := by
    funext a
    by_cases ha : a = σ.count + 1
    · rw [ha, st1.key_new, st2.key_new]
    · rw [st1.key_old a ha, st2.key_old a ha]
  have hheight : σ2.height = σ1.height := by
    funext a
    by_cases ha : a = σ.count + 1
    · rw [ha, st1.height_new, st2.height_new]
    · rw [st1.height_old a ha, st2.height_old a ha]
  exact ⟨b', σ1, σ2, s1, s2, hins1, hins2,
    hg1.Next_unique hg2 hkey hheight (by rw [st1.kMaxHeight, st2.kMaxHeight]),
    by rw [st1.max_height, st2.max_height], hkey, hheight, by rw [st1.count, st2.count]⟩

/-! ## A splice of the caller that an insertion with the splice of the list made stale -/

theorem exampleList4_eq :
    insertKey false none false 20 exampleList 9 2 = some (true, exampleList4) := rfl

theorem exampleList4_reachable : Reachable exampleList4 :=
  Reachable.insert exampleList false none false 20 9 2 true exampleList4 exampleList_reachable
    (by simp) (by decide) (by decide) (by decide) exampleList4_eq

theorem exampleList5_eq :
    insertKey false (some AllocateSplice) false 20 exampleList4 5 1 =
      some (true, exampleList5) := rfl

theorem exampleList5_reachable : Reachable exampleList5 :=
  Reachable.insert exampleList4 false (some AllocateSplice) false 20 5 1 true exampleList5
    exampleList4_reachable (fun sp h => by cases h; rfl) (by decide) (by decide) (by decide)
    exampleList5_eq

theorem exampleCallerSplice_eq :
    Insert false 20 (AllocateNode exampleList4 5 1).1 (AllocateNode exampleList4 5 1).2
      AllocateSplice false = some (true, exampleList5, exampleCallerSplice) := rfl

theorem exampleList6_eq :
    insertKey false none false 20 exampleList5 3 2 = some (true, exampleList6) := rfl

theorem exampleList6_reachable : Reachable exampleList6 :=
  Reachable.insert exampleList5 false none false 20 3 2 true exampleList6 exampleList5_reachable
    (by simp) (by decide) (by decide) (by decide) exampleList6_eq

/-- The splice that the caller used for the key 5 is a splice that earlier
insertions left, on the list that holds 3, 5 and 9. -/
theorem exampleCallerSplice_reachable : ReachableWith exampleList6 exampleCallerSplice :=
  ReachableWith.kept exampleList5 exampleCallerSplice false none false 20 3 2 true exampleList6
    (ReachableWith.used exampleList4 AllocateSplice false false 20 5 1 true exampleList5
      exampleCallerSplice (ReachableWith.fresh exampleList4 AllocateSplice exampleList4_reachable rfl)
      (by decide) (by decide) (by decide) exampleCallerSplice_eq)
    (by simp) (by decide) (by decide) (by decide) exampleList6_eq

theorem exampleCallerSplice_invariant :
    SpliceInvariant exampleList6 [3, 2, 1] exampleCallerSplice := by
  have hk0 : keyB exampleList6 0 = ⊥ := rfl
  have hk1 : keyB exampleList6 1 = ((9 : Nat) : WithBot Nat) := rfl
  have hk2 : keyB exampleList6 2 = ((5 : Nat) : WithBot Nat) := rfl
  have hh : exampleCallerSplice.height_ = 2 := rfl
  have hp0 : exampleCallerSplice.prev_ 0 = 2 := rfl
  have hp1 : exampleCallerSplice.prev_ 1 = 0 := rfl
  have hp2 : exampleCallerSplice.prev_ 2 = 0 := rfl
  have hn0 : exampleCallerSplice.next_ 0 = some 1 := rfl
  have hn1 : exampleCallerSplice.next_ 1 = some 1 := rfl
  have hn2 : exampleCallerSplice.next_ 2 = none := rfl
  have hl01 : Lvl exampleList6 [3, 2, 1] 0 1 := ⟨by decide, by decide⟩
  have hl11 : Lvl exampleList6 [3, 2, 1] 1 1 := ⟨by decide, by decide⟩
  have hl02 : Lvl exampleList6 [3, 2, 1] 0 2 := ⟨by decide, by decide⟩
  have h59 : ((5 : Nat) : WithBot Nat) < ((9 : Nat) : WithBot Nat) :=
    WithBot.coe_lt_coe.mpr (by decide)
  refine ⟨?_, ?_, ?_, ?_, by rw [hh]; exact hp2, by rw [hh]; exact hn2⟩
  · intro i hi
    rw [hh] at hi
    interval_cases i
    · refine ⟨Or.inr (by rw [hp0]; exact hl02), ?_⟩
      intro c hc
      rw [hn0] at hc
      cases hc
      exact hl01
    · refine ⟨Or.inl hp1, ?_⟩
      intro c hc
      rw [hn1] at hc
      cases hc
      exact hl11
  · intro i hi
    rw [hh] at hi
    interval_cases i
    · rw [hp1, hk0]
      exact bot_le
    · rw [hp2, hk0]
      exact bot_le
  · intro i hi c hc
    rw [hh] at hi
    interval_cases i
    · rw [hn0] at hc
      cases hc
      rw [hp0, hk1, hk2]
      exact h59
    · rw [hn1] at hc
      cases hc
      rw [hp1, hk0, hk1]
      exact WithBot.bot_lt_coe _
  · intro i hi c' hc'
    rw [hh] at hi
    interval_cases i
    · rw [hn1] at hc'
      cases hc'
      exact ⟨1, hn0, le_refl _⟩
    · rw [hn2] at hc'
      cases hc'

/-- Witness of C36: the key 7 inserted with a node of height 2 into the list
that holds 3, 5 and 9, by `Insert<true>` with the splice that the caller used
for the key 5, which is not adjacent at level 1, and by `Insert<false>` with
the splice of the list. -/
theorem C36_witness :
    ReachableWith exampleList6 exampleCallerSplice ∧
    ReachableWith exampleList6 exampleList6.seq_splice_ ∧
    1 ≤ 2 ∧ 2 ≤ exampleList6.kMaxHeight_ ∧
    exampleList6.count + exampleList6.kMaxHeight_ + 3 ≤ 20 ∧
    ∃ b σ1 σ2 s1 s2,
      Insert true 20 (AllocateNode exampleList6 7 2).1 (AllocateNode exampleList6 7 2).2
        exampleCallerSplice false = some (b, σ1, s1) ∧
      Insert false 20 (AllocateNode exampleList6 7 2).1 (AllocateNode exampleList6 7 2).2
        exampleList6.seq_splice_ false = some (b, σ2, s2) ∧
      (∀ a L, Next σ2 a L = Next σ1 a L) ∧ σ2.max_height_ = σ1.max_height_ ∧
      σ2.key = σ1.key ∧ σ2.height = σ1.height ∧ σ2.count = σ1.count :=
  ⟨exampleCallerSplice_reachable, ReachableWith.own exampleList6 exampleList6_reachable,
    by decide, by decide, by decide,
    C36_linking_strategies_agree exampleList6 exampleCallerSplice exampleList6.seq_splice_
      exampleCallerSplice_reachable (ReachableWith.own exampleList6 exampleList6_reachable)
      false false 7 2 (by decide) (by decide) 20 (by decide)⟩

/-- Witness of C37: `Insert<false>` of the key 7 with a node of height 2 into the
list that holds 3, 5 and 9, with the splice that the caller used for the key 5,
which satisfies the Splice invariant and is not adjacent at level 1. -/
theorem C37_witness :
    Reachable exampleList6 ∧ chain 20 exampleList6 = some [3, 2, 1] ∧
    (exampleCallerSplice.height_ < exampleList6.max_height_ ∨
      SpliceInvariant exampleList6 [3, 2, 1] exampleCallerSplice) ∧
    1 ≤ 2 ∧ 2 ≤ exampleList6.kMaxHeight_ ∧
    exampleList6.count + exampleList6.kMaxHeight_ + 3 ≤ 20 ∧
    ∃ b σ1 sp2,
      Insert false 20 (AllocateNode exampleList6 7 2).1 (AllocateNode exampleList6 7 2).2
        exampleCallerSplice false = some (b, σ1, sp2) ∧
      σ1.max_height_ = max exampleList6.max_height_ 2 ∧
      (b = true →
        chain 20 σ1 = some (insertNode exampleList6 7 (exampleList6.count + 1) [3, 2, 1]) ∧
        (false = false → sp2.height_ ≠ 0) ∧
        (sp2.height_ ≠ 0 →
          sp2.height_ = max exampleCallerSplice.height_ σ1.max_height_ ∧
          ClosingAsserts σ1 7 sp2 ∧
          SpliceInvariant σ1 (insertNode exampleList6 7 (exampleList6.count + 1) [3, 2, 1])
            sp2) ∧
        (sp2.height_ < σ1.max_height_ ∨
          SpliceInvariant σ1 (insertNode exampleList6 7 (exampleList6.count + 1) [3, 2, 1])
            sp2)) :=
  ⟨exampleList6_reachable, by decide, Or.inr exampleCallerSplice_invariant, by decide, by decide,
    by decide,
    C37_splice_closing_asserts exampleList6 exampleList6_reachable [3, 2, 1] exampleCallerSplice
      false false 7 2 20 (by decide) (Or.inr exampleCallerSplice_invariant) (by decide)
      (by decide) (by decide)⟩

/-- Example of the `else` branch of the closing block: one thread inserts the
key 9 (node 1, height 2) with the splice of the list, the key 5 (node 2,
height 1) with a fresh splice of its own, and the key 3 (node 3, height 2) with
the splice of the list again. The splice of its own, `exampleCallerSplice`, has
`height_ = max_height_ = 2` and satisfies the Splice invariant with respect to
the list, and `head_` and node 1 at its level 1 are not adjacent any more.
`Insert<true>` of the key 7 with a node of height 2 and this splice is
successful; its compare-and-swap at level 1 fails once, so `splice_is_valid` is
false, the closing block is skipped and no assert of it is evaluated, and the
splice is left with `height_ = 0`, `prev_[0]` the node 2 and `next_[0]` the
node 1. -/
theorem exampleCallerSplice_insert_cas :
    Reachable exampleList6 ∧ chain 20 exampleList6 = some [3, 2, 1] ∧
    ReachableWith exampleList6 exampleCallerSplice ∧
    exampleCallerSplice.height_ = exampleList6.max_height_ ∧
    SpliceInvariant exampleList6 [3, 2, 1] exampleCallerSplice ∧
    1 ≤ 2 ∧ 2 ≤ exampleList6.kMaxHeight_ ∧
    (Insert true 20 (AllocateNode exampleList6 7 2).1 (AllocateNode exampleList6 7 2).2
      exampleCallerSplice false).map
        (fun r => (r.1, r.2.2.height_, r.2.2.prev_ r.2.2.height_, r.2.2.next_ r.2.2.height_)) =
      some (true, 0, 2, some 1) ∧
    ∃ σ1 sp2,
      Insert true 20 (AllocateNode exampleList6 7 2).1 (AllocateNode exampleList6 7 2).2
        exampleCallerSplice false = some (true, σ1, sp2) ∧
      ¬ sp2.prev_ sp2.height_ = 0 ∧ ¬ sp2.next_ sp2.height_ = none ∧
      ¬ ClosingAsserts σ1 7 sp2 :=
  ⟨exampleList6_reachable, by decide, exampleCallerSplice_reachable, by decide,
    exampleCallerSplice_invariant, by decide, by decide, by decide, _, _, rfl, by decide,
    by decide, fun h => absurd h.1 (by decide)⟩

/-! ## The constants of a list -/

theorem SetNext_constants {σ σ1 : SpdbSortedList K} {x n : Nat} {v : Option Nat}
    (h : SetNext σ x n v = some σ1) :
    σ1.kMaxHeight_ = σ.kMaxHeight_ ∧ σ1.kBranching_ = σ.kBranching_ ∧
      σ1.kScaledInverseBranching_ = σ.kScaledInverseBranching_ := by
  unfold SetNext at h
  split_ifs at h
  simp only [Option.some.injEq] at h
  subst h
  exact ⟨rfl, rfl, rfl⟩

theorem CASNext_constants {σ : SpdbSortedList K} {x n : Nat} {e v : Option Nat}
    {r : Bool × SpdbSortedList K} (h : CASNext σ x n e v = some r) :
    r.2.kMaxHeight_ = σ.kMaxHeight_ ∧ r.2.kBranching_ = σ.kBranching_ ∧
      r.2.kScaledInverseBranching_ = σ.kScaledInverseBranching_ := by
  unfold CASNext at h
  obtain ⟨cur, _, h⟩ := Option.bind_eq_some.mp h
  split_ifs at h
  · obtain ⟨σ1, h1, h⟩ := Option.bind_eq_some.mp h
    simp only [Option.some.injEq] at h
    subst h
    exact SetNext_constants h1
  · simp only [Option.some.injEq] at h
    subst h
    exact ⟨rfl, rfl, rfl⟩

theorem link_constants (k : K) (x rh fuel : Nat) : ∀ (n i : Nat) (σ : SpdbSortedList K)
    (sp : Splice) (r : Bool × SpdbSortedList K × Splice),
    Insert.link k x rh fuel n i σ sp = some r →
      r.2.1.kMaxHeight_ = σ.kMaxHeight_ ∧ r.2.1.kBranching_ = σ.kBranching_ ∧
        r.2.1.kScaledInverseBranching_ = σ.kScaledInverseBranching_ := by
  intro n
  induction n with
  | zero =>
    intro i σ sp r h
    simp only [Insert.link, Option.some.injEq] at h
    subst h
    exact ⟨rfl, rfl, rfl⟩
  | succ n ih =>
    intro i σ sp r h
    simp only [Insert.link] at h
    obtain ⟨s, _, h⟩ := Option.bind_eq_some.mp h
    obtain ⟨d1, _, h⟩ := Option.bind_eq_some.mp h
    split_ifs at h
    · simp only [Option.some.injEq] at h
      subst h
      exact ⟨rfl, rfl, rfl⟩
    · obtain ⟨d2, _, h⟩ := Option.bind_eq_some.mp h
      split_ifs at h
      · simp only [Option.some.injEq] at h
        subst h
        exact ⟨rfl, rfl, rfl⟩
      · obtain ⟨_, _, h⟩ := Option.bind_eq_some.mp h
        obtain ⟨cur, _, h⟩ := Option.bind_eq_some.mp h
        obtain ⟨_, _, h⟩ := Option.bind_eq_some.mp h
        obtain ⟨σ1, h1, h⟩ := Option.bind_eq_some.mp h
        obtain ⟨σ2, h2, h⟩ := Option.bind_eq_some.mp h
        have c1 := SetNext_constants h1
        have c2 := SetNext_constants h2
        have c3 := ih _ _ _ _ h
        exact ⟨c3.1.trans (c2.1.trans c1.1), c3.2.1.trans (c2.2.1.trans c1.2.1),
          c3.2.2.trans (c2.2.2.trans c1.2.2)⟩

theorem casLevel_constants (k : K) (x i fuel : Nat) : ∀ (tries : Nat) (σ : SpdbSortedList K)
    (sp : Splice) (valid : Bool) (r : Bool × SpdbSortedList K × Splice × Bool),
    Insert.casLevel k x i fuel tries σ sp valid = some r →
      r.2.1.kMaxHeight_ = σ.kMaxHeight_ ∧ r.2.1.kBranching_ = σ.kBranching_ ∧
        r.2.1.kScaledInverseBranching_ = σ.kScaledInverseBranching_ := by
  intro tries
  induction tries with
  | zero =>
    intro σ sp valid r h
    simp [Insert.casLevel] at h
  | succ n ih =>
    intro σ sp valid r h
    simp only [Insert.casLevel] at h
    generalize (if 0 < i then false else valid) = v at h
    obtain ⟨d1, _, h⟩ := Option.bind_eq_some.mp h
    split_ifs at h
    · simp only [Option.some.injEq] at h
      subst h
      exact ⟨rfl, rfl, rfl⟩
    · obtain ⟨d2, _, h⟩ := Option.bind_eq_some.mp h
      split_ifs at h
      · simp only [Option.some.injEq] at h
        subst h
        exact ⟨rfl, rfl, rfl⟩
      · obtain ⟨_, _, h⟩ := Option.bind_eq_some.mp h
        obtain ⟨σ1, h1, h⟩ := Option.bind_eq_some.mp h
        obtain ⟨c, hc, h⟩ := Option.bind_eq_some.mp h
        have c1 := SetNext_constants h1
        have c2 := CASNext_constants hc
        split_ifs at h
        · simp only [Option.some.injEq] at h
          subst h
          exact ⟨c2.1.trans c1.1, c2.2.1.trans c1.2.1, c2.2.2.trans c1.2.2⟩
        · obtain ⟨b, _, h⟩ := Option.bind_eq_some.mp h
          have c3 := ih _ _ _ _ h
          exact ⟨c3.1.trans (c2.1.trans c1.1), c3.2.1.trans (c2.2.1.trans c1.2.1),
            c3.2.2.trans (c2.2.2.trans c1.2.2)⟩

theorem linkCAS_constants (k : K) (x fuel : Nat) : ∀ (n i : Nat) (σ : SpdbSortedList K)
    (sp : Splice) (valid : Bool) (r : Bool × SpdbSortedList K × Splice × Bool),
    Insert.linkCAS k x fuel n i σ sp valid = some r →
      r.2.1.kMaxHeight_ = σ.kMaxHeight_ ∧ r.2.1.kBranching_ = σ.kBranching_ ∧
        r.2.1.kScaledInverseBranching_ = σ.kScaledInverseBranching_ := by
  intro n
  induction n with
  | zero =>
    intro i σ sp valid r h
    simp only [Insert.linkCAS, Option.some.injEq] at h
    subst h
    exact ⟨rfl, rfl, rfl⟩
  | succ n ih =>
    intro i σ sp valid r h
    simp only [Insert.linkCAS] at h
    obtain ⟨c, hc, h⟩ := Option.bind_eq_some.mp h
    have c1 := casLevel_constants k x i fuel fuel σ sp valid c hc
    split_ifs at h
    · have c2 := ih _ _ _ _ _ h
      exact ⟨c2.1.trans c1.1, c2.2.1.trans c1.2.1, c2.2.2.trans c1.2.2⟩
    · simp only [Option.some.injEq] at h
      subst h
      exact c1

/-- The method `Insert` leaves the constants of the list as they are. -/
theorem Insert_constants {UseCAS : Bool} {fuel : Nat} {σ : SpdbSortedList K} {x : Nat}
    {sp : Splice} {allow : Bool} {r : Bool × SpdbSortedList K × Splice}
    (h : Insert UseCAS fuel σ x sp allow = some r) :
    r.2.1.kMaxHeight_ = σ.kMaxHeight_ ∧ r.2.1.kBranching_ = σ.kBranching_ ∧
      r.2.1.kScaledInverseBranching_ = σ.kScaledInverseBranching_ := by
  unfold Insert at h
  obtain ⟨key, _, h⟩ := Option.bind_eq_some.mp h
  dsimp only at h
  obtain ⟨_, _, h⟩ := Option.bind_eq_some.mp h
  obtain ⟨_, _, h⟩ := Option.bind_eq_some.mp h
  obtain ⟨v, _, h⟩ := Option.bind_eq_some.mp h
  obtain ⟨q, hq, h⟩ := Option.bind_eq_some.mp h
  have hc : q.2.1.kMaxHeight_ = σ.kMaxHeight_ ∧ q.2.1.kBranching_ = σ.kBranching_ ∧
      q.2.1.kScaledInverseBranching_ = σ.kScaledInverseBranching_ := by
    cases UseCAS with
    | true =>
      simp only [if_true] at hq
      have c := linkCAS_constants _ _ _ _ _ _ _ _ _ hq
      exact c
    | false =>
      simp only [Bool.false_eq_true, if_false] at hq
      obtain ⟨l, hl, hq⟩ := Option.bind_eq_some.mp hq
      simp only [Option.some.injEq] at hq
      subst hq
      have c := link_constants _ _ _ _ _ _ _ _ _ hl
      exact c
  split_ifs at h
  · obtain ⟨s2, _, h⟩ := Option.bind_eq_some.mp h
    simp only [Option.some.injEq] at h
    subst h
    exact hc
  · simp only [Option.some.injEq] at h
    subst h
    exact hc

/-- One insertion leaves the constants of the list as they are. -/
theorem insertKey_constants {UseCAS : Bool} {own : Option Splice} {allow : Bool} {fuel : Nat}
    {σ : SpdbSortedList K} {k : K} {height : Nat} {r : Bool × SpdbSortedList K}
    (h : insertKey UseCAS own allow fuel σ k height = some r) :
    r.2.kMaxHeight_ = σ.kMaxHeight_ ∧ r.2.kBranching_ = σ.kBranching_ ∧
      r.2.kScaledInverseBranching_ = σ.kScaledInverseBranching_ := by
  unfold insertKey at h
  cases own with
  | none =>
    simp only at h
    obtain ⟨q, hq, h⟩ := Option.bind_eq_some.mp h
    simp only [Option.some.injEq] at h
    subst h
    have c := Insert_constants hq
    exact c
  | some sp =>
    simp only at h
    obtain ⟨q, hq, h⟩ := Option.bind_eq_some.mp h
    simp only [Option.some.injEq] at h
    subst h
    have c := Insert_constants hq
    exact c

/-- The method `AllocateSpdbItem` leaves the constants of the list as they are. -/
theorem AllocateSpdbItem_constants {fuel : Nat} {σ : SpdbSortedList K} {k : K}
    {rnd : Nat → Nat} {r : SpdbSortedList K × Nat}
    (h : AllocateSpdbItem fuel σ k rnd = some r) :
    r.1.kMaxHeight_ = σ.kMaxHeight_ ∧ r.1.kBranching_ = σ.kBranching_ ∧
      r.1.kScaledInverseBranching_ = σ.kScaledInverseBranching_ := by
  unfold AllocateSpdbItem at h
  obtain ⟨q, _, h⟩ := Option.bind_eq_some.mp h
  simp only [Option.some.injEq] at h
  subst h
  exact ⟨rfl, rfl, rfl⟩

/-- The constants of a list are those that the constructor computed from its
arguments: `kMaxHeight_` is `max_height`, `kBranching_` is `branching_factor`
and `kScaledInverseBranching_` is the quotient of 32-bit unsigned numbers. -/
theorem Constructed.built_constants {kMaxNext : Nat} {max_height branching_factor : Int}
    {σ : SpdbSortedList K} (hc : Constructed kMaxNext max_height branching_factor σ) :
    1 ≤ σ.kMaxHeight_ ∧ (σ.kMaxHeight_ : Int) = max_height ∧
      (σ.kBranching_ : Int) = branching_factor ∧
      σ.kScaledInverseBranching_ = ((kMaxNext + 1) % 4294967296) / σ.kBranching_ ∧
      0 < σ.kScaledInverseBranching_ := by
  induction hc with
  | init σ hnew =>
    have h := new_fields hnew
    exact ⟨h.1, h.2.2.2.2.2.2.2.1, h.2.2.2.2.2.2.2.2.1, h.2.2.2.2.2.2.2.2.2.1,
      h.2.2.2.2.2.2.2.2.2.2⟩
  | alloc σ fuel k rnd σ1 x _ hal ih =>
    obtain ⟨e1, e2, e3⟩ := AllocateSpdbItem_constants hal
    simp only at e1 e2 e3
    rw [e1, e2, e3]
    exact ih
  | insert σ UseCAS own allow fuel k height b σ1 _ hins ih =>
    obtain ⟨e1, e2, e3⟩ := insertKey_constants hins
    simp only at e1 e2 e3
    rw [e1, e2, e3]
    exact ih

/-- A reachable list is a list of its constructor call. -/
theorem Reachable.constructed {σ : SpdbSortedList K} (hr : Reachable σ) :
    ∃ (kMaxNext : Nat) (max_height branching_factor : Int),
      Constructed kMaxNext max_height branching_factor σ := by
  induction hr with
  | init kMaxNext mh bf σ hnew _ => exact ⟨kMaxNext, mh, bf, Constructed.init σ hnew⟩
  | insert σ UseCAS own allow fuel k height b σ1 _ _ _ _ _ hins ih =>
    obtain ⟨kMaxNext, mh, bf, hc⟩ := ih
    exact ⟨kMaxNext, mh, bf, Constructed.insert σ UseCAS own allow fuel k height b σ1 hc hins⟩

/-- C10: on every list that a constructor call, with any `max_height` that its
asserts accept (above `kMaxPossibleHeight = 32` as well), and the allocations
and insertions after it produce, for every stream `rnd` of random samples,
`RandomHeight()` returns (within `kMaxPossibleHeight` rounds of its loop) a
height `h` with `1 <= h <= min(kMaxHeight_, kMaxPossibleHeight)`, so its three
trailing asserts hold, and the node allocated by `AllocateSpdbItem` has this
height, which is at most `kMaxHeight_`. -/
theorem C10_random_height_bounds (kMaxNext : Nat) (max_height branching_factor : Int)
    (σ : SpdbSortedList K) (hc : Constructed kMaxNext max_height branching_factor σ)
    (rnd : Nat → Nat) (k : K) (fuel : Nat) (hf : kMaxPossibleHeight ≤ fuel) :
    ∃ h pos, RandomHeight fuel σ rnd = some (h, pos) ∧ 1 ≤ h ∧
      h ≤ min σ.kMaxHeight_ kMaxPossibleHeight ∧
      ∃ σ1 x, AllocateSpdbItem fuel σ k rnd = some (σ1, x) ∧ σ1.height x = h ∧
        σ1.height x ≤ σ.kMaxHeight_ ∧
        Constructed kMaxNext max_height branching_factor σ1 := by
  have hk1 : 1 ≤ σ.kMaxHeight_ := hc.built_constants.1
  have hcap : 1 ≤ min σ.kMaxHeight_ kMaxPossibleHeight := le_min hk1 (by decide)
  have hmin : min σ.kMaxHeight_ kMaxPossibleHeight ≤ kMaxPossibleHeight := min_le_right _ _
  obtain ⟨h, pos, hloop, h1, h2⟩ := RandomHeight_loop_spec σ rnd fuel 1 0 hcap (by omega)
  have hrh : RandomHeight fuel σ rnd = some (h, pos) := by
    unfold RandomHeight
    rw [hloop]
    have a1 : 0 < h := by omega
    have a2 : h ≤ σ.kMaxHeight_ := le_trans h2 (min_le_left _ _)
    have a3 : h ≤ kMaxPossibleHeight := le_trans h2 (min_le_right _ _)
    simp [assert, a1, a2, a3]
  have hal : AllocateSpdbItem fuel σ k rnd =
      some ((AllocateNode σ k h).1, (AllocateNode σ k h).2) := by
    unfold AllocateSpdbItem
    rw [hrh]
    rfl
  refine ⟨h, pos, hrh, h1, h2, (AllocateNode σ k h).1, (AllocateNode σ k h).2, hal, ?_, ?_,
    Constructed.alloc σ fuel k rnd _ _ hc hal⟩
  · show (if σ.count + 1 = σ.count + 1 then h else σ.height (σ.count + 1)) = h
    simp
  · show (if σ.count + 1 = σ.count + 1 then h else σ.height (σ.count + 1)) ≤ σ.kMaxHeight_
    simp only [if_true]
    exact le_trans h2 (min_le_left _ _)

theorem exampleListTall_new : SpdbSortedList.new 2147483647 40 4 = some exampleListTall := rfl

theorem exampleListTall_constructed : Constructed 2147483647 40 4 exampleListTall :=
  Constructed.init exampleListTall exampleListTall_new

/-- Witness of C10: `RandomHeight()` on the list constructed with
`max_height = 40`, with samples that are all below the threshold: the height is
`kMaxPossibleHeight = 32`, below `kMaxHeight_ = 40`. -/
theorem C10_witness :
    Constructed 2147483647 40 4 exampleListTall ∧ kMaxPossibleHeight ≤ 32 ∧
    RandomHeight 32 exampleListTall (fun _ => 0) = some (32, 31) ∧
    ∃ h pos, RandomHeight 32 exampleListTall (fun _ => 0) = some (h, pos) ∧ 1 ≤ h ∧
      h ≤ min exampleListTall.kMaxHeight_ kMaxPossibleHeight ∧
      ∃ σ1 x, AllocateSpdbItem 32 exampleListTall (7 : Nat) (fun _ => 0) = some (σ1, x) ∧
        σ1.height x = h ∧ σ1.height x ≤ exampleListTall.kMaxHeight_ ∧
        Constructed 2147483647 40 4 σ1 :=
  ⟨exampleListTall_constructed, by decide, by decide,
    C10_random_height_bounds 2147483647 40 4 exampleListTall exampleListTall_constructed
      (fun _ => 0) 7 32 (by decide)⟩

/-- C32: on every list that a constructor call with the arguments `kMaxNext`,
`max_height` (any value that its asserts accept, above `kMaxPossibleHeight = 32`
as well) and `branching_factor`, and the allocations and insertions after it
produce, for every stream `rnd` of random samples, `RandomHeight()` returns
`min(cap, 1 + j)` with `cap = min(kMaxHeight_, kMaxPossibleHeight)`, where the
first `j` samples are below `kScaledInverseBranching_` and sample `j` is not (or
`j` is so large that `cap <= 1 + j`); such a `j` exists for every stream; the
call draws `min(cap - 1, j + 1)` samples, which is at most `cap - 1`;
`kMaxHeight_` is `max_height`, `kBranching_` is `branching_factor` and the
threshold is the quotient `(kMaxNext + 1) / kBranching_` of 32-bit unsigned
numbers, with `kMaxNext` the value of `Random::kMaxNext` that the constructor
read. -/
theorem C32_random_height_formula (kMaxNext : Nat) (max_height branching_factor : Int)
    (σ : SpdbSortedList K) (hc : Constructed kMaxNext max_height branching_factor σ)
    (rnd : Nat → Nat) (fuel : Nat) (hf : kMaxPossibleHeight ≤ fuel) :
    (∃ j, (∀ i, i < j → rnd i < σ.kScaledInverseBranching_) ∧
      (¬ rnd j < σ.kScaledInverseBranching_ ∨
        min σ.kMaxHeight_ kMaxPossibleHeight ≤ 1 + j)) ∧
    (∀ j, (∀ i, i < j → rnd i < σ.kScaledInverseBranching_) →
      (¬ rnd j < σ.kScaledInverseBranching_ ∨
        min σ.kMaxHeight_ kMaxPossibleHeight ≤ 1 + j) →
      RandomHeight fuel σ rnd =
        some (min (min σ.kMaxHeight_ kMaxPossibleHeight) (1 + j),
          min (min σ.kMaxHeight_ kMaxPossibleHeight - 1) (j + 1))) ∧
    (∃ h pos, RandomHeight fuel σ rnd = some (h, pos) ∧
      pos ≤ min σ.kMaxHeight_ kMaxPossibleHeight - 1) ∧
    (σ.kMaxHeight_ : Int) = max_height ∧ (σ.kBranching_ : Int) = branching_factor ∧
    σ.kScaledInverseBranching_ = ((kMaxNext + 1) % 4294967296) / σ.kBranching_ ∧
    (kMaxNext + 1 < 4294967296 →
      σ.kScaledInverseBranching_ = (kMaxNext + 1) / σ.kBranching_) := by
  obtain ⟨hk1, hkm, hkb, hks, -⟩ := hc.built_constants
  have hcap : 1 ≤ min σ.kMaxHeight_ kMaxPossibleHeight := le_min hk1 (by decide)
  have hmin : min σ.kMaxHeight_ kMaxPossibleHeight ≤ kMaxPossibleHeight := min_le_right _ _
  have hex : ∃ j, (∀ i, i < j → rnd i < σ.kScaledInverseBranching_) ∧
      (¬ rnd j < σ.kScaledInverseBranching_ ∨
        min σ.kMaxHeight_ kMaxPossibleHeight ≤ 1 + j) := by
    by_cases hall : ∀ i, rnd i < σ.kScaledInverseBranching_
    · exact ⟨min σ.kMaxHeight_ kMaxPossibleHeight, fun i _ => hall i, Or.inr (by omega)⟩
    · rw [not_forall] at hall
      exact ⟨Nat.find hall, fun i hi => not_not.mp (Nat.find_min hall hi),
        Or.inl (Nat.find_spec hall)⟩
  have hform : ∀ j, (∀ i, i < j → rnd i < σ.kScaledInverseBranching_) →
      (¬ rnd j < σ.kScaledInverseBranching_ ∨
        min σ.kMaxHeight_ kMaxPossibleHeight ≤ 1 + j) →
      RandomHeight fuel σ rnd =
        some (min (min σ.kMaxHeight_ kMaxPossibleHeight) (1 + j),
          min (min σ.kMaxHeight_ kMaxPossibleHeight - 1) (j + 1)) := by
    intro j hbelow hlast
    unfold RandomHeight
    rw [RandomHeight_loop_formula σ rnd j hbelow hlast fuel 1 0 hcap (by omega) rfl
      (Nat.zero_le _)]
    have a1 : 0 < min (min σ.kMaxHeight_ kMaxPossibleHeight) (1 + j) := by
      rw [lt_min_iff]; omega
    have a2 : min (min σ.kMaxHeight_ kMaxPossibleHeight) (1 + j) ≤ σ.kMaxHeight_ :=
      le_trans (min_le_left _ _) (min_le_left _ _)
    have a3 : min (min σ.kMaxHeight_ kMaxPossibleHeight) (1 + j) ≤ kMaxPossibleHeight :=
      le_trans (min_le_left _ _) (min_le_right _ _)
    simp only [Option.some_bind, assert, a1, a2, a3, decide_True, if_true]
  refine ⟨hex, hform, ?_, hkm, hkb, hks, fun hlt => ?_⟩
  · obtain ⟨j, hb, hl⟩ := hex
    exact ⟨_, _, hform j hb hl, min_le_left _ _⟩
  · rw [hks, Nat.mod_eq_of_lt hlt]

/-- Witness of C32: on the list constructed with `max_height = 40` and
`branching_factor = 4`, whose threshold is `2 ^ 31 / 4`, the stream whose samples
are all 7 gives the height `cap = 32` after 31 samples (`j = 40`), and the
stream whose samples 0 and 1 are `7` and whose other samples are `2 ^ 30` gives
the height 3 after three samples (`j = 2`). -/
theorem C32_witness :
    Constructed 2147483647 40 4 exampleListTall ∧ kMaxPossibleHeight ≤ 32 ∧
    min exampleListTall.kMaxHeight_ kMaxPossibleHeight = 32 ∧
    exampleListTall.kScaledInverseBranching_ = (2147483647 + 1) / 4 ∧
    RandomHeight 32 exampleListTall (fun _ => 7) = some (32, 31) ∧
    RandomHeight 32 exampleListTall (fun _ => 7) =
      some (min (min exampleListTall.kMaxHeight_ kMaxPossibleHeight) (1 + 40),
        min (min exampleListTall.kMaxHeight_ kMaxPossibleHeight - 1) (40 + 1)) ∧
    RandomHeight 32 exampleListTall (fun i => if i < 2 then 7 else 1073741824) = some (3, 3) :=
  ⟨exampleListTall_constructed, by decide, by decide, by decide, by decide,
    (C32_random_height_formula 2147483647 40 4 exampleListTall exampleListTall_constructed
      (fun _ => 7) 32 (by decide)).2.1 40 (fun i _ => by decide) (Or.inr (by decide)),
    by decide⟩

end SpdbSortedList -- theorems

/-! ## The arithmetic of `double` -/

namespace Double

theorem bitLength_spec : ∀ (fuel n : Nat), n < 2 ^ fuel → 0 < n →
    1 ≤ bitLength fuel n ∧ 2 ^ (bitLength fuel n - 1) ≤ n ∧ n < 2 ^ bitLength fuel n := by
  intro fuel
  induction fuel with
  | zero =>
    intro n h h0
    simp at h
    omega
  | succ fuel ih =>
    intro n h h0
    unfold bitLength
    rw [if_neg (by omega)]
    by_cases h1 : n / 2 = 0
    · have hn : n = 1 := by omega
      subst hn
      cases fuel with
      | zero => simp [bitLength]
      | succ f => simp [bitLength]
    · have hlt : n / 2 < 2 ^ fuel := by
        rw [Nat.div_lt_iff_lt_mul (by norm_num)]
        calc n < 2 ^ (fuel + 1) := h
          _ = 2 ^ fuel * 2 := pow_succ 2 fuel
      obtain ⟨b1, b2, b3⟩ := ih (n / 2) hlt (by omega)
      refine ⟨by omega, ?_, ?_⟩
      · have e : bitLength fuel (n / 2) + 1 - 1 = (bitLength fuel (n / 2) - 1) + 1 := by omega
        rw [e, pow_succ]
        omega
      · rw [pow_succ]
        omega

theorem bitLength_self (n : Nat) (h0 : 0 < n) :
    1 ≤ bitLength n n ∧ 2 ^ (bitLength n n - 1) ≤ n ∧ n < 2 ^ bitLength n n :=
  bitLength_spec n n (Nat.lt_two_pow n) h0

theorem zpow_toNat_div (s : Int) :
    ((2 : ℚ) ^ s.toNat) / ((2 : ℚ) ^ (-s).toNat) = (2 : ℚ) ^ s := by
  rcases le_total 0 s with h | h
  · have h1 : (-s).toNat = 0 := Int.toNat_eq_zero.mpr (by omega)
    rw [h1, pow_zero, div_one, ← zpow_natCast, Int.toNat_of_nonneg h]
  · have h1 : s.toNat = 0 := Int.toNat_eq_zero.mpr h
    have h2 : (((-s).toNat : Nat) : Int) = -s := Int.toNat_of_nonneg (by omega)
    rw [h1, pow_zero, one_div, ← zpow_natCast, h2, zpow_neg, inv_inv]

/-- The quotient of the two scaled numbers of `round`. -/
theorem scaled_div (n d : Nat) (s : Int) :
    ((n * 2 ^ s.toNat : Nat) : ℚ) / ((d * 2 ^ (-s).toNat : Nat) : ℚ) =
      (n : ℚ) / (d : ℚ) * (2 : ℚ) ^ s := by
  push_cast
  rw [← zpow_toNat_div s]
  rw [mul_div_mul_comm]

/-- The integer nearest to a quotient, as `round` computes it. -/
theorem nearest_div (N D : Nat) (hD : 0 < D) :
    |(((if D < 2 * (N % D) ∨ (2 * (N % D) = D ∧ N / D % 2 = 1) then N / D + 1 else N / D : Nat)
      : ℚ)) - (N : ℚ) / (D : ℚ)| ≤ 1 / 2 := by
  have hDq : (0 : ℚ) < (D : ℚ) := by exact_mod_cast hD
  have hN : (N : ℚ) = (D : ℚ) * ((N / D : Nat) : ℚ) + ((N % D : Nat) : ℚ) := by
    exact_mod_cast (Nat.div_add_mod N D).symm
  have hr : ((N % D : Nat) : ℚ) < (D : ℚ) := by exact_mod_cast Nat.mod_lt N hD
  have hr0 : (0 : ℚ) ≤ ((N % D : Nat) : ℚ) := Nat.cast_nonneg _
  have hz : (N : ℚ) / (D : ℚ) = ((N / D : Nat) : ℚ) + ((N % D : Nat) : ℚ) / (D : ℚ) := by
    rw [div_eq_iff (ne_of_gt hDq), add_mul, div_mul_cancel₀ _ (ne_of_gt hDq), hN]
    ring
  rw [hz]
  split_ifs with h
  · have h2 : (D : ℚ) ≤ 2 * ((N % D : Nat) : ℚ) := by
      rcases h with h | h
      · exact_mod_cast le_of_lt h
      · exact_mod_cast le_of_eq h.1.symm
    have h3 : (1 : ℚ) / 2 ≤ ((N % D : Nat) : ℚ) / (D : ℚ) := by
      rw [div_le_div_iff₀ (by norm_num) hDq]
      linarith
    have h4 : ((N % D : Nat) : ℚ) / (D : ℚ) ≤ 1 := by
      rw [div_le_one hDq]
      exact le_of_lt hr
    rw [abs_le]
    push_cast
    constructor <;> linarith
  · have h2 : 2 * ((N % D : Nat) : ℚ) ≤ (D : ℚ) := by
      have : 2 * (N % D) ≤ D := by
        by_contra hc
        exact h (Or.inl (by omega))
      exact_mod_cast this
    have h3 : ((N % D : Nat) : ℚ) / (D : ℚ) ≤ 1 / 2 := by
      rw [div_le_div_iff₀ hDq (by norm_num)]
      linarith
    have h4 : (0 : ℚ) ≤ ((N % D : Nat) : ℚ) / (D : ℚ) := div_nonneg hr0 (le_of_lt hDq)
    rw [abs_le]
    constructor <;> linarith

/-- The result of `round` on a quotient that is not zero: the scaled quotient
has 53 bits and the mantissa is an integer nearest to it. -/
theorem round_scaled (n d : Nat) (e : Int) (hn : 0 < n) (hd : 0 < d) :
    ∃ (s : Int) (q : Nat), round n d e = ⟨q, e - s⟩ ∧
      (2 : ℚ) ^ 52 ≤ (n : ℚ) / (d : ℚ) * (2 : ℚ) ^ s ∧
      (n : ℚ) / (d : ℚ) * (2 : ℚ) ^ s < 2 ^ 53 ∧
      |(q : ℚ) - (n : ℚ) / (d : ℚ) * (2 : ℚ) ^ s| ≤ 1 / 2 := by
  obtain ⟨n1, n2, n3⟩ := bitLength_self n hn
  obtain ⟨d1, d2, d3⟩ := bitLength_self d hd
  have hnq : (0 : ℚ) < (n : ℚ) := by exact_mod_cast hn
  have hdq : (0 : ℚ) < (d : ℚ) := by exact_mod_cast hd
  unfold round
  rw [if_neg (by omega)]
  dsimp only
  generalize bitLength n n = bn at n1 n2 n3
  generalize bitLength d d = bd at d1 d2 d3
  generalize hs0 : (52 : Int) + (bd : Int) - (bn : Int) = s0
  -- the power of two of the first scale
  have hT : (2 : ℚ) ^ s0 * (2 : ℚ) ^ bn = 2 ^ 52 * (2 : ℚ) ^ bd := by
    rw [← hs0, ← zpow_natCast (2 : ℚ) bn, ← zpow_natCast (2 : ℚ) bd,
      ← zpow_add₀ (by norm_num : (2 : ℚ) ≠ 0),
      show (2 : ℚ) ^ 52 = (2 : ℚ) ^ (52 : Int) by norm_cast,
      ← zpow_add₀ (by norm_num : (2 : ℚ) ≠ 0)]
    congr 1
    omega
  have hTpos : (0 : ℚ) < (2 : ℚ) ^ s0 := zpow_pos (by norm_num) _
  have hn3 : (n : ℚ) < (2 : ℚ) ^ bn := by exact_mod_cast n3
  have hd3 : (d : ℚ) < (2 : ℚ) ^ bd := by exact_mod_cast d3
  have hn2 : (2 : ℚ) ^ bn ≤ 2 * (n : ℚ) := by
    have : 2 ^ bn ≤ 2 * n := by
      have e : bn = (bn - 1) + 1 := by omega
      rw [e, pow_succ]
      omega
    exact_mod_cast this
  have hd2 : (2 : ℚ) ^ bd ≤ 2 * (d : ℚ) := by
    have : 2 ^ bd ≤ 2 * d := by
      have e : bd = (bd - 1) + 1 := by omega
      rw [e, pow_succ]
      omega
    exact_mod_cast this
  have hhigh : (n : ℚ) / (d : ℚ) * (2 : ℚ) ^ s0 < 2 ^ 53 := by
    rw [div_mul_eq_mul_div, div_lt_iff₀ hdq]
    calc (n : ℚ) * (2 : ℚ) ^ s0 < (2 : ℚ) ^ bn * (2 : ℚ) ^ s0 :=
          mul_lt_mul_of_pos_right hn3 hTpos
      _ = 2 ^ 52 * (2 : ℚ) ^ bd := by rw [mul_comm, hT]
      _ ≤ 2 ^ 52 * (2 * (d : ℚ)) := mul_le_mul_of_nonneg_left hd2 (by norm_num)
      _ = 2 ^ 53 * (d : ℚ) := by ring
  have hlow : (2 : ℚ) ^ 51 < (n : ℚ) / (d : ℚ) * (2 : ℚ) ^ s0 := by
    rw [div_mul_eq_mul_div, lt_div_iff₀ hdq]
    have h1 : (2 : ℚ) ^ 51 * (d : ℚ) < 2 ^ 51 * (2 : ℚ) ^ bd :=
      mul_lt_mul_of_pos_left hd3 (by norm_num)
    have h2 : 2 * ((2 : ℚ) ^ 51 * (2 : ℚ) ^ bd) = (2 : ℚ) ^ s0 * (2 : ℚ) ^ bn := by
      rw [hT]; ring
    have h3 : (2 : ℚ) ^ s0 * (2 : ℚ) ^ bn ≤ (2 : ℚ) ^ s0 * (2 * (n : ℚ)) :=
      mul_le_mul_of_nonneg_left hn2 (le_of_lt hTpos)
    nlinarith
  have hcond : (n * 2 ^ s0.toNat < 2 ^ 52 * (d * 2 ^ (-s0).toNat)) ↔
      (n : ℚ) / (d : ℚ) * (2 : ℚ) ^ s0 < 2 ^ 52 := by
    rw [← scaled_div n d s0]
    have hB : (0 : ℚ) < ((d * 2 ^ (-s0).toNat : Nat) : ℚ) := by
      have : 0 < d * 2 ^ (-s0).toNat := Nat.mul_pos hd (by positivity)
      exact_mod_cast this
    rw [div_lt_iff₀ hB]
    exact_mod_cast Iff.rfl
  have hex : ∃ s : Int, (if n * 2 ^ s0.toNat < 2 ^ 52 * (d * 2 ^ (-s0).toNat) then s0 + 1
      else s0) = s ∧ (2 : ℚ) ^ 52 ≤ (n : ℚ) / (d : ℚ) * (2 : ℚ) ^ s ∧
      (n : ℚ) / (d : ℚ) * (2 : ℚ) ^ s < 2 ^ 53 := by
    by_cases hc : n * 2 ^ s0.toNat < 2 ^ 52 * (d * 2 ^ (-s0).toNat)
    · rw [if_pos hc]
      have hc1 := hcond.mp hc
      have e : (2 : ℚ) ^ (s0 + 1) = (2 : ℚ) ^ s0 * 2 := by
        rw [zpow_add₀ (by norm_num : (2 : ℚ) ≠ 0), zpow_one]
      refine ⟨s0 + 1, rfl, ?_, ?_⟩
      · rw [e]; linarith
      · rw [e]; linarith
    · rw [if_neg hc]
      have hc1 : ¬ (n : ℚ) / (d : ℚ) * (2 : ℚ) ^ s0 < 2 ^ 52 := fun h => hc (hcond.mpr h)
      exact ⟨s0, rfl, not_lt.mp hc1, hhigh⟩
  obtain ⟨s, hs, hs1, hs2⟩ := hex
  rw [hs]
  have hD : 0 < d * 2 ^ (-s).toNat := Nat.mul_pos hd (by positivity)
  refine ⟨s, _, rfl, hs1, hs2, ?_⟩
  rw [← scaled_div n d s]
  exact nearest_div _ _ hD

/-- The rounding error of binary64: the result of `round` differs from the
quotient by at most the fraction `2 ^ -53` of the quotient. -/
theorem round_near (n d : Nat) (e : Int) (hd : 0 < d) :
    |(round n d e).toRat - (n : ℚ) / (d : ℚ) * (2 : ℚ) ^ e| ≤
      (n : ℚ) / (d : ℚ) * (2 : ℚ) ^ e / 2 ^ 53 := by
  rcases Nat.eq_zero_or_pos n with h0 | hn
  · subst h0
    simp [round, toRat]
  · obtain ⟨s, q, hr, h1, h2, h3⟩ := round_scaled n d e hn hd
    rw [hr]
    unfold toRat
    dsimp only
    have hp : (0 : ℚ) < (2 : ℚ) ^ (e - s) := zpow_pos (by norm_num) _
    have he : (2 : ℚ) ^ e = (2 : ℚ) ^ s * (2 : ℚ) ^ (e - s) := by
      rw [← zpow_add₀ (by norm_num : (2 : ℚ) ≠ 0)]
      congr 1
      omega
    have e1 : (q : ℚ) * (2 : ℚ) ^ (e - s) - (n : ℚ) / (d : ℚ) * (2 : ℚ) ^ e =
        ((q : ℚ) - (n : ℚ) / (d : ℚ) * (2 : ℚ) ^ s) * (2 : ℚ) ^ (e - s) := by
      rw [he]; ring
    have e2 : (n : ℚ) / (d : ℚ) * (2 : ℚ) ^ e / 2 ^ 53 =
        ((n : ℚ) / (d : ℚ) * (2 : ℚ) ^ s / 2 ^ 53) * (2 : ℚ) ^ (e - s) := by
      rw [he]; ring
    rw [e1, e2, abs_mul, abs_of_pos hp]
    apply mul_le_mul_of_nonneg_right _ (le_of_lt hp)
    calc |(q : ℚ) - (n : ℚ) / (d : ℚ) * (2 : ℚ) ^ s| ≤ 1 / 2 := h3
      _ = (2 : ℚ) ^ 52 / 2 ^ 53 := by norm_num
      _ ≤ (n : ℚ) / (d : ℚ) * (2 : ℚ) ^ s / 2 ^ 53 :=
          div_le_div_of_nonneg_right h1 (by norm_num)

theorem toRat_nonneg (a : Double) : 0 ≤ a.toRat :=
  mul_nonneg (Nat.cast_nonneg _) (le_of_lt (zpow_pos (by norm_num) _))

/-- The result of `round` within the factors `1 - 2 ^ -53` and `1 + 2 ^ -53` of
the quotient. -/
theorem round_bounds (n d : Nat) (e : Int) (hd : 0 < d) :
    (1 - 1 / 2 ^ 53) * ((n : ℚ) / (d : ℚ) * (2 : ℚ) ^ e) ≤ (round n d e).toRat ∧
      (round n d e).toRat ≤ (1 + 1 / 2 ^ 53) * ((n : ℚ) / (d : ℚ) * (2 : ℚ) ^ e) := by
  have h := abs_le.mp (round_near n d e hd)
  constructor
  · linarith [h.1]
  · linarith [h.2]

/-- The mantissa of a result of `round` is zero only for the quotient zero. -/
theorem round_pos (n d : Nat) (e : Int) (hn : 0 < n) (hd : 0 < d) : 0 < (round n d e).m := by
  obtain ⟨s, q, hr, h1, h2, h3⟩ := round_scaled n d e hn hd
  rw [hr]
  show 0 < q
  by_contra hq
  have hq0 : q = 0 := by omega
  subst hq0
  have := (abs_le.mp h3).1
  have h52 : (1 : ℚ) ≤ 2 ^ 52 := by norm_num
  simp only [Nat.cast_zero, zero_sub, neg_le_neg_iff] at this
  linarith

theorem ofUInt64_bounds (n : Nat) :
    (1 - 1 / 2 ^ 53) * (n : ℚ) ≤ (ofUInt64 n).toRat ∧
      (ofUInt64 n).toRat ≤ (1 + 1 / 2 ^ 53) * (n : ℚ) := by
  have h := round_bounds n 1 0 (by norm_num)
  simpa [ofUInt64] using h

theorem ofUInt64_pos (n : Nat) (hn : 0 < n) : 0 < (ofUInt64 n).m :=
  round_pos n 1 0 hn (by norm_num)

theorem toRat_pos (a : Double) (h : 0 < a.m) : 0 < a.toRat :=
  mul_pos (by exact_mod_cast h) (zpow_pos (by norm_num) _)

theorem mul_bounds (a b : Double) :
    (1 - 1 / 2 ^ 53) * (a.toRat * b.toRat) ≤ (mul a b).toRat ∧
      (mul a b).toRat ≤ (1 + 1 / 2 ^ 53) * (a.toRat * b.toRat) := by
  have h := round_bounds (a.m * b.m) 1 (a.e + b.e) (by norm_num)
  have e : ((a.m * b.m : Nat) : ℚ) / ((1 : Nat) : ℚ) * (2 : ℚ) ^ (a.e + b.e) =
      a.toRat * b.toRat := by
    unfold toRat
    rw [zpow_add₀ (by norm_num : (2 : ℚ) ≠ 0)]
    push_cast
    ring
  rw [e] at h
  exact h

theorem div_bounds (a b : Double) (hb : 0 < b.m) :
    (1 - 1 / 2 ^ 53) * (a.toRat / b.toRat) ≤ (div a b).toRat ∧
      (div a b).toRat ≤ (1 + 1 / 2 ^ 53) * (a.toRat / b.toRat) := by
  have h := round_bounds a.m b.m (a.e - b.e) hb
  have hbq : (b.m : ℚ) ≠ 0 := by
    have : (0 : ℚ) < (b.m : ℚ) := by exact_mod_cast hb
    exact ne_of_gt this
  have e : (a.m : ℚ) / (b.m : ℚ) * (2 : ℚ) ^ (a.e - b.e) = a.toRat / b.toRat := by
    unfold toRat
    rw [zpow_sub₀ (by norm_num : (2 : ℚ) ≠ 0)]
    have h2 : (2 : ℚ) ^ b.e ≠ 0 := zpow_ne_zero _ (by norm_num)
    field_simp
  rw [e] at h
  exact h

theorem add_bounds (a b : Double) :
    (1 - 1 / 2 ^ 53) * (a.toRat + b.toRat) ≤ (add a b).toRat ∧
      (add a b).toRat ≤ (1 + 1 / 2 ^ 53) * (a.toRat + b.toRat) := by
  have h := round_bounds (a.m * 2 ^ (a.e - min a.e b.e).toNat +
    b.m * 2 ^ (b.e - min a.e b.e).toNat) 1 (min a.e b.e) (by norm_num)
  have hp : ∀ x : Int, min a.e b.e ≤ x →
      ((2 : ℚ) ^ (x - min a.e b.e).toNat) * (2 : ℚ) ^ (min a.e b.e) = (2 : ℚ) ^ x := by
    intro x hx
    rw [← zpow_natCast, Int.toNat_of_nonneg (by omega),
      ← zpow_add₀ (by norm_num : (2 : ℚ) ≠ 0)]
    congr 1
    omega
  have e : ((a.m * 2 ^ (a.e - min a.e b.e).toNat + b.m * 2 ^ (b.e - min a.e b.e).toNat : Nat)
      : ℚ) / ((1 : Nat) : ℚ) * (2 : ℚ) ^ (min a.e b.e) = a.toRat + b.toRat := by
    unfold toRat
    push_cast
    rw [div_one, add_mul, mul_assoc, mul_assoc, hp a.e (min_le_left _ _),
      hp b.e (min_le_right _ _)]
  rw [e] at h
  exact h

/-- The conversion to `uint64_t` drops the fraction of the value. -/
theorem toUInt64_eq (a : Double) :
    toUInt64 a = if ⌊a.toRat⌋₊ < 2 ^ 64 then some ⌊a.toRat⌋₊ else none := by
  have e : ⌊a.toRat⌋₊ = a.m * 2 ^ a.e.toNat / 2 ^ (-a.e).toNat := by
    unfold toRat
    rw [← zpow_toNat_div a.e, ← mul_div_assoc]
    have : ⌊((a.m * 2 ^ a.e.toNat : Nat) : ℚ) / ((2 ^ (-a.e).toNat : Nat) : ℚ)⌋₊ =
        a.m * 2 ^ a.e.toNat / 2 ^ (-a.e).toNat := Nat.floor_div_eq_div _ _
    push_cast at this
    exact this
  rw [e]
  rfl

theorem literal_one : (literal 1 1).toRat = 1 := by
  have h : literal 1 1 = ⟨4503599627370496, -52⟩ := by decide
  rw [h]
  norm_num [toRat]

theorem ofUInt64_million : (ofUInt64 1000000).toRat = 1000000 := by
  have h : ofUInt64 1000000 = ⟨8589934592000000, -33⟩ := by decide
  rw [h]
  norm_num [toRat]

theorem literal_0_999999 : (literal 999999 1000000).toRat = 9007190247541737 / 2 ^ 53 := by
  have h : literal 999999 1000000 = ⟨9007190247541737, -53⟩ := by decide
  rw [h]
  norm_num [toRat]

/-- The error of four roundings in a product and one in its divisor. -/
theorem needed_chain (lo hi : ℚ) {o r a1 a2 b a3 a4 : ℚ} (hlo : 0 < lo) (hhi : lo ≤ hi)
    (ho : 0 ≤ o) (hr : 0 < r)
    (h1 : lo * o ≤ a1 ∧ a1 ≤ hi * o) (h2 : lo * a1 ≤ a2 ∧ a2 ≤ hi * a1)
    (hb : lo * r ≤ b ∧ b ≤ hi * r) (h3 : lo * (a2 / b) ≤ a3 ∧ a3 ≤ hi * (a2 / b))
    (h4 : lo * (a3 * 1000000) ≤ a4 ∧ a4 ≤ hi * (a3 * 1000000)) :
    lo ^ 4 / hi * (o * 1000000 / r) ≤ a4 ∧ a4 ≤ hi ^ 4 / lo * (o * 1000000 / r) := by
  have hhi0 : 0 < hi := lt_of_lt_of_le hlo hhi
  have hb0 : 0 < b := lt_of_lt_of_le (mul_pos hlo hr) hb.1
  have ha1 : 0 ≤ a1 := le_trans (mul_nonneg (le_of_lt hlo) ho) h1.1
  have ha2lo : lo * (lo * o) ≤ a2 :=
    le_trans (mul_le_mul_of_nonneg_left h1.1 (le_of_lt hlo)) h2.1
  have ha2hi : a2 ≤ hi * (hi * o) :=
    le_trans h2.2 (mul_le_mul_of_nonneg_left h1.2 (le_of_lt hhi0))
  have ha2 : 0 ≤ a2 := le_trans (mul_nonneg (le_of_lt hlo) ha1) h2.1
  have hq_hi : a2 / b ≤ hi * (hi * o) / (lo * r) :=
    div_le_div₀ (mul_nonneg (le_of_lt hhi0) (mul_nonneg (le_of_lt hhi0) ho)) ha2hi
      (mul_pos hlo hr) hb.1
  have hq_lo : lo * (lo * o) / (hi * r) ≤ a2 / b :=
    div_le_div₀ ha2 ha2lo hb0 hb.2
  have ha3hi : a3 ≤ hi * (hi * (hi * o) / (lo * r)) :=
    le_trans h3.2 (mul_le_mul_of_nonneg_left hq_hi (le_of_lt hhi0))
  have ha3lo : lo * (lo * (lo * o) / (hi * r)) ≤ a3 :=
    le_trans (mul_le_mul_of_nonneg_left hq_lo (le_of_lt hlo)) h3.1
  constructor
  · calc lo ^ 4 / hi * (o * 1000000 / r)
        = lo * (lo * (lo * (lo * o) / (hi * r)) * 1000000) := by
          field_simp
          ring
      _ ≤ lo * (a3 * 1000000) :=
          mul_le_mul_of_nonneg_left (mul_le_mul_of_nonneg_right ha3lo (by norm_num))
            (le_of_lt hlo)
      _ ≤ a4 := h4.1
  · calc a4 ≤ hi * (a3 * 1000000) := h4.2
      _ ≤ hi * (hi * (hi * (hi * o) / (lo * r)) * 1000000) :=
          mul_le_mul_of_nonneg_left (mul_le_mul_of_nonneg_right ha3hi (by norm_num))
            (le_of_lt hhi0)
      _ = hi ^ 4 / lo * (o * 1000000 / r) := by
          field_simp
          ring

/-- The error of five roundings in a product and one in the sum with a
constant. -/
theorem refill_chain (lo hi c0 : ℚ) {el r a1 a2 a3 b a4 c a5 : ℚ} (hlo : 0 < lo) (hlo1 : lo ≤ 1)
    (hhi : 1 ≤ hi) (hel : 0 ≤ el) (hr : 0 ≤ r)
    (h1 : lo * el ≤ a1 ∧ a1 ≤ hi * el) (h2 : lo * a1 ≤ a2 ∧ a2 ≤ hi * a1)
    (h3 : lo * (a2 / 1000000) ≤ a3 ∧ a3 ≤ hi * (a2 / 1000000))
    (hb : lo * r ≤ b ∧ b ≤ hi * r) (h4 : lo * (a3 * b) ≤ a4 ∧ a4 ≤ hi * (a3 * b))
    (hc : lo * c0 ≤ c ∧ c ≤ c0) (hc0 : 0 ≤ c0)
    (h5 : lo * (a4 + c) ≤ a5 ∧ a5 ≤ hi * (a4 + c)) :
    lo ^ 6 * (el * r / 1000000 + c0) ≤ a5 ∧ a5 ≤ hi ^ 6 * (el * r / 1000000 + c0) := by
  have hhi0 : 0 < hi := lt_of_lt_of_le one_pos hhi
  have hlo0 : 0 ≤ lo := le_of_lt hlo
  have ha1 : 0 ≤ a1 := le_trans (mul_nonneg hlo0 hel) h1.1
  have ha2 : 0 ≤ a2 := le_trans (mul_nonneg hlo0 ha1) h2.1
  have ha3 : 0 ≤ a3 := le_trans (mul_nonneg hlo0 (div_nonneg ha2 (by norm_num))) h3.1
  have hb0 : 0 ≤ b := le_trans (mul_nonneg hlo0 hr) hb.1
  have ha2lo : lo * (lo * el) ≤ a2 := le_trans (mul_le_mul_of_nonneg_left h1.1 hlo0) h2.1
  have ha2hi : a2 ≤ hi * (hi * el) :=
    le_trans h2.2 (mul_le_mul_of_nonneg_left h1.2 (le_of_lt hhi0))
  have ha3lo : lo * (lo * (lo * el) / 1000000) ≤ a3 :=
    le_trans (mul_le_mul_of_nonneg_left (div_le_div_of_nonneg_right ha2lo (by norm_num)) hlo0)
      h3.1
  have ha3hi : a3 ≤ hi * (hi * (hi * el) / 1000000) :=
    le_trans h3.2
      (mul_le_mul_of_nonneg_left (div_le_div_of_nonneg_right ha2hi (by norm_num))
        (le_of_lt hhi0))
  have hp_lo : lo * (lo * (lo * el) / 1000000) * (lo * r) ≤ a3 * b :=
    mul_le_mul ha3lo hb.1 (mul_nonneg hlo0 hr) ha3
  have hp_hi : a3 * b ≤ hi * (hi * (hi * el) / 1000000) * (hi * r) :=
    mul_le_mul ha3hi hb.2 hb0
      (mul_nonneg (le_of_lt hhi0) (div_nonneg (mul_nonneg (le_of_lt hhi0)
        (mul_nonneg (le_of_lt hhi0) hel)) (by norm_num)))
  have ha4lo : lo * (lo * (lo * (lo * el) / 1000000) * (lo * r)) ≤ a4 :=
    le_trans (mul_le_mul_of_nonneg_left hp_lo hlo0) h4.1
  have ha4hi : a4 ≤ hi * (hi * (hi * (hi * el) / 1000000) * (hi * r)) :=
    le_trans h4.2 (mul_le_mul_of_nonneg_left hp_hi (le_of_lt hhi0))
  have hx : 0 ≤ el * r / 1000000 := div_nonneg (mul_nonneg hel hr) (by norm_num)
  have e_lo : lo * (lo * (lo * (lo * el) / 1000000) * (lo * r)) = lo ^ 5 * (el * r / 1000000) := by
    ring
  have e_hi : hi * (hi * (hi * (hi * el) / 1000000) * (hi * r)) = hi ^ 5 * (el * r / 1000000) := by
    ring
  rw [e_lo] at ha4lo
  rw [e_hi] at ha4hi
  have hlo5 : lo ^ 5 ≤ 1 := pow_le_one₀ hlo0 hlo1
  have hlo4 : lo ^ 4 ≤ 1 := pow_le_one₀ hlo0 hlo1
  have hhi5 : 1 ≤ hi ^ 5 := one_le_pow₀ hhi
  constructor
  · calc lo ^ 6 * (el * r / 1000000 + c0)
        = lo * (lo ^ 5 * (el * r / 1000000) + lo ^ 4 * (lo * c0)) := by ring
      _ ≤ lo * (lo ^ 5 * (el * r / 1000000) + 1 * (lo * c0)) := by
          apply mul_le_mul_of_nonneg_left _ hlo0
          apply add_le_add_left
          exact mul_le_mul_of_nonneg_right hlo4 (mul_nonneg hlo0 hc0)
      _ ≤ lo * (a4 + c) := by
          apply mul_le_mul_of_nonneg_left _ hlo0
          rw [one_mul]
          exact add_le_add ha4lo hc.1
      _ ≤ a5 := h5.1
  · calc a5 ≤ hi * (a4 + c) := h5.2
      _ ≤ hi * (hi ^ 5 * (el * r / 1000000) + hi ^ 5 * c0) := by
          apply mul_le_mul_of_nonneg_left _ (le_of_lt hhi0)
          apply add_le_add ha4hi
          calc c ≤ c0 := hc.2
            _ = 1 * c0 := (one_mul c0).symm
            _ ≤ hi ^ 5 * c0 := mul_le_mul_of_nonneg_right hhi5 hc0
      _ = hi ^ 6 * (el * r / 1000000 + c0) := by ring

/-- A `double` with a value from `2 ^ L` to `2 ^ U` inside the range of the
format is normal. -/
theorem inRange.normal {L U : Int} {a : Double} (h : inRange L U a) (hL : -1021 ≤ L)
    (hU : U ≤ 1022) : isNormal a := by
  rcases h with h | ⟨h1, h2, h3, h4⟩
  · exact Or.inl h
  · refine Or.inr ⟨h1, h2, ?_, ?_⟩
    · -- 2 ^ L ≤ m * 2 ^ e ≤ 2 ^ 53 * 2 ^ e
      have hm : (a.m : ℚ) ≤ (2 : ℚ) ^ (53 : Int) := by
        have : ((a.m : Nat) : ℚ) ≤ ((2 ^ 53 : Nat) : ℚ) := by exact_mod_cast h2
        have e : ((2 ^ 53 : Nat) : ℚ) = (2 : ℚ) ^ (53 : Int) := by norm_num
        rw [e] at this
        exact this
      have hp : (0 : ℚ) < (2 : ℚ) ^ a.e := zpow_pos (by norm_num) _
      have h5 : (2 : ℚ) ^ L ≤ (2 : ℚ) ^ (53 + a.e) := by
        rw [zpow_add₀ (by norm_num : (2 : ℚ) ≠ 0)]
        exact le_trans h3 (mul_le_mul_of_nonneg_right hm (le_of_lt hp))
      have h6 := (zpow_le_zpow_iff_right₀ (by norm_num : (1 : ℚ) < 2)).mp h5
      omega
    · have hm : (2 : ℚ) ^ (52 : Int) ≤ (a.m : ℚ) := by
        have : ((2 ^ 52 : Nat) : ℚ) ≤ ((a.m : Nat) : ℚ) := by exact_mod_cast h1
        have e : ((2 ^ 52 : Nat) : ℚ) = (2 : ℚ) ^ (52 : Int) := by norm_num
        rw [e] at this
        exact this
      have hp : (0 : ℚ) < (2 : ℚ) ^ a.e := zpow_pos (by norm_num) _
      have h5 : (2 : ℚ) ^ (52 + a.e) ≤ (2 : ℚ) ^ U := by
        rw [zpow_add₀ (by norm_num : (2 : ℚ) ≠ 0)]
        exact le_trans (mul_le_mul_of_nonneg_right hm (le_of_lt hp)) h4
      have h6 := (zpow_le_zpow_iff_right₀ (by norm_num : (1 : ℚ) < 2)).mp h5
      omega

/-- The result of `round` on a quotient from `2 ^ L` to `2 ^ U`. -/
theorem round_inRange (n d : Nat) (e : Int) (hd : 0 < d) (L U : Int)
    (hL : 0 < n → (2 : ℚ) ^ L ≤ (n : ℚ) / (d : ℚ) * (2 : ℚ) ^ e)
    (hU : (n : ℚ) / (d : ℚ) * (2 : ℚ) ^ e ≤ (2 : ℚ) ^ U) :
    inRange (L - 1) (U + 1) (round n d e) := by
  rcases Nat.eq_zero_or_pos n with h0 | hn
  · left
    subst h0
    simp [round]
  · right
    have hb := round_bounds n d e hd
    obtain ⟨s, q, hr, h52, h53, habs⟩ := round_scaled n d e hn hd
    have hx := hL hn
    have hx0 : (0 : ℚ) ≤ (n : ℚ) / (d : ℚ) * (2 : ℚ) ^ e :=
      le_trans (le_of_lt (zpow_pos (by norm_num) _)) hx
    have hq := abs_le.mp habs
    have hq1 : (2 : ℚ) ^ 52 - 1 / 2 ≤ (q : ℚ) := by linarith [hq.1]
    have hq2 : (q : ℚ) ≤ 2 ^ 53 + 1 / 2 := by linarith [hq.2]
    have hqa : 2 ^ 52 ≤ q := by
      by_contra hc
      have : q + 1 ≤ 2 ^ 52 := by omega
      have : ((q + 1 : Nat) : ℚ) ≤ ((2 ^ 52 : Nat) : ℚ) := by exact_mod_cast this
      push_cast at this
      linarith
    have hqb : q ≤ 2 ^ 53 := by
      by_contra hc
      have : 2 ^ 53 + 1 ≤ q := by omega
      have : ((2 ^ 53 + 1 : Nat) : ℚ) ≤ ((q : Nat) : ℚ) := by exact_mod_cast this
      push_cast at this
      linarith
    have hm : (round n d e).m = q := by rw [hr]
    rw [hm]
    refine ⟨hqa, hqb, ?_, ?_⟩
    · rw [zpow_sub_one₀ (by norm_num : (2 : ℚ) ≠ 0)]
      have : (1 - 1 / 2 ^ 53) * ((n : ℚ) / (d : ℚ) * (2 : ℚ) ^ e) ≥
          (n : ℚ) / (d : ℚ) * (2 : ℚ) ^ e * 2⁻¹ := by nlinarith
      have h2 : (2 : ℚ) ^ L * 2⁻¹ ≤ (n : ℚ) / (d : ℚ) * (2 : ℚ) ^ e * 2⁻¹ :=
        mul_le_mul_of_nonneg_right hx (by norm_num)
      linarith [hb.1]
    · rw [zpow_add_one₀ (by norm_num : (2 : ℚ) ≠ 0)]
      have : (1 + 1 / 2 ^ 53) * ((n : ℚ) / (d : ℚ) * (2 : ℚ) ^ e) ≤
          (n : ℚ) / (d : ℚ) * (2 : ℚ) ^ e * 2 := by nlinarith
      have h2 : (n : ℚ) / (d : ℚ) * (2 : ℚ) ^ e * 2 ≤ (2 : ℚ) ^ U * 2 :=
        mul_le_mul_of_nonneg_right hU (by norm_num)
      linarith [hb.2]

theorem ofUInt64_inRange (n : Nat) (hn : n < 2 ^ 64) : inRange (-1) 65 (ofUInt64 n) := by
  have h := round_inRange n 1 0 (by norm_num) 0 64
    (fun h0 => by
      have : (1 : ℚ) ≤ (n : ℚ) := by exact_mod_cast h0
      simpa using this)
    (by
      have : ((n : Nat) : ℚ) ≤ ((2 ^ 64 : Nat) : ℚ) := by exact_mod_cast le_of_lt hn
      have e : ((2 ^ 64 : Nat) : ℚ) = (2 : ℚ) ^ (64 : Int) := by norm_num
      rw [e] at this
      simpa using this)
  exact h

theorem mul_inRange {la ua lb ub : Int} {a b : Double} (ha : inRange la ua a)
    (hb : inRange lb ub b) : inRange (la + lb - 1) (ua + ub + 1) (mul a b) := by
  have e : ((a.m * b.m : Nat) : ℚ) / ((1 : Nat) : ℚ) * (2 : ℚ) ^ (a.e + b.e) =
      a.toRat * b.toRat := by
    unfold toRat
    rw [zpow_add₀ (by norm_num : (2 : ℚ) ≠ 0)]
    push_cast
    ring
  rcases ha with ha | ⟨-, -, ha3, ha4⟩
  · left
    simp [mul, round, ha]
  rcases hb with hb | ⟨-, -, hb3, hb4⟩
  · left
    simp [mul, round, hb]
  have hA : (0 : ℚ) ≤ a.toRat := toRat_nonneg a
  have hB : (0 : ℚ) ≤ b.toRat := toRat_nonneg b
  apply round_inRange _ _ _ (by norm_num)
  · intro _
    rw [e, zpow_add₀ (by norm_num : (2 : ℚ) ≠ 0)]
    exact mul_le_mul ha3 hb3 (le_of_lt (zpow_pos (by norm_num) _)) hA
  · rw [e, zpow_add₀ (by norm_num : (2 : ℚ) ≠ 0)]
    exact mul_le_mul ha4 hb4 hB (le_of_lt (zpow_pos (by norm_num) _))

theorem div_inRange {la ua lb ub : Int} {a b : Double} (ha : inRange la ua a)
    (hb0 : 0 < b.m) (hb : inRange lb ub b) : inRange (la - ub - 1) (ua - lb + 1) (div a b) := by
  have hbq : (b.m : ℚ) ≠ 0 := by
    have : (0 : ℚ) < (b.m : ℚ) := by exact_mod_cast hb0
    exact ne_of_gt this
  have e : (a.m : ℚ) / (b.m : ℚ) * (2 : ℚ) ^ (a.e - b.e) = a.toRat / b.toRat := by
    unfold toRat
    rw [zpow_sub₀ (by norm_num : (2 : ℚ) ≠ 0)]
    have h2 : (2 : ℚ) ^ b.e ≠ 0 := zpow_ne_zero _ (by norm_num)
    field_simp
  rcases ha with ha | ⟨-, -, ha3, ha4⟩
  · left
    simp [div, round, ha]
  rcases hb with hb | ⟨-, -, hb3, hb4⟩
  · omega
  have hB : (0 : ℚ) < b.toRat := toRat_pos b hb0
  have hA : (0 : ℚ) ≤ a.toRat := toRat_nonneg a
  apply round_inRange _ _ _ hb0
  · intro _
    rw [e, zpow_sub₀ (by norm_num : (2 : ℚ) ≠ 0)]
    exact div_le_div₀ hA ha3 hB hb4
  · rw [e, zpow_sub₀ (by norm_num : (2 : ℚ) ≠ 0)]
    exact div_le_div₀ (le_of_lt (zpow_pos (by norm_num) _)) ha4 (zpow_pos (by norm_num) _) hb3

/-- The sum with a constant from one half to one. -/
theorem add_inRange {la ua : Int} {a c : Double} (ha : inRange la ua a) (hua : 0 ≤ ua)
    (hc1 : (1 : ℚ) / 2 ≤ c.toRat) (hc2 : c.toRat ≤ 1) : inRange (-2) (ua + 2) (add a c) := by
  have hp : ∀ x : Int, min a.e c.e ≤ x →
      ((2 : ℚ) ^ (x - min a.e c.e).toNat) * (2 : ℚ) ^ (min a.e c.e) = (2 : ℚ) ^ x := by
    intro x hx
    rw [← zpow_natCast, Int.toNat_of_nonneg (by omega),
      ← zpow_add₀ (by norm_num : (2 : ℚ) ≠ 0)]
    congr 1
    omega
  have e : ((a.m * 2 ^ (a.e - min a.e c.e).toNat + c.m * 2 ^ (c.e - min a.e c.e).toNat : Nat)
      : ℚ) / ((1 : Nat) : ℚ) * (2 : ℚ) ^ (min a.e c.e) = a.toRat + c.toRat := by
    unfold toRat
    push_cast
    rw [div_one, add_mul, mul_assoc, mul_assoc, hp a.e (min_le_left _ _),
      hp c.e (min_le_right _ _)]
  have hA : (0 : ℚ) ≤ a.toRat := toRat_nonneg a
  have hAU : a.toRat ≤ (2 : ℚ) ^ ua := by
    rcases ha with ha | ⟨-, -, -, ha4⟩
    · have : a.toRat = 0 := by simp [toRat, ha]
      rw [this]
      exact le_of_lt (zpow_pos (by norm_num) _)
    · exact ha4
  have h1 : (1 : ℚ) ≤ (2 : ℚ) ^ ua := one_le_zpow₀ (by norm_num) hua
  have h := round_inRange (a.m * 2 ^ (a.e - min a.e c.e).toNat +
    c.m * 2 ^ (c.e - min a.e c.e).toNat) 1 (min a.e c.e) (by norm_num) (-1) (ua + 1)
    (fun _ => by
      rw [e]
      have : (2 : ℚ) ^ (-1 : Int) = 1 / 2 := by norm_num
      rw [this]
      linarith)
    (by
      rw [e, zpow_add_one₀ (by norm_num : (2 : ℚ) ≠ 0)]
      linarith)
  have e1 : (-1 : Int) - 1 = -2 := by norm_num
  have e2 : ua + 1 + 1 = ua + 2 := by omega
  rw [e1, e2] at h
  exact h

theorem literal_one_inRange : inRange 0 0 (literal 1 1) := by
  right
  have h : literal 1 1 = ⟨4503599627370496, -52⟩ := by decide
  refine ⟨by rw [h]; decide, by rw [h]; decide, ?_, ?_⟩
  · rw [literal_one]; norm_num
  · rw [literal_one]; norm_num

theorem ofUInt64_million_inRange : inRange 19 20 (ofUInt64 1000000) := by
  right
  have h : ofUInt64 1000000 = ⟨8589934592000000, -33⟩ := by decide
  refine ⟨by rw [h]; decide, by rw [h]; decide, ?_, ?_⟩
  · rw [ofUInt64_million]; norm_num
  · rw [ofUInt64_million]; norm_num

theorem inRange.weaken {L U L1 U1 : Int} {a : Double} (h : inRange L U a) (hL : L1 ≤ L)
    (hU : U ≤ U1) : inRange L1 U1 a := by
  rcases h with h | ⟨h1, h2, h3, h4⟩
  · exact Or.inl h
  · exact Or.inr ⟨h1, h2,
      le_trans (zpow_le_zpow_right₀ (by norm_num) hL) h3,
      le_trans h4 (zpow_le_zpow_right₀ (by norm_num) hU)⟩

end Double

namespace WriteController

/-! ## Theorems about the write controller -/

theorem lookup_isSome_iff (l : List (Nat × Nat)) (id : Nat) :
    (l.lookup id).isSome ↔ ∃ r, (id, r) ∈ l := by
  induction l with
  | nil => simp
  | cons kv t ih =>
    obtain ⟨k, b⟩ := kv
    rw [List.lookup_cons]
    by_cases h : id = k
    · subst h
      simp
    · have hb : (id == k) = false := by simpa using h
      rw [hb]
      simp only [ih, List.mem_cons, Prod.mk.injEq]
      constructor
      · rintro ⟨r, hr⟩; exact ⟨r, Or.inr hr⟩
      · rintro ⟨r, hr | hr⟩
        · exact absurd hr.1 h
        · exact ⟨r, hr⟩

theorem lookup_of_mem {l : List (Nat × Nat)} {id r : Nat} (hnd : (l.map Prod.fst).Nodup)
    (h : (id, r) ∈ l) : l.lookup id = some r := by
  induction l with
  | nil => simp at h
  | cons kv t ih =>
    obtain ⟨k, b⟩ := kv
    rw [List.map_cons, List.nodup_cons] at hnd
    rw [List.lookup_cons]
    rcases List.mem_cons.mp h with heq | ht
    · cases heq
      simp
    · have hne : id ≠ k := by
        intro hik
        subst hik
        exact hnd.1 (List.mem_map.mpr ⟨(id, r), ht, rfl⟩)
      have hb : (id == k) = false := by simpa using hne
      rw [hb]
      exact ih hnd.2 ht

theorem count_eq_zero_iff (m : CfIdToRateMap) (id : Nat) :
    m.count id = 0 ↔ ∀ r, (id, r) ∉ m.entries := by
  unfold CfIdToRateMap.count
  have := lookup_isSome_iff m.entries id
  by_cases h : (m.entries.lookup id).isSome
  · rw [if_pos h]
    constructor
    · intro h1; cases h1
    · intro h1
      obtain ⟨r, hr⟩ := this.mp h
      exact absurd hr (h1 r)
  · rw [if_neg h]
    constructor
    · intro _ r hr
      exact h (this.mpr ⟨r, hr⟩)
    · intro _; rfl

theorem get_of_mem {m : CfIdToRateMap} {id r : Nat} (hnd : (m.entries.map Prod.fst).Nodup)
    (h : (id, r) ∈ m.entries) : m.get id = r := by
  unfold CfIdToRateMap.get
  rw [lookup_of_mem hnd h]
  rfl

theorem mem_erase {m : CfIdToRateMap} {id id1 r : Nat} :
    (id1, r) ∈ (m.erase id).entries ↔ (id1, r) ∈ m.entries ∧ id1 ≠ id := by
  unfold CfIdToRateMap.erase
  simp [List.mem_filter]

theorem nodup_erase {m : CfIdToRateMap} (id : Nat) (hnd : (m.entries.map Prod.fst).Nodup) :
    ((m.erase id).entries.map Prod.fst).Nodup :=
  hnd.sublist ((List.filter_sublist _).map Prod.fst)

theorem mem_insert_or_assign {m : CfIdToRateMap} {id v id1 r : Nat} :
    (id1, r) ∈ (m.insert_or_assign id v).1.entries ↔
      (id1 = id ∧ r = v) ∨ ((id1, r) ∈ m.entries ∧ id1 ≠ id) := by
  unfold CfIdToRateMap.insert_or_assign
  by_cases h : (m.entries.lookup id).isSome
  · rw [if_pos h]
    obtain ⟨r0, hr0⟩ := (lookup_isSome_iff _ _).mp h
    simp only [List.mem_map]
    constructor
    · rintro ⟨kv, hkv, heq⟩
      by_cases hk : kv.1 = id
      · rw [if_pos hk] at heq
        cases heq
        exact Or.inl ⟨rfl, rfl⟩
      · rw [if_neg hk] at heq
        subst heq
        exact Or.inr ⟨hkv, hk⟩
    · rintro (⟨h1, h2⟩ | ⟨h1, h2⟩)
      · subst h1; subst h2
        exact ⟨(id1, r0), hr0, by simp⟩
      · exact ⟨(id1, r), h1, by simp [h2]⟩
  · rw [if_neg h]
    have hno : ∀ r0, (id, r0) ∉ m.entries := fun r0 hr0 => h ((lookup_isSome_iff _ _).mpr ⟨r0, hr0⟩)
    simp only [List.mem_cons, Prod.mk.injEq]
    constructor
    · rintro (⟨h1, h2⟩ | h1)
      · exact Or.inl ⟨h1, h2⟩
      · refine Or.inr ⟨h1, ?_⟩
        intro hid
        subst hid
        exact hno r h1
    · rintro (⟨h1, h2⟩ | ⟨h1, _⟩)
      · exact Or.inl ⟨h1, h2⟩
      · exact Or.inr h1

theorem nodup_insert_or_assign {m : CfIdToRateMap} (id v : Nat)
    (hnd : (m.entries.map Prod.fst).Nodup) :
    ((m.insert_or_assign id v).1.entries.map Prod.fst).Nodup := by
  unfold CfIdToRateMap.insert_or_assign
  by_cases h : (m.entries.lookup id).isSome
  · rw [if_pos h]
    have : (m.entries.map fun key_val => if key_val.1 = id then (id, v) else key_val).map Prod.fst
        = m.entries.map Prod.fst := by
      rw [List.map_map]
      apply List.map_congr_left
      intro kv _
      show (if kv.1 = id then (id, v) else kv).1 = kv.1
      split_ifs with hk
      · exact hk.symm
      · rfl
    rw [this]
    exact hnd
  · rw [if_neg h]
    rw [List.map_cons, List.nodup_cons]
    refine ⟨?_, hnd⟩
    intro hmem
    obtain ⟨kv, hkv, hk⟩ := List.mem_map.mp hmem
    apply h
    rw [lookup_isSome_iff]
    have hk1 : kv.1 = id := hk
    exact ⟨kv.2, by rw [← hk1]; exact hkv⟩

/-- The inner loop of `GetMapMinRate` returns the least of its start value and
the rates of the map. -/
theorem foldl_min_spec (l : List (Nat × Nat)) : ∀ init : Nat,
    l.foldl (fun min_rate key_val => if key_val.2 < min_rate then key_val.2 else min_rate) init
        ≤ init ∧
      (∀ kv, kv ∈ l → l.foldl
        (fun min_rate key_val => if key_val.2 < min_rate then key_val.2 else min_rate) init
          ≤ kv.2) ∧
      (l.foldl (fun min_rate key_val => if key_val.2 < min_rate then key_val.2 else min_rate)
          init = init ∨
        ∃ kv, kv ∈ l ∧ l.foldl
          (fun min_rate key_val => if key_val.2 < min_rate then key_val.2 else min_rate) init
            = kv.2) := by
  induction l with
  | nil => intro init; simp
  | cons a t ih =>
    intro init
    rw [List.foldl_cons]
    obtain ⟨h1, h2, h3⟩ := ih (if a.2 < init then a.2 else init)
    refine ⟨?_, ?_, ?_⟩
    · refine le_trans h1 ?_
      split_ifs <;> omega
    · intro kv hkv
      rcases List.mem_cons.mp hkv with rfl | hkv
      · refine le_trans h1 ?_
        split_ifs <;> omega
      · exact h2 kv hkv
    · rcases h3 with h3 | ⟨kv, hkv, h3⟩
      · by_cases ha : a.2 < init
        · rw [if_pos ha] at h3
          exact Or.inr ⟨a, List.mem_cons_self _ _, by rw [if_pos ha]; exact h3⟩
        · rw [if_neg ha] at h3
          exact Or.inl (by rw [if_neg ha]; exact h3)
      · exact Or.inr ⟨kv, List.mem_cons_of_mem _ hkv, h3⟩

/-- The outer loop of `GetMapMinRate`. -/
theorem foldl_maps_spec (maps : RateMaps) (ps : List Nat) : ∀ init : Nat,
    ps.foldl (fun min_rate cf => (maps cf).entries.foldl
        (fun min_rate key_val => if key_val.2 < min_rate then key_val.2 else min_rate)
        min_rate) init ≤ init ∧
      (∀ p, p ∈ ps → ∀ kv, kv ∈ (maps p).entries →
        ps.foldl (fun min_rate cf => (maps cf).entries.foldl
          (fun min_rate key_val => if key_val.2 < min_rate then key_val.2 else min_rate)
          min_rate) init ≤ kv.2) ∧
      (ps.foldl (fun min_rate cf => (maps cf).entries.foldl
          (fun min_rate key_val => if key_val.2 < min_rate then key_val.2 else min_rate)
          min_rate) init = init ∨
        ∃ p, p ∈ ps ∧ ∃ kv, kv ∈ (maps p).entries ∧
          ps.foldl (fun min_rate cf => (maps cf).entries.foldl
            (fun min_rate key_val => if key_val.2 < min_rate then key_val.2 else min_rate)
            min_rate) init = kv.2) := by
  induction ps with
  | nil => intro init; simp
  | cons a t ih =>
    intro init
    rw [List.foldl_cons]
    obtain ⟨g1, g2, g3⟩ := foldl_min_spec (maps a).entries init
    obtain ⟨h1, h2, h3⟩ := ih ((maps a).entries.foldl
      (fun min_rate key_val => if key_val.2 < min_rate then key_val.2 else min_rate) init)
    refine ⟨le_trans h1 g1, ?_, ?_⟩
    · intro p hp kv hkv
      rcases List.mem_cons.mp hp with rfl | hp
      · exact le_trans h1 (g2 kv hkv)
      · exact h2 p hp kv hkv
    · rcases h3 with h3 | ⟨p, hp, kv, hkv, h3⟩
      · rcases g3 with g3 | ⟨kv, hkv, g3⟩
        · exact Or.inl (h3.trans g3)
        · exact Or.inr ⟨a, List.mem_cons_self _ _, kv, hkv, h3.trans g3⟩
      · exact Or.inr ⟨p, List.mem_cons_of_mem _ hp, kv, hkv, h3⟩

/-- The method `GetMapMinRate` returns the least of `max_delayed_write_rate_` and
the rates stored in the registered maps. -/
theorem GetMapMinRate_spec (σ : WriteController) (maps : RateMaps) :
    GetMapMinRate σ maps ≤ σ.max_delayed_write_rate_ ∧
      (∀ r, HasRate σ maps r → GetMapMinRate σ maps ≤ r) ∧
      (GetMapMinRate σ maps = σ.max_delayed_write_rate_ ∨
        HasRate σ maps (GetMapMinRate σ maps)) := by
  obtain ⟨h1, h2, h3⟩ := foldl_maps_spec maps σ.db_id_to_write_rate_map_
    σ.max_delayed_write_rate_
  refine ⟨h1, ?_, ?_⟩
  · rintro r ⟨p, hp, id, hid⟩
    exact h2 p hp (id, r) hid
  · rcases h3 with h3 | ⟨p, hp, kv, hkv, h3⟩
    · exact Or.inl h3
    · refine Or.inr ⟨p, hp, kv.1, ?_⟩
      show (kv.1, GetMapMinRate σ maps) ∈ (maps p).entries
      unfold GetMapMinRate max_delayed_write_rate
      rw [h3]
      exact hkv

/-- After `set_delayed_write_rate(GetMapMinRate())` the invariant holds. -/
theorem RateInv.recompute {σ : WriteController} {maps : RateMaps}
    (hk : ∀ cf_map, cf_map ∈ σ.db_id_to_write_rate_map_ →
      ((maps cf_map).entries.map Prod.fst).Nodup)
    (hm : 1 ≤ σ.max_delayed_write_rate_) :
    RateInv (set_delayed_write_rate σ (GetMapMinRate σ maps)) maps := by
  obtain ⟨h1, h2, h3⟩ := GetMapMinRate_spec σ maps
  have hval : (set_delayed_write_rate σ (GetMapMinRate σ maps)).delayed_write_rate_ =
      max 1 (GetMapMinRate σ maps) := by
    show (if GetMapMinRate σ maps = 0 then 1
      else if σ.max_delayed_write_rate_ < GetMapMinRate σ maps then σ.max_delayed_write_rate_
      else GetMapMinRate σ maps) = _
    split_ifs with a b <;> omega
  refine ⟨hk, hm, ?_, ?_, ?_, ?_⟩
  · rw [hval]; exact le_max_left _ _
  · rw [hval]; show max 1 (GetMapMinRate σ maps) ≤ σ.max_delayed_write_rate_; omega
  · intro r hr
    rw [hval]
    have := h2 r hr
    omega
  · rw [hval]
    rcases h3 with h3 | h3
    · left
      show max 1 (GetMapMinRate σ maps) = σ.max_delayed_write_rate_
      omega
    · exact Or.inr ⟨_, h3, rfl⟩

theorem update_hasRate {σ1 : WriteController} {maps : RateMaps} {id p v : Nat}
    (hp : p ∈ σ1.db_id_to_write_rate_map_) (r : Nat) :
    HasRate σ1 (Function.update maps p ((maps p).insert_or_assign id v).1) r ↔
      r = v ∨ ∃ q, q ∈ σ1.db_id_to_write_rate_map_ ∧
        ∃ id1, (id1, r) ∈ (maps q).entries ∧ ¬ (q = p ∧ id1 = id) := by
  unfold HasRate
  constructor
  · rintro ⟨q, hq, id1, h⟩
    by_cases hqp : q = p
    · subst hqp
      rw [Function.update_same, mem_insert_or_assign] at h
      rcases h with ⟨_, h2⟩ | ⟨h1, h2⟩
      · exact Or.inl h2
      · exact Or.inr ⟨q, hq, id1, h1, fun hh => h2 hh.2⟩
    · rw [Function.update_noteq hqp] at h
      exact Or.inr ⟨q, hq, id1, h, fun hh => hqp hh.1⟩
  · rintro (h | ⟨q, hq, id1, h1, h2⟩)
    · refine ⟨p, hp, id, ?_⟩
      rw [Function.update_same, mem_insert_or_assign]
      exact Or.inl ⟨rfl, h⟩
    · refine ⟨q, hq, id1, ?_⟩
      by_cases hqp : q = p
      · subst hqp
        rw [Function.update_same, mem_insert_or_assign]
        exact Or.inr ⟨h1, fun hh => h2 ⟨rfl, hh⟩⟩
      · rw [Function.update_noteq hqp]
        exact h1

theorem delete_hasRate {σ1 : WriteController} {maps : RateMaps} {id p : Nat} (r : Nat) :
    HasRate σ1 (Function.update maps p ((maps p).erase id)) r ↔
      ∃ q, q ∈ σ1.db_id_to_write_rate_map_ ∧
        ∃ id1, (id1, r) ∈ (maps q).entries ∧ ¬ (q = p ∧ id1 = id) := by
  unfold HasRate
  constructor
  · rintro ⟨q, hq, id1, h⟩
    by_cases hqp : q = p
    · subst hqp
      rw [Function.update_same, mem_erase] at h
      exact ⟨q, hq, id1, h.1, fun hh => h.2 hh.2⟩
    · rw [Function.update_noteq hqp] at h
      exact ⟨q, hq, id1, h, fun hh => hqp hh.1⟩
  · rintro ⟨q, hq, id1, h1, h2⟩
    refine ⟨q, hq, id1, ?_⟩
    by_cases hqp : q = p
    · subst hqp
      rw [Function.update_same, mem_erase]
      exact ⟨h1, fun hh => h2 ⟨rfl, hh⟩⟩
    · rw [Function.update_noteq hqp]
      exact h1

/-- When the id is not a minimum, the rate that `delayed_write_rate_` attains is
stored for another id. -/
theorem RateInv.attained_other {σ : WriteController} {maps : RateMaps} (hi : RateInv σ maps)
    {id p : Nat} (hp : p ∈ σ.db_id_to_write_rate_map_) (hmin : IsMinRate σ maps id p = false)
    {q id1 r : Nat} (hq : (id1, r) ∈ (maps q).entries) (hr : σ.delayed_write_rate_ = max 1 r) :
    ¬ (q = p ∧ id1 = id) := by
  rintro ⟨rfl, rfl⟩
  have hc : (maps q).count id1 ≠ 0 := fun h0 => (count_eq_zero_iff _ _).mp h0 r hq
  have hg := get_of_mem (hi.keys q hp) hq
  unfold IsMinRate at hmin
  rw [if_neg hc, hg] at hmin
  have : ¬ r ≤ σ.delayed_write_rate_ := by simpa [delayed_write_rate] using hmin
  omega

theorem startDelay_same (σ : WriteController) :
    (startDelay σ).db_id_to_write_rate_map_ = σ.db_id_to_write_rate_map_ ∧
    (startDelay σ).max_delayed_write_rate_ = σ.max_delayed_write_rate_ ∧
    (startDelay σ).delayed_write_rate_ = σ.delayed_write_rate_ := by
  unfold startDelay
  split_ifs <;> exact ⟨rfl, rfl, rfl⟩

/-- The value that `set_delayed_write_rate` stores. -/
theorem set_rate_val (σ : WriteController) (w : Nat) :
    (set_delayed_write_rate σ w).delayed_write_rate_ =
      if w = 0 then 1 else if σ.max_delayed_write_rate_ < w then σ.max_delayed_write_rate_
      else w := rfl

/-- The invariant after `UpdateRate` on a registered map. -/
theorem RateInv.update {σ : WriteController} {maps : RateMaps} (hi : RateInv σ maps)
    (id p v : Nat) (hp : p ∈ σ.db_id_to_write_rate_map_) :
    RateInv (UpdateRate σ maps id p v).1 (UpdateRate σ maps id p v).2 := by
  obtain ⟨σ1, hσ1⟩ : ∃ σ1, σ1 = if ((maps p).insert_or_assign id v).2 then startDelay σ else σ :=
    ⟨_, rfl⟩
  have hsame : σ1.db_id_to_write_rate_map_ = σ.db_id_to_write_rate_map_ ∧
      σ1.max_delayed_write_rate_ = σ.max_delayed_write_rate_ ∧
      σ1.delayed_write_rate_ = σ.delayed_write_rate_ := by
    rw [hσ1]
    split_ifs
    · exact startDelay_same σ
    · exact ⟨rfl, rfl, rfl⟩
  obtain ⟨hreg, hmax, hdwr⟩ := hsame
  have hp1 : p ∈ σ1.db_id_to_write_rate_map_ := by rw [hreg]; exact hp
  have hU1 : (UpdateRate σ maps id p v).1 = set_delayed_write_rate σ1
      (if v ≤ σ1.delayed_write_rate_ then v
       else if IsMinRate σ maps id p then
         GetMapMinRate σ1 (Function.update maps p ((maps p).insert_or_assign id v).1)
       else σ1.delayed_write_rate_) := by
    rw [hσ1]; rfl
  have hU2 : (UpdateRate σ maps id p v).2 =
      Function.update maps p ((maps p).insert_or_assign id v).1 := rfl
  rw [hU1, hU2]
  have hkeys : ∀ cf_map, cf_map ∈ σ1.db_id_to_write_rate_map_ →
      ((Function.update maps p ((maps p).insert_or_assign id v).1 cf_map).entries.map
        Prod.fst).Nodup := by
    intro q hq
    by_cases hqp : q = p
    · subst hqp
      rw [Function.update_same]
      exact nodup_insert_or_assign id v (hi.keys q hp)
    · rw [Function.update_noteq hqp]
      exact hi.keys q (by rw [← hreg]; exact hq)
  have hm1 : 1 ≤ σ1.max_delayed_write_rate_ := by rw [hmax]; exact hi.max_pos
  have hlo := hi.lo
  have hhi := hi.hi
  by_cases hv : v ≤ σ1.delayed_write_rate_
  · rw [if_pos hv]
    have hval : (set_delayed_write_rate σ1 v).delayed_write_rate_ = max 1 v := by
      rw [set_rate_val]
      split_ifs with a b <;> omega
    refine ⟨hkeys, hm1, ?_, ?_, ?_, ?_⟩
    · rw [hval]; exact le_max_left _ _
    · rw [hval]; show max 1 v ≤ σ1.max_delayed_write_rate_; omega
    · intro r hr
      rw [hval]
      rcases (update_hasRate hp1 r).mp hr with h | ⟨q, hq, id1, h1, _⟩
      · rw [h]
      · have := hi.le r ⟨q, by rw [← hreg]; exact hq, id1, h1⟩
        omega
    · right
      exact ⟨v, (update_hasRate hp1 v).mpr (Or.inl rfl), hval⟩
  · rw [if_neg hv]
    by_cases hmin : IsMinRate σ maps id p = true
    · rw [if_pos hmin]
      exact RateInv.recompute hkeys hm1
    · rw [if_neg hmin]
      have hval : (set_delayed_write_rate σ1 σ1.delayed_write_rate_).delayed_write_rate_ =
          σ.delayed_write_rate_ := by
        rw [set_rate_val]
        split_ifs with a b <;> omega
      refine ⟨hkeys, hm1, ?_, ?_, ?_, ?_⟩
      · rw [hval]; exact hlo
      · rw [hval]; show σ.delayed_write_rate_ ≤ σ1.max_delayed_write_rate_; omega
      · intro r hr
        rw [hval]
        rcases (update_hasRate hp1 r).mp hr with h | ⟨q, hq, id1, h1, _⟩
        · omega
        · exact hi.le r ⟨q, by rw [← hreg]; exact hq, id1, h1⟩
      · rw [hval]
        rcases hi.attained with h | ⟨r, ⟨q, hq, id1, h1⟩, hr⟩
        · left; show σ.delayed_write_rate_ = σ1.max_delayed_write_rate_; omega
        · right
          refine ⟨r, (update_hasRate hp1 r).mpr (Or.inr ⟨q, by rw [hreg]; exact hq, id1, h1, ?_⟩),
            hr⟩
          exact hi.attained_other hp (by simpa using hmin) h1 hr

/-- The invariant after `DeleteCfFromMapAndMaybeUpdateDelayRate` on a registered map. -/
theorem RateInv.delete {σ : WriteController} {maps : RateMaps} (hi : RateInv σ maps)
    (id p : Nat) (hp : p ∈ σ.db_id_to_write_rate_map_) {r : WriteController × RateMaps}
    (hr : DeleteCfFromMapAndMaybeUpdateDelayRate σ maps id p = some r) :
    RateInv r.1 r.2 := by
  unfold DeleteCfFromMapAndMaybeUpdateDelayRate at hr
  simp only [assert] at hr
  have hkeys : ∀ cf_map, cf_map ∈ σ.db_id_to_write_rate_map_ →
      ((Function.update maps p ((maps p).erase id) cf_map).entries.map Prod.fst).Nodup := by
    intro q hq
    by_cases hqp : q = p
    · subst hqp
      rw [Function.update_same]
      exact nodup_erase id (hi.keys q hp)
    · rw [Function.update_noteq hqp]
      exact hi.keys q hq
  split_ifs at hr with h1 hmin
  all_goals simp only [Option.some_bind, Option.none_bind] at hr
  all_goals cases hr
  · exact RateInv.recompute (σ := { σ with total_delayed_ := i32 (σ.total_delayed_ - 1) }) hkeys
      hi.max_pos
  · refine ⟨hkeys, hi.max_pos, hi.lo, hi.hi, ?_, ?_⟩
    · intro r hr
      obtain ⟨q, hq, id1, h1, _⟩ := (delete_hasRate r).mp hr
      exact hi.le r ⟨q, hq, id1, h1⟩
    · rcases hi.attained with h | ⟨r, ⟨q, hq, id1, h1⟩, hr⟩
      · exact Or.inl h
      · right
        refine ⟨r, (delete_hasRate r).mpr ⟨q, hq, id1, h1, ?_⟩, hr⟩
        exact hi.attained_other hp (by simpa using hmin) h1 hr

/-- The invariant after `AddToDbRateMap` of an empty map. -/
theorem RateInv.add {σ : WriteController} {maps : RateMaps} (hi : RateInv σ maps)
    (p : Nat) (hp : (maps p).entries = []) : RateInv (AddToDbRateMap σ p) maps := by
  unfold AddToDbRateMap
  split_ifs with hmem
  · exact hi
  · have hrate : ∀ r, HasRate { σ with db_id_to_write_rate_map_ :=
        p :: σ.db_id_to_write_rate_map_ } maps r ↔ HasRate σ maps r := by
      intro r
      unfold HasRate
      constructor
      · rintro ⟨q, hq, id1, h⟩
        rcases List.mem_cons.mp hq with rfl | hq
        · rw [hp] at h; cases h
        · exact ⟨q, hq, id1, h⟩
      · rintro ⟨q, hq, id1, h⟩
        exact ⟨q, List.mem_cons_of_mem _ hq, id1, h⟩
    refine ⟨?_, hi.max_pos, hi.lo, hi.hi, fun r hr => hi.le r ((hrate r).mp hr), ?_⟩
    · intro q hq
      rcases List.mem_cons.mp hq with rfl | hq
      · rw [hp]; exact List.nodup_nil
      · exact hi.keys q hq
    · rcases hi.attained with h | ⟨r, h1, h2⟩
      · exact Or.inl h
      · exact Or.inr ⟨r, (hrate r).mpr h1, h2⟩

/-- The invariant after `RemoveFromDbRateMap`. -/
theorem RateInv.remove {σ : WriteController} {maps : RateMaps} (hi : RateInv σ maps)
    (p : Nat) : RateInv (RemoveFromDbRateMap σ maps p) maps := by
  unfold RemoveFromDbRateMap
  have hkeys : ∀ cf_map, cf_map ∈ σ.db_id_to_write_rate_map_.filter (· ≠ p) →
      ((maps cf_map).entries.map Prod.fst).Nodup :=
    fun q hq => hi.keys q (List.mem_of_mem_filter hq)
  by_cases he : (maps p).empty = true
  · simp only [he, if_true]
    have hp : (maps p).entries = [] := by
      unfold CfIdToRateMap.empty at he
      exact List.isEmpty_iff.mp he
    have hrate : ∀ r, HasRate { σ with db_id_to_write_rate_map_ :=
        σ.db_id_to_write_rate_map_.filter (· ≠ p) } maps r ↔ HasRate σ maps r := by
      intro r
      unfold HasRate
      constructor
      · rintro ⟨q, hq, id1, h⟩
        exact ⟨q, List.mem_of_mem_filter hq, id1, h⟩
      · rintro ⟨q, hq, id1, h⟩
        refine ⟨q, List.mem_filter.mpr ⟨hq, ?_⟩, id1, h⟩
        have : q ≠ p := by
          rintro rfl
          rw [hp] at h; cases h
        simpa using this
    refine ⟨hkeys, hi.max_pos, hi.lo, hi.hi, fun r hr => hi.le r ((hrate r).mp hr), ?_⟩
    rcases hi.attained with h | ⟨r, h1, h2⟩
    · exact Or.inl h
    · exact Or.inr ⟨r, (hrate r).mpr h1, h2⟩
  · simp only [he, if_false]
    exact RateInv.recompute hkeys hi.max_pos

/-- Every reachable state satisfies the invariant. -/
theorem RateReachable.inv {σ : WriteController} {maps : RateMaps} (hr : RateReachable σ maps) :
    RateInv σ maps := by
  induction hr with
  | init dd w maps =>
    have hmax : (WriteController.new dd w).max_delayed_write_rate_ = if w = 0 then 1 else w := rfl
    have hdwr : (WriteController.new dd w).delayed_write_rate_ = if w = 0 then 1 else w := rfl
    have hreg : (WriteController.new dd w).db_id_to_write_rate_map_ = [] := rfl
    refine ⟨?_, ?_, ?_, ?_, ?_, ?_⟩
    · intro q hq; rw [hreg] at hq; cases hq
    · rw [hmax]; split_ifs <;> omega
    · rw [hdwr]; split_ifs <;> omega
    · rw [hmax, hdwr]
    · rintro r ⟨q, hq, _⟩; rw [hreg] at hq; cases hq
    · left; rw [hmax, hdwr]
  | add σ maps p _ hp ih => exact ih.add p hp
  | remove σ maps p _ _ ih => exact ih.remove p
  | update σ maps id p v _ hp ih => exact ih.update id p v hp
  | delete σ maps id p r _ hp hdel ih => exact ih.delete id p hp hdel

/-- In a state that satisfies the invariant, `delayed_write_rate_` is the result
of `GetMapMinRate`, raised to 1 when it is 0. -/
theorem RateInv.rate_eq {σ : WriteController} {maps : RateMaps} (hi : RateInv σ maps) :
    σ.delayed_write_rate_ = max 1 (GetMapMinRate σ maps) := by
  obtain ⟨h1, h2, h3⟩ := GetMapMinRate_spec σ maps
  have hlo := hi.lo
  have hhi := hi.hi
  apply le_antisymm
  · rcases h3 with h3 | h3
    · omega
    · exact hi.le _ h3
  · rcases hi.attained with h | ⟨r, hr, h⟩
    · omega
    · have := h2 r hr
      omega

theorem UpdateRate_same (σ : WriteController) (maps : RateMaps) (id p v : Nat) :
    (UpdateRate σ maps id p v).1.db_id_to_write_rate_map_ = σ.db_id_to_write_rate_map_ ∧
    (UpdateRate σ maps id p v).1.max_delayed_write_rate_ = σ.max_delayed_write_rate_ ∧
    (UpdateRate σ maps id p v).2 p = ((maps p).insert_or_assign id v).1 := by
  refine ⟨?_, ?_, ?_⟩
  · show (if ((maps p).insert_or_assign id v).2 then startDelay σ else σ).db_id_to_write_rate_map_
      = _
    split_ifs
    · exact (startDelay_same σ).1
    · rfl
  · show (if ((maps p).insert_or_assign id v).2 then startDelay σ else σ).max_delayed_write_rate_
      = _
    split_ifs
    · exact (startDelay_same σ).2.1
    · rfl
  · show Function.update maps p ((maps p).insert_or_assign id v).1 p = _
    rw [Function.update_same]

/-- The result of `GetMapMinRate` when one map is registered. -/
theorem GetMapMinRate_single {σ : WriteController} {maps : RateMaps} {p : Nat}
    (h : σ.db_id_to_write_rate_map_ = [p]) :
    GetMapMinRate σ maps = (maps p).entries.foldl
      (fun min_rate key_val => if key_val.2 < min_rate then key_val.2 else min_rate)
      σ.max_delayed_write_rate_ := by
  unfold GetMapMinRate
  rw [h]
  rfl

/-- The scenario of two sources: with a maximal rate of at least 20 MB/s, the
rates 2 MB/s and 10 MB/s give 2 MB/s; the update of the first to 20 MB/s gives
10 MB/s; the deletion of the second gives 20 MB/s. -/
theorem twoSources_rates (dynamic_delay : Bool) (max_rate a b cf_map : Nat) (hab : a ≠ b)
    (hmax : 20971520 ≤ max_rate) :
    twoSources dynamic_delay max_rate a b cf_map 2097152 10485760 20971520 =
      some [2097152, 10485760, 20971520] := by
  have hba : b ≠ a := fun h => hab h.symm
  have hbeq1 : (b == a) = false := by simpa using hba
  have hbeq2 : (a == b) = false := by simpa using hab
  -- the four states
  obtain ⟨σ0, hσ0⟩ : ∃ σ0, σ0 = AddToDbRateMap (WriteController.new dynamic_delay max_rate)
    cf_map := ⟨_, rfl⟩
  obtain ⟨s1, hs1⟩ : ∃ s1, s1 = UpdateRate σ0 emptyMaps a cf_map 2097152 := ⟨_, rfl⟩
  obtain ⟨s2, hs2⟩ : ∃ s2, s2 = UpdateRate s1.1 s1.2 b cf_map 10485760 := ⟨_, rfl⟩
  obtain ⟨s3, hs3⟩ : ∃ s3, s3 = UpdateRate s2.1 s2.2 a cf_map 20971520 := ⟨_, rfl⟩
  have htwo : twoSources dynamic_delay max_rate a b cf_map 2097152 10485760 20971520 =
      (DeleteCfFromMapAndMaybeUpdateDelayRate s3.1 s3.2 b cf_map).bind fun s4 =>
        some [s2.1.delayed_write_rate, s3.1.delayed_write_rate, s4.1.delayed_write_rate] := by
    rw [hs3, hs2, hs1, hσ0]; rfl
  -- the registered maps and the maximal rate
  have hreg0 : σ0.db_id_to_write_rate_map_ = [cf_map] := by
    rw [hσ0]; unfold AddToDbRateMap
    rw [if_neg (by show cf_map ∉ ([] : List Nat); simp)]
    rfl
  have hmax0 : σ0.max_delayed_write_rate_ = max_rate := by
    rw [hσ0]; unfold AddToDbRateMap
    rw [if_neg (by show cf_map ∉ ([] : List Nat); simp)]
    show (if max_rate = 0 then 1 else max_rate) = max_rate
    rw [if_neg (by omega)]
  have h1 := UpdateRate_same σ0 emptyMaps a cf_map 2097152
  rw [← hs1] at h1
  have h2 := UpdateRate_same s1.1 s1.2 b cf_map 10485760
  rw [← hs2] at h2
  have h3 := UpdateRate_same s2.1 s2.2 a cf_map 20971520
  rw [← hs3] at h3
  have hreg1 : s1.1.db_id_to_write_rate_map_ = [cf_map] := h1.1.trans hreg0
  have hreg2 : s2.1.db_id_to_write_rate_map_ = [cf_map] := h2.1.trans hreg1
  have hreg3 : s3.1.db_id_to_write_rate_map_ = [cf_map] := h3.1.trans hreg2
  have hmax1 : s1.1.max_delayed_write_rate_ = max_rate := h1.2.1.trans hmax0
  have hmax2 : s2.1.max_delayed_write_rate_ = max_rate := h2.2.1.trans hmax1
  have hmax3 : s3.1.max_delayed_write_rate_ = max_rate := h3.2.1.trans hmax2
  -- the entries of the map
  have he1 : (s1.2 cf_map).entries = [(a, 2097152)] := by
    rw [h1.2.2]; simp [emptyMaps, CfIdToRateMap.insert_or_assign]
  have he2 : (s2.2 cf_map).entries = [(b, 10485760), (a, 2097152)] := by
    rw [h2.2.2]
    unfold CfIdToRateMap.insert_or_assign
    rw [he1]
    simp [List.lookup, hbeq1]
  have he3 : (s3.2 cf_map).entries = [(b, 10485760), (a, 20971520)] := by
    rw [h3.2.2]
    unfold CfIdToRateMap.insert_or_assign
    rw [he2]
    simp [List.lookup, hbeq1, hbeq2, hab, hba]
  -- the states are reachable
  have r0 : RateReachable σ0 emptyMaps := by
    rw [hσ0]; exact RateReachable.add _ _ cf_map (RateReachable.init _ _ _) rfl
  have r1 : RateReachable s1.1 s1.2 := by
    rw [hs1]; exact RateReachable.update _ _ _ _ _ r0 (by rw [hreg0]; simp)
  have r2 : RateReachable s2.1 s2.2 := by
    rw [hs2]; exact RateReachable.update _ _ _ _ _ r1 (by rw [hreg1]; simp)
  have r3 : RateReachable s3.1 s3.2 := by
    rw [hs3]; exact RateReachable.update _ _ _ _ _ r2 (by rw [hreg2]; simp)
  have hd2 : s2.1.delayed_write_rate = 2097152 := by
    show s2.1.delayed_write_rate_ = _
    rw [r2.inv.rate_eq, GetMapMinRate_single hreg2, he2, hmax2]
    simp only [List.foldl]
    split_ifs <;> omega
  have hd3 : s3.1.delayed_write_rate = 10485760 := by
    show s3.1.delayed_write_rate_ = _
    rw [r3.inv.rate_eq, GetMapMinRate_single hreg3, he3, hmax3]
    simp only [List.foldl]
    split_ifs <;> omega
  -- the deletion
  have hcount : (s3.2 cf_map).count b ≠ 0 := by
    intro h0
    exact (count_eq_zero_iff _ _).mp h0 10485760 (by rw [he3]; simp)
  obtain ⟨s4, hs4⟩ : ∃ s4, DeleteCfFromMapAndMaybeUpdateDelayRate s3.1 s3.2 b cf_map = some s4 := by
    unfold DeleteCfFromMapAndMaybeUpdateDelayRate
    simp only [assert, hcount, ne_eq, not_false_eq_true, decide_True, if_true, Option.some_bind]
    exact ⟨_, rfl⟩
  have r4 : RateReachable s4.1 s4.2 :=
    RateReachable.delete _ _ _ _ _ r3 (by rw [hreg3]; simp) hs4
  have hs4' := hs4
  unfold DeleteCfFromMapAndMaybeUpdateDelayRate at hs4'
  simp only [assert, hcount, ne_eq, not_false_eq_true, decide_True, if_true, Option.some_bind,
    Option.some.injEq] at hs4'
  have hreg4 : s4.1.db_id_to_write_rate_map_ = [cf_map] := by
    rw [← hs4']
    show (if IsMinRate s3.1 s3.2 b cf_map = true then _ else _ : WriteController
      ).db_id_to_write_rate_map_ = _
    split_ifs <;> exact hreg3
  have hmax4 : s4.1.max_delayed_write_rate_ = max_rate := by
    rw [← hs4']
    show (if IsMinRate s3.1 s3.2 b cf_map = true then _ else _ : WriteController
      ).max_delayed_write_rate_ = _
    split_ifs <;> exact hmax3
  have he4 : (s4.2 cf_map).entries = [(a, 20971520)] := by
    rw [← hs4']
    show (Function.update s3.2 cf_map ((s3.2 cf_map).erase b) cf_map).entries = _
    rw [Function.update_same]
    unfold CfIdToRateMap.erase
    rw [he3]
    simp [List.filter, hab, hbeq1, hbeq2]
  have hd4 : s4.1.delayed_write_rate = 20971520 := by
    show s4.1.delayed_write_rate_ = _
    rw [r4.inv.rate_eq, GetMapMinRate_single hreg4, he4, hmax4]
    simp only [List.foldl]
    split_ifs <;> omega
  rw [htwo, hs4]
  simp only [Option.some_bind, hd2, hd3, hd4]

/-- C13: in every state that is reachable from a newly constructed controller by
`AddToDbRateMap` of an empty map and by `UpdateRate`,
`DeleteCfFromMapAndMaybeUpdateDelayRate` and `RemoveFromDbRateMap` on registered
maps, hence after every `UpdateRate` and after every deletion,
`delayed_write_rate()` is the minimum of the rates stored in the registered maps,
clamped to `[1, max_delayed_write_rate()]`: it is in that range, it is at most
every stored rate (raised to 1 when the rate is 0), and it is
`max_delayed_write_rate()` or a stored rate (raised to 1); it is
`max_delayed_write_rate()` when no rate is stored, and it is what
`GetMapMinRate()` returns, raised to 1. In the scenario of two sources with a
maximal rate of at least 20 MB/s, the rates 2 MB/s and 10 MB/s give 2 MB/s, the
update of the first to 20 MB/s gives 10 MB/s, and the deletion of the second
gives 20 MB/s. -/
theorem C13_min_rate_aggregation (σ : WriteController) (maps : RateMaps)
    (hr : RateReachable σ maps) :
    1 ≤ σ.delayed_write_rate ∧ σ.delayed_write_rate ≤ σ.max_delayed_write_rate ∧
    (∀ r, HasRate σ maps r → σ.delayed_write_rate ≤ max 1 r) ∧
    (σ.delayed_write_rate = σ.max_delayed_write_rate ∨
      ∃ r, HasRate σ maps r ∧ σ.delayed_write_rate = max 1 r) ∧
    ((∀ r, ¬ HasRate σ maps r) → σ.delayed_write_rate = σ.max_delayed_write_rate) ∧
    σ.delayed_write_rate = max 1 (GetMapMinRate σ maps) ∧
    ∀ (dynamic_delay : Bool) (max_rate a b cf_map : Nat), a ≠ b → 20971520 ≤ max_rate →
      twoSources dynamic_delay max_rate a b cf_map 2097152 10485760 20971520 =
        some [2097152, 10485760, 20971520] := by
  have hi := hr.inv
  refine ⟨hi.lo, hi.hi, hi.le, hi.attained, ?_, hi.rate_eq, ?_⟩
  · intro hno
    rcases hi.attained with h | ⟨r, h, _⟩
    · exact h
    · exact absurd h (hno r)
  · intro dd max_rate a b cf_map hab hmax
    exact twoSources_rates dd max_rate a b cf_map hab hmax

theorem exampleRates_reachable : RateReachable exampleRates.1 exampleRates.2 :=
  RateReachable.update _ emptyMaps 1 0 2097152
    (RateReachable.add _ emptyMaps 0 (RateReachable.init false 33554432 emptyMaps) rfl)
    (by decide)

/-- Witness of C13: the controller with one source of rate 2 MB/s. -/
theorem C13_witness :
    RateReachable exampleRates.1 exampleRates.2 ∧
    (1 ≤ exampleRates.1.delayed_write_rate ∧
    exampleRates.1.delayed_write_rate ≤ exampleRates.1.max_delayed_write_rate ∧
    (∀ r, HasRate exampleRates.1 exampleRates.2 r →
      exampleRates.1.delayed_write_rate ≤ max 1 r) ∧
    (exampleRates.1.delayed_write_rate = exampleRates.1.max_delayed_write_rate ∨
      ∃ r, HasRate exampleRates.1 exampleRates.2 r ∧
        exampleRates.1.delayed_write_rate = max 1 r) ∧
    ((∀ r, ¬ HasRate exampleRates.1 exampleRates.2 r) →
      exampleRates.1.delayed_write_rate = exampleRates.1.max_delayed_write_rate) ∧
    exampleRates.1.delayed_write_rate =
      max 1 (GetMapMinRate exampleRates.1 exampleRates.2) ∧
    ∀ (dynamic_delay : Bool) (max_rate a b cf_map : Nat), a ≠ b → 20971520 ≤ max_rate →
      twoSources dynamic_delay max_rate a b cf_map 2097152 10485760 20971520 =
        some [2097152, 10485760, 20971520]) :=
  ⟨exampleRates_reachable,
    C13_min_rate_aggregation exampleRates.1 exampleRates.2 exampleRates_reachable⟩

theorem u64_of_lt {n : Nat} (h : n < 2 ^ 64) : u64 n = n := Nat.mod_eq_of_lt h

theorem u64_lt (n : Nat) : u64 n < 2 ^ 64 := Nat.mod_lt _ (by norm_num)

theorem u64_le (n : Nat) : u64 n ≤ n := Nat.mod_le _ _

theorem sub64_of_le {a b : Nat} (h : b ≤ a) (ha : a < 2 ^ 64) : sub64 a b = a - b := by
  unfold sub64
  rw [show a + 2 ^ 64 - b = (a - b) + 2 ^ 64 by omega, Nat.add_mod_right]
  exact Nat.mod_eq_of_lt (by omega)


/-- The `double` of `needed_delay` differs from `over * 1000000 / rate` by at
most the fraction `2 ^ -50` of it. -/
theorem needed_value (over rate : Nat) (hrate : 0 < rate) :
    (1 - 1 / 2 ^ 50) * ((over : ℚ) * 1000000 / (rate : ℚ)) ≤
        (Double.mul
          (Double.div (Double.mul (Double.literal 1 1) (Double.ofUInt64 over))
            (Double.ofUInt64 rate))
          (Double.ofUInt64 1000000)).toRat ∧
      (Double.mul
          (Double.div (Double.mul (Double.literal 1 1) (Double.ofUInt64 over))
            (Double.ofUInt64 rate))
          (Double.ofUInt64 1000000)).toRat ≤
        (1 + 1 / 2 ^ 50) * ((over : ℚ) * 1000000 / (rate : ℚ)) := by
  have h1 := Double.ofUInt64_bounds over
  have h2 := Double.mul_bounds (Double.literal 1 1) (Double.ofUInt64 over)
  rw [Double.literal_one, one_mul] at h2
  have hb := Double.ofUInt64_bounds rate
  have h3 := Double.div_bounds (Double.mul (Double.literal 1 1) (Double.ofUInt64 over))
    (Double.ofUInt64 rate) (Double.ofUInt64_pos rate hrate)
  have h4 := Double.mul_bounds
    (Double.div (Double.mul (Double.literal 1 1) (Double.ofUInt64 over)) (Double.ofUInt64 rate))
    (Double.ofUInt64 1000000)
  rw [Double.ofUInt64_million] at h4
  have hr : (0 : ℚ) < (rate : ℚ) := by exact_mod_cast hrate
  have hx : (0 : ℚ) ≤ (over : ℚ) * 1000000 / (rate : ℚ) := by positivity
  have h := Double.needed_chain (1 - 1 / 2 ^ 53) (1 + 1 / 2 ^ 53) (by norm_num)
    (by norm_num) (Nat.cast_nonneg over) hr h1 h2 hb h3 h4
  constructor
  · refine le_trans (mul_le_mul_of_nonneg_right ?_ hx) h.1
    norm_num
  · refine le_trans h.2 (mul_le_mul_of_nonneg_right ?_ hx)
    norm_num

/-- The `double` of the refill differs from `(elapsed * rate + 999999) /
1000000` by at most the fraction `2 ^ -50` of it. -/
theorem refill_value (elapsed rate : Nat) :
    (1 - 1 / 2 ^ 50) * (((elapsed * rate + 999999 : Nat) : ℚ) / 1000000) ≤
        (Double.add
          (Double.mul
            (Double.div (Double.mul (Double.literal 1 1) (Double.ofUInt64 elapsed))
              (Double.ofUInt64 1000000))
            (Double.ofUInt64 rate))
          (Double.literal 999999 1000000)).toRat ∧
      (Double.add
          (Double.mul
            (Double.div (Double.mul (Double.literal 1 1) (Double.ofUInt64 elapsed))
              (Double.ofUInt64 1000000))
            (Double.ofUInt64 rate))
          (Double.literal 999999 1000000)).toRat ≤
        (1 + 1 / 2 ^ 50) * (((elapsed * rate + 999999 : Nat) : ℚ) / 1000000) := by
  have h1 := Double.ofUInt64_bounds elapsed
  have h2 := Double.mul_bounds (Double.literal 1 1) (Double.ofUInt64 elapsed)
  rw [Double.literal_one, one_mul] at h2
  have h3 := Double.div_bounds (Double.mul (Double.literal 1 1) (Double.ofUInt64 elapsed))
    (Double.ofUInt64 1000000) (Double.ofUInt64_pos 1000000 (by norm_num))
  rw [Double.ofUInt64_million] at h3
  have hb := Double.ofUInt64_bounds rate
  have h4 := Double.mul_bounds
    (Double.div (Double.mul (Double.literal 1 1) (Double.ofUInt64 elapsed))
      (Double.ofUInt64 1000000))
    (Double.ofUInt64 rate)
  have h5 := Double.add_bounds
    (Double.mul
      (Double.div (Double.mul (Double.literal 1 1) (Double.ofUInt64 elapsed))
        (Double.ofUInt64 1000000))
      (Double.ofUInt64 rate))
    (Double.literal 999999 1000000)
  rw [Double.literal_0_999999] at h5
  have h := Double.refill_chain (1 - 1 / 2 ^ 53) (1 + 1 / 2 ^ 53)
    (999999 / 1000000) (by norm_num) (by norm_num) (by norm_num)
    (Nat.cast_nonneg elapsed) (Nat.cast_nonneg rate) h1 h2 h3 hb h4
    (by constructor <;> norm_num) (by norm_num) h5
  have e : ((elapsed * rate + 999999 : Nat) : ℚ) / 1000000 =
      (elapsed : ℚ) * (rate : ℚ) / 1000000 + 999999 / 1000000 := by
    push_cast
    ring
  rw [e]
  have hx : (0 : ℚ) ≤ (elapsed : ℚ) * (rate : ℚ) / 1000000 + 999999 / 1000000 := by positivity
  constructor
  · refine le_trans (mul_le_mul_of_nonneg_right ?_ hx) h.1
    norm_num
  · refine le_trans h.2 (mul_le_mul_of_nonneg_right ?_ hx)
    norm_num

/-- The conversion of a `double` within the fraction `2 ^ -50` of the quotient
`w / d` of natural numbers, when the quotient is below `2 ^ 63`. -/
theorem toUInt64_near (a : Double) (w d : Nat) (hd : 0 < d) (hw : w < 2 ^ 63 * d)
    (h : (1 - 1 / 2 ^ 50) * ((w : ℚ) / (d : ℚ)) ≤ a.toRat ∧
      a.toRat ≤ (1 + 1 / 2 ^ 50) * ((w : ℚ) / (d : ℚ))) :
    ∃ v, Double.toUInt64 a = some v ∧ v < 2 ^ 64 ∧
      v * d * 2 ^ 50 ≤ w * (2 ^ 50 + 1) ∧ w * (2 ^ 50 - 1) < (v + 1) * d * 2 ^ 50 := by
  have hdq : (0 : ℚ) < (d : ℚ) := by exact_mod_cast hd
  have hwq : (w : ℚ) < 2 ^ 63 * (d : ℚ) := by exact_mod_cast hw
  have hq : (w : ℚ) / (d : ℚ) < 2 ^ 63 := by
    rw [div_lt_iff₀ hdq]
    exact hwq
  have hq0 : (0 : ℚ) ≤ (w : ℚ) / (d : ℚ) := by positivity
  have hy : a.toRat < ((2 ^ 64 : Nat) : ℚ) := by
    push_cast
    calc a.toRat ≤ (1 + 1 / 2 ^ 50) * ((w : ℚ) / (d : ℚ)) := h.2
      _ ≤ 2 * ((w : ℚ) / (d : ℚ)) := mul_le_mul_of_nonneg_right (by norm_num) hq0
      _ < 2 * 2 ^ 63 := by linarith
      _ = 2 ^ 64 := by norm_num
  have hfl : ⌊a.toRat⌋₊ < 2 ^ 64 := (Nat.floor_lt (Double.toRat_nonneg a)).mpr hy
  refine ⟨⌊a.toRat⌋₊, ?_, hfl, ?_, ?_⟩
  · rw [Double.toUInt64_eq, if_pos hfl]
  · have h1 : (⌊a.toRat⌋₊ : ℚ) ≤ (1 + 1 / 2 ^ 50) * ((w : ℚ) / (d : ℚ)) :=
      le_trans (Nat.floor_le (Double.toRat_nonneg a)) h.2
    have h2 : (⌊a.toRat⌋₊ : ℚ) * (d : ℚ) * 2 ^ 50 ≤ (w : ℚ) * (2 ^ 50 + 1) := by
      have := mul_le_mul_of_nonneg_right h1 (le_of_lt (mul_pos hdq (by norm_num : (0 : ℚ) < 2 ^ 50)))
      calc (⌊a.toRat⌋₊ : ℚ) * (d : ℚ) * 2 ^ 50 = (⌊a.toRat⌋₊ : ℚ) * ((d : ℚ) * 2 ^ 50) := by ring
        _ ≤ (1 + 1 / 2 ^ 50) * ((w : ℚ) / (d : ℚ)) * ((d : ℚ) * 2 ^ 50) := this
        _ = (w : ℚ) * (2 ^ 50 + 1) := by
            field_simp
            ring
    exact_mod_cast h2
  · have h1 : (1 - 1 / 2 ^ 50) * ((w : ℚ) / (d : ℚ)) < (⌊a.toRat⌋₊ : ℚ) + 1 :=
      lt_of_le_of_lt h.1 (Nat.lt_floor_add_one _)
    have h2 : (w : ℚ) * (2 ^ 50 - 1) < ((⌊a.toRat⌋₊ : ℚ) + 1) * (d : ℚ) * 2 ^ 50 := by
      have := mul_lt_mul_of_pos_right h1 (mul_pos hdq (by norm_num : (0 : ℚ) < 2 ^ 50))
      calc (w : ℚ) * (2 ^ 50 - 1) = (1 - 1 / 2 ^ 50) * ((w : ℚ) / (d : ℚ)) * ((d : ℚ) * 2 ^ 50) := by
            field_simp
            ring
        _ < ((⌊a.toRat⌋₊ : ℚ) + 1) * ((d : ℚ) * 2 ^ 50) := this
        _ = ((⌊a.toRat⌋₊ : ℚ) + 1) * (d : ℚ) * 2 ^ 50 := by ring
    have e1 : ((w * (2 ^ 50 - 1) : Nat) : ℚ) = (w : ℚ) * (2 ^ 50 - 1) := by norm_num
    have e2 : (((⌊a.toRat⌋₊ + 1) * d * 2 ^ 50 : Nat) : ℚ) =
        ((⌊a.toRat⌋₊ : ℚ) + 1) * (d : ℚ) * 2 ^ 50 := by
      push_cast
      ring
    have h3 : ((w * (2 ^ 50 - 1) : Nat) : ℚ) < (((⌊a.toRat⌋₊ + 1) * d * 2 ^ 50 : Nat) : ℚ) := by
      rw [e1, e2]
      exact h2
    exact Nat.cast_lt.mp h3

/-- The value `needed_delay` when the quotient is below `2 ^ 63`: it is a value
of `uint64_t` within the fraction `2 ^ -50` of the quotient. -/
theorem needed_delay_bounds (over rate : Nat) (hrate : 1 ≤ rate)
    (hq : over * 1000000 < 2 ^ 63 * rate) :
    ∃ needed, GetDelay.needed_delay over rate = some needed ∧ needed < 2 ^ 64 ∧
      needed * rate * 2 ^ 50 ≤ over * 1000000 * (2 ^ 50 + 1) ∧
      over * 1000000 * (2 ^ 50 - 1) < (needed + 1) * rate * 2 ^ 50 := by
  have h := needed_value over rate hrate
  have e : (over : ℚ) * 1000000 / (rate : ℚ) = ((over * 1000000 : Nat) : ℚ) / (rate : ℚ) := by
    push_cast
    ring
  rw [e] at h
  obtain ⟨v, hv, hlt, h1, h2⟩ := toUInt64_near _ (over * 1000000) rate hrate hq h
  refine ⟨v, ?_, hlt, h1, h2⟩
  unfold GetDelay.needed_delay
  rw [if_neg (by omega), hv]

/-- The credit of a refill when the product is below `2 ^ 63` bytes: it is a
value of `uint64_t` within the fraction `2 ^ -50` of
`(elapsed * rate + 999999) / 1000000`. -/
theorem refill_bytes_bounds (elapsed rate : Nat)
    (hq : elapsed * rate + 999999 < 2 ^ 63 * 1000000) :
    ∃ bytes, GetDelay.refill_bytes elapsed rate = some bytes ∧ bytes < 2 ^ 64 ∧
      bytes * 1000000 * 2 ^ 50 ≤ (elapsed * rate + 999999) * (2 ^ 50 + 1) ∧
      (elapsed * rate + 999999) * (2 ^ 50 - 1) < (bytes + 1) * 1000000 * 2 ^ 50 := by
  have h := refill_value elapsed rate
  have e : ((elapsed * rate + 999999 : Nat) : ℚ) / 1000000 =
      ((elapsed * rate + 999999 : Nat) : ℚ) / ((1000000 : Nat) : ℚ) := by
    push_cast
    ring
  rw [e] at h
  obtain ⟨v, hv, hlt, h1, h2⟩ :=
    toUInt64_near _ (elapsed * rate + 999999) 1000000 (by norm_num) hq h
  exact ⟨v, hv, hlt, h1, h2⟩

/-- The value `needed_delay` for at most `2 ^ 50 / 1000000` bytes: the quotient
`over * 1000000 / rate` rounded down, or the quotient less one when the division
has no remainder. -/
theorem needed_delay_moderate (over rate : Nat) (hrate : 1 ≤ rate)
    (hq : over * 1000000 < 2 ^ 50) :
    ∃ needed, GetDelay.needed_delay over rate = some needed ∧
      needed * rate ≤ over * 1000000 ∧ over * 1000000 ≤ (needed + 1) * rate ∧
      over * 1000000 / rate ≤ needed + 1 ∧ needed ≤ over * 1000000 / rate ∧
      (over * 1000000 % rate ≠ 0 → needed = over * 1000000 / rate) := by
  have hq1 : over * 1000000 < 2 ^ 63 * rate :=
    lt_of_lt_of_le (lt_of_lt_of_le hq (by norm_num)) (Nat.le_mul_of_pos_right _ hrate)
  obtain ⟨v, hv, -, h1, h2⟩ := needed_delay_bounds over rate hrate hq1
  have hA : v * rate ≤ over * 1000000 := by
    generalize over * 1000000 = P at hq h1
    generalize v * rate = A at h1
    omega
  have hB : over * 1000000 ≤ (v + 1) * rate := by
    generalize over * 1000000 = P at hq h2
    generalize (v + 1) * rate = B at h2
    omega
  have hC : over * 1000000 / rate ≤ v + 1 := by
    apply Nat.div_le_of_le_mul
    rw [Nat.mul_comm rate]
    exact hB
  have hD : v ≤ over * 1000000 / rate := (Nat.le_div_iff_mul_le hrate).mpr hA
  refine ⟨v, hv, hA, hB, hC, hD, fun hne => ?_⟩
  by_contra hcon
  have hlt : v + 1 ≤ over * 1000000 / rate := by omega
  have h3 : (v + 1) * rate ≤ over * 1000000 := (Nat.le_div_iff_mul_le hrate).mp hlt
  have h4 : over * 1000000 = (v + 1) * rate := le_antisymm hB h3
  rw [h4, Nat.mul_mod_left] at hne
  exact hne rfl

/-- The credit of a refill when `elapsed * rate` is below `2 ^ 49`: the
quotient `elapsed * rate / 1000000` rounded up, or one less when the remainder
of the division is 1. -/
theorem refill_bytes_moderate (elapsed rate : Nat) (hq : elapsed * rate < 2 ^ 49) :
    ∃ bytes, GetDelay.refill_bytes elapsed rate = some bytes ∧
      (elapsed * rate + 999999) / 1000000 ≤ bytes + 1 ∧
      bytes ≤ (elapsed * rate + 999999) / 1000000 ∧
      (elapsed * rate % 1000000 ≠ 1 → bytes = (elapsed * rate + 999999) / 1000000) := by
  obtain ⟨v, hv, -, h1, h2⟩ := refill_bytes_bounds elapsed rate (by omega)
  generalize elapsed * rate = P at hq h1 h2 ⊢
  have hdm := Nat.div_add_mod (P + 999999) 1000000
  have hm := Nat.mod_lt (P + 999999) (by norm_num : 0 < 1000000)
  have hdm2 := Nat.div_add_mod P 1000000
  have hm2 := Nat.mod_lt P (by norm_num : 0 < 1000000)
  generalize (P + 999999) / 1000000 = C at hdm ⊢
  generalize (P + 999999) % 1000000 = ρ at hdm hm
  generalize P / 1000000 = C2 at hdm2
  generalize P % 1000000 = k at hdm2 hm2 ⊢
  have hρ : k ≠ 1 → 1 ≤ ρ := by
    intro hk
    omega
  refine ⟨v, hv, by omega, by omega, fun hk => ?_⟩
  have h3 := hρ hk
  clear hdm2 hm2 hρ hk
  by_contra hne
  have h4 : (v + 1) * 1000000 ≤ C * 1000000 := Nat.mul_le_mul_right _ (by omega)
  omega

/-- The `double` arithmetic of the refill stays in the range of binary64: for
values of `uint64_t`, every intermediate result of `1.0 * elapsed /
kMicrosPerSecond * delayed_write_rate_ + 0.999999` is zero or a normal number,
so that no operation overflows or loses bits to a subnormal result. -/
theorem refill_bytes_normal (elapsed rate : Nat) (he : elapsed < 2 ^ 64) (hr : rate < 2 ^ 64) :
    (Double.ofUInt64 elapsed).isNormal ∧
    (Double.mul (Double.literal 1 1) (Double.ofUInt64 elapsed)).isNormal ∧
    (Double.div (Double.mul (Double.literal 1 1) (Double.ofUInt64 elapsed))
      (Double.ofUInt64 1000000)).isNormal ∧
    (Double.ofUInt64 rate).isNormal ∧
    (Double.mul
      (Double.div (Double.mul (Double.literal 1 1) (Double.ofUInt64 elapsed))
        (Double.ofUInt64 1000000))
      (Double.ofUInt64 rate)).isNormal ∧
    (Double.literal 999999 1000000).isNormal ∧
    (Double.add
      (Double.mul
        (Double.div (Double.mul (Double.literal 1 1) (Double.ofUInt64 elapsed))
          (Double.ofUInt64 1000000))
        (Double.ofUInt64 rate))
      (Double.literal 999999 1000000)).isNormal := by
  have h1 := Double.ofUInt64_inRange elapsed he
  have h2 := Double.mul_inRange Double.literal_one_inRange h1
  have h3 := Double.div_inRange h2 (Double.ofUInt64_pos 1000000 (by norm_num))
    Double.ofUInt64_million_inRange
  have hb := Double.ofUInt64_inRange rate hr
  have h4 := Double.mul_inRange h3 hb
  have hc : Double.literal 999999 1000000 = ⟨9007190247541737, -53⟩ := by decide
  have h5 := Double.add_inRange h4 (by norm_num)
    (by rw [Double.literal_0_999999]; norm_num) (by rw [Double.literal_0_999999]; norm_num)
  refine ⟨h1.normal (by norm_num) (by norm_num), h2.normal (by norm_num) (by norm_num),
    h3.normal (by norm_num) (by norm_num), hb.normal (by norm_num) (by norm_num),
    h4.normal (by norm_num) (by norm_num), ?_, h5.normal (by norm_num) (by norm_num)⟩
  rw [hc]
  right
  decide

/-- The `double` arithmetic of `needed_delay` stays in the range of binary64:
for values of `uint64_t` and a rate that is not zero, every intermediate result
of `1.0 * bytes_over_budget / delayed_write_rate_ * kMicrosPerSecond` is zero or
a normal number. -/
theorem needed_delay_normal (over rate : Nat) (ho : over < 2 ^ 64) (hr1 : 1 ≤ rate)
    (hr : rate < 2 ^ 64) :
    (Double.ofUInt64 over).isNormal ∧
    (Double.mul (Double.literal 1 1) (Double.ofUInt64 over)).isNormal ∧
    (Double.ofUInt64 rate).isNormal ∧
    (Double.div (Double.mul (Double.literal 1 1) (Double.ofUInt64 over))
      (Double.ofUInt64 rate)).isNormal ∧
    (Double.ofUInt64 1000000).isNormal ∧
    (Double.mul
      (Double.div (Double.mul (Double.literal 1 1) (Double.ofUInt64 over))
        (Double.ofUInt64 rate))
      (Double.ofUInt64 1000000)).isNormal := by
  have h1 := Double.ofUInt64_inRange over ho
  have h2 := Double.mul_inRange Double.literal_one_inRange h1
  have hb := Double.ofUInt64_inRange rate hr
  have h3 := Double.div_inRange h2 (Double.ofUInt64_pos rate hr1) hb
  have h4 := Double.mul_inRange h3 Double.ofUInt64_million_inRange
  exact ⟨h1.normal (by norm_num) (by norm_num), h2.normal (by norm_num) (by norm_num),
    hb.normal (by norm_num) (by norm_num), h3.normal (by norm_num) (by norm_num),
    Double.ofUInt64_million_inRange.normal (by norm_num) (by norm_num),
    h4.normal (by norm_num) (by norm_num)⟩

/-- Rounding up a quotient of natural numbers. -/
theorem ceil_div_eq (m d : Nat) (hd : 0 < d) : ⌈(m : ℚ) / (d : ℚ)⌉₊ = (m + (d - 1)) / d := by
  apply eq_of_forall_ge_iff
  intro c
  rw [Nat.ceil_le, div_le_iff₀ (by exact_mod_cast hd)]
  have h1 : ((m : ℚ) ≤ (c : ℚ) * (d : ℚ)) ↔ m ≤ c * d := by norm_cast
  have h2 : (m + (d - 1)) / d ≤ c ↔ m + (d - 1) < (c + 1) * d := by
    rw [← Nat.lt_succ_iff, Nat.div_lt_iff_lt_mul hd]
  rw [h1, h2, Nat.add_mul, Nat.one_mul]
  omega

/-- Rounding down a quotient of natural numbers. -/
theorem floor_div_eq (m d : Nat) : ⌊(m : ℚ) / (d : ℚ)⌋₊ = m / d := Nat.floor_div_eq_div m d

/-- The refill with the credit that it earns written out. -/
theorem refill_eq (σ : WriteController) (time_now : Nat) :
    GetDelay.refill σ time_now =
      (GetDelay.refill_bytes (u64 (sub64 time_now σ.next_refill_time_ + 1000))
        σ.delayed_write_rate_).bind fun bytes =>
      some { σ with credit_in_bytes_ := u64 (σ.credit_in_bytes_ + bytes),
                    next_refill_time_ := u64 (time_now + 1000) } := rfl

/-- The end of `GetDelay` when nothing wraps: the delay that is needed, which is
within the fraction `2 ^ -50` of the quotient, is added to `next_refill_time_`,
which is not before `time_now`. -/
theorem delay_spec (σ : WriteController) (time_now num_bytes : Nat)
    (hn : num_bytes < 2 ^ 64)
    (hc : σ.credit_in_bytes_ < num_bytes) (hr : 1 ≤ σ.delayed_write_rate_)
    (hb : σ.next_refill_time_ + (num_bytes - σ.credit_in_bytes_) * 1000000 < 2 ^ 63)
    (hnow : time_now ≤ σ.next_refill_time_) :
    ∃ needed,
      GetDelay.needed_delay (num_bytes - σ.credit_in_bytes_) σ.delayed_write_rate_ =
        some needed ∧
      needed * σ.delayed_write_rate_ * 2 ^ 50 ≤
        (num_bytes - σ.credit_in_bytes_) * 1000000 * (2 ^ 50 + 1) ∧
      (num_bytes - σ.credit_in_bytes_) * 1000000 * (2 ^ 50 - 1) <
        (needed + 1) * σ.delayed_write_rate_ * 2 ^ 50 ∧
      σ.next_refill_time_ + needed < 2 ^ 64 ∧
      GetDelay.delay σ time_now num_bytes =
        some (max (σ.next_refill_time_ + needed - time_now) 1000,
          { σ with credit_in_bytes_ := 0,
                   next_refill_time_ := σ.next_refill_time_ + needed }) := by
  have hq : (num_bytes - σ.credit_in_bytes_) * 1000000 < 2 ^ 63 * σ.delayed_write_rate_ :=
    lt_of_lt_of_le (by omega) (Nat.le_mul_of_pos_right _ hr)
  obtain ⟨needed, hnd, -, hup, hlo⟩ :=
    needed_delay_bounds (num_bytes - σ.credit_in_bytes_) σ.delayed_write_rate_ hr hq
  have hone : needed * 2 ^ 50 ≤ needed * σ.delayed_write_rate_ * 2 ^ 50 :=
    Nat.mul_le_mul_right _ (Nat.le_mul_of_pos_right _ hr)
  have hwrap : σ.next_refill_time_ + needed < 2 ^ 64 := by
    generalize (num_bytes - σ.credit_in_bytes_) * 1000000 = P at hb hup
    generalize needed * σ.delayed_write_rate_ * 2 ^ 50 = A at hup hone
    omega
  refine ⟨needed, hnd, hup, hlo, hwrap, ?_⟩
  unfold GetDelay.delay
  rw [sub64_of_le (le_of_lt hc) hn, hnd]
  simp only [assert, hc, decide_True, if_true, Option.some_bind]
  rw [u64_of_lt hwrap, sub64_of_le (by omega) hwrap]

/-- C14: in every state in which `total_stopped_ > 0` or `total_delayed_ == 0`,
for every clock value and every `num_bytes`, `GetDelay` returns 0 and leaves the
controller as it is, `credit_in_bytes_`, `next_refill_time_` and
`delayed_write_rate_` included. -/
theorem C14_get_delay_stopped_or_idle (σ : WriteController) (clock num_bytes : Nat)
    (h : 0 < σ.total_stopped_ ∨ σ.total_delayed_ = 0) :
    ∃ σ1, GetDelay σ clock num_bytes = some (0, σ1) ∧ σ1 = σ ∧
      σ1.credit_in_bytes_ = σ.credit_in_bytes_ ∧
      σ1.next_refill_time_ = σ.next_refill_time_ ∧
      σ1.delayed_write_rate_ = σ.delayed_write_rate_ := by
  refine ⟨σ, ?_, rfl, rfl, rfl, rfl⟩
  unfold GetDelay
  by_cases hs : 0 < σ.total_stopped_
  · rw [if_pos hs]
  · rw [if_neg hs, if_pos (h.resolve_left hs)]

/-- C15: in every state that is not stopped and is delayed (`total_delayed_` is
not 0) with `credit_in_bytes_ >= num_bytes`, `GetDelay` returns 0, takes exactly
`num_bytes` from `credit_in_bytes_` without wrapping and leaves every other
field, `next_refill_time_` included; the result is the same for every clock
value. -/
theorem C15_get_delay_fast_path (σ : WriteController) (clock num_bytes : Nat)
    (hs : ¬ 0 < σ.total_stopped_) (hd : σ.total_delayed_ ≠ 0)
    (hc : num_bytes ≤ σ.credit_in_bytes_) (hcr : σ.credit_in_bytes_ < 2 ^ 64) :
    GetDelay σ clock num_bytes =
        some (0, { σ with credit_in_bytes_ := σ.credit_in_bytes_ - num_bytes }) ∧
      ∀ clock1, GetDelay σ clock1 num_bytes = GetDelay σ clock num_bytes := by
  have h : ∀ c, GetDelay σ c num_bytes =
      some (0, { σ with credit_in_bytes_ := σ.credit_in_bytes_ - num_bytes }) := by
    intro c
    unfold GetDelay
    rw [if_neg hs, if_neg hd, if_pos hc, sub64_of_le hc hcr]
  exact ⟨h clock, fun c => by rw [h c, h clock]⟩

/-- The bounds of the credit of a refill, with the quotient rounded up written
as in the claim. -/
theorem refill_bytes_ceil (elapsed rate : Nat) (hq : elapsed * rate < 2 ^ 49) :
    ∃ bytes, GetDelay.refill_bytes elapsed rate = some bytes ∧ bytes < 2 ^ 64 ∧
      ⌈(elapsed : ℚ) * (rate : ℚ) / 1000000⌉₊ ≤ bytes + 1 ∧
      bytes ≤ ⌈(elapsed : ℚ) * (rate : ℚ) / 1000000⌉₊ ∧
      (elapsed * rate % 1000000 ≠ 1 → bytes = ⌈(elapsed : ℚ) * (rate : ℚ) / 1000000⌉₊) := by
  have hceil : ⌈(elapsed : ℚ) * (rate : ℚ) / 1000000⌉₊ = (elapsed * rate + 999999) / 1000000 := by
    rw [show (elapsed : ℚ) * (rate : ℚ) / 1000000 =
      (((elapsed * rate : Nat) : ℚ) / ((1000000 : Nat) : ℚ)) by push_cast; ring,
      ceil_div_eq _ _ (by norm_num)]
  rw [hceil]
  obtain ⟨bytes, h1, h2, h3, h4⟩ := refill_bytes_moderate elapsed rate hq
  refine ⟨bytes, h1, ?_, h2, h3, h4⟩
  have : (elapsed * rate + 999999) / 1000000 ≤ elapsed * rate + 999999 := Nat.div_le_self _ _
  omega

/-- C16 (amended): when `GetDelay` reaches the slow path (not stopped, delayed,
credit below `num_bytes`) and `next_refill_time_`, set to the time when it was 0,
is not after the time `now`, the refill adds `bytes` to `credit_in_bytes_`, the
value of the `double` expression with each operation rounded to binary64. With
`elapsed = now - next_refill_time_ + 1000` and `elapsed * delayed_write_rate_`
below `2 ^ 49`, `bytes` is `ceil(elapsed * delayed_write_rate_ / 1000000)` when
the remainder of `elapsed * delayed_write_rate_` by 1000000 is not 1, and that
value or one less when the remainder is 1. The refill sets `next_refill_time_`
to `now + 1000` (both as `uint64_t`); if the new credit is at least `num_bytes`,
`GetDelay` takes `num_bytes` from it and returns 0, and otherwise it goes on to
the over-budget path. -/
theorem C16_refill_step (σ : WriteController) (clock num_bytes nrt0 elapsed : Nat)
    (hclock : clock < 2 ^ 64) (hs : ¬ 0 < σ.total_stopped_) (hd : σ.total_delayed_ ≠ 0)
    (hc : σ.credit_in_bytes_ < num_bytes)
    (h0 : nrt0 = if σ.next_refill_time_ = 0 then NowMicrosMonotonic clock
      else σ.next_refill_time_)
    (hle : nrt0 ≤ NowMicrosMonotonic clock)
    (he : elapsed = u64 (NowMicrosMonotonic clock - nrt0 + 1000))
    (hsize : elapsed * σ.delayed_write_rate_ < 2 ^ 49) :
    ∃ bytes σ2, GetDelay.refill_bytes elapsed σ.delayed_write_rate_ = some bytes ∧
      ⌈(elapsed : ℚ) * (σ.delayed_write_rate_ : ℚ) / 1000000⌉₊ ≤ bytes + 1 ∧
      bytes ≤ ⌈(elapsed : ℚ) * (σ.delayed_write_rate_ : ℚ) / 1000000⌉₊ ∧
      (elapsed * σ.delayed_write_rate_ % 1000000 ≠ 1 →
        bytes = ⌈(elapsed : ℚ) * (σ.delayed_write_rate_ : ℚ) / 1000000⌉₊) ∧
      GetDelay.refill (GetDelay.start σ (NowMicrosMonotonic clock))
          (NowMicrosMonotonic clock) = some σ2 ∧
      σ2 = { σ with credit_in_bytes_ := u64 (σ.credit_in_bytes_ + bytes),
                    next_refill_time_ := u64 (NowMicrosMonotonic clock + 1000) } ∧
      (num_bytes ≤ σ2.credit_in_bytes_ → GetDelay σ clock num_bytes =
        some (0, { σ2 with credit_in_bytes_ := σ2.credit_in_bytes_ - num_bytes })) ∧
      (σ2.credit_in_bytes_ < num_bytes → GetDelay σ clock num_bytes =
        GetDelay.delay σ2 (NowMicrosMonotonic clock) num_bytes) := by
  have hnow : NowMicrosMonotonic clock < 2 ^ 64 :=
    lt_of_le_of_lt (Nat.div_le_self _ _) hclock
  have hstart : (GetDelay.start σ (NowMicrosMonotonic clock)).next_refill_time_ = nrt0 := by
    unfold GetDelay.start
    rw [h0]
    split_ifs <;> rfl
  obtain ⟨bytes, hbytes, -, hb1, hb2, hb3⟩ := refill_bytes_ceil elapsed σ.delayed_write_rate_ hsize
  have hfields : ∀ σa : WriteController, σa = GetDelay.start σ (NowMicrosMonotonic clock) →
      σa.credit_in_bytes_ = σ.credit_in_bytes_ ∧
      σa.delayed_write_rate_ = σ.delayed_write_rate_ := by
    intro σa ha
    subst ha
    unfold GetDelay.start
    split_ifs <;> exact ⟨rfl, rfl⟩
  have hel : u64 (sub64 (NowMicrosMonotonic clock)
      (GetDelay.start σ (NowMicrosMonotonic clock)).next_refill_time_ + 1000) = elapsed := by
    rw [hstart, sub64_of_le hle hnow, he]
  have hrefill : GetDelay.refill (GetDelay.start σ (NowMicrosMonotonic clock))
      (NowMicrosMonotonic clock) =
      some { σ with credit_in_bytes_ := u64 (σ.credit_in_bytes_ + bytes),
                    next_refill_time_ := u64 (NowMicrosMonotonic clock + 1000) } := by
    rw [refill_eq, hel, (hfields _ rfl).1, (hfields _ rfl).2, hbytes, Option.some_bind]
    unfold GetDelay.start
    split_ifs <;> rfl
  refine ⟨bytes, _, hbytes, hb1, hb2, hb3, hrefill, rfl, ?_, ?_⟩
  · intro hge
    unfold GetDelay
    rw [if_neg hs, if_neg hd, if_neg (by omega)]
    simp only [hstart, hle, if_true, hrefill, Option.some_bind]
    rw [if_pos hge, sub64_of_le hge (u64_lt _)]
  · intro hlt
    unfold GetDelay
    rw [if_neg hs, if_neg hd, if_neg (by omega)]
    simp only [hstart, hle, if_true, hrefill, Option.some_bind]
    rw [if_neg (not_le.mpr hlt)]

/-- C17 (amended): in the over-budget path of `GetDelay`, with `over = num_bytes -
credit_in_bytes_`, the delay `needed_delay` is the value of the `double`
expression with each operation rounded to binary64: for every rate that is at
least 1 and every `over` with `over * 1000000` below `2 ^ 50`, it is
`floor(over * 1000000 / delayed_write_rate_)` when the division has a remainder,
and that value or one less when it has none; it is added to `next_refill_time_`
as a `uint64_t`. -/
theorem C17_needed_delay_rounds_down (σ : WriteController) (time_now num_bytes : Nat)
    (hn : num_bytes < 2 ^ 64) (hc : σ.credit_in_bytes_ < num_bytes)
    (hrate : 1 ≤ σ.delayed_write_rate_)
    (hsize : (num_bytes - σ.credit_in_bytes_) * 1000000 < 2 ^ 50) :
    ∃ needed,
      GetDelay.needed_delay (num_bytes - σ.credit_in_bytes_) σ.delayed_write_rate_ =
        some needed ∧
      ⌊((num_bytes - σ.credit_in_bytes_ : Nat) : ℚ) * 1000000 /
          (σ.delayed_write_rate_ : ℚ)⌋₊ ≤ needed + 1 ∧
      needed ≤ ⌊((num_bytes - σ.credit_in_bytes_ : Nat) : ℚ) * 1000000 /
          (σ.delayed_write_rate_ : ℚ)⌋₊ ∧
      ((num_bytes - σ.credit_in_bytes_) * 1000000 % σ.delayed_write_rate_ ≠ 0 →
        needed = ⌊((num_bytes - σ.credit_in_bytes_ : Nat) : ℚ) * 1000000 /
          (σ.delayed_write_rate_ : ℚ)⌋₊) ∧
      ∃ d, GetDelay.delay σ time_now num_bytes =
        some (d, { σ with credit_in_bytes_ := 0,
                          next_refill_time_ := u64 (σ.next_refill_time_ + needed) }) := by
  have hfl : ⌊((num_bytes - σ.credit_in_bytes_ : Nat) : ℚ) * 1000000 /
      (σ.delayed_write_rate_ : ℚ)⌋₊ =
      (num_bytes - σ.credit_in_bytes_) * 1000000 / σ.delayed_write_rate_ := by
    rw [show ((num_bytes - σ.credit_in_bytes_ : Nat) : ℚ) * 1000000 =
      (((num_bytes - σ.credit_in_bytes_) * 1000000 : Nat) : ℚ) by push_cast; ring,
      floor_div_eq]
  rw [hfl]
  obtain ⟨needed, hnd, -, -, h1, h2, h3⟩ :=
    needed_delay_moderate (num_bytes - σ.credit_in_bytes_) σ.delayed_write_rate_ hrate hsize
  refine ⟨needed, hnd, h1, h2, h3,
    max (sub64 (u64 (σ.next_refill_time_ + needed)) time_now) 1000, ?_⟩
  unfold GetDelay.delay
  rw [sub64_of_le (le_of_lt hc) hn, hnd]
  simp only [assert, hc, decide_True, if_true, Option.some_bind]

theorem start_credit (σ : WriteController) (t : Nat) :
    (GetDelay.start σ t).credit_in_bytes_ = σ.credit_in_bytes_ := by
  unfold GetDelay.start; split_ifs <;> rfl

theorem start_rate (σ : WriteController) (t : Nat) :
    (GetDelay.start σ t).delayed_write_rate_ = σ.delayed_write_rate_ := by
  unfold GetDelay.start; split_ifs <;> rfl

theorem start_time (σ : WriteController) (t : Nat) :
    (GetDelay.start σ t).next_refill_time_ =
      if σ.next_refill_time_ = 0 then t else σ.next_refill_time_ := by
  unfold GetDelay.start; split_ifs <;> rfl

/-- The refill when nothing wraps and the credit is a value of `uint64_t`. -/
theorem refill_spec (σ : WriteController) (time_now : Nat)
    (hle : σ.next_refill_time_ ≤ time_now) (hnow : time_now + 1000 < 2 ^ 64)
    (hcast : ((time_now + 1000) * σ.delayed_write_rate_ + 999999) / 1000000 < 2 ^ 63) :
    ∃ bytes, GetDelay.refill σ time_now =
      some { σ with credit_in_bytes_ := u64 (σ.credit_in_bytes_ + bytes),
                    next_refill_time_ := time_now + 1000 } := by
  have hel : u64 (sub64 time_now σ.next_refill_time_ + 1000) ≤ time_now + 1000 := by
    rw [sub64_of_le hle (by omega)]
    exact le_trans (u64_le _) (by omega)
  have hc : u64 (sub64 time_now σ.next_refill_time_ + 1000) * σ.delayed_write_rate_ + 999999 <
      2 ^ 63 * 1000000 := by
    have h1 := (Nat.div_lt_iff_lt_mul (by norm_num : 0 < 1000000)).mp hcast
    have h2 := Nat.mul_le_mul_right σ.delayed_write_rate_ hel
    omega
  obtain ⟨bytes, hb, -⟩ := refill_bytes_bounds _ _ hc
  refine ⟨bytes, ?_⟩
  rw [refill_eq, hb, Option.some_bind, u64_of_lt hnow]

/-- The body of `GetDelay` with the time written out. -/
theorem GetDelay_unfold (σ : WriteController) (clock num_bytes : Nat) :
    GetDelay σ clock num_bytes =
      if 0 < σ.total_stopped_ then some (0, σ)
      else if σ.total_delayed_ = 0 then some (0, σ)
      else if num_bytes ≤ σ.credit_in_bytes_ then
        some (0, { σ with credit_in_bytes_ := sub64 σ.credit_in_bytes_ num_bytes })
      else if (GetDelay.start σ (NowMicrosMonotonic clock)).next_refill_time_ ≤
          NowMicrosMonotonic clock then
        (GetDelay.refill (GetDelay.start σ (NowMicrosMonotonic clock))
          (NowMicrosMonotonic clock)).bind fun σ2 =>
        if num_bytes ≤ σ2.credit_in_bytes_ then
          some (0, { σ2 with credit_in_bytes_ := sub64 σ2.credit_in_bytes_ num_bytes })
        else GetDelay.delay σ2 (NowMicrosMonotonic clock) num_bytes
      else GetDelay.delay (GetDelay.start σ (NowMicrosMonotonic clock))
        (NowMicrosMonotonic clock) num_bytes := rfl

/-- C18: when nothing wraps (the clock, `next_refill_time_`, `num_bytes * 1000000`
and the credit of a refill are below `2 ^ 63`, so that the rounding of the
`double` arithmetic cannot take a sum to `2 ^ 64`) and the rate is at least 1,
`GetDelay` returns; whenever the
returned delay `d` is not 0, the call went through the over-budget path from a
state `σm` (the state after the refill, or the state at entry when no refill was
due) with `credit_in_bytes_ < num_bytes`: it set `credit_in_bytes_` to 0, added
`needed_delay` to `next_refill_time_`, which is then not before `now`, so that the
subtraction `next_refill_time_ - now` does not wrap, and `d` is the maximum of
that difference and 1000. So `d >= 1000`, and `next_refill_time_ >= now + 1000`
when the call refilled. -/
theorem C18_over_budget_postcondition (σ : WriteController) (clock num_bytes : Nat)
    (hclock : NowMicrosMonotonic clock + 1000 + num_bytes * 1000000 < 2 ^ 63)
    (hnrt : σ.next_refill_time_ + num_bytes * 1000000 < 2 ^ 63)
    (hrate : 1 ≤ σ.delayed_write_rate_)
    (hcast : ((NowMicrosMonotonic clock + 1000) * σ.delayed_write_rate_ + 999999) / 1000000
      < 2 ^ 63) :
    ∃ d σ1, GetDelay σ clock num_bytes = some (d, σ1) ∧
      (d ≠ 0 → ∃ σm needed_delay,
        ((GetDelay.start σ (NowMicrosMonotonic clock)).next_refill_time_ ≤
              NowMicrosMonotonic clock ∧
            GetDelay.refill (GetDelay.start σ (NowMicrosMonotonic clock))
              (NowMicrosMonotonic clock) = some σm ∨
          NowMicrosMonotonic clock <
              (GetDelay.start σ (NowMicrosMonotonic clock)).next_refill_time_ ∧
            σm = GetDelay.start σ (NowMicrosMonotonic clock)) ∧
        σm.credit_in_bytes_ < num_bytes ∧
        GetDelay.needed_delay (num_bytes - σm.credit_in_bytes_) σm.delayed_write_rate_ =
          some needed_delay ∧
        σ1 = { σm with credit_in_bytes_ := 0,
                       next_refill_time_ := σm.next_refill_time_ + needed_delay } ∧
        NowMicrosMonotonic clock ≤ σ1.next_refill_time_ ∧
        d = max (σ1.next_refill_time_ - NowMicrosMonotonic clock) 1000 ∧ 1000 ≤ d ∧
        ((GetDelay.start σ (NowMicrosMonotonic clock)).next_refill_time_ ≤
            NowMicrosMonotonic clock →
          NowMicrosMonotonic clock + 1000 ≤ σ1.next_refill_time_)) := by
  rw [GetDelay_unfold]
  generalize NowMicrosMonotonic clock = now at *
  by_cases hs : 0 < σ.total_stopped_
  · rw [if_pos hs]; exact ⟨0, σ, rfl, fun h => absurd rfl h⟩
  rw [if_neg hs]
  by_cases hd : σ.total_delayed_ = 0
  · rw [if_pos hd]; exact ⟨0, σ, rfl, fun h => absurd rfl h⟩
  rw [if_neg hd]
  by_cases hc : num_bytes ≤ σ.credit_in_bytes_
  · rw [if_pos hc]; exact ⟨0, _, rfl, fun h => absurd rfl h⟩
  rw [if_neg hc]
  have hc1 : (GetDelay.start σ now).credit_in_bytes_ < num_bytes := by
    rw [start_credit]; omega
  by_cases hle : (GetDelay.start σ now).next_refill_time_ ≤ now
  · rw [if_pos hle]
    obtain ⟨bytes, hrf⟩ := refill_spec (GetDelay.start σ now) now hle (by omega)
      (by rw [start_rate]; exact hcast)
    rw [hrf]
    simp only [Option.some_bind]
    by_cases hge : num_bytes ≤ u64 ((GetDelay.start σ now).credit_in_bytes_ + bytes)
    · rw [if_pos hge]; exact ⟨0, _, rfl, fun h => absurd rfl h⟩
    · rw [if_neg hge]
      obtain ⟨needed, hnd, -, -, -, hdl⟩ := delay_spec
        { GetDelay.start σ now with
          credit_in_bytes_ := u64 ((GetDelay.start σ now).credit_in_bytes_ + bytes),
          next_refill_time_ := now + 1000 } now num_bytes (by omega) (not_le.mp hge)
        (by show 1 ≤ (GetDelay.start σ now).delayed_write_rate_; rw [start_rate]; exact hrate)
        (lt_of_le_of_lt (Nat.add_le_add_left (Nat.mul_le_mul_right _ (Nat.sub_le _ _)) _)
          hclock)
        (by show now ≤ now + 1000; omega)
      rw [hdl]
      refine ⟨_, _, rfl, fun _ =>
        ⟨_, needed, Or.inl ⟨hle, rfl⟩, not_le.mp hge, hnd, rfl, ?_, rfl, ?_, ?_⟩⟩
      · show now ≤ now + 1000 + needed; omega
      · exact le_max_right _ _
      · intro _; show now + 1000 ≤ now + 1000 + needed; omega
  · rw [if_neg hle]
    have hne : σ.next_refill_time_ ≠ 0 := by
      intro h0
      rw [start_time, if_pos h0] at hle
      exact hle (le_refl _)
    have hst : (GetDelay.start σ now).next_refill_time_ = σ.next_refill_time_ := by
      rw [start_time, if_neg hne]
    obtain ⟨needed, hnd, -, -, -, hdl⟩ := delay_spec (GetDelay.start σ now) now num_bytes
      (by omega) hc1 (by rw [start_rate]; exact hrate)
      (lt_of_le_of_lt (Nat.add_le_add_left (Nat.mul_le_mul_right _ (Nat.sub_le _ _)) _)
        (by rw [hst]; exact hnrt))
      (by omega)
    rw [hdl]
    refine ⟨_, _, rfl, fun _ =>
      ⟨_, needed, Or.inr ⟨not_le.mp hle, rfl⟩, hc1, hnd, rfl, ?_, rfl, ?_, ?_⟩⟩
    · show now ≤ (GetDelay.start σ now).next_refill_time_ + needed; omega
    · exact le_max_right _ _
    · intro h; exact absurd h hle

theorem exampleController_eq : exampleController =
    { total_stopped_ := 0, total_delayed_ := 1, total_compaction_pressure_ := 0,
      credit_in_bytes_ := 0, next_refill_time_ := 0, max_delayed_write_rate_ := 1048576,
      delayed_write_rate_ := 1048576, dynamic_delay_ := false,
      db_id_to_write_rate_map_ := [] } := by decide

set_option maxRecDepth 100000 in
/-- The credit of a refill after 1000 us at the rate 1048576, in binary64. -/
theorem steady_refill_bytes : GetDelay.refill_bytes 1000 1048576 = some 1049 := by decide

set_option maxRecDepth 100000 in
/-- The delay that 15335 bytes need at the rate 1048576, in binary64. -/
theorem steady_needed_delay : GetDelay.needed_delay 15335 1048576 = some 14624 := by decide

/-- A call of `GetDelay(clock, 16384)` at the rate 1048576 with no credit, when
the refill is due at the time of the call: the refill earns 1049 bytes, the
other 15335 bytes need 14624 us, and the writer is delayed by 15624 us. -/
theorem steady_step (σ : WriteController) (clock : Nat) (hs : ¬ 0 < σ.total_stopped_)
    (hd : σ.total_delayed_ ≠ 0) (hc : σ.credit_in_bytes_ = 0)
    (hr : σ.delayed_write_rate_ = 1048576)
    (ht : σ.next_refill_time_ = 0 ∨ σ.next_refill_time_ = NowMicrosMonotonic clock)
    (hclock : NowMicrosMonotonic clock + 15624 < 2 ^ 64) :
    GetDelay σ clock 16384 =
      some (15624, { σ with credit_in_bytes_ := 0,
                            next_refill_time_ := NowMicrosMonotonic clock + 15624 }) := by
  rw [GetDelay_unfold, if_neg hs, if_neg hd, if_neg (by rw [hc]; decide)]
  generalize NowMicrosMonotonic clock = now at *
  have hst : (GetDelay.start σ now).next_refill_time_ = now := by
    rw [start_time]
    rcases ht with h | h
    · rw [if_pos h]
    · split_ifs with h0
      · rfl
      · exact h
  have hrefill : GetDelay.refill (GetDelay.start σ now) now =
      some { σ with credit_in_bytes_ := 1049, next_refill_time_ := now + 1000 } := by
    rw [refill_eq, hst, sub64_of_le (le_refl _) (by omega), start_rate, hr, start_credit, hc,
      Nat.sub_self, show u64 (0 + 1000) = 1000 by decide, steady_refill_bytes,
      Option.some_bind, show u64 (0 + 1049) = 1049 by decide, u64_of_lt (by omega)]
    unfold GetDelay.start
    split_ifs <;> rfl
  rw [if_pos (le_of_eq hst), hrefill]
  simp only [Option.some_bind]
  rw [if_neg (by decide)]
  unfold GetDelay.delay
  have ha : assert (decide ((1049 : Nat) < 16384)) = some () := by decide
  have hsub : sub64 16384 1049 = 15335 := by decide
  show ((assert (decide ((1049 : Nat) < 16384))).bind fun _ =>
    (GetDelay.needed_delay (sub64 16384 1049) σ.delayed_write_rate_).bind fun needed_delay =>
      some (max (sub64 (u64 (now + 1000 + needed_delay)) now) 1000,
        { σ with credit_in_bytes_ := 0,
                 next_refill_time_ := u64 (now + 1000 + needed_delay) })) = _
  rw [ha, Option.some_bind, hsub, hr, steady_needed_delay, Option.some_bind,
    u64_of_lt (by omega), sub64_of_le (by omega) (by omega),
    show now + 1000 + 14624 - now = 15624 by omega, show now + 1000 + 14624 = now + 15624 by omega]
  rfl

/-- The writer of the scenario is delayed by 15624 us at each of its calls. -/
theorem writerLoop_steady (n : Nat) :
    ∀ (σ : WriteController) (clock : Nat), ¬ 0 < σ.total_stopped_ → σ.total_delayed_ ≠ 0 →
      σ.credit_in_bytes_ = 0 → σ.delayed_write_rate_ = 1048576 →
      (σ.next_refill_time_ = 0 ∨ σ.next_refill_time_ = NowMicrosMonotonic clock) →
      clock + n * 15624000 < 2 ^ 64 →
      ∃ σ1, writerLoop 16384 n σ clock = some (n * 15624, σ1, clock + n * 15624000) := by
  induction n with
  | zero => intro σ clock _ _ _ _ _ _; exact ⟨σ, by simp [writerLoop]⟩
  | succ n ih =>
    intro σ clock hs hd hc hr ht hclock
    have hnow : NowMicrosMonotonic clock ≤ clock := Nat.div_le_self _ _
    have hstep := steady_step σ clock hs hd hc hr ht (by omega)
    have hnext : NowMicrosMonotonic (clock + 15624 * 1000) = NowMicrosMonotonic clock + 15624 := by
      unfold NowMicrosMonotonic
      exact Nat.add_mul_div_right _ _ (by decide)
    obtain ⟨σ1, h1⟩ := ih
      { σ with credit_in_bytes_ := 0, next_refill_time_ := NowMicrosMonotonic clock + 15624 }
      (clock + 15624 * 1000) hs hd rfl hr (Or.inr hnext.symm) (by omega)
    refine ⟨σ1, ?_⟩
    unfold writerLoop
    rw [hstep]
    simp only [Option.some_bind]
    rw [h1]
    simp only [Option.some_bind, Option.some.injEq, Prod.mk.injEq, true_and]
    omega

/-- C20: on the controller constructed with the maximal rate 1048576 bytes per
second, after one `GetDelayToken(1048576)`, a writer that starts at any clock
value, zero or not, and repeats 4096 times `d = GetDelay(clock, 16384)` followed
by a sleep of exactly `d` microseconds, 64 MB in all, is delayed by 15624 us at
each call, 63995904 us in all, which is between 63000000 and 65000000 (the clock
stays below `2 ^ 64` ns). -/
theorem C20_rate_limiting_scenario (dynamic_delay : Bool) (clock : Nat)
    (hclock : clock + 4096 * 15624000 < 2 ^ 64) :
    ∃ total σ1 clock1,
      writerLoop 16384 4096
          (GetDelayToken (WriteController.new dynamic_delay 1048576) 1048576) clock =
        some (total, σ1, clock1) ∧
      total = 63995904 ∧ 63000000 ≤ total ∧ total ≤ 65000000 ∧
      clock1 = clock + total * 1000 ∧ 4096 * 16384 = 64 * 1048576 := by
  have hσ : GetDelayToken (WriteController.new dynamic_delay 1048576) 1048576 =
      { total_stopped_ := 0, total_delayed_ := 1, total_compaction_pressure_ := 0,
        credit_in_bytes_ := 0, next_refill_time_ := 0, max_delayed_write_rate_ := 1048576,
        delayed_write_rate_ := 1048576, dynamic_delay_ := dynamic_delay,
        db_id_to_write_rate_map_ := [] } := by
    cases dynamic_delay <;> decide
  rw [hσ]
  obtain ⟨σ1, h1⟩ := writerLoop_steady 4096
    { total_stopped_ := 0, total_delayed_ := 1, total_compaction_pressure_ := 0,
      credit_in_bytes_ := 0, next_refill_time_ := 0, max_delayed_write_rate_ := 1048576,
      delayed_write_rate_ := 1048576, dynamic_delay_ := dynamic_delay,
      db_id_to_write_rate_map_ := [] } clock
    (show ¬ (0 : Int) < 0 by decide) (show (1 : Int) ≠ 0 by decide) rfl rfl (Or.inl rfl) hclock
  exact ⟨4096 * 15624, σ1, clock + 4096 * 15624000, h1, by decide, by decide, by decide,
    by omega, by decide⟩

/-- What `GetDelay` does to the credit and to the refill time when nothing wraps:
it returns, `next_refill_time_` does not decrease, and `credit_in_bytes_` is left
as it is, or reduced by `num_bytes` when it is at least `num_bytes` (before or
after the refill), or set to 0. -/
theorem GetDelay_admission (σ : WriteController) (clock num_bytes : Nat)
    (hclock : NowMicrosMonotonic clock + 1000 + num_bytes * 1000000 < 2 ^ 63)
    (hnrt : σ.next_refill_time_ + num_bytes * 1000000 < 2 ^ 63)
    (hrate : 1 ≤ σ.delayed_write_rate_)
    (hcast : ((NowMicrosMonotonic clock + 1000) * σ.delayed_write_rate_ + 999999) / 1000000
      < 2 ^ 63)
    (hcredit : σ.credit_in_bytes_ < 2 ^ 64) :
    ∃ d σ1, GetDelay σ clock num_bytes = some (d, σ1) ∧
      σ.next_refill_time_ ≤ σ1.next_refill_time_ ∧
      (σ1.credit_in_bytes_ = σ.credit_in_bytes_ ∨
        (num_bytes ≤ σ.credit_in_bytes_ ∧
          σ1.credit_in_bytes_ = σ.credit_in_bytes_ - num_bytes) ∨
        (∃ σ2, GetDelay.refill (GetDelay.start σ (NowMicrosMonotonic clock))
            (NowMicrosMonotonic clock) = some σ2 ∧ num_bytes ≤ σ2.credit_in_bytes_ ∧
          σ1.credit_in_bytes_ = σ2.credit_in_bytes_ - num_bytes) ∨
        σ1.credit_in_bytes_ = 0) := by
  rw [GetDelay_unfold]
  generalize NowMicrosMonotonic clock = now at *
  by_cases hs : 0 < σ.total_stopped_
  · rw [if_pos hs]; exact ⟨0, σ, rfl, le_refl _, Or.inl rfl⟩
  rw [if_neg hs]
  by_cases hd : σ.total_delayed_ = 0
  · rw [if_pos hd]; exact ⟨0, σ, rfl, le_refl _, Or.inl rfl⟩
  rw [if_neg hd]
  by_cases hc : num_bytes ≤ σ.credit_in_bytes_
  · rw [if_pos hc, sub64_of_le hc hcredit]
    exact ⟨0, _, rfl, le_refl _, Or.inr (Or.inl ⟨hc, rfl⟩)⟩
  rw [if_neg hc]
  have hc1 : (GetDelay.start σ now).credit_in_bytes_ < num_bytes := by
    rw [start_credit]; omega
  have hst0 : σ.next_refill_time_ ≤ (GetDelay.start σ now).next_refill_time_ := by
    rw [start_time]; split_ifs with h <;> omega
  by_cases hle : (GetDelay.start σ now).next_refill_time_ ≤ now
  · rw [if_pos hle]
    obtain ⟨bytes, hrf⟩ := refill_spec (GetDelay.start σ now) now hle (by omega)
      (by rw [start_rate]; exact hcast)
    rw [hrf]
    simp only [Option.some_bind]
    by_cases hge : num_bytes ≤ u64 ((GetDelay.start σ now).credit_in_bytes_ + bytes)
    · rw [if_pos hge, sub64_of_le hge (u64_lt _)]
      refine ⟨0, _, rfl, ?_, Or.inr (Or.inr (Or.inl ⟨_, rfl, hge, rfl⟩))⟩
      show σ.next_refill_time_ ≤ now + 1000
      omega
    · rw [if_neg hge]
      obtain ⟨needed, hnd, -, -, -, hdl⟩ := delay_spec
        { GetDelay.start σ now with
          credit_in_bytes_ := u64 ((GetDelay.start σ now).credit_in_bytes_ + bytes),
          next_refill_time_ := now + 1000 } now num_bytes (by omega) (not_le.mp hge)
        (by show 1 ≤ (GetDelay.start σ now).delayed_write_rate_; rw [start_rate]; exact hrate)
        (lt_of_le_of_lt (Nat.add_le_add_left (Nat.mul_le_mul_right _ (Nat.sub_le _ _)) _)
          hclock)
        (by show now ≤ now + 1000; omega)
      rw [hdl]
      refine ⟨_, _, rfl, ?_, Or.inr (Or.inr (Or.inr rfl))⟩
      show σ.next_refill_time_ ≤ now + 1000 + needed
      omega
  · rw [if_neg hle]
    have hne : σ.next_refill_time_ ≠ 0 := by
      intro h0
      rw [start_time, if_pos h0] at hle
      exact hle (le_refl _)
    have hst : (GetDelay.start σ now).next_refill_time_ = σ.next_refill_time_ := by
      rw [start_time, if_neg hne]
    obtain ⟨needed, hnd, -, -, -, hdl⟩ := delay_spec (GetDelay.start σ now) now num_bytes
      (by omega) hc1 (by rw [start_rate]; exact hrate)
      (lt_of_le_of_lt (Nat.add_le_add_left (Nat.mul_le_mul_right _ (Nat.sub_le _ _)) _)
        (by rw [hst]; exact hnrt))
      (by omega)
    rw [hdl]
    refine ⟨_, _, rfl, ?_, Or.inr (Or.inr (Or.inr rfl))⟩
    show σ.next_refill_time_ ≤ (GetDelay.start σ now).next_refill_time_ + needed
    omega

/-- What `startDelay` does to the credit and the refill time. -/
theorem startDelay_bucket (σ : WriteController) :
    (σ.total_delayed_ = 0 → (startDelay σ).next_refill_time_ = 0 ∧
      (startDelay σ).credit_in_bytes_ = 0) ∧
    (σ.total_delayed_ ≠ 0 → (startDelay σ).next_refill_time_ = σ.next_refill_time_ ∧
      (startDelay σ).credit_in_bytes_ = σ.credit_in_bytes_) := by
  unfold startDelay
  constructor
  · intro h; rw [if_pos h]; exact ⟨rfl, rfl⟩
  · intro h; rw [if_neg h]; exact ⟨rfl, rfl⟩

/-- C19 (amended): `GetDelay`, when nothing wraps, returns without taking
`credit_in_bytes_` below zero (each subtraction from the credit has a credit of
at least `num_bytes`) and without decreasing `next_refill_time_`. The release of
a token, `GetStopToken`, `GetCompactionPressureToken`,
`DeleteCfFromMapAndMaybeUpdateDelayRate` and `RemoveFromDbRateMap` leave both
fields as they are. `GetDelayToken`, and `UpdateRate` when it inserts the id,
leave both fields as they are when `total_delayed_` is not 0 and set both to 0
when `total_delayed_` is 0, which can decrease `next_refill_time_`; `UpdateRate` of
an id that is in the map leaves both as they are. -/
theorem C19_admission_invariant (σ : WriteController) (maps : RateMaps)
    (clock num_bytes : Nat)
    (hclock : NowMicrosMonotonic clock + 1000 + num_bytes * 1000000 < 2 ^ 63)
    (hnrt : σ.next_refill_time_ + num_bytes * 1000000 < 2 ^ 63)
    (hrate : 1 ≤ σ.delayed_write_rate_)
    (hcast : ((NowMicrosMonotonic clock + 1000) * σ.delayed_write_rate_ + 999999) / 1000000
      < 2 ^ 63)
    (hcredit : σ.credit_in_bytes_ < 2 ^ 64) :
    (∃ d σ1, GetDelay σ clock num_bytes = some (d, σ1) ∧
      σ.next_refill_time_ ≤ σ1.next_refill_time_ ∧
      (σ1.credit_in_bytes_ = σ.credit_in_bytes_ ∨
        (num_bytes ≤ σ.credit_in_bytes_ ∧
          σ1.credit_in_bytes_ = σ.credit_in_bytes_ - num_bytes) ∨
        (∃ σ2, GetDelay.refill (GetDelay.start σ (NowMicrosMonotonic clock))
            (NowMicrosMonotonic clock) = some σ2 ∧ num_bytes ≤ σ2.credit_in_bytes_ ∧
          σ1.credit_in_bytes_ = σ2.credit_in_bytes_ - num_bytes) ∨
        σ1.credit_in_bytes_ = 0)) ∧
    (∀ write_rate,
      (σ.total_delayed_ ≠ 0 →
        (GetDelayToken σ write_rate).next_refill_time_ = σ.next_refill_time_ ∧
        (GetDelayToken σ write_rate).credit_in_bytes_ = σ.credit_in_bytes_) ∧
      (σ.total_delayed_ = 0 →
        (GetDelayToken σ write_rate).next_refill_time_ = 0 ∧
        (GetDelayToken σ write_rate).credit_in_bytes_ = 0)) ∧
    (∀ id cf_map cf_write_rate,
      (¬ ((maps cf_map).count id = 0 ∧ σ.total_delayed_ = 0) →
        (UpdateRate σ maps id cf_map cf_write_rate).1.next_refill_time_ =
          σ.next_refill_time_ ∧
        (UpdateRate σ maps id cf_map cf_write_rate).1.credit_in_bytes_ =
          σ.credit_in_bytes_) ∧
      ((maps cf_map).count id = 0 ∧ σ.total_delayed_ = 0 →
        (UpdateRate σ maps id cf_map cf_write_rate).1.next_refill_time_ = 0 ∧
        (UpdateRate σ maps id cf_map cf_write_rate).1.credit_in_bytes_ = 0)) ∧
    (∀ id cf_map r, DeleteCfFromMapAndMaybeUpdateDelayRate σ maps id cf_map = some r →
      r.1.next_refill_time_ = σ.next_refill_time_ ∧
      r.1.credit_in_bytes_ = σ.credit_in_bytes_) ∧
    (∀ cf_map,
      (RemoveFromDbRateMap σ maps cf_map).next_refill_time_ = σ.next_refill_time_ ∧
      (RemoveFromDbRateMap σ maps cf_map).credit_in_bytes_ = σ.credit_in_bytes_) ∧
    (∀ σ1, (StopWriteToken.destructor σ = some σ1 ∨ DelayWriteToken.destructor σ = some σ1 ∨
        CompactionPressureToken.destructor σ = some σ1 ∨ σ1 = GetStopToken σ ∨
        σ1 = GetCompactionPressureToken σ) →
      σ1.next_refill_time_ = σ.next_refill_time_ ∧
      σ1.credit_in_bytes_ = σ.credit_in_bytes_) := by
  refine ⟨GetDelay_admission σ clock num_bytes hclock hnrt hrate hcast hcredit, ?_, ?_, ?_, ?_,
    ?_⟩
  · intro write_rate
    exact ⟨fun h => (startDelay_bucket σ).2 h, fun h => (startDelay_bucket σ).1 h⟩
  · intro id cf_map cf_write_rate
    have hins : ((maps cf_map).insert_or_assign id cf_write_rate).2 =
        decide ((maps cf_map).count id = 0) := by
      unfold CfIdToRateMap.insert_or_assign CfIdToRateMap.count
      split_ifs <;> simp
    have hU : ∀ σa : WriteController, σa = (UpdateRate σ maps id cf_map cf_write_rate).1 →
        σa.next_refill_time_ =
          (if (maps cf_map).count id = 0 then startDelay σ else σ).next_refill_time_ ∧
        σa.credit_in_bytes_ =
          (if (maps cf_map).count id = 0 then startDelay σ else σ).credit_in_bytes_ := by
      intro σa ha
      subst ha
      unfold UpdateRate
      simp only [hins, decide_eq_true_eq]
      exact ⟨rfl, rfl⟩
    constructor
    · intro h
      rw [(hU _ rfl).1, (hU _ rfl).2]
      by_cases hc : (maps cf_map).count id = 0
      · rw [if_pos hc]
        exact (startDelay_bucket σ).2 (fun h0 => h ⟨hc, h0⟩)
      · rw [if_neg hc]; exact ⟨rfl, rfl⟩
    · intro h
      rw [(hU _ rfl).1, (hU _ rfl).2, if_pos h.1]
      exact (startDelay_bucket σ).1 h.2
  · intro id cf_map r hr
    unfold DeleteCfFromMapAndMaybeUpdateDelayRate at hr
    simp only [assert] at hr
    split_ifs at hr with h1 h2
    all_goals simp only [Option.some_bind, Option.none_bind] at hr
    all_goals cases hr
    all_goals exact ⟨rfl, rfl⟩
  · intro cf_map
    unfold RemoveFromDbRateMap
    split_ifs <;> exact ⟨rfl, rfl⟩
  · intro σ1 h
    rcases h with h | h | h | h | h
    · unfold StopWriteToken.destructor NotifyCV at h
      simp only [assert] at h
      split_ifs at h
      all_goals simp only [Option.some_bind, Option.none_bind] at h
      all_goals cases h
      exact ⟨rfl, rfl⟩
    · unfold DelayWriteToken.destructor at h
      simp only [assert] at h
      split_ifs at h
      all_goals simp only [Option.some_bind, Option.none_bind] at h
      all_goals cases h
      exact ⟨rfl, rfl⟩
    · unfold CompactionPressureToken.destructor at h
      simp only [assert] at h
      split_ifs at h
      all_goals simp only [Option.some_bind, Option.none_bind] at h
      all_goals cases h
      exact ⟨rfl, rfl⟩
    · subst h; exact ⟨rfl, rfl⟩
    · subst h; exact ⟨rfl, rfl⟩

theorem exampleController_get_delay :
    GetDelay exampleController 5000000 16384 = some (15624, exampleController2) := by
  rw [steady_step exampleController 5000000 (by decide) (by decide) (by decide) (by decide)
    (Or.inl (by decide)) (by decide)]
  decide

set_option maxRecDepth 100000 in
theorem exampleController_get_delay_small :
    GetDelay exampleController 5000000 100 = some (0, exampleController1) := by decide

theorem example_refill_ceil :
    ⌈((1000 : Nat) : ℚ) * (exampleController.delayed_write_rate_ : ℚ) / 1000000⌉₊ = 1049 := by
  rw [show ((1000 : Nat) : ℚ) * (exampleController.delayed_write_rate_ : ℚ) / 1000000 =
    (((1000 * 1048576 : Nat) : ℚ) / ((1000000 : Nat) : ℚ)) by
      rw [show exampleController.delayed_write_rate_ = 1048576 by decide]; push_cast; ring,
    ceil_div_eq _ _ (by decide)]

theorem example_needed_floor :
    ⌊((16384 - exampleController1.credit_in_bytes_ : Nat) : ℚ) * 1000000 /
      (exampleController1.delayed_write_rate_ : ℚ)⌋₊ = 14719 := by
  rw [show ((16384 - exampleController1.credit_in_bytes_ : Nat) : ℚ) * 1000000 /
      (exampleController1.delayed_write_rate_ : ℚ) =
    (((15435 * 1000000 : Nat) : ℚ) / ((1048576 : Nat) : ℚ)) by
      rw [show exampleController1.delayed_write_rate_ = 1048576 by decide,
        show 16384 - exampleController1.credit_in_bytes_ = 15435 by decide]
      push_cast; ring,
    floor_div_eq]

set_option maxRecDepth 100000 in
/-- The first call `GetDelay(clock, 4997)` on the controller of rate 999001, at
the clock value 0. -/
theorem exampleControllerOdd_get_delay :
    GetDelay exampleControllerOdd 0 4997 = some (5000, exampleControllerOdd1) := by decide

set_option maxRecDepth 100000 in
/-- The refill after 1001 us at the rate 999001 earns 1000 bytes in binary64. -/
theorem exampleControllerOdd1_refill :
    GetDelay.refill (GetDelay.start exampleControllerOdd1 (NowMicrosMonotonic 5001000))
        (NowMicrosMonotonic 5001000) =
      some { exampleControllerOdd1 with credit_in_bytes_ := 1000, next_refill_time_ := 6001 } := by
  decide

set_option maxRecDepth 100000 in
/-- The call `GetDelay(clock, 1249)` on the controller of rate 1000000: the
refill earns 1000 bytes and the delay of the other 249 bytes is 248 us in
binary64. -/
theorem exampleControllerMillion_get_delay :
    GetDelay exampleControllerMillion 5000000 1249 =
      some (1248, { exampleControllerMillion with
        credit_in_bytes_ := 0, next_refill_time_ := 6248 }) := by decide

set_option maxRecDepth 100000 in
/-- The delay that 249 bytes need at the rate 1000000 is 248 us in binary64,
and the delay that 15335 bytes need at the rate 1048576 is 14624 us. -/
theorem example_needed_delays :
    GetDelay.needed_delay 249 1000000 = some 248 ∧
    GetDelay.needed_delay (16384 - 1049) 1048576 = some 14624 ∧
    GetDelay.needed_delay 41 5 = some 8199999 := by decide

set_option maxRecDepth 100000 in
/-- The rounding of binary64 can take `needed_delay` above `over * 1000000`
and the credit of a refill to `2 ^ 64`, which is not a value of `uint64_t`. -/
theorem example_rounding_up :
    GetDelay.needed_delay 576460752307 1 = some 576460752307000064 ∧
    GetDelay.refill_bytes 1000000 (2 ^ 64 - 1) = none := by decide

set_option maxRecDepth 100000 in
/-- With `2 ^ 64` in the place of `2 ^ 63` in the bounds on the clock and on the
credit of a refill, the call can be without a result: at the rate 1000000000,
for `elapsed = 18446744073709550` the refill earns `2 ^ 64` bytes in binary64,
which is not a value of `uint64_t`, while the quotient rounded up is below
`2 ^ 64`. -/
theorem example_refill_overflow :
    18446744073708551000 < 2 ^ 64 ∧
    NowMicrosMonotonic 18446744073708551000 + 1000 + 1 * 1000000 < 2 ^ 64 ∧
    1 + 1 * 1000000 < 2 ^ 64 ∧
    ((NowMicrosMonotonic 18446744073708551000 + 1000) * 1000000000 + 999999) / 1000000 <
      2 ^ 64 ∧
    GetDelay.refill_bytes 18446744073709550 1000000000 = none ∧
    GetDelay
      { total_stopped_ := 0, total_delayed_ := 1, total_compaction_pressure_ := 0,
        credit_in_bytes_ := 0, next_refill_time_ := 1,
        max_delayed_write_rate_ := 1000000000, delayed_write_rate_ := 1000000000,
        dynamic_delay_ := false, db_id_to_write_rate_map_ := [] }
      18446744073708551000 1 = none := by
  decide

/-- Witness of C14: `GetDelay` on a delayed controller that holds a stop token. -/
theorem C14_witness :
    (0 < (GetStopToken exampleController).total_stopped_ ∨
      (GetStopToken exampleController).total_delayed_ = 0) ∧
    ∃ σ1, GetDelay (GetStopToken exampleController) 5000000 16384 = some (0, σ1) ∧
      σ1 = GetStopToken exampleController ∧
      σ1.credit_in_bytes_ = (GetStopToken exampleController).credit_in_bytes_ ∧
      σ1.next_refill_time_ = (GetStopToken exampleController).next_refill_time_ ∧
      σ1.delayed_write_rate_ = (GetStopToken exampleController).delayed_write_rate_ :=
  ⟨by decide, C14_get_delay_stopped_or_idle (GetStopToken exampleController) 5000000 16384
    (by decide)⟩

/-- Witness of C15: 500 bytes on the controller that has a credit of 949 bytes. -/
theorem C15_witness :
    ¬ 0 < exampleController1.total_stopped_ ∧ exampleController1.total_delayed_ ≠ 0 ∧
    500 ≤ exampleController1.credit_in_bytes_ ∧ exampleController1.credit_in_bytes_ < 2 ^ 64 ∧
    GetDelay exampleController1 7000000 500 =
        some (0, { exampleController1 with
          credit_in_bytes_ := exampleController1.credit_in_bytes_ - 500 }) ∧
      ∀ clock1, GetDelay exampleController1 clock1 500 = GetDelay exampleController1 7000000 500 :=
  ⟨by decide, by decide, by decide, by decide,
    C15_get_delay_fast_path exampleController1 7000000 500 (by decide) (by decide) (by decide)
      (by decide)⟩

/-- Witness of C16: the first call of `GetDelay` on the delayed controller, at the
time 5000 us: `elapsed` is 1000 and the refill earns 1049 bytes. -/
theorem C16_witness :
    5000000 < 2 ^ 64 ∧ ¬ 0 < exampleController.total_stopped_ ∧
    exampleController.total_delayed_ ≠ 0 ∧ exampleController.credit_in_bytes_ < 100 ∧
    (5000 = if exampleController.next_refill_time_ = 0 then NowMicrosMonotonic 5000000
      else exampleController.next_refill_time_) ∧
    5000 ≤ NowMicrosMonotonic 5000000 ∧
    1000 = u64 (NowMicrosMonotonic 5000000 - 5000 + 1000) ∧
    1000 * exampleController.delayed_write_rate_ < 2 ^ 49 ∧
    ⌈((1000 : Nat) : ℚ) * (exampleController.delayed_write_rate_ : ℚ) / 1000000⌉₊ = 1049 ∧
    GetDelay.refill_bytes 1000 exampleController.delayed_write_rate_ = some 1049 ∧
    ∃ bytes σ2, GetDelay.refill_bytes 1000 exampleController.delayed_write_rate_ = some bytes ∧
      ⌈((1000 : Nat) : ℚ) * (exampleController.delayed_write_rate_ : ℚ) / 1000000⌉₊ ≤
        bytes + 1 ∧
      bytes ≤ ⌈((1000 : Nat) : ℚ) * (exampleController.delayed_write_rate_ : ℚ) / 1000000⌉₊ ∧
      (1000 * exampleController.delayed_write_rate_ % 1000000 ≠ 1 →
        bytes = ⌈((1000 : Nat) : ℚ) * (exampleController.delayed_write_rate_ : ℚ) /
          1000000⌉₊) ∧
      GetDelay.refill (GetDelay.start exampleController (NowMicrosMonotonic 5000000))
          (NowMicrosMonotonic 5000000) = some σ2 ∧
      σ2 = { exampleController with
        credit_in_bytes_ := u64 (exampleController.credit_in_bytes_ + bytes),
        next_refill_time_ := u64 (NowMicrosMonotonic 5000000 + 1000) } ∧
      (100 ≤ σ2.credit_in_bytes_ → GetDelay exampleController 5000000 100 =
        some (0, { σ2 with credit_in_bytes_ := σ2.credit_in_bytes_ - 100 })) ∧
      (σ2.credit_in_bytes_ < 100 → GetDelay exampleController 5000000 100 =
        GetDelay.delay σ2 (NowMicrosMonotonic 5000000) 100) :=
  ⟨by decide, by decide, by decide, by decide, by decide, by decide, by decide, by decide,
    example_refill_ceil, steady_refill_bytes,
    C16_refill_step exampleController 5000000 100 5000 1000 (by decide) (by decide)
      (by decide) (by decide) (by decide) (by decide) (by decide) (by decide)⟩

/-- Counterexample of C16: the controller of rate 999001 has, after
`GetDelay(clock, 4997)` at the clock value 0, no credit and
`next_refill_time_ = 5000`. The call `GetDelay(clock, 16384)` at the time
5001 us reaches the slow path with `elapsed = 1001`; the refill adds 1000 bytes
to the credit, while `ceil(1001 * 999001 / 1000000)` is 1001: the product
`1000.000001 + 0.999999` is below 1001 in binary64. -/
theorem C16_counterexample :
    GetDelay exampleControllerOdd 0 4997 = some (5000, exampleControllerOdd1) ∧
    ¬ 0 < exampleControllerOdd1.total_stopped_ ∧ exampleControllerOdd1.total_delayed_ ≠ 0 ∧
    exampleControllerOdd1.credit_in_bytes_ < 16384 ∧
    exampleControllerOdd1.next_refill_time_ ≤ NowMicrosMonotonic 5001000 ∧
    NowMicrosMonotonic 5001000 - exampleControllerOdd1.next_refill_time_ + 1000 = 1001 ∧
    GetDelay.refill (GetDelay.start exampleControllerOdd1 (NowMicrosMonotonic 5001000))
        (NowMicrosMonotonic 5001000) =
      some { exampleControllerOdd1 with credit_in_bytes_ := 1000, next_refill_time_ := 6001 } ∧
    ⌈((1001 : Nat) : ℚ) * (exampleControllerOdd1.delayed_write_rate_ : ℚ) / 1000000⌉₊ = 1001 ∧
    ¬ exampleControllerOdd1.credit_in_bytes_ +
        ⌈((1001 : Nat) : ℚ) * (exampleControllerOdd1.delayed_write_rate_ : ℚ) / 1000000⌉₊ =
      1000 := by
  have hceil : ⌈((1001 : Nat) : ℚ) * (exampleControllerOdd1.delayed_write_rate_ : ℚ) /
      1000000⌉₊ = 1001 := by
    rw [show ((1001 : Nat) : ℚ) * (exampleControllerOdd1.delayed_write_rate_ : ℚ) / 1000000 =
      (((1001 * 999001 : Nat) : ℚ) / ((1000000 : Nat) : ℚ)) by
        rw [show exampleControllerOdd1.delayed_write_rate_ = 999001 by decide]; push_cast; ring,
      ceil_div_eq _ _ (by decide)]
  refine ⟨exampleControllerOdd_get_delay, by decide, by decide, by decide, by decide, by decide,
    exampleControllerOdd1_refill, hceil, ?_⟩
  rw [hceil]
  decide

/-- Witness of C17: 16384 bytes on the controller that has a credit of 949 bytes
and is not due for a refill. -/
theorem C17_witness :
    16384 < 2 ^ 64 ∧ exampleController1.credit_in_bytes_ < 16384 ∧
    1 ≤ exampleController1.delayed_write_rate_ ∧
    (16384 - exampleController1.credit_in_bytes_) * 1000000 < 2 ^ 50 ∧
    ⌊((16384 - exampleController1.credit_in_bytes_ : Nat) : ℚ) * 1000000 /
      (exampleController1.delayed_write_rate_ : ℚ)⌋₊ = 14719 ∧
    ∃ needed,
      GetDelay.needed_delay (16384 - exampleController1.credit_in_bytes_)
          exampleController1.delayed_write_rate_ = some needed ∧
      ⌊((16384 - exampleController1.credit_in_bytes_ : Nat) : ℚ) * 1000000 /
          (exampleController1.delayed_write_rate_ : ℚ)⌋₊ ≤ needed + 1 ∧
      needed ≤ ⌊((16384 - exampleController1.credit_in_bytes_ : Nat) : ℚ) * 1000000 /
          (exampleController1.delayed_write_rate_ : ℚ)⌋₊ ∧
      ((16384 - exampleController1.credit_in_bytes_) * 1000000 %
          exampleController1.delayed_write_rate_ ≠ 0 →
        needed = ⌊((16384 - exampleController1.credit_in_bytes_ : Nat) : ℚ) * 1000000 /
          (exampleController1.delayed_write_rate_ : ℚ)⌋₊) ∧
      ∃ d, GetDelay.delay exampleController1 5500 16384 =
        some (d, { exampleController1 with
          credit_in_bytes_ := 0,
          next_refill_time_ := u64 (exampleController1.next_refill_time_ + needed) }) :=
  ⟨by decide, by decide, by decide, by decide, example_needed_floor,
    C17_needed_delay_rounds_down exampleController1 5500 16384 (by decide) (by decide)
      (by decide) (by decide)⟩

/-- Counterexample of C17: in the first call `GetDelay(clock, 16384)` on the
delayed controller of rate 1048576, the refill earns 1049 bytes, so that 15335
bytes are over budget; `needed_delay` is 14624 and `next_refill_time_` becomes
`5000 + 1000 + 14624`, while `ceil(15335 * 1000000 / 1048576)` is 14625. For
249 bytes at the rate 1000000 `needed_delay` is 248, while the quotient
`249 * 1000000 / 1000000` is 249 without a remainder: in binary64 the quotient
`249.0 / 1000000.0` is rounded down and its product with 1000000 is below
249. -/
theorem C17_counterexample :
    GetDelay exampleController 5000000 16384 = some (15624, exampleController2) ∧
    exampleController2.next_refill_time_ = 5000 + 1000 + 14624 ∧
    GetDelay.needed_delay (16384 - 1049) 1048576 = some 14624 ∧
    ⌈(((16384 - 1049 : Nat) : ℚ) * 1000000) / ((1048576 : Nat) : ℚ)⌉₊ = 14625 ∧
    GetDelay.needed_delay 249 1000000 = some 248 ∧
    ⌈(((249 : Nat) : ℚ) * 1000000) / ((1000000 : Nat) : ℚ)⌉₊ = 249 ∧
    ⌊(((249 : Nat) : ℚ) * 1000000) / ((1000000 : Nat) : ℚ)⌋₊ = 249 := by
  refine ⟨exampleController_get_delay, by decide, example_needed_delays.2.1, ?_,
    example_needed_delays.1, ?_, ?_⟩
  · rw [show (((16384 - 1049 : Nat) : ℚ) * 1000000) =
      (((16384 - 1049) * 1000000 : Nat) : ℚ) by push_cast; ring, ceil_div_eq _ _ (by decide)]
  · rw [show (((249 : Nat) : ℚ) * 1000000) =
      ((249 * 1000000 : Nat) : ℚ) by push_cast; ring, ceil_div_eq _ _ (by decide)]
  · rw [show (((249 : Nat) : ℚ) * 1000000) =
      ((249 * 1000000 : Nat) : ℚ) by push_cast; ring, floor_div_eq]

/-- Witness of C18: the first call `GetDelay(clock, 16384)` on the delayed
controller. -/
theorem C18_witness :
    NowMicrosMonotonic 5000000 + 1000 + 16384 * 1000000 < 2 ^ 63 ∧
    exampleController.next_refill_time_ + 16384 * 1000000 < 2 ^ 63 ∧
    1 ≤ exampleController.delayed_write_rate_ ∧
    ((NowMicrosMonotonic 5000000 + 1000) * exampleController.delayed_write_rate_ + 999999) /
      1000000 < 2 ^ 63 ∧
    ∃ d σ1, GetDelay exampleController 5000000 16384 = some (d, σ1) ∧
      (d ≠ 0 → ∃ σm needed_delay,
        ((GetDelay.start exampleController (NowMicrosMonotonic 5000000)).next_refill_time_ ≤
              NowMicrosMonotonic 5000000 ∧
            GetDelay.refill (GetDelay.start exampleController (NowMicrosMonotonic 5000000))
              (NowMicrosMonotonic 5000000) = some σm ∨
          NowMicrosMonotonic 5000000 <
              (GetDelay.start exampleController (NowMicrosMonotonic 5000000)).next_refill_time_ ∧
            σm = GetDelay.start exampleController (NowMicrosMonotonic 5000000)) ∧
        σm.credit_in_bytes_ < 16384 ∧
        GetDelay.needed_delay (16384 - σm.credit_in_bytes_) σm.delayed_write_rate_ =
          some needed_delay ∧
        σ1 = { σm with credit_in_bytes_ := 0,
                       next_refill_time_ := σm.next_refill_time_ + needed_delay } ∧
        NowMicrosMonotonic 5000000 ≤ σ1.next_refill_time_ ∧
        d = max (σ1.next_refill_time_ - NowMicrosMonotonic 5000000) 1000 ∧ 1000 ≤ d ∧
        ((GetDelay.start exampleController (NowMicrosMonotonic 5000000)).next_refill_time_ ≤
            NowMicrosMonotonic 5000000 →
          NowMicrosMonotonic 5000000 + 1000 ≤ σ1.next_refill_time_)) :=
  ⟨by decide, by decide, by decide, by decide,
    C18_over_budget_postcondition exampleController 5000000 16384 (by decide) (by decide)
      (by decide) (by decide)⟩

/-- Counterexample of C19: after `GetDelay(clock, 16384)` the delayed controller
has `next_refill_time_ = 20624`; when its delay token is released
`total_delayed_` is 0, and the next `GetDelayToken` sets `next_refill_time_` to 0,
which is less than its value before that operation. -/
theorem C19_counterexample :
    GetDelay exampleController 5000000 16384 = some (15624, exampleController2) ∧
    ∃ σ3, DelayWriteToken.destructor exampleController2 = some σ3 ∧
      σ3.next_refill_time_ = 20624 ∧
      (GetDelayToken σ3 1048576).next_refill_time_ = 0 ∧
      ¬ σ3.next_refill_time_ ≤ (GetDelayToken σ3 1048576).next_refill_time_ :=
  ⟨exampleController_get_delay,
    { exampleController2 with total_delayed_ := 0 }, by decide, by decide, by decide,
    by decide⟩

/-- Witness of C20: the writer that starts at the clock value 5000000 ns. -/
theorem C20_witness :
    5000000 + 4096 * 15624000 < 2 ^ 64 ∧
    ∃ total σ1 clock1,
      writerLoop 16384 4096
          (GetDelayToken (WriteController.new false 1048576) 1048576) 5000000 =
        some (total, σ1, clock1) ∧
      total = 63995904 ∧ 63000000 ≤ total ∧ total ≤ 65000000 ∧
      clock1 = 5000000 + total * 1000 ∧ 4096 * 16384 = 64 * 1048576 :=
  ⟨by decide, C20_rate_limiting_scenario false 5000000 (by decide)⟩

/-- Witness of C19: the operations on the delayed controller, with the first
call `GetDelay(clock, 16384)`. -/
theorem C19_witness :
    NowMicrosMonotonic 5000000 + 1000 + 16384 * 1000000 < 2 ^ 63 ∧
    exampleController.next_refill_time_ + 16384 * 1000000 < 2 ^ 63 ∧
    1 ≤ exampleController.delayed_write_rate_ ∧
    ((NowMicrosMonotonic 5000000 + 1000) * exampleController.delayed_write_rate_ + 999999) /
      1000000 < 2 ^ 63 ∧
    exampleController.credit_in_bytes_ < 2 ^ 64 ∧
    ((∃ d σ1, GetDelay exampleController 5000000 16384 = some (d, σ1) ∧
      exampleController.next_refill_time_ ≤ σ1.next_refill_time_ ∧
      (σ1.credit_in_bytes_ = exampleController.credit_in_bytes_ ∨
        (16384 ≤ exampleController.credit_in_bytes_ ∧
          σ1.credit_in_bytes_ = exampleController.credit_in_bytes_ - 16384) ∨
        (∃ σ2, GetDelay.refill (GetDelay.start exampleController (NowMicrosMonotonic 5000000))
            (NowMicrosMonotonic 5000000) = some σ2 ∧ 16384 ≤ σ2.credit_in_bytes_ ∧
          σ1.credit_in_bytes_ = σ2.credit_in_bytes_ - 16384) ∨
        σ1.credit_in_bytes_ = 0)) ∧
    (∀ write_rate,
      (exampleController.total_delayed_ ≠ 0 →
        (GetDelayToken exampleController write_rate).next_refill_time_ =
          exampleController.next_refill_time_ ∧
        (GetDelayToken exampleController write_rate).credit_in_bytes_ =
          exampleController.credit_in_bytes_) ∧
      (exampleController.total_delayed_ = 0 →
        (GetDelayToken exampleController write_rate).next_refill_time_ = 0 ∧
        (GetDelayToken exampleController write_rate).credit_in_bytes_ = 0)) ∧
    (∀ id cf_map cf_write_rate,
      (¬ ((emptyMaps cf_map).count id = 0 ∧ exampleController.total_delayed_ = 0) →
        (UpdateRate exampleController emptyMaps id cf_map cf_write_rate).1.next_refill_time_ =
          exampleController.next_refill_time_ ∧
        (UpdateRate exampleController emptyMaps id cf_map cf_write_rate).1.credit_in_bytes_ =
          exampleController.credit_in_bytes_) ∧
      ((emptyMaps cf_map).count id = 0 ∧ exampleController.total_delayed_ = 0 →
        (UpdateRate exampleController emptyMaps id cf_map cf_write_rate).1.next_refill_time_ =
          0 ∧
        (UpdateRate exampleController emptyMaps id cf_map cf_write_rate).1.credit_in_bytes_ =
          0)) ∧
    (∀ id cf_map r,
      DeleteCfFromMapAndMaybeUpdateDelayRate exampleController emptyMaps id cf_map = some r →
      r.1.next_refill_time_ = exampleController.next_refill_time_ ∧
      r.1.credit_in_bytes_ = exampleController.credit_in_bytes_) ∧
    (∀ cf_map,
      (RemoveFromDbRateMap exampleController emptyMaps cf_map).next_refill_time_ =
        exampleController.next_refill_time_ ∧
      (RemoveFromDbRateMap exampleController emptyMaps cf_map).credit_in_bytes_ =
        exampleController.credit_in_bytes_) ∧
    (∀ σ1, (StopWriteToken.destructor exampleController = some σ1 ∨
        DelayWriteToken.destructor exampleController = some σ1 ∨
        CompactionPressureToken.destructor exampleController = some σ1 ∨
        σ1 = GetStopToken exampleController ∨
        σ1 = GetCompactionPressureToken exampleController) →
      σ1.next_refill_time_ = exampleController.next_refill_time_ ∧
      σ1.credit_in_bytes_ = exampleController.credit_in_bytes_)) :=
  ⟨by decide, by decide, by decide, by decide, by decide,
    C19_admission_invariant exampleController emptyMaps 5000000 16384 (by decide) (by decide)
      (by decide) (by decide) (by decide)⟩

/-! ## The counters, the tokens and the bounds of the rate -/

theorem i32_of_range (z : Int) (hlo : -2 ^ 31 ≤ z) (hhi : z < 2 ^ 31) : i32 z = z := by
  unfold i32
  rw [Int.emod_eq_of_lt (by omega) (by omega)]
  omega

/-- The call `GetDelay` writes `credit_in_bytes_` and `next_refill_time_` only. -/
theorem GetDelay_frame (σ : WriteController) (clock num_bytes : Nat) (r : Nat × WriteController)
    (h : GetDelay σ clock num_bytes = some r) :
    r.2 = { σ with credit_in_bytes_ := r.2.credit_in_bytes_,
                   next_refill_time_ := r.2.next_refill_time_ } := by
  have hstart : ∀ t, GetDelay.start σ t =
      { σ with next_refill_time_ := (GetDelay.start σ t).next_refill_time_ } := by
    intro t
    unfold GetDelay.start
    split_ifs <;> rfl
  have hrefill : ∀ (τ : WriteController) t τ1, GetDelay.refill τ t = some τ1 →
      τ1 = { τ with credit_in_bytes_ := τ1.credit_in_bytes_,
                    next_refill_time_ := τ1.next_refill_time_ } := by
    intro τ t τ1 h1
    unfold GetDelay.refill at h1
    simp only [Option.bind_eq_some] at h1
    obtain ⟨b, -, h1⟩ := h1
    cases h1
    rfl
  have hdelay : ∀ (τ : WriteController) t n q, GetDelay.delay τ t n = some q →
      q.2 = { τ with credit_in_bytes_ := q.2.credit_in_bytes_,
                     next_refill_time_ := q.2.next_refill_time_ } := by
    intro τ t n q h1
    unfold GetDelay.delay at h1
    simp only [Option.bind_eq_some] at h1
    obtain ⟨_, -, d, -, h1⟩ := h1
    cases h1
    rfl
  rw [GetDelay_unfold] at h
  generalize NowMicrosMonotonic clock = now at h
  split_ifs at h with h1 h2 h3 h4 <;> try (cases h; rfl)
  · simp only [Option.bind_eq_some] at h
    obtain ⟨σ2, hσ2, h⟩ := h
    have e2 := hrefill _ _ _ hσ2
    have e1 := hstart now
    split_ifs at h
    · cases h
      rw [e2, e1]
    · have e3 := hdelay _ _ _ _ h
      rw [e3, e2, e1]
  · have e3 := hdelay _ _ _ _ h
    have e1 := hstart now
    rw [e3, e1]

/-- The member `second` of `insert_or_assign(id, v)` tells that the key was new. -/
theorem insert_or_assign_snd (m : CfIdToRateMap) (id v : Nat) :
    (m.insert_or_assign id v).2 = decide (m.count id = 0) := by
  unfold CfIdToRateMap.insert_or_assign CfIdToRateMap.count
  by_cases h : (m.entries.lookup id).isSome
  · simp [h]
  · simp [h]

/-- The fields of the controller after `UpdateRate`, but for the rate. -/
theorem UpdateRate_fields (σ : WriteController) (maps : RateMaps) (id cf_map cf_write_rate : Nat) :
    ∃ w, (UpdateRate σ maps id cf_map cf_write_rate).1 =
      set_delayed_write_rate
        (if (maps cf_map).count id = 0 then startDelay σ else σ) w := by
  unfold UpdateRate
  simp only [insert_or_assign_snd, decide_eq_true_eq]
  exact ⟨_, rfl⟩

/-- C21: `UpdateRate(id, cf_map, rate)` sets `credit_in_bytes_` and
`next_refill_time_` to 0 when `id` was not in the map and `total_delayed_` was 0
before the call, and leaves both as they were in every other case; it adds one
to `total_delayed_` when `id` was not in the map and leaves the counter as it
was when `id` was there. `GetDelayToken(write_rate)` sets both fields to 0 when
`total_delayed_` was 0, leaves both as they were otherwise, and adds one to
`total_delayed_`. The counter is an `int` below its greatest value. -/
theorem C21_update_rate_resets_bucket (σ : WriteController) (maps : RateMaps)
    (id cf_map cf_write_rate write_rate : Nat)
    (hlo : -2 ^ 31 ≤ σ.total_delayed_) (hhi : σ.total_delayed_ < 2 ^ 31 - 1) :
    (((maps cf_map).count id = 0 ∧ σ.total_delayed_ = 0) →
      (UpdateRate σ maps id cf_map cf_write_rate).1.credit_in_bytes_ = 0 ∧
      (UpdateRate σ maps id cf_map cf_write_rate).1.next_refill_time_ = 0) ∧
    (¬ ((maps cf_map).count id = 0 ∧ σ.total_delayed_ = 0) →
      (UpdateRate σ maps id cf_map cf_write_rate).1.credit_in_bytes_ = σ.credit_in_bytes_ ∧
      (UpdateRate σ maps id cf_map cf_write_rate).1.next_refill_time_ = σ.next_refill_time_) ∧
    ((UpdateRate σ maps id cf_map cf_write_rate).1.total_delayed_ = σ.total_delayed_ + 1 ↔
      (maps cf_map).count id = 0) ∧
    ((maps cf_map).count id ≠ 0 →
      (UpdateRate σ maps id cf_map cf_write_rate).1.total_delayed_ = σ.total_delayed_) ∧
    (σ.total_delayed_ = 0 →
      (GetDelayToken σ write_rate).credit_in_bytes_ = 0 ∧
      (GetDelayToken σ write_rate).next_refill_time_ = 0) ∧
    (σ.total_delayed_ ≠ 0 →
      (GetDelayToken σ write_rate).credit_in_bytes_ = σ.credit_in_bytes_ ∧
      (GetDelayToken σ write_rate).next_refill_time_ = σ.next_refill_time_) ∧
    (GetDelayToken σ write_rate).total_delayed_ = σ.total_delayed_ + 1 := by
  have hi : i32 (σ.total_delayed_ + 1) = σ.total_delayed_ + 1 :=
    i32_of_range _ (by omega) (by omega)
  have hs : (startDelay σ).total_delayed_ = σ.total_delayed_ + 1 := by
    unfold startDelay
    split_ifs <;> exact hi
  have hb := startDelay_bucket σ
  obtain ⟨w, hw⟩ := UpdateRate_fields σ maps id cf_map cf_write_rate
  rw [hw]
  refine ⟨?_, ?_, ?_, ?_, ?_, ?_, ?_⟩
  · rintro ⟨hc, h0⟩
    rw [if_pos hc]
    exact ⟨(hb.1 h0).2, (hb.1 h0).1⟩
  · intro hn
    by_cases hc : (maps cf_map).count id = 0
    · rw [if_pos hc]
      have h0 : σ.total_delayed_ ≠ 0 := fun h0 => hn ⟨hc, h0⟩
      exact ⟨(hb.2 h0).2, (hb.2 h0).1⟩
    · rw [if_neg hc]
      exact ⟨rfl, rfl⟩
  · by_cases hc : (maps cf_map).count id = 0
    · rw [if_pos hc]
      exact ⟨fun _ => hc, fun _ => hs⟩
    · rw [if_neg hc]
      constructor
      · intro h
        have h1 : σ.total_delayed_ = σ.total_delayed_ + 1 := h
        omega
      · intro h
        exact absurd h hc
  · intro hc
    rw [if_neg hc]
    rfl
  · intro h0
    exact ⟨(hb.1 h0).2, (hb.1 h0).1⟩
  · intro h0
    exact ⟨(hb.2 h0).2, (hb.2 h0).1⟩
  · exact hs

/-- C21 on concrete controllers: the first `UpdateRate` of a new controller, on
the empty map at address 0, empties the bucket and counts one delayed source. -/
theorem C21_witness :
    (-2 ^ 31 ≤ exampleController1.total_delayed_ ∧
      exampleController1.total_delayed_ < 2 ^ 31 - 1) ∧
    ((emptyMaps 0).count 7 ≠ 0 ∨ exampleController1.total_delayed_ ≠ 0) ∧
    (UpdateRate exampleController1 emptyMaps 7 0 4096).1.credit_in_bytes_ = 949 ∧
    (UpdateRate exampleController1 emptyMaps 7 0 4096).1.next_refill_time_ = 6000 ∧
    (UpdateRate exampleController1 emptyMaps 7 0 4096).1.total_delayed_ = 2 :=
  ⟨⟨by decide, by decide⟩, Or.inr (by decide),
    ((C21_update_rate_resets_bucket exampleController1 emptyMaps 7 0 4096 0
      (by decide) (by decide)).2.1 (by decide)).1,
    ((C21_update_rate_resets_bucket exampleController1 emptyMaps 7 0 4096 0
      (by decide) (by decide)).2.1 (by decide)).2,
    (C21_update_rate_resets_bucket exampleController1 emptyMaps 7 0 4096 0
      (by decide) (by decide)).2.2.1.2 (by decide)⟩

/-- The rate that `set_delayed_write_rate` stores lies between 1 and the
greatest rate, when that is at least 1; the other fields stay. -/
theorem set_rate_bounds (σ : WriteController) (w : Nat) (hmax : 1 ≤ σ.max_delayed_write_rate_) :
    1 ≤ (set_delayed_write_rate σ w).delayed_write_rate_ ∧
    (set_delayed_write_rate σ w).delayed_write_rate_ ≤
      (set_delayed_write_rate σ w).max_delayed_write_rate_ := by
  show 1 ≤ (if w = 0 then 1 else if σ.max_delayed_write_rate_ < w then σ.max_delayed_write_rate_
      else w) ∧
    (if w = 0 then 1 else if σ.max_delayed_write_rate_ < w then σ.max_delayed_write_rate_
      else w) ≤ σ.max_delayed_write_rate_
  split_ifs <;> omega

/-- A call of the interface keeps the rate between 1 and the greatest rate. -/
theorem Call.keeps_rate {σ σ1 : WriteController} {maps maps1 : RateMaps}
    (hc : Call σ maps σ1 maps1)
    (h : 1 ≤ σ.delayed_write_rate_ ∧ σ.delayed_write_rate_ ≤ σ.max_delayed_write_rate_) :
    1 ≤ σ1.delayed_write_rate_ ∧ σ1.delayed_write_rate_ ≤ σ1.max_delayed_write_rate_ := by
  have hmax : 1 ≤ σ.max_delayed_write_rate_ := le_trans h.1 h.2
  cases hc with
  | set_rate _ w => exact set_rate_bounds σ w hmax
  | set_max_rate _ w =>
    show 1 ≤ (if w = 0 then 1 else w) ∧ (if w = 0 then 1 else w) ≤ (if w = 0 then 1 else w)
    split_ifs <;> omega
  | delay_token _ w =>
    exact set_rate_bounds (startDelay σ) w (by rw [(startDelay_same σ).2.1]; exact hmax)
  | delay_release _ _ hd =>
    unfold DelayWriteToken.destructor at hd
    simp only [Option.bind_eq_some] at hd
    obtain ⟨_, -, hd⟩ := hd
    cases hd
    exact h
  | add _ cf_map =>
    unfold AddToDbRateMap
    split_ifs
    · exact h
    · exact h
  | remove _ cf_map =>
    unfold RemoveFromDbRateMap
    simp only
    split_ifs
    · exact h
    · exact set_rate_bounds _ _ hmax
  | update _ id cf_map cf_write_rate =>
    obtain ⟨w, hw⟩ := UpdateRate_fields σ maps id cf_map cf_write_rate
    rw [hw]
    refine set_rate_bounds _ _ ?_
    split_ifs
    · rw [(startDelay_same σ).2.1]; exact hmax
    · exact hmax
  | delete _ id cf_map r hd =>
    unfold DeleteCfFromMapAndMaybeUpdateDelayRate at hd
    simp only [Option.bind_eq_some] at hd
    obtain ⟨_, -, hd⟩ := hd
    cases hd
    show 1 ≤ (if _ then _ else _ : WriteController).delayed_write_rate_ ∧ _
    split_ifs
    · exact set_rate_bounds _ _ hmax
    · exact h
  | get_delay _ clock num_bytes r hg =>
    have e := GetDelay_frame σ clock num_bytes r hg
    rw [e]
    exact h

/-- A call of the interface leaves the counters of the stop tokens and of the
compaction-pressure tokens as they were. -/
theorem Call.keeps_counters {σ σ1 : WriteController} {maps maps1 : RateMaps}
    (hc : Call σ maps σ1 maps1) :
    σ1.total_stopped_ = σ.total_stopped_ ∧
    σ1.total_compaction_pressure_ = σ.total_compaction_pressure_ := by
  have hs : (startDelay σ).total_stopped_ = σ.total_stopped_ ∧
      (startDelay σ).total_compaction_pressure_ = σ.total_compaction_pressure_ := by
    unfold startDelay
    split_ifs <;> exact ⟨rfl, rfl⟩
  cases hc with
  | set_rate _ w => exact ⟨rfl, rfl⟩
  | set_max_rate _ w => exact ⟨rfl, rfl⟩
  | delay_token _ w => exact hs
  | delay_release _ _ hd =>
    unfold DelayWriteToken.destructor at hd
    simp only [Option.bind_eq_some] at hd
    obtain ⟨_, -, hd⟩ := hd
    cases hd
    exact ⟨rfl, rfl⟩
  | add _ cf_map =>
    unfold AddToDbRateMap
    split_ifs <;> exact ⟨rfl, rfl⟩
  | remove _ cf_map =>
    unfold RemoveFromDbRateMap
    simp only
    split_ifs <;> exact ⟨rfl, rfl⟩
  | update _ id cf_map cf_write_rate =>
    obtain ⟨w, hw⟩ := UpdateRate_fields σ maps id cf_map cf_write_rate
    rw [hw]
    show (if _ then _ else _ : WriteController).total_stopped_ = _ ∧
      (if _ then _ else _ : WriteController).total_compaction_pressure_ = _
    split_ifs
    · exact hs
    · exact ⟨rfl, rfl⟩
  | delete _ id cf_map r hd =>
    unfold DeleteCfFromMapAndMaybeUpdateDelayRate at hd
    simp only [Option.bind_eq_some] at hd
    obtain ⟨_, -, hd⟩ := hd
    cases hd
    show (if _ then _ else _ : WriteController).total_stopped_ = _ ∧
      (if _ then _ else _ : WriteController).total_compaction_pressure_ = _
    split_ifs <;> exact ⟨rfl, rfl⟩
  | get_delay _ clock num_bytes r hg =>
    have e := GetDelay_frame σ clock num_bytes r hg
    rw [e]
    exact ⟨rfl, rfl⟩

/-- In a reachable state the rate lies between 1 and the greatest rate. -/
theorem InterfaceReachable.rate_bounds {σ : WriteController} {maps : RateMaps}
    (hr : InterfaceReachable σ maps) :
    1 ≤ σ.delayed_write_rate_ ∧ σ.delayed_write_rate_ ≤ σ.max_delayed_write_rate_ := by
  induction hr with
  | init dynamic_delay w maps =>
    show 1 ≤ (if w = 0 then 1 else w) ∧ (if w = 0 then 1 else w) ≤ (if w = 0 then 1 else w)
    split_ifs <;> omega
  | call σ σ1 maps maps1 _ hc ih => exact hc.keeps_rate ih
  | stop σ maps _ ih => exact ih
  | stop_release σ σ1 maps _ hd ih =>
    unfold StopWriteToken.destructor NotifyCV at hd
    simp only [Option.bind_eq_some] at hd
    obtain ⟨_, -, hd⟩ := hd
    cases hd
    exact ih
  | pressure σ maps _ ih => exact ih
  | pressure_release σ σ1 maps _ hd ih =>
    unfold CompactionPressureToken.destructor at hd
    simp only [Option.bind_eq_some] at hd
    obtain ⟨_, -, hd⟩ := hd
    cases hd
    exact ih

/-- C22: in every state that the public interface reaches from the constructor,
`1 <= delayed_write_rate() <= max_delayed_write_rate()`; there
`set_delayed_write_rate(r)` stores `r` clamped to the interval from 1 to
`max_delayed_write_rate()` and leaves the greatest rate; the rate by which
`GetDelay` divides is not zero, so that `needed_delay` is the value of the
division. -/
theorem C22_rate_between_one_and_max (σ : WriteController) (maps : RateMaps)
    (hr : InterfaceReachable σ maps) :
    1 ≤ σ.delayed_write_rate ∧ σ.delayed_write_rate ≤ σ.max_delayed_write_rate ∧
    (∀ r, (set_delayed_write_rate σ r).delayed_write_rate =
        min σ.max_delayed_write_rate (max 1 r) ∧
      (set_delayed_write_rate σ r).max_delayed_write_rate = σ.max_delayed_write_rate) ∧
    σ.delayed_write_rate_ ≠ 0 ∧
    ∀ bytes_over_budget, GetDelay.needed_delay bytes_over_budget σ.delayed_write_rate_ =
      Double.toUInt64
        (Double.mul
          (Double.div (Double.mul (Double.literal 1 1) (Double.ofUInt64 bytes_over_budget))
            (Double.ofUInt64 σ.delayed_write_rate_))
          (Double.ofUInt64 1000000)) := by
  have hb := hr.rate_bounds
  have h0 : σ.delayed_write_rate_ ≠ 0 := by omega
  refine ⟨hb.1, hb.2, ?_, h0, ?_⟩
  · intro r
    refine ⟨?_, rfl⟩
    show (if r = 0 then 1 else if σ.max_delayed_write_rate_ < r then σ.max_delayed_write_rate_
      else r) = min σ.max_delayed_write_rate_ (max 1 r)
    have hmax : 1 ≤ σ.max_delayed_write_rate_ := le_trans hb.1 hb.2
    split_ifs with h1 h2
    · subst h1
      simp [hmax]
    · rw [max_eq_right (by omega), min_eq_left (by omega)]
    · rw [max_eq_right (by omega), min_eq_right (by omega)]
  · intro b
    unfold GetDelay.needed_delay
    rw [if_neg h0]

/-- The controller `exampleController` is reachable through the interface. -/
theorem exampleController_interface : InterfaceReachable exampleController emptyMaps :=
  InterfaceReachable.call _ _ _ _ (InterfaceReachable.init false 1048576 emptyMaps)
    (Call.delay_token _ _ 1048576)

/-- C22 on the controller `exampleController`, whose rate is its greatest rate. -/
theorem C22_witness :
    InterfaceReachable exampleController emptyMaps ∧
    1 ≤ exampleController.delayed_write_rate ∧
    exampleController.delayed_write_rate ≤ exampleController.max_delayed_write_rate ∧
    (set_delayed_write_rate exampleController 0).delayed_write_rate =
      min exampleController.max_delayed_write_rate (max 1 0) :=
  ⟨exampleController_interface,
    (C22_rate_between_one_and_max exampleController emptyMaps exampleController_interface).1,
    (C22_rate_between_one_and_max exampleController emptyMaps exampleController_interface).2.1,
    ((C22_rate_between_one_and_max exampleController emptyMaps
      exampleController_interface).2.2.1 0).1⟩

/-- The two counters are the numbers of the tokens that are held. -/
theorem Held.counters {σ : WriteController} {stops pressures : Nat}
    (h : Held σ stops pressures) :
    σ.total_stopped_ = (stops : Int) ∧ σ.total_compaction_pressure_ = (pressures : Int) ∧
    stops < 2 ^ 31 ∧ pressures < 2 ^ 31 := by
  induction h with
  | init dynamic_delay w => exact ⟨rfl, rfl, by norm_num, by norm_num⟩
  | call σ σ1 maps maps1 stops pressures _ hc ih =>
    obtain ⟨e1, e2⟩ := hc.keeps_counters
    rw [e1, e2]
    exact ih
  | stop σ stops pressures _ hlt ih =>
    obtain ⟨e1, e2, _, h4⟩ := ih
    refine ⟨?_, e2, hlt, h4⟩
    show i32 (σ.total_stopped_ + 1) = ((stops + 1 : Nat) : Int)
    rw [e1, i32_of_range _ (by omega) (by push_cast; omega)]
    push_cast
    rfl
  | stop_release σ σ1 stops pressures _ hd ih =>
    obtain ⟨e1, e2, h3, h4⟩ := ih
    unfold StopWriteToken.destructor NotifyCV at hd
    simp only [Option.bind_eq_some] at hd
    obtain ⟨_, -, hd⟩ := hd
    cases hd
    refine ⟨?_, e2, by omega, h4⟩
    show i32 (σ.total_stopped_ - 1) = (stops : Int)
    rw [e1, i32_of_range _ (by push_cast; omega) (by push_cast; omega)]
    push_cast
    omega
  | pressure σ stops pressures _ hlt ih =>
    obtain ⟨e1, e2, h3, _⟩ := ih
    refine ⟨e1, ?_, h3, hlt⟩
    show i32 (σ.total_compaction_pressure_ + 1) = ((pressures + 1 : Nat) : Int)
    rw [e2, i32_of_range _ (by omega) (by push_cast; omega)]
    push_cast
    rfl
  | pressure_release σ σ1 stops pressures _ hd ih =>
    obtain ⟨e1, e2, h3, h4⟩ := ih
    unfold CompactionPressureToken.destructor at hd
    simp only [Option.bind_eq_some] at hd
    obtain ⟨_, -, hd⟩ := hd
    cases hd
    refine ⟨e1, ?_, h3, by omega⟩
    show i32 (σ.total_compaction_pressure_ - 1) = (pressures : Int)
    rw [e2, i32_of_range _ (by push_cast; omega) (by push_cast; omega)]
    push_cast
    omega

/-- C23: in every state reachable by `GetStopToken` calls and releases of stop
tokens that are held, among the other calls of the interface, with fewer than
`2 ^ 31` tokens held at a time, `total_stopped_` is the number of the stop
tokens that are held and is not negative; `IsStopped()` is true if and only if
at least one stop token is held; when a stop token is held, the assert
`total_stopped_ >= 1` of `NotifyCV` holds and the release takes one from the
counter. -/
theorem C23_stop_tokens_counted (σ : WriteController) (stops pressures : Nat)
    (h : Held σ stops pressures) :
    σ.total_stopped_ = (stops : Int) ∧ 0 ≤ σ.total_stopped_ ∧
    (σ.IsStopped = true ↔ 1 ≤ stops) ∧
    (1 ≤ stops → 1 ≤ σ.total_stopped_ ∧
      ∃ σ1, StopWriteToken.destructor σ = some σ1 ∧
        σ1.total_stopped_ = (stops : Int) - 1 ∧ Held σ1 (stops - 1) pressures) := by
  obtain ⟨e1, -, h3, -⟩ := h.counters
  refine ⟨e1, by omega, ?_, ?_⟩
  · unfold IsStopped
    rw [decide_eq_true_eq, e1]
    omega
  · intro h1
    have hge : 1 ≤ σ.total_stopped_ := by omega
    obtain ⟨s, rfl⟩ : ∃ s, stops = s + 1 := ⟨stops - 1, by omega⟩
    have hd : StopWriteToken.destructor σ =
        some { σ with total_stopped_ := i32 (σ.total_stopped_ - 1) } := by
      unfold StopWriteToken.destructor NotifyCV assert
      rw [if_pos (by simpa using hge)]
      rfl
    have hh := Held.stop_release σ _ s pressures h hd
    refine ⟨hge, _, hd, ?_, hh⟩
    rw [hh.counters.1]
    push_cast
    omega

/-- The controller `exampleHeld` holds two stop tokens and one
compaction-pressure token. -/
theorem exampleHeld_held : Held exampleHeld 2 1 :=
  Held.pressure _ 2 0
    (Held.stop _ 1 0 (Held.stop _ 0 0 (Held.init false 1048576) (by norm_num)) (by norm_num))
    (by norm_num)

/-- C23 on the controller `exampleHeld`. -/
theorem C23_witness :
    Held exampleHeld 2 1 ∧ exampleHeld.total_stopped_ = 2 ∧
    (exampleHeld.IsStopped = true ↔ 1 ≤ 2) :=
  ⟨exampleHeld_held, (C23_stop_tokens_counted exampleHeld 2 1 exampleHeld_held).1,
    (C23_stop_tokens_counted exampleHeld 2 1 exampleHeld_held).2.2.1⟩

/-- The call `GetDelay` does not read `total_compaction_pressure_`. -/
theorem GetDelay_pressure (σ : WriteController) (c : Int) (clock num_bytes : Nat) :
    GetDelay { σ with total_compaction_pressure_ := c } clock num_bytes =
      (GetDelay σ clock num_bytes).map fun r =>
        (r.1, { r.2 with total_compaction_pressure_ := c }) := by
  have hstart : ∀ t, GetDelay.start { σ with total_compaction_pressure_ := c } t =
      { GetDelay.start σ t with total_compaction_pressure_ := c } := by
    intro t
    unfold GetDelay.start
    show (if σ.next_refill_time_ = 0 then _ else _) = _
    split_ifs <;> rfl
  have hrefill : ∀ (τ : WriteController) t,
      GetDelay.refill { τ with total_compaction_pressure_ := c } t =
        (GetDelay.refill τ t).map fun s => { s with total_compaction_pressure_ := c } := by
    intro τ t
    unfold GetDelay.refill
    dsimp only
    generalize GetDelay.refill_bytes (u64 (sub64 t τ.next_refill_time_ + 1000))
      τ.delayed_write_rate_ = o
    cases o <;> rfl
  have hdelay : ∀ (τ : WriteController) t n,
      GetDelay.delay { τ with total_compaction_pressure_ := c } t n =
        (GetDelay.delay τ t n).map fun r =>
          (r.1, { r.2 with total_compaction_pressure_ := c }) := by
    intro τ t n
    unfold GetDelay.delay
    dsimp only
    generalize assert (decide (τ.credit_in_bytes_ < n)) = a
    generalize GetDelay.needed_delay (sub64 n τ.credit_in_bytes_) τ.delayed_write_rate_ = o
    cases a
    · rfl
    · cases o <;> rfl
  rw [GetDelay_unfold, GetDelay_unfold, hstart]
  generalize NowMicrosMonotonic clock = now
  show (if 0 < σ.total_stopped_ then _ else if σ.total_delayed_ = 0 then _
    else if num_bytes ≤ σ.credit_in_bytes_ then _
    else if (GetDelay.start σ now).next_refill_time_ ≤ now then _ else _) = _
  split_ifs with h1 h2 h3 h4
  · rfl
  · rfl
  · rfl
  · rw [hrefill]
    cases hr : GetDelay.refill (GetDelay.start σ now) now with
    | none => rfl
    | some σ2 =>
      show (if num_bytes ≤ σ2.credit_in_bytes_ then _ else _) =
        Option.map _ (if num_bytes ≤ σ2.credit_in_bytes_ then _ else _)
      split_ifs
      · rfl
      · exact hdelay σ2 now num_bytes
  · exact hdelay _ now num_bytes

/-- C24: the acquisition and the release of a compaction-pressure token write
`total_compaction_pressure_` only; for two states of the controller that differ
in `total_compaction_pressure_` only, `IsStopped()`, `NeedsDelay()` and
`delayed_write_rate()` agree, and `GetDelay(clock, n)` returns the same delay and
has the same effect, the states after the call again differing in that counter
only; while a compaction-pressure token is held, fewer than `2 ^ 31` of them at
a time, `NeedSpeedupCompaction()` is true. -/
theorem C24_pressure_tokens_do_not_gate (σ τ : WriteController) (clock num_bytes : Nat)
    (hdiff : { τ with total_compaction_pressure_ := σ.total_compaction_pressure_ } = σ) :
    { GetCompactionPressureToken σ with
        total_compaction_pressure_ := σ.total_compaction_pressure_ } = σ ∧
    (∀ σ1, CompactionPressureToken.destructor σ = some σ1 →
      { σ1 with total_compaction_pressure_ := σ.total_compaction_pressure_ } = σ) ∧
    τ.IsStopped = σ.IsStopped ∧ τ.NeedsDelay = σ.NeedsDelay ∧
    τ.delayed_write_rate = σ.delayed_write_rate ∧
    GetDelay τ clock num_bytes = (GetDelay σ clock num_bytes).map (fun r =>
      (r.1, { r.2 with total_compaction_pressure_ := τ.total_compaction_pressure_ })) ∧
    (∀ stops pressures, Held σ stops pressures → 1 ≤ pressures →
      σ.NeedSpeedupCompaction = true) := by
  have hτ : τ = { σ with total_compaction_pressure_ := τ.total_compaction_pressure_ } := by
    rw [← hdiff]
  refine ⟨rfl, ?_, ?_, ?_, ?_, ?_, ?_⟩
  · intro σ1 hd
    unfold CompactionPressureToken.destructor at hd
    simp only [Option.bind_eq_some] at hd
    obtain ⟨_, -, hd⟩ := hd
    cases hd
    rfl
  · rw [hτ]; rfl
  · rw [hτ]; rfl
  · rw [hτ]; rfl
  · conv_lhs => rw [hτ]
    exact GetDelay_pressure σ _ clock num_bytes
  · intro stops pressures hh hp
    have e := hh.counters.2.1
    unfold NeedSpeedupCompaction
    have : decide (0 < σ.total_compaction_pressure_) = true := by
      rw [decide_eq_true_eq, e]
      omega
    rw [this, Bool.or_true]

/-- C24 on the controller `exampleController1` and on the same controller with
one compaction-pressure token: neither is stopped, both delay. -/
theorem C24_witness :
    { GetCompactionPressureToken exampleController1 with
        total_compaction_pressure_ := exampleController1.total_compaction_pressure_ } =
      exampleController1 ∧
    (GetCompactionPressureToken exampleController1).IsStopped = exampleController1.IsStopped ∧
    (GetCompactionPressureToken exampleController1).NeedsDelay = exampleController1.NeedsDelay :=
  ⟨by decide,
    (C24_pressure_tokens_do_not_gate exampleController1
      (GetCompactionPressureToken exampleController1) 0 0 (by decide)).2.2.1,
    (C24_pressure_tokens_do_not_gate exampleController1
      (GetCompactionPressureToken exampleController1) 0 0 (by decide)).2.2.2.1⟩

/-! ## The assert of the over-budget path -/

/-- C38: run by one thread, `GetDelay(clock, num_bytes)` either returns 0 before
its over-budget path; or a refill is due and the credit that it earns is not a
value of `uint64_t` (`elapsed * delayed_write_rate_` is then at least
`2 ^ 63 * 1000000 - 999999`), so that the call has no result and does not reach
the over-budget path; or it reaches the over-budget path, without a refill in
the state after the statement on `next_refill_time_` or with a refill in the
state after the refill, with a `credit_in_bytes_` below `num_bytes`: there the
assert `num_bytes > credit_in_bytes_` holds, `bytes_over_budget` is `num_bytes -
credit_in_bytes_` without a wrap and is at least 1, and the call continues with
the division. The call `GetDelay(clock, 0)` returns 0 in every state and leaves
the controller as it is. -/
theorem C38_over_budget_assert (σ : WriteController) (clock num_bytes : Nat)
    (hn : num_bytes < 2 ^ 64) :
    (∃ σ1, GetDelay σ clock 0 = some (0, σ1) ∧ (σ.credit_in_bytes_ < 2 ^ 64 → σ1 = σ)) ∧
    ((∃ σ1, GetDelay σ clock num_bytes = some (0, σ1)) ∨
      ((GetDelay.start σ (NowMicrosMonotonic clock)).next_refill_time_ ≤
          NowMicrosMonotonic clock ∧
        GetDelay.refill (GetDelay.start σ (NowMicrosMonotonic clock))
          (NowMicrosMonotonic clock) = none ∧
        2 ^ 63 * 1000000 ≤
          u64 (sub64 (NowMicrosMonotonic clock)
            (GetDelay.start σ (NowMicrosMonotonic clock)).next_refill_time_ + 1000) *
            σ.delayed_write_rate_ + 999999 ∧
        GetDelay σ clock num_bytes = none) ∨
      ∃ σm,
        ((NowMicrosMonotonic clock <
              (GetDelay.start σ (NowMicrosMonotonic clock)).next_refill_time_ ∧
            σm = GetDelay.start σ (NowMicrosMonotonic clock)) ∨
          ((GetDelay.start σ (NowMicrosMonotonic clock)).next_refill_time_ ≤
              NowMicrosMonotonic clock ∧
            GetDelay.refill (GetDelay.start σ (NowMicrosMonotonic clock))
              (NowMicrosMonotonic clock) = some σm)) ∧
        σm.credit_in_bytes_ < num_bytes ∧
        assert (decide (σm.credit_in_bytes_ < num_bytes)) = some () ∧
        sub64 num_bytes σm.credit_in_bytes_ = num_bytes - σm.credit_in_bytes_ ∧
        1 ≤ sub64 num_bytes σm.credit_in_bytes_ ∧
        GetDelay σ clock num_bytes = GetDelay.delay σm (NowMicrosMonotonic clock) num_bytes ∧
        GetDelay.delay σm (NowMicrosMonotonic clock) num_bytes =
          (GetDelay.needed_delay (num_bytes - σm.credit_in_bytes_)
            σm.delayed_write_rate_).bind fun needed_delay =>
          some (max (sub64 (u64 (σm.next_refill_time_ + needed_delay))
              (NowMicrosMonotonic clock)) 1000,
            { σm with credit_in_bytes_ := 0,
                      next_refill_time_ := u64 (σm.next_refill_time_ + needed_delay) })) := by
  have hpath : ∀ σm : WriteController, σm.credit_in_bytes_ < num_bytes →
      assert (decide (σm.credit_in_bytes_ < num_bytes)) = some () ∧
      sub64 num_bytes σm.credit_in_bytes_ = num_bytes - σm.credit_in_bytes_ ∧
      1 ≤ sub64 num_bytes σm.credit_in_bytes_ ∧
      GetDelay.delay σm (NowMicrosMonotonic clock) num_bytes =
        (GetDelay.needed_delay (num_bytes - σm.credit_in_bytes_)
          σm.delayed_write_rate_).bind fun needed_delay =>
        some (max (sub64 (u64 (σm.next_refill_time_ + needed_delay))
            (NowMicrosMonotonic clock)) 1000,
          { σm with credit_in_bytes_ := 0,
                    next_refill_time_ := u64 (σm.next_refill_time_ + needed_delay) }) := by
    intro σm hc
    have ha : assert (decide (σm.credit_in_bytes_ < num_bytes)) = some () := by
      simp [assert, hc]
    have hs := sub64_of_le (le_of_lt hc) hn
    refine ⟨ha, hs, by rw [hs]; omega, ?_⟩
    unfold GetDelay.delay
    rw [ha, hs]
    rfl
  constructor
  · rw [GetDelay_unfold]
    split_ifs with h1 h2 h3
    · exact ⟨σ, rfl, fun _ => rfl⟩
    · exact ⟨σ, rfl, fun _ => rfl⟩
    · refine ⟨_, rfl, fun hc => ?_⟩
      rw [sub64_of_le (Nat.zero_le _) hc]
      rfl
    · exact absurd (Nat.zero_le _) h3
    · exact absurd (Nat.zero_le _) h3
  · rw [GetDelay_unfold]
    by_cases h1 : 0 < σ.total_stopped_
    · rw [if_pos h1]; exact Or.inl ⟨σ, rfl⟩
    rw [if_neg h1]
    by_cases h2 : σ.total_delayed_ = 0
    · rw [if_pos h2]; exact Or.inl ⟨σ, rfl⟩
    rw [if_neg h2]
    by_cases h3 : num_bytes ≤ σ.credit_in_bytes_
    · rw [if_pos h3]; exact Or.inl ⟨_, rfl⟩
    rw [if_neg h3]
    by_cases h4 : (GetDelay.start σ (NowMicrosMonotonic clock)).next_refill_time_ ≤
        NowMicrosMonotonic clock
    · rw [if_pos h4]
      cases hr : GetDelay.refill (GetDelay.start σ (NowMicrosMonotonic clock))
          (NowMicrosMonotonic clock) with
      | none =>
        refine Or.inr (Or.inl ⟨h4, rfl, ?_, rfl⟩)
        by_contra hlt
        obtain ⟨bytes, hb, -⟩ := refill_bytes_bounds _ _ (not_le.mp hlt)
        rw [refill_eq, start_rate, hb] at hr
        cases hr
      | some σ2 =>
        rw [Option.some_bind]
        by_cases h5 : num_bytes ≤ σ2.credit_in_bytes_
        · rw [if_pos h5]; exact Or.inl ⟨_, rfl⟩
        · rw [if_neg h5]
          obtain ⟨a, b, c, d⟩ := hpath σ2 (not_le.mp h5)
          exact Or.inr (Or.inr ⟨σ2, Or.inr ⟨h4, rfl⟩, not_le.mp h5, a, b, c, rfl, d⟩)
    · rw [if_neg h4]
      have hc : (GetDelay.start σ (NowMicrosMonotonic clock)).credit_in_bytes_ < num_bytes := by
        rw [start_credit]; exact not_le.mp h3
      obtain ⟨a, b, c, d⟩ := hpath _ hc
      exact Or.inr (Or.inr ⟨_, Or.inl ⟨not_le.mp h4, rfl⟩, hc, a, b, c, rfl, d⟩)

set_option maxRecDepth 100000 in
/-- The call `GetDelay(clock, 16384)` at the time 6000 us on the controller
whose next refill is due at 20624 us: no refill, 16384 bytes over budget. -/
theorem exampleController2_get_delay :
    GetDelay exampleController2 6000000 16384 =
      some (30249, { exampleController2 with next_refill_time_ := 36249 }) := by decide

/-- Witness of C38: the call `GetDelay(clock, 16384)` at the time 6000 us on the
delayed controller whose next refill is due at 20624 us reaches the over-budget
path without a refill, and the call `GetDelay(clock, 0)` returns 0. -/
theorem C38_witness :
    (16384 : Nat) < 2 ^ 64 ∧
    GetDelay exampleController2 6000000 16384 =
      some (30249, { exampleController2 with next_refill_time_ := 36249 }) ∧
    (∃ σ1, GetDelay exampleController2 6000000 0 = some (0, σ1) ∧
      (exampleController2.credit_in_bytes_ < 2 ^ 64 → σ1 = exampleController2)) ∧
    ∃ σm,
      ((NowMicrosMonotonic 6000000 <
            (GetDelay.start exampleController2 (NowMicrosMonotonic 6000000)).next_refill_time_ ∧
          σm = GetDelay.start exampleController2 (NowMicrosMonotonic 6000000)) ∨
        ((GetDelay.start exampleController2 (NowMicrosMonotonic 6000000)).next_refill_time_ ≤
            NowMicrosMonotonic 6000000 ∧
          GetDelay.refill (GetDelay.start exampleController2 (NowMicrosMonotonic 6000000))
            (NowMicrosMonotonic 6000000) = some σm)) ∧
      σm.credit_in_bytes_ < 16384 ∧
      assert (decide (σm.credit_in_bytes_ < 16384)) = some () ∧
      sub64 16384 σm.credit_in_bytes_ = 16384 - σm.credit_in_bytes_ ∧
      1 ≤ sub64 16384 σm.credit_in_bytes_ ∧
      GetDelay exampleController2 6000000 16384 =
        GetDelay.delay σm (NowMicrosMonotonic 6000000) 16384 ∧
      GetDelay.delay σm (NowMicrosMonotonic 6000000) 16384 =
        (GetDelay.needed_delay (16384 - σm.credit_in_bytes_) σm.delayed_write_rate_).bind
          fun needed_delay =>
          some (max (sub64 (u64 (σm.next_refill_time_ + needed_delay))
              (NowMicrosMonotonic 6000000)) 1000,
            { σm with credit_in_bytes_ := 0,
                      next_refill_time_ := u64 (σm.next_refill_time_ + needed_delay) }) :=
  ⟨by norm_num, exampleController2_get_delay,
    (C38_over_budget_assert exampleController2 6000000 16384 (by norm_num)).1,
    ((C38_over_budget_assert exampleController2 6000000 16384 (by norm_num)).2.resolve_left
      (fun h => by
        obtain ⟨σ1, h1⟩ := h
        rw [exampleController2_get_delay] at h1
        exact absurd (Prod.mk.inj (Option.some.inj h1)).1 (by decide))).resolve_left
      (fun h => absurd h.1 (by decide))⟩

/-! ## The stored rates and the rate of the controller -/

/-- What the code keeps of the comment of `IsMinRate`: in every state reachable
from a newly constructed controller by `AddToDbRateMap` of an empty map and by
`UpdateRate`, `DeleteCfFromMapAndMaybeUpdateDelayRate` and `RemoveFromDbRateMap`
on registered maps, every rate `r` that is stored for an id in a registered map
satisfies `delayed_write_rate() <= max(1, r)`: a stored rate that is at least 1
is greater than or equal to `delayed_write_rate()`, and when the rate 0 is
stored, `delayed_write_rate()` is 1. -/
theorem stored_rates_bound (σ : WriteController) (maps : RateMaps)
    (hr : RateReachable σ maps) (r : Nat) (hrate : HasRate σ maps r) :
    σ.delayed_write_rate ≤ max 1 r ∧ (1 ≤ r → σ.delayed_write_rate ≤ r) ∧
    (r = 0 → σ.delayed_write_rate = 1) := by
  have hi := hr.inv
  have hle : σ.delayed_write_rate_ ≤ max 1 r := hi.le r hrate
  have hlo := hi.lo
  refine ⟨hle, ?_, ?_⟩
  · intro h1
    rw [max_eq_right h1] at hle
    exact hle
  · intro h0
    rw [h0] at hle
    have : σ.delayed_write_rate_ ≤ 1 := hle
    show σ.delayed_write_rate_ = 1
    omega

theorem exampleRatesZero_reachable : RateReachable exampleRatesZero.1 exampleRatesZero.2 :=
  RateReachable.update _ emptyMaps 1 0 0
    (RateReachable.add _ emptyMaps 0 (RateReachable.init false 1048576 emptyMaps) rfl)
    (by decide)

/-- The bound on the controller with one source of rate 2 MB/s. -/
theorem stored_rates_bound_example :
    RateReachable exampleRates.1 exampleRates.2 ∧ HasRate exampleRates.1 exampleRates.2 2097152 ∧
    exampleRates.1.delayed_write_rate ≤ max 1 2097152 ∧
    (1 ≤ 2097152 → exampleRates.1.delayed_write_rate ≤ 2097152) ∧
    (2097152 = 0 → exampleRates.1.delayed_write_rate = 1) :=
  ⟨exampleRates_reachable, ⟨0, by decide, 1, by decide⟩,
    stored_rates_bound exampleRates.1 exampleRates.2 exampleRates_reachable 2097152
      ⟨0, by decide, 1, by decide⟩⟩

/-- Failing input of C35: after `AddToDbRateMap` of the empty map at address 0
and `UpdateRate(1, cf_map, 0)` on a new controller, the rate 0 is stored for the
id 1 in the registered map, and `delayed_write_rate()` is 1, which the stored
rate is below: `set_delayed_write_rate` replaces the rate 0 by 1 in the
controller and `UpdateRate` stores the rate 0 unchanged in the map, against the
comment of `IsMinRate` that the stored rates are never below
`delayed_write_rate_`. -/
theorem C35_counterexample :
    RateReachable exampleRatesZero.1 exampleRatesZero.2 ∧
    0 ∈ exampleRatesZero.1.db_id_to_write_rate_map_ ∧
    (1, 0) ∈ (exampleRatesZero.2 0).entries ∧
    HasRate exampleRatesZero.1 exampleRatesZero.2 0 ∧
    exampleRatesZero.1.delayed_write_rate = 1 ∧
    ¬ (exampleRatesZero.1.delayed_write_rate ≤ 0) :=
  ⟨exampleRatesZero_reachable, by decide, by decide, ⟨0, by decide, 1, by decide⟩, by decide,
    by decide⟩

/-! ## The counter of the delayed sources -/

theorem i32_add_left (a b : Int) : i32 (i32 a + b) = i32 (a + b) := by
  unfold i32
  omega

theorem i32_sub_right (a b : Int) : i32 (a - i32 b) = i32 (a - b) := by
  unfold i32
  omega

theorem i32_sub_left (a b : Int) : i32 (i32 a - b) = i32 (a - b) := by
  unfold i32
  omega

/-- A sum over a list without repetition, when the summand changes at one
member of the list. -/
theorem sum_map_change (f g : Nat → Nat) (cf : Nat) (h : ∀ p, p ≠ cf → g p = f p) :
    ∀ l : List Nat, l.Nodup → cf ∈ l → (l.map g).sum + f cf = (l.map f).sum + g cf := by
  have hsame : ∀ l : List Nat, cf ∉ l → (l.map g).sum = (l.map f).sum := by
    intro l
    induction l with
    | nil => intro _; rfl
    | cons a t ih =>
      intro hn
      rw [List.mem_cons, not_or] at hn
      rw [List.map_cons, List.map_cons, List.sum_cons, List.sum_cons, ih hn.2,
        h a (fun e => hn.1 e.symm)]
  intro l
  induction l with
  | nil => intro _ hm; cases hm
  | cons a t ih =>
    intro hnd hm
    rw [List.nodup_cons] at hnd
    rw [List.map_cons, List.map_cons, List.sum_cons, List.sum_cons]
    by_cases ha : a = cf
    · subst ha
      rw [hsame t hnd.1]
      omega
    · have hmt : cf ∈ t := by
        rcases List.mem_cons.mp hm with e | e
        · exact absurd e.symm ha
        · exact e
      have := ih hnd.2 hmt
      rw [h a ha]
      omega

/-- A sum over a list without repetition and over the list without one of its
members. -/
theorem sum_map_filter_ne (f : Nat → Nat) (cf : Nat) :
    ∀ l : List Nat, l.Nodup → cf ∈ l →
      ((l.filter (· ≠ cf)).map f).sum + f cf = (l.map f).sum := by
  intro l
  induction l with
  | nil => intro _ hm; cases hm
  | cons a t ih =>
    intro hnd hm
    rw [List.nodup_cons] at hnd
    by_cases ha : a = cf
    · subst ha
      have hf : (a :: t).filter (· ≠ a) = t := by
        rw [List.filter_cons_of_neg (by simp), List.filter_eq_self]
        intro b hb
        have : b ≠ a := fun e => hnd.1 (e ▸ hb)
        simpa using this
      rw [hf, List.map_cons, List.sum_cons]
      omega
    · have hmt : cf ∈ t := by
        rcases List.mem_cons.mp hm with e | e
        · exact absurd e.symm ha
        · exact e
      rw [List.filter_cons_of_pos (by simpa using ha), List.map_cons, List.map_cons,
        List.sum_cons, List.sum_cons]
      have := ih hnd.2 hmt
      omega

/-- The map `erase(id)` has one entry less when the key is in the map. -/
theorem erase_size (m : CfIdToRateMap) (id : Nat) (hk : (m.entries.map Prod.fst).Nodup)
    (hc : m.count id ≠ 0) : (m.erase id).size + 1 = m.size := by
  have hmem : ∃ r, (id, r) ∈ m.entries := by
    by_contra hcon
    exact hc ((count_eq_zero_iff m id).mpr (fun r hr => hcon ⟨r, hr⟩))
  unfold CfIdToRateMap.erase CfIdToRateMap.size
  show (m.entries.filter fun key_val => decide (key_val.1 ≠ id)).length + 1 = m.entries.length
  generalize m.entries = l at hk hmem
  induction l with
  | nil => obtain ⟨r, hr⟩ := hmem; cases hr
  | cons kv t ih =>
    rw [List.map_cons, List.nodup_cons] at hk
    by_cases he : kv.1 = id
    · have hall : t.filter (fun key_val => decide (key_val.1 ≠ id)) = t := by
        rw [List.filter_eq_self]
        intro b hb
        have : b.1 ≠ id := by
          intro e
          apply hk.1
          rw [he, ← e]
          exact List.mem_map.mpr ⟨b, hb, rfl⟩
        simpa using this
      rw [List.filter_cons_of_neg (by simpa using he), hall, List.length_cons]
    · obtain ⟨r, hr⟩ := hmem
      have hrt : (id, r) ∈ t := by
        rcases List.mem_cons.mp hr with e | e
        · exact absurd (by rw [← e]) he
        · exact e
      rw [List.filter_cons_of_pos (by simpa using he), List.length_cons, List.length_cons,
        ih hk.2 ⟨r, hrt⟩]

/-- The size of the map after `insert_or_assign`. -/
theorem insert_or_assign_size (m : CfIdToRateMap) (id v : Nat) :
    (m.insert_or_assign id v).1.size =
      if (m.insert_or_assign id v).2 then m.size + 1 else m.size := by
  unfold CfIdToRateMap.insert_or_assign CfIdToRateMap.size
  by_cases h : (m.entries.lookup id).isSome
  · simp [h]
  · simp [h]

/-- In a state of `RateReachable` no address is registered twice, and
`total_delayed_` is the number of the entries of the registered maps as an
`int`. -/
theorem RateReachable.count_inv {σ : WriteController} {maps : RateMaps}
    (hr : RateReachable σ maps) :
    σ.db_id_to_write_rate_map_.Nodup ∧ σ.total_delayed_ = i32 (entryCount σ maps) := by
  induction hr with
  | init dynamic_delay w maps =>
    refine ⟨List.nodup_nil, ?_⟩
    have h0 : entryCount (WriteController.new dynamic_delay w) maps = 0 := rfl
    rw [h0]
    exact (i32_of_range 0 (by norm_num) (by norm_num)).symm
  | add σ maps cf_map hr0 hempty ih =>
    obtain ⟨hnd, htd⟩ := ih
    unfold AddToDbRateMap
    split_ifs with hm
    · exact ⟨hnd, htd⟩
    · refine ⟨List.nodup_cons.mpr ⟨hm, hnd⟩, ?_⟩
      show σ.total_delayed_ = i32 ((((cf_map :: σ.db_id_to_write_rate_map_).map
        fun p => (maps p).size).sum : Nat) : Int)
      rw [List.map_cons, List.sum_cons, htd]
      have : (maps cf_map).size = 0 := by
        unfold CfIdToRateMap.size; rw [hempty]; rfl
      rw [this, Nat.zero_add]
      rfl
  | remove σ maps cf_map hr0 hp ih =>
    obtain ⟨hnd, htd⟩ := ih
    have hsum := sum_map_filter_ne (fun p => (maps p).size) cf_map _ hnd hp
    have hnd1 : (σ.db_id_to_write_rate_map_.filter (· ≠ cf_map)).Nodup := hnd.filter _
    unfold RemoveFromDbRateMap
    dsimp only
    split_ifs with he
    · refine ⟨hnd1, ?_⟩
      have h0 : (maps cf_map).size = 0 := by
        unfold CfIdToRateMap.empty at he
        unfold CfIdToRateMap.size
        rw [List.isEmpty_iff] at he
        rw [he]; rfl
      show σ.total_delayed_ = i32 ((((σ.db_id_to_write_rate_map_.filter (· ≠ cf_map)).map
        fun p => (maps p).size).sum : Nat) : Int)
      rw [htd]
      unfold entryCount
      dsimp only at hsum
      congr 2
      omega
    · refine ⟨hnd1, ?_⟩
      show i32 (σ.total_delayed_ - i32 ((maps cf_map).size : Int)) =
        i32 ((((σ.db_id_to_write_rate_map_.filter (· ≠ cf_map)).map
          fun p => (maps p).size).sum : Nat) : Int)
      rw [i32_sub_right, htd, i32_sub_left]
      unfold entryCount
      dsimp only at hsum
      congr 1
      omega
  | update σ maps id cf_map cf_write_rate hr0 hp ih =>
    obtain ⟨hnd, htd⟩ := ih
    obtain ⟨w, hw⟩ := (⟨_, rfl⟩ : ∃ w, w = (UpdateRate σ maps id cf_map cf_write_rate).1)
    have hreg : (UpdateRate σ maps id cf_map cf_write_rate).1.db_id_to_write_rate_map_ =
        σ.db_id_to_write_rate_map_ := by
      unfold UpdateRate
      dsimp only
      show (if ((maps cf_map).insert_or_assign id cf_write_rate).2 then startDelay σ
        else σ).db_id_to_write_rate_map_ = _
      split_ifs
      · exact (startDelay_same σ).1
      · rfl
    have htd1 : (UpdateRate σ maps id cf_map cf_write_rate).1.total_delayed_ =
        if ((maps cf_map).insert_or_assign id cf_write_rate).2 then i32 (σ.total_delayed_ + 1)
        else σ.total_delayed_ := by
      unfold UpdateRate
      dsimp only
      show (if ((maps cf_map).insert_or_assign id cf_write_rate).2 then startDelay σ
        else σ).total_delayed_ = _
      split_ifs
      · unfold startDelay
        split_ifs <;> rfl
      · rfl
    have hmaps : (UpdateRate σ maps id cf_map cf_write_rate).2 =
        Function.update maps cf_map ((maps cf_map).insert_or_assign id cf_write_rate).1 := rfl
    refine ⟨by rw [hreg]; exact hnd, ?_⟩
    have hsum := sum_map_change (fun p => (maps p).size)
      (fun p => (Function.update maps cf_map
        ((maps cf_map).insert_or_assign id cf_write_rate).1 p).size) cf_map
      (fun p hne => by simp [Function.update_noteq hne]) _ hnd hp
    dsimp only at hsum
    rw [Function.update_same, insert_or_assign_size] at hsum
    unfold entryCount
    rw [htd1, hreg, hmaps, htd]
    unfold entryCount
    split_ifs with hins
    · rw [if_pos hins] at hsum
      rw [i32_add_left]
      congr 1
      omega
    · rw [if_neg hins] at hsum
      congr 2
      omega
  | delete σ maps id cf_map r hr0 hp hdel ih =>
    obtain ⟨hnd, htd⟩ := ih
    have hkeys := hr0.inv.keys cf_map hp
    unfold DeleteCfFromMapAndMaybeUpdateDelayRate at hdel
    simp only [Option.bind_eq_some] at hdel
    obtain ⟨_, hassert, hdel⟩ := hdel
    have hc : (maps cf_map).count id ≠ 0 := by
      by_contra hcon
      simp [assert, hcon] at hassert
    obtain ⟨τ, hr', e1, e2⟩ : ∃ τ : WriteController,
        r = (τ, Function.update maps cf_map ((maps cf_map).erase id)) ∧
        τ.db_id_to_write_rate_map_ = σ.db_id_to_write_rate_map_ ∧
        τ.total_delayed_ = i32 (σ.total_delayed_ - 1) := by
      simp only [Option.some.injEq] at hdel
      rw [← hdel]
      refine ⟨_, rfl, ?_, ?_⟩ <;> split_ifs <;> rfl
    subst hr'
    have hsz := erase_size (maps cf_map) id hkeys hc
    have hsum := sum_map_change (fun p => (maps p).size)
      (fun p => (Function.update maps cf_map ((maps cf_map).erase id) p).size) cf_map
      (fun p hne => by simp [Function.update_noteq hne]) _ hnd hp
    dsimp only at hsum
    rw [Function.update_same] at hsum
    refine ⟨by rw [e1]; exact hnd, ?_⟩
    show τ.total_delayed_ = i32 (((τ.db_id_to_write_rate_map_.map
      fun p => (Function.update maps cf_map ((maps cf_map).erase id) p).size).sum : Nat) : Int)
    rw [e2, e1, htd, i32_sub_left]
    unfold entryCount
    congr 1
    omega

/-- A rate is stored in a registered map exactly when the registered maps have
an entry. -/
theorem hasRate_iff_entryCount (σ : WriteController) (maps : RateMaps) :
    (∃ r, HasRate σ maps r) ↔ 1 ≤ entryCount σ maps := by
  unfold entryCount HasRate
  constructor
  · rintro ⟨r, cf_map, hp, id, hmem⟩
    have h1 : 1 ≤ (maps cf_map).size := by
      unfold CfIdToRateMap.size
      exact List.length_pos_of_mem hmem
    have h2 : (maps cf_map).size ≤
        (σ.db_id_to_write_rate_map_.map fun cf_map => (maps cf_map).size).sum :=
      List.single_le_sum (fun _ _ => Nat.zero_le _) _
        (List.mem_map.mpr ⟨cf_map, hp, rfl⟩)
    omega
  · intro h
    by_contra hcon
    have hz : (σ.db_id_to_write_rate_map_.map fun cf_map => (maps cf_map).size).sum = 0 := by
      rw [List.sum_eq_zero_iff]
      intro x hx
      obtain ⟨cf_map, hp, rfl⟩ := List.mem_map.mp hx
      unfold CfIdToRateMap.size
      rw [List.length_eq_zero]
      by_contra hne
      obtain ⟨kv, hkv⟩ := List.exists_mem_of_ne_nil _ hne
      exact hcon ⟨kv.2, cf_map, hp, kv.1, hkv⟩
    omega

/-- C39: in every state reachable from a newly constructed controller by
`AddToDbRateMap` of an empty map and by `UpdateRate`,
`DeleteCfFromMapAndMaybeUpdateDelayRate` of an id that is in the map and
`RemoveFromDbRateMap` on registered maps, `total_delayed_` is the number of the
entries `(id, rate)` of all registered maps, as an `int`; when that number is
below `2 ^ 31`, `total_delayed_` is equal to it and is not negative, and
`NeedsDelay()` is true if and only if a rate is stored for a source in a
registered map. -/
theorem C39_total_delayed_counts_entries (σ : WriteController) (maps : RateMaps)
    (hr : RateReachable σ maps) :
    σ.total_delayed_ = i32 (entryCount σ maps) ∧
    (entryCount σ maps < 2 ^ 31 →
      σ.total_delayed_ = (entryCount σ maps : Int) ∧ 0 ≤ σ.total_delayed_ ∧
      (σ.NeedsDelay = true ↔ 1 ≤ entryCount σ maps) ∧
      (σ.NeedsDelay = true ↔ ∃ r, HasRate σ maps r)) := by
  obtain ⟨-, htd⟩ := hr.count_inv
  refine ⟨htd, fun hlt => ?_⟩
  have he : σ.total_delayed_ = (entryCount σ maps : Int) := by
    rw [htd]
    exact i32_of_range _ (by omega) (by exact_mod_cast hlt)
  have hn : σ.NeedsDelay = true ↔ 1 ≤ entryCount σ maps := by
    unfold NeedsDelay
    rw [decide_eq_true_eq, he]
    omega
  exact ⟨he, by rw [he]; omega, hn, by rw [hn, hasRate_iff_entryCount]⟩

/-- Witness of C39: the controller with one source of rate 2 MB/s has
`total_delayed_ = 1`. -/
theorem C39_witness :
    RateReachable exampleRates.1 exampleRates.2 ∧
    entryCount exampleRates.1 exampleRates.2 < 2 ^ 31 ∧
    exampleRates.1.total_delayed_ = (entryCount exampleRates.1 exampleRates.2 : Int) ∧
    0 ≤ exampleRates.1.total_delayed_ ∧
    (exampleRates.1.NeedsDelay = true ↔ 1 ≤ entryCount exampleRates.1 exampleRates.2) ∧
    (exampleRates.1.NeedsDelay = true ↔ ∃ r, HasRate exampleRates.1 exampleRates.2 r) :=
  ⟨exampleRates_reachable, by decide,
    (C39_total_delayed_counts_entries exampleRates.1 exampleRates.2 exampleRates_reachable).2
      (by decide)⟩

/-! ## The accuracy of the delay -/

/-- The call `GetDelay` when a refill is due and nothing wraps: the credit
after the refill pays for the bytes, or the writer is delayed by 1000 us and by
the time that the other bytes need. -/
theorem GetDelay_refill_path (σ : WriteController) (clock num_bytes now nrt0 elapsed bytes : Nat)
    (hs : ¬ 0 < σ.total_stopped_) (hd : σ.total_delayed_ ≠ 0)
    (hR : 1 ≤ σ.delayed_write_rate_) (hc : σ.credit_in_bytes_ < num_bytes)
    (hn : now = NowMicrosMonotonic clock)
    (h0 : nrt0 = if σ.next_refill_time_ = 0 then now else σ.next_refill_time_)
    (hle : σ.next_refill_time_ ≤ now)
    (he : elapsed = now - nrt0 + 1000)
    (hb : GetDelay.refill_bytes elapsed σ.delayed_write_rate_ = some bytes)
    (hclock : now + 1000 + num_bytes * 1000000 < 2 ^ 63)
    (hcast : σ.credit_in_bytes_ + bytes < 2 ^ 64) :
    (num_bytes ≤ σ.credit_in_bytes_ + bytes →
      GetDelay σ clock num_bytes =
        some (0, { σ with credit_in_bytes_ := σ.credit_in_bytes_ + bytes - num_bytes,
                          next_refill_time_ := now + 1000 })) ∧
    (σ.credit_in_bytes_ + bytes < num_bytes →
      ∃ needed,
        GetDelay.needed_delay (num_bytes - (σ.credit_in_bytes_ + bytes))
          σ.delayed_write_rate_ = some needed ∧
        GetDelay σ clock num_bytes =
          some (1000 + needed,
            { σ with credit_in_bytes_ := 0,
                     next_refill_time_ := now + 1000 + needed })) := by
  rw [GetDelay_unfold, if_neg hs, if_neg hd, if_neg (not_le.mpr hc), ← hn]
  have hst : (GetDelay.start σ now).next_refill_time_ = nrt0 := by
    rw [start_time, h0]
  have hle0 : nrt0 ≤ now := by
    rw [h0]; split_ifs
    · exact le_refl _
    · exact hle
  have hel : u64 (sub64 now nrt0 + 1000) = elapsed := by
    rw [sub64_of_le hle0 (by omega), he]
    exact u64_of_lt (by omega)
  have hrefill : GetDelay.refill (GetDelay.start σ now) now =
      some { σ with credit_in_bytes_ := σ.credit_in_bytes_ + bytes,
                    next_refill_time_ := now + 1000 } := by
    rw [refill_eq, hst, hel, start_rate, start_credit, hb, Option.some_bind,
      u64_of_lt hcast, u64_of_lt (by omega)]
    unfold GetDelay.start
    split_ifs <;> rfl
  rw [if_pos (by rw [hst]; exact hle0), hrefill, Option.some_bind]
  constructor
  · intro h
    rw [if_pos h, sub64_of_le h hcast]
  · intro h
    rw [if_neg (not_le.mpr h)]
    have hover : (num_bytes - (σ.credit_in_bytes_ + bytes)) * 1000000 ≤ num_bytes * 1000000 :=
      Nat.mul_le_mul_right _ (Nat.sub_le _ _)
    obtain ⟨needed, hneeded, -, -, -, hdelay⟩ := delay_spec
      { σ with credit_in_bytes_ := σ.credit_in_bytes_ + bytes, next_refill_time_ := now + 1000 }
      now num_bytes (by omega) h hR
      (by show now + 1000 + (num_bytes - (σ.credit_in_bytes_ + bytes)) * 1000000 < 2 ^ 63
          omega)
      (by show now ≤ now + 1000; omega)
    refine ⟨needed, hneeded, ?_⟩
    rw [hdelay]
    have hmax : max (now + 1000 + needed - now) 1000 = 1000 + needed := by
      rw [max_eq_left (by omega)]
      omega
    show some (max (now + 1000 + needed - now) 1000, _) = _
    rw [hmax]

/-- C40 (amended): with each operation of the `double` arithmetic rounded to
binary64, in a call `GetDelay(clock, b)` with a rate `R >= 1`, a credit `c < b`
and `now >= next_refill_time_`, when nothing wraps and for `elapsed * R` below
`2 ^ 49` and `(b - c) * 1000000` below `2 ^ 50`: the refill earns `bytes`, which
is `ceil(elapsed * R / 1000000)` with `elapsed = now - next_refill_time_ + 1000`
(and `elapsed = 1000` when `next_refill_time_` was 0), or one less when the
remainder of `elapsed * R` by 1000000 is 1; the call returns, and when the
returned delay `d` is not 0 the credit was still below `b`, `d` is
`1000 + floor((b - c - bytes) * 1000000 / R)` when this division has a
remainder and that value or one less when it has none, and
`d * R <= (b - c) * 1000000`. In the steady state `c = 0` and
`now = next_refill_time_` (or `next_refill_time_ = 0`), `bytes = ceil(R / 1000)`,
and when `b` is above it, `d` is `1000 + floor((b - ceil(R / 1000)) * 1000000 /
R)` or one less (only when the division has no remainder), and
`d > b * 1000000 / R - 1000000 / R - 1`. -/
theorem C40_delay_accuracy (σ : WriteController) (clock num_bytes now nrt0 elapsed : Nat)
    (hs : ¬ 0 < σ.total_stopped_) (hd : σ.total_delayed_ ≠ 0)
    (hR : 1 ≤ σ.delayed_write_rate_) (hc : σ.credit_in_bytes_ < num_bytes)
    (hn : now = NowMicrosMonotonic clock)
    (h0 : nrt0 = if σ.next_refill_time_ = 0 then now else σ.next_refill_time_)
    (hle : σ.next_refill_time_ ≤ now)
    (he : elapsed = now - nrt0 + 1000)
    (hclock : now + 1000 + num_bytes * 1000000 < 2 ^ 63)
    (hsizeE : elapsed * σ.delayed_write_rate_ < 2 ^ 49)
    (hsizeB : (num_bytes - σ.credit_in_bytes_) * 1000000 < 2 ^ 50) :
    ∃ bytes d σ1, GetDelay.refill_bytes elapsed σ.delayed_write_rate_ = some bytes ∧
      ⌈(elapsed : ℚ) * (σ.delayed_write_rate_ : ℚ) / 1000000⌉₊ ≤ bytes + 1 ∧
      bytes ≤ ⌈(elapsed : ℚ) * (σ.delayed_write_rate_ : ℚ) / 1000000⌉₊ ∧
      (elapsed * σ.delayed_write_rate_ % 1000000 ≠ 1 →
        bytes = ⌈(elapsed : ℚ) * (σ.delayed_write_rate_ : ℚ) / 1000000⌉₊) ∧
      GetDelay σ clock num_bytes = some (d, σ1) ∧
      (d ≠ 0 → σ.credit_in_bytes_ + bytes < num_bytes ∧
        1000 + ⌊((num_bytes - (σ.credit_in_bytes_ + bytes) : Nat) : ℚ) * 1000000 /
          (σ.delayed_write_rate_ : ℚ)⌋₊ ≤ d + 1 ∧
        d ≤ 1000 + ⌊((num_bytes - (σ.credit_in_bytes_ + bytes) : Nat) : ℚ) * 1000000 /
          (σ.delayed_write_rate_ : ℚ)⌋₊ ∧
        ((num_bytes - (σ.credit_in_bytes_ + bytes)) * 1000000 % σ.delayed_write_rate_ ≠ 0 →
          d = 1000 + ⌊((num_bytes - (σ.credit_in_bytes_ + bytes) : Nat) : ℚ) * 1000000 /
            (σ.delayed_write_rate_ : ℚ)⌋₊) ∧
        d * σ.delayed_write_rate_ ≤ (num_bytes - σ.credit_in_bytes_) * 1000000) ∧
      (σ.credit_in_bytes_ = 0 → nrt0 = now →
        bytes = ⌈(σ.delayed_write_rate_ : ℚ) / 1000⌉₊ ∧
        (bytes < num_bytes →
          1000 + ⌊((num_bytes - ⌈(σ.delayed_write_rate_ : ℚ) / 1000⌉₊ : Nat) : ℚ) *
            1000000 / (σ.delayed_write_rate_ : ℚ)⌋₊ ≤ d + 1 ∧
          d ≤ 1000 + ⌊((num_bytes - ⌈(σ.delayed_write_rate_ : ℚ) / 1000⌉₊ : Nat) : ℚ) *
            1000000 / (σ.delayed_write_rate_ : ℚ)⌋₊ ∧
          ((num_bytes - ⌈(σ.delayed_write_rate_ : ℚ) / 1000⌉₊) * 1000000 %
              σ.delayed_write_rate_ ≠ 0 →
            d = 1000 + ⌊((num_bytes - ⌈(σ.delayed_write_rate_ : ℚ) / 1000⌉₊ : Nat) : ℚ) *
              1000000 / (σ.delayed_write_rate_ : ℚ)⌋₊) ∧
          (num_bytes : ℚ) * 1000000 / (σ.delayed_write_rate_ : ℚ) -
            1000000 / (σ.delayed_write_rate_ : ℚ) - 1 < (d : ℚ))) := by
  -- the refill in natural numbers
  have hceil : ⌈(elapsed : ℚ) * (σ.delayed_write_rate_ : ℚ) / 1000000⌉₊ =
      (elapsed * σ.delayed_write_rate_ + 999999) / 1000000 := by
    rw [show (elapsed : ℚ) * (σ.delayed_write_rate_ : ℚ) / 1000000 =
      ((elapsed * σ.delayed_write_rate_ : Nat) : ℚ) / ((1000000 : Nat) : ℚ) by push_cast; ring,
      ceil_div_eq _ _ (by norm_num)]
  have hfloor : ∀ x : Nat, ⌊((x : Nat) : ℚ) * 1000000 / (σ.delayed_write_rate_ : ℚ)⌋₊ =
      x * 1000000 / σ.delayed_write_rate_ := by
    intro x
    rw [show ((x : Nat) : ℚ) * 1000000 = ((x * 1000000 : Nat) : ℚ) by push_cast; ring,
      floor_div_eq]
  have hceilR : ⌈(σ.delayed_write_rate_ : ℚ) / 1000⌉₊ = (σ.delayed_write_rate_ + 999) / 1000 := by
    rw [show (σ.delayed_write_rate_ : ℚ) / 1000 =
      ((σ.delayed_write_rate_ : Nat) : ℚ) / ((1000 : Nat) : ℚ) by push_cast; ring,
      ceil_div_eq _ _ (by norm_num)]
  obtain ⟨bytes, hbytes, hb1, hb2, hb3⟩ :=
    refill_bytes_moderate elapsed σ.delayed_write_rate_ hsizeE
  have hE : 1000 ≤ elapsed := by omega
  have hP : 1000 * σ.delayed_write_rate_ ≤ elapsed * σ.delayed_write_rate_ :=
    Nat.mul_le_mul_right _ hE
  have hP1 : elapsed ≠ 1000 → 1001 * σ.delayed_write_rate_ ≤ elapsed * σ.delayed_write_rate_ :=
    fun hne => Nat.mul_le_mul_right _ (by omega)
  have hP0 : elapsed = 1000 → elapsed * σ.delayed_write_rate_ = 1000 * σ.delayed_write_rate_ :=
    fun h => by rw [h]
  -- the refill earns at least the bytes of 1000 us
  have hearn : 1000 * σ.delayed_write_rate_ ≤ bytes * 1000000 := by
    by_cases h1000 : elapsed = 1000
    · have hp := hP0 h1000
      have hk : elapsed * σ.delayed_write_rate_ % 1000000 ≠ 1 := by
        rw [hp]; omega
      have := hb3 hk
      rw [hp] at this
      omega
    · have hp := hP1 h1000
      generalize elapsed * σ.delayed_write_rate_ = P at hb1 hb2 hb3 hp hsizeE
      by_cases hk : P % 1000000 = 1
      · omega
      · have := hb3 hk
        omega
  have hcast : σ.credit_in_bytes_ + bytes < 2 ^ 64 := by
    have : (elapsed * σ.delayed_write_rate_ + 999999) / 1000000 ≤
        elapsed * σ.delayed_write_rate_ + 999999 := Nat.div_le_self _ _
    omega
  obtain ⟨hzero, hover⟩ := GetDelay_refill_path σ clock num_bytes now nrt0 elapsed bytes hs hd hR
    hc hn h0 hle he hbytes hclock hcast
  have hsteady : σ.credit_in_bytes_ = 0 → nrt0 = now →
      bytes = ⌈(σ.delayed_write_rate_ : ℚ) / 1000⌉₊ := by
    intro _ hnow
    have he1 : elapsed = 1000 := by rw [he, hnow]; omega
    have hp := hP0 he1
    have hk : elapsed * σ.delayed_write_rate_ % 1000000 ≠ 1 := by
      rw [hp]; omega
    have := hb3 hk
    rw [hceilR, this, hp]
    omega
  rw [hceil]
  refine ⟨bytes, ?_⟩
  by_cases hcase : num_bytes ≤ σ.credit_in_bytes_ + bytes
  · refine ⟨0, _, hbytes, hb1, hb2, hb3, hzero hcase, fun h => absurd rfl h,
      fun h0c hnow => ⟨hsteady h0c hnow, ?_⟩⟩
    intro hlt
    rw [h0c] at hcase
    omega
  · have hlt : σ.credit_in_bytes_ + bytes < num_bytes := not_le.mp hcase
    obtain ⟨needed, hnd, hget⟩ := hover hlt
    have hsz : (num_bytes - (σ.credit_in_bytes_ + bytes)) * 1000000 < 2 ^ 50 :=
      lt_of_le_of_lt (Nat.mul_le_mul_right _ (by omega)) hsizeB
    obtain ⟨needed', hnd', hA, hB, hC, hD, hrem⟩ := needed_delay_moderate
      (num_bytes - (σ.credit_in_bytes_ + bytes)) σ.delayed_write_rate_ hR hsz
    have hsame : needed' = needed := Option.some.inj (hnd'.symm.trans hnd)
    subst hsame
    have hsplit : (num_bytes - σ.credit_in_bytes_) * 1000000 =
        (num_bytes - (σ.credit_in_bytes_ + bytes)) * 1000000 + bytes * 1000000 := by
      rw [← Nat.add_mul]
      congr 1
      omega
    have hdR : (1000 + needed') * σ.delayed_write_rate_ ≤
        (num_bytes - σ.credit_in_bytes_) * 1000000 := by
      rw [hsplit, Nat.add_mul]
      omega
    refine ⟨1000 + needed', _, hbytes, hb1, hb2, hb3, hget,
      fun _ => ⟨hlt, ?_, ?_, ?_, hdR⟩, fun h0c hnow => ⟨hsteady h0c hnow, fun _ => ⟨?_, ?_, ?_, ?_⟩⟩⟩
    · rw [hfloor]; omega
    · rw [hfloor]; omega
    · intro hne
      rw [hfloor, hrem hne]
    · rw [← hsteady h0c hnow, hfloor]
      rw [h0c, Nat.zero_add] at hC
      omega
    · rw [← hsteady h0c hnow, hfloor]
      rw [h0c, Nat.zero_add] at hD
      omega
    · intro hne
      rw [← hsteady h0c hnow] at hne ⊢
      rw [hfloor]
      rw [h0c, Nat.zero_add] at hrem
      rw [hrem hne]
    · -- the lower bound in the steady state
      have hb1s := hsteady h0c hnow
      rw [h0c, Nat.zero_add] at hlt hB
      have hR' : (0 : ℚ) < (σ.delayed_write_rate_ : ℚ) := by exact_mod_cast hR
      have hBy : 1000 * bytes ≤ σ.delayed_write_rate_ + 999 := by
        rw [hb1s, hceilR]
        omega
      have hBQ : ((1000 * bytes : Nat) : ℚ) ≤ ((σ.delayed_write_rate_ + 999 : Nat) : ℚ) := by
        exact_mod_cast hBy
      have hqQ : (((num_bytes - bytes) * 1000000 : Nat) : ℚ) ≤
          (((needed' + 1) * σ.delayed_write_rate_ : Nat) : ℚ) := by exact_mod_cast hB
      rw [Nat.cast_mul, Nat.cast_sub (le_of_lt hlt)] at hqQ
      push_cast at hqQ hBQ ⊢
      rw [← sub_div, sub_lt_iff_lt_add, div_lt_iff₀ hR']
      nlinarith

/-- Witness of C40: the first call `GetDelay(clock, 16384)` on the delayed
controller of rate 1048576 at the time 5000 us. -/
theorem C40_witness :
    (¬ 0 < exampleController.total_stopped_ ∧ exampleController.total_delayed_ ≠ 0 ∧
      1 ≤ exampleController.delayed_write_rate_ ∧
      exampleController.credit_in_bytes_ < 16384 ∧
      exampleController.next_refill_time_ ≤ 5000 ∧
      5000 + 1000 + 16384 * 1000000 < 2 ^ 63 ∧
      1000 * exampleController.delayed_write_rate_ < 2 ^ 49 ∧
      (16384 - exampleController.credit_in_bytes_) * 1000000 < 2 ^ 50) ∧
    GetDelay exampleController 5000000 16384 = some (15624, exampleController2) ∧
    ∃ bytes d σ1, GetDelay.refill_bytes 1000 exampleController.delayed_write_rate_ = some bytes ∧
      ⌈((1000 : Nat) : ℚ) * (exampleController.delayed_write_rate_ : ℚ) / 1000000⌉₊ ≤
        bytes + 1 ∧
      bytes ≤ ⌈((1000 : Nat) : ℚ) * (exampleController.delayed_write_rate_ : ℚ) / 1000000⌉₊ ∧
      (1000 * exampleController.delayed_write_rate_ % 1000000 ≠ 1 →
        bytes = ⌈((1000 : Nat) : ℚ) * (exampleController.delayed_write_rate_ : ℚ) /
          1000000⌉₊) ∧
      GetDelay exampleController 5000000 16384 = some (d, σ1) ∧
      (d ≠ 0 → exampleController.credit_in_bytes_ + bytes < 16384 ∧
        1000 + ⌊((16384 - (exampleController.credit_in_bytes_ + bytes) : Nat) : ℚ) * 1000000 /
          (exampleController.delayed_write_rate_ : ℚ)⌋₊ ≤ d + 1 ∧
        d ≤ 1000 + ⌊((16384 - (exampleController.credit_in_bytes_ + bytes) : Nat) : ℚ) *
          1000000 / (exampleController.delayed_write_rate_ : ℚ)⌋₊ ∧
        ((16384 - (exampleController.credit_in_bytes_ + bytes)) * 1000000 %
            exampleController.delayed_write_rate_ ≠ 0 →
          d = 1000 + ⌊((16384 - (exampleController.credit_in_bytes_ + bytes) : Nat) : ℚ) *
            1000000 / (exampleController.delayed_write_rate_ : ℚ)⌋₊) ∧
        d * exampleController.delayed_write_rate_ ≤
          (16384 - exampleController.credit_in_bytes_) * 1000000) ∧
      (exampleController.credit_in_bytes_ = 0 → 5000 = 5000 →
        bytes = ⌈(exampleController.delayed_write_rate_ : ℚ) / 1000⌉₊ ∧
        (bytes < 16384 →
          1000 + ⌊((16384 - ⌈(exampleController.delayed_write_rate_ : ℚ) / 1000⌉₊ : Nat) :
            ℚ) * 1000000 / (exampleController.delayed_write_rate_ : ℚ)⌋₊ ≤ d + 1 ∧
          d ≤ 1000 + ⌊((16384 - ⌈(exampleController.delayed_write_rate_ : ℚ) / 1000⌉₊ : Nat) :
            ℚ) * 1000000 / (exampleController.delayed_write_rate_ : ℚ)⌋₊ ∧
          ((16384 - ⌈(exampleController.delayed_write_rate_ : ℚ) / 1000⌉₊) * 1000000 %
              exampleController.delayed_write_rate_ ≠ 0 →
            d = 1000 + ⌊((16384 - ⌈(exampleController.delayed_write_rate_ : ℚ) / 1000⌉₊ :
              Nat) : ℚ) * 1000000 / (exampleController.delayed_write_rate_ : ℚ)⌋₊) ∧
          ((16384 : Nat) : ℚ) * 1000000 / (exampleController.delayed_write_rate_ : ℚ) -
            1000000 / (exampleController.delayed_write_rate_ : ℚ) - 1 < (d : ℚ))) :=
  ⟨⟨by decide, by decide, by decide, by decide, by decide, by norm_num, by decide, by decide⟩,
    exampleController_get_delay,
    C40_delay_accuracy exampleController 5000000 16384 5000 5000 1000 (by decide)
      (by decide) (by decide) (by decide) (by decide) (by decide) (by decide) (by decide)
      (by norm_num) (by decide) (by decide)⟩

/-- Counterexample of C40: the first call `GetDelay(clock, 1249)` on the delayed
controller of rate 1000000, at the time 5000 us, is in the steady state (no
credit, `next_refill_time_` is 0): the refill earns `ceil(1000000 / 1000) = 1000`
bytes and the returned delay is 1248 us, while
`1000 + floor((1249 - 1000) * 1000000 / 1000000)` is 1249: in binary64 the
quotient `249.0 / 1000000.0` is rounded down and its product with 1000000 is
below 249. -/
theorem C40_counterexample :
    ¬ 0 < exampleControllerMillion.total_stopped_ ∧
    exampleControllerMillion.total_delayed_ ≠ 0 ∧
    exampleControllerMillion.delayed_write_rate_ = 1000000 ∧
    exampleControllerMillion.credit_in_bytes_ = 0 ∧
    exampleControllerMillion.next_refill_time_ = 0 ∧
    GetDelay exampleControllerMillion 5000000 1249 =
      some (1248, { exampleControllerMillion with
        credit_in_bytes_ := 0, next_refill_time_ := 6248 }) ∧
    ⌈((1000000 : Nat) : ℚ) / 1000⌉₊ = 1000 ∧
    1000 + ⌊((1249 - 1000 : Nat) : ℚ) * 1000000 / ((1000000 : Nat) : ℚ)⌋₊ = 1249 ∧
    ¬ (1248 = 1000 + ⌊((1249 - 1000 : Nat) : ℚ) * 1000000 / ((1000000 : Nat) : ℚ)⌋₊) := by
  have h1 : ⌈((1000000 : Nat) : ℚ) / 1000⌉₊ = 1000 := by
    rw [show ((1000000 : Nat) : ℚ) / 1000 = ((1000000 : Nat) : ℚ) / ((1000 : Nat) : ℚ) by
      push_cast; ring, ceil_div_eq _ _ (by norm_num)]
  have h2 : ⌊((1249 - 1000 : Nat) : ℚ) * 1000000 / ((1000000 : Nat) : ℚ)⌋₊ = 249 := by
    rw [show ((1249 - 1000 : Nat) : ℚ) * 1000000 = (((1249 - 1000) * 1000000 : Nat) : ℚ) by
      push_cast; ring, floor_div_eq]
  refine ⟨by decide, by decide, by decide, by decide, by decide,
    exampleControllerMillion_get_delay, h1, ?_, ?_⟩
  · rw [h2]
  · rw [h2]
    decide

end WriteController -- theorems

namespace MemTable

/-! ## Theorems about the memtable -/

/-- The method `Unref()` on a memtable with at least one reference. -/
theorem Unref_of_pos (m : MemTable) (h : 1 ≤ m.refs_) :
    Unref m = some (decide (m.refs_ - 1 = 0), { m with refs_ := m.refs_ - 1 }) := by
  unfold Unref assert
  rw [if_pos (by omega)]
  dsimp only
  rw [if_pos (by simpa using h)]
  show (if m.refs_ - 1 ≤ 0 then _ else _) = _
  by_cases h1 : m.refs_ - 1 ≤ 0
  · rw [if_pos h1]
    have : m.refs_ - 1 = 0 := by omega
    simp [this]
  · rw [if_neg h1]
    have : ¬ m.refs_ - 1 = 0 := by omega
    simp [this]

/-- The calls of `Ref()` add up. -/
theorem RefTimes_spec (n : Nat) (m : MemTable) (h : m.refs_ + n < 2 ^ 31) :
    RefTimes n m = some { m with refs_ := m.refs_ + n } := by
  induction n generalizing m with
  | zero => simp [RefTimes]
  | succ n ih =>
    unfold RefTimes Ref
    rw [if_pos (by push_cast at h; omega)]
    show RefTimes n _ = _
    rw [ih _ (by push_cast at h ⊢; show m.refs_ + 1 + n < 2 ^ 31; omega)]
    show some { m with refs_ := m.refs_ + 1 + (n : Int) } = _
    congr 2
    push_cast
    omega

/-- The calls of `Unref()` on a memtable with `k + d` references: the call
number `j + 1` returns `this` exactly when it takes the last reference. -/
theorem UnrefTimes_spec (k : Nat) (m : MemTable) (r : Nat) (hr : m.refs_ = (r : Int))
    (hk : k ≤ r) :
    UnrefTimes k m = some ((List.range k).map (fun j => decide (j + 1 = r)),
      { m with refs_ := (r : Int) - k }) := by
  induction k generalizing m r with
  | zero =>
    simp only [UnrefTimes, List.range_zero, List.map_nil, Nat.cast_zero, sub_zero]
    rw [← hr]
  | succ k ih =>
    obtain ⟨r1, rfl⟩ : ∃ r1, r = r1 + 1 := ⟨r - 1, by omega⟩
    unfold UnrefTimes
    rw [Unref_of_pos m (by rw [hr]; push_cast; omega)]
    show Option.bind (UnrefTimes k _) _ = _
    rw [ih { m with refs_ := m.refs_ - 1 } r1 (by show m.refs_ - 1 = _; rw [hr]; push_cast; omega)
      (by omega)]
    show some (_ :: _, _) = _
    rw [List.range_succ_eq_map, List.map_cons, List.map_map]
    congr 2
    · congr 1
      · rw [hr]
        push_cast
        simp
      · apply List.map_congr_left
        intro j _
        simp
    · show ({ m with refs_ := (r1 : Int) - k } : MemTable) = _
      congr 1
      push_cast
      omega

/-- C25: `Ref()` adds one to `refs_`, as long as the `int` does not overflow; on
a memtable with `refs_ = r >= 1`, `Unref()` sets `refs_` to `r - 1`, leaves the
flush state, and returns the memtable if and only if `r - 1` is zero, and null
otherwise; after `n` calls of `Ref()` on a memtable without a reference the
`k`-th of `k <= n` calls of `Unref()` returns the memtable exactly when `k = n`. -/
theorem C25_ref_unref_counting (m : MemTable) (n k : Nat) (hn : n < 2 ^ 31) (hk : k ≤ n) :
    (m.refs_ < 2 ^ 31 - 1 → Ref m = some { m with refs_ := m.refs_ + 1 }) ∧
    (1 ≤ m.refs_ → ∃ ret m1, Unref m = some (ret, m1) ∧ m1.refs_ = m.refs_ - 1 ∧
      m1.flush_state_ = m.flush_state_ ∧ (ret = true ↔ m.refs_ - 1 = 0)) ∧
    (m.refs_ = 0 → ∃ m1 m2, RefTimes n m = some m1 ∧ m1.refs_ = n ∧
      UnrefTimes k m1 = some ((List.range k).map (fun j => decide (j + 1 = n)), m2) ∧
      m2.refs_ = (n : Int) - k) := by
  refine ⟨?_, ?_, ?_⟩
  · intro h
    unfold Ref
    rw [if_pos h]
  · intro h
    exact ⟨_, _, Unref_of_pos m h, rfl, rfl, by simp⟩
  · intro h0
    have h1 := RefTimes_spec n m (by rw [h0]; push_cast; omega)
    have h2 := UnrefTimes_spec k { m with refs_ := m.refs_ + n } n
      (by show m.refs_ + n = n; rw [h0]; simp) hk
    exact ⟨_, _, h1, by show m.refs_ + n = n; rw [h0]; simp, h2, rfl⟩

/-- C25 on the memtable `exampleMemTable`: of three calls of `Unref()` after
three calls of `Ref()` the third one returns the memtable. -/
theorem C25_witness :
    (3 < 2 ^ 31 ∧ 3 ≤ 3 ∧ exampleMemTable.refs_ = 0) ∧
    ∃ m1 m2, RefTimes 3 exampleMemTable = some m1 ∧ m1.refs_ = 3 ∧
      UnrefTimes 3 m1 = some ((List.range 3).map (fun j => decide (j + 1 = 3)), m2) ∧
      m2.refs_ = (3 : Int) - (3 : Nat) :=
  ⟨⟨by norm_num, by norm_num, rfl⟩,
    (C25_ref_unref_counting exampleMemTable 3 3 (by norm_num) (by norm_num)).2.2 rfl⟩

/-- The calls of `MarkFlushScheduled()` on a memtable whose flush is not
requested, or is scheduled, return false and leave the memtable. -/
theorem MarkFlushScheduledTimes_idle (n : Nat) (m : MemTable)
    (h : m.flush_state_ ≠ FlushStateEnum.FLUSH_REQUESTED) :
    MarkFlushScheduledTimes n m = (List.replicate n false, m) := by
  induction n with
  | zero => rfl
  | succ n ih =>
    have e : MarkFlushScheduled m = (false, m) := by
      unfold MarkFlushScheduled
      dsimp only
      rw [if_neg h]
    unfold MarkFlushScheduledTimes
    dsimp only
    rw [e]
    dsimp only
    rw [ih]
    rfl

/-- C26: `MarkFlushScheduled()` returns true if and only if `flush_state_` was
`FLUSH_REQUESTED`; then the state becomes `FLUSH_SCHEDULED`, otherwise the
memtable is as before. The call does not take the state to an enumerator of a
lower value; after a call that returns true `ShouldScheduleFlush()` is false;
of any number of calls, at least one, that follow the state `FLUSH_REQUESTED`,
the first returns true and every other one returns false. -/
theorem C26_mark_flush_scheduled (m : MemTable) (n : Nat) :
    ((MarkFlushScheduled m).1 = true ↔ m.flush_state_ = FlushStateEnum.FLUSH_REQUESTED) ∧
    (m.flush_state_ = FlushStateEnum.FLUSH_REQUESTED →
      (MarkFlushScheduled m).2 = { m with flush_state_ := FlushStateEnum.FLUSH_SCHEDULED }) ∧
    (m.flush_state_ ≠ FlushStateEnum.FLUSH_REQUESTED → (MarkFlushScheduled m).2 = m) ∧
    m.flush_state_.value ≤ (MarkFlushScheduled m).2.flush_state_.value ∧
    ((MarkFlushScheduled m).1 = true → ShouldScheduleFlush (MarkFlushScheduled m).2 = false) ∧
    (m.flush_state_ = FlushStateEnum.FLUSH_REQUESTED →
      (MarkFlushScheduledTimes (n + 1) m).1 = true :: List.replicate n false ∧
      (MarkFlushScheduledTimes (n + 1) m).1.count true = 1 ∧
      (MarkFlushScheduledTimes (n + 1) m).2 =
        { m with flush_state_ := FlushStateEnum.FLUSH_SCHEDULED }) := by
  by_cases h : m.flush_state_ = FlushStateEnum.FLUSH_REQUESTED
  · have e : MarkFlushScheduled m =
        (true, { m with flush_state_ := FlushStateEnum.FLUSH_SCHEDULED }) := by
      unfold MarkFlushScheduled
      dsimp only
      rw [if_pos h]
    have et : MarkFlushScheduledTimes (n + 1) m = (true :: List.replicate n false,
        { m with flush_state_ := FlushStateEnum.FLUSH_SCHEDULED }) := by
      unfold MarkFlushScheduledTimes
      dsimp only
      rw [e]
      dsimp only
      rw [MarkFlushScheduledTimes_idle n _ (by simp)]
    rw [e, et]
    refine ⟨by simp [h], fun _ => rfl, fun h1 => absurd h h1, ?_, fun _ => ?_, fun _ => ?_⟩
    · rw [h]
      show FlushStateEnum.value FlushStateEnum.FLUSH_REQUESTED ≤
        FlushStateEnum.value FlushStateEnum.FLUSH_SCHEDULED
      simp [FlushStateEnum.value]
    · simp [ShouldScheduleFlush]
    · refine ⟨rfl, ?_, rfl⟩
      simp [List.count_cons, List.count_replicate]
  · have e : MarkFlushScheduled m = (false, m) := by
      unfold MarkFlushScheduled
      dsimp only
      rw [if_neg h]
    rw [e]
    exact ⟨by simp [h], fun h1 => absurd h1 h, fun _ => rfl, le_refl _, fun h1 => (by cases h1),
      fun h1 => absurd h1 h⟩

/-- C26 on the memtable `exampleMemTable2`: of four calls the first returns
true. -/
theorem C26_witness :
    exampleMemTable2.flush_state_ = FlushStateEnum.FLUSH_REQUESTED ∧
    (MarkFlushScheduledTimes (3 + 1) exampleMemTable2).1 = true :: List.replicate 3 false ∧
    (MarkFlushScheduledTimes (3 + 1) exampleMemTable2).1.count true = 1 :=
  ⟨rfl, ((C26_mark_flush_scheduled exampleMemTable2 3).2.2.2.2.2 rfl).1,
    ((C26_mark_flush_scheduled exampleMemTable2 3).2.2.2.2.2 rfl).2.1⟩

end MemTable -- theorems

end Speedb
